import Mathlib

/-!
# animus-coder: a shallow embedding of the agent daemon

The development follows the Go sources of the daemon: the string helpers the code relies on,
the model registry (`internal/llm/registry.go`), the strategy engine
(`internal/agent/strategy.go`), the path guard (`internal/tools/path.go`), the agent core
(`internal/agent/agent.go`) and the step loop of the runner (`internal/rpc/agent/runner.go`).

Conventions.
* A Go `string` is a `Str`, the list of its characters.  `len` and slicing of a text are list
  length and `List.take`, which is Go's byte semantics on single-byte (ASCII) text.
* The content of a context file, which the runner measures and cuts under a byte budget, is a
  byte string (`Bytes`, the list of its bytes), so that `len` and slicing are exact for every
  content; `utf8` gives the bytes of a text and `textOf` the text of a byte string.
* A Go `int` is an `Int`; no arithmetic of the modelled code can overflow 64 bits on inputs
  that fit in memory.
* A Go `(value, error)` result is an `Except Str value`, the error carrying its message.
* Go maps are association lists looked up with `List.lookup`.
* External behaviour (providers, processes, the file system, cancellation) is given by oracles
  indexed by a logical clock `tick` that advances at every observation, so that every sequence
  of answers is covered by some oracle.
-/

namespace Animus

/-! ## Strings -/

/-- A Go string, as the list of its characters. -/
abbrev Str := List Char

/-- The predicate `unicode.IsSpace` of the Go standard library. -/
def isSpace (c : Char) : Bool :=
  let n := c.toNat
  (9 ≤ n && n ≤ 13) || n == 32 || n == 0x85 || n == 0xA0 || n == 0x1680 ||
  (0x2000 ≤ n && n ≤ 0x200A) || n == 0x2028 || n == 0x2029 || n == 0x202F ||
  n == 0x205F || n == 0x3000

/-- Go `strings.TrimSpace`: drop leading and trailing white space. -/
def TrimSpace (s : Str) : Str :=
  ((s.dropWhile isSpace).reverse.dropWhile isSpace).reverse

/-- Lower-casing of one character.  ASCII letters are mapped as in Go; the two non-ASCII
characters whose Go lower case is an ASCII letter (U+0130 and U+212A) are mapped as well, so
that comparisons of a lowered string against ASCII literals agree with the source.  Other
non-ASCII letters are left unchanged. -/
def toLowerRune (c : Char) : Char :=
  if c.toNat = 0x130 then 'i'
  else if c.toNat = 0x212A then 'k'
  else if 65 ≤ c.toNat ∧ c.toNat ≤ 90 then Char.ofNat (c.toNat + 32)
  else c

/-- Go `strings.ToLower`. -/
def ToLower (s : Str) : Str := s.map toLowerRune

/-- Go `strings.HasPrefix`. -/
def HasPrefix (s pre : Str) : Bool := pre.isPrefixOf s

/-- Go `strings.HasSuffix`. -/
def HasSuffix (s suf : Str) : Bool := suf.reverse.isPrefixOf s.reverse

/-! ### Byte strings -/

/-- A Go string, as the list of its bytes. -/
abbrev Bytes := List UInt8

/-- The bytes of a text: its UTF-8 encoding, which is what the Go string of the text holds. -/
def utf8 (s : Str) : Bytes := s.flatMap String.utf8EncodeChar

/-- Go `strings.HasSuffix` on byte strings. -/
def bytesHasSuffix (b suf : Bytes) : Bool := suf.reverse.isPrefixOf b.reverse

/-- Whether a byte is a UTF-8 continuation byte. -/
def isContinuation (b : UInt8) : Bool := 0x80 ≤ b.toNat && b.toNat ≤ 0xBF

/-- Go `utf8.DecodeRune`: the first character of a byte string and its width in bytes.  A byte
that does not start a valid encoding (an overlong form, a surrogate, a value above U+10FFFF, a
stray continuation byte or a sequence cut short) is read as U+FFFD with width 1. -/
def decodeRune : Bytes → Char × Nat
  | [] => (Char.ofNat 0xFFFD, 0)
  | b0 :: rest =>
    let n0 := b0.toNat
    if n0 < 0x80 then (Char.ofNat n0, 1)
    else if 0xC2 ≤ n0 ∧ n0 ≤ 0xDF then
      match rest with
      | b1 :: _ =>
        if isContinuation b1 then (Char.ofNat ((n0 - 0xC0) * 64 + (b1.toNat - 0x80)), 2)
        else (Char.ofNat 0xFFFD, 1)
      | _ => (Char.ofNat 0xFFFD, 1)
    else if 0xE0 ≤ n0 ∧ n0 ≤ 0xEF then
      match rest with
      | b1 :: b2 :: _ =>
        if (if n0 = 0xE0 then 0xA0 else 0x80) ≤ b1.toNat ∧
            b1.toNat ≤ (if n0 = 0xED then 0x9F else 0xBF) ∧ isContinuation b2 then
          (Char.ofNat ((n0 - 0xE0) * 4096 + (b1.toNat - 0x80) * 64 + (b2.toNat - 0x80)), 3)
        else (Char.ofNat 0xFFFD, 1)
      | _ => (Char.ofNat 0xFFFD, 1)
    else if 0xF0 ≤ n0 ∧ n0 ≤ 0xF4 then
      match rest with
      | b1 :: b2 :: b3 :: _ =>
        if (if n0 = 0xF0 then 0x90 else 0x80) ≤ b1.toNat ∧
            b1.toNat ≤ (if n0 = 0xF4 then 0x8F else 0xBF) ∧ isContinuation b2 ∧
            isContinuation b3 then
          (Char.ofNat ((n0 - 0xF0) * 262144 + (b1.toNat - 0x80) * 4096 +
            (b2.toNat - 0x80) * 64 + (b3.toNat - 0x80)), 4)
        else (Char.ofNat 0xFFFD, 1)
      | _ => (Char.ofNat 0xFFFD, 1)
    else (Char.ofNat 0xFFFD, 1)

/-- The loop that reads a byte string as text, character by character; `fuel` bounds the
number of characters, and the number of bytes is enough. -/
def textLoop : Nat → Bytes → Str
  | 0, _ => []
  | fuel + 1, b =>
    if b = [] then []
    else (decodeRune b).1 :: textLoop fuel (b.drop (decodeRune b).2)

/-- The text of a byte string, as Go reads a string character by character (`for range`):
the decoded characters, every byte that is not part of a valid encoding read as U+FFFD. -/
def textOf (b : Bytes) : Str := textLoop b.length b

/-- Go `strings.Index`: position of the first occurrence of `sub`, `none` for Go's `-1`. -/
def Index : Str → Str → Option Nat
  | [], sub => if sub = [] then some 0 else none
  | c :: cs, sub =>
    if HasPrefix (c :: cs) sub then some 0 else (Index cs sub).map (· + 1)

/-- Go `strings.Contains`. -/
def Contains (s sub : Str) : Bool := (Index s sub).isSome

/-- Worker of `Fields`: `cur` is the current word, reversed. -/
def fieldsAux : Str → Str → List Str
  | cur, [] => if cur = [] then [] else [cur.reverse]
  | cur, c :: cs =>
    if isSpace c then
      (if cur = [] then fieldsAux [] cs else cur.reverse :: fieldsAux [] cs)
    else fieldsAux (c :: cur) cs

/-- Go `strings.Fields`: the maximal runs of non-space characters. -/
def Fields (s : Str) : List Str := fieldsAux [] s

/-- Go `strings.Join`. -/
def Join : List Str → Str → Str
  | [], _ => []
  | [a], _ => a
  | a :: b :: rest, sep => a ++ sep ++ Join (b :: rest) sep

/-- The `%q` verb of `fmt`, for strings that need no escaping. -/
def quote (s : Str) : Str := '"' :: (s ++ ['"'])

/-- Decimal rendering of a natural number, most significant digit first (`fuel` bounds the
number of digits). -/
def natDigits : Nat → Nat → Str
  | 0, _ => []
  | fuel + 1, n =>
    if n < 10 then [Char.ofNat (48 + n)]
    else natDigits fuel (n / 10) ++ [Char.ofNat (48 + n % 10)]

/-- The `%d` verb of `fmt`. -/
def fmtInt (i : Int) : Str :=
  if i < 0 then '-' :: natDigits (i.natAbs + 1) i.natAbs else natDigits (i.natAbs + 1) i.natAbs

/-- The helper `firstNonEmpty` of `strategy.go` and `runner.go`: the first value that is not
blank, returned untrimmed; the empty string when every value is blank. -/
def firstNonEmpty : List Str → Str
  | [] => []
  | v :: vs => if TrimSpace v ≠ [] then v else firstNonEmpty vs

/-! ## Chat types (`internal/llm/types.go`) -/

/-- Message roles. -/
inductive Role where
  | system | user | assistant | tool
  deriving DecidableEq, Repr

/-- A chat message; the fields the daemon reads or writes. -/
structure ChatMessage where
  Role : Role := Role.assistant
  Content : Str := []
  deriving DecidableEq, Repr

/-- Input of a provider chat call.  Temperatures are carried in thousandths. -/
structure ChatRequest where
  Model : Str := []
  Messages : List ChatMessage := []
  MaxTokens : Int := 0
  Temperature : Int := 0
  Stream : Bool := false
  deriving DecidableEq, Repr

/-- Result of a provider chat call. -/
structure ChatResponse where
  Message : ChatMessage := {}
  FinishReason : Str := []
  deriving DecidableEq, Repr

/-- A provider: its `Chat` method as an oracle of the logical clock and the request. -/
structure Provider where
  Name : Str
  chat : Nat → ChatRequest → Except Str ChatResponse

/-! ## Model registry (`internal/llm/registry.go`) -/

/-- A model route.  Temperatures are carried in thousandths. -/
structure ModelRoute where
  Name : Str := []
  Provider : Str := []
  Model : Str := []
  Temperature : Int := 0
  MaxTokens : Int := 0
  deriving DecidableEq, Repr

/-- The registry: providers and models by name, the default model, the expensive flags. -/
structure Registry where
  providers : List (Str × Provider) := []
  models : List (Str × ModelRoute) := []
  defaultModel : Str := []
  expensive : List (Str × Bool) := []

/-- `Registry.RegisterProvider`. -/
def Registry.RegisterProvider (r : Registry) (name : Str) (p : Provider) : Registry :=
  { r with providers := (name, p) :: r.providers }

/-- `Registry.RegisterModel`: the route is stored under `name` with its `Name` set to it. -/
def Registry.RegisterModel (r : Registry) (name : Str) (route : ModelRoute)
    (isDefault : Bool) : Registry :=
  { r with
    models := (name, { route with Name := name }) :: r.models
    defaultModel := if isDefault || r.defaultModel = [] then name else r.defaultModel }

/-- `Registry.MarkExpensive`. -/
def Registry.MarkExpensive (r : Registry) (modelID : Str) (expensive : Bool) : Registry :=
  { r with expensive := (modelID, expensive) :: r.expensive }

/-- `Registry.IsExpensive`: a missing key reads as `false`. -/
def Registry.IsExpensive (r : Registry) (modelID : Str) : Bool :=
  (r.expensive.lookup modelID).getD false

/-- `Registry.Resolve`: provider and route of a model name, the default model for `""`. -/
def Registry.Resolve (r : Registry) (modelName : Str) : Except Str (Provider × ModelRoute) :=
  let name := if modelName = [] then r.defaultModel else modelName
  match r.models.lookup name with
  | none => .error ("model ".toList ++ quote name ++ " not registered".toList)
  | some route =>
    match r.providers.lookup route.Provider with
    | none =>
      .error ("provider ".toList ++ quote route.Provider ++ " not registered for model ".toList
        ++ quote name)
    | some p => .ok (p, route)

/-! ## Strategy engine (`internal/agent/strategy.go`, `internal/config/strategy.go`) -/

/-- Strategy configuration. -/
structure StrategyConfig where
  DefaultModel : Str := []
  PlannerModel : Str := []
  CoderModel : Str := []
  CriticModel : Str := []
  Overrides : List (Str × Str) := []
  Fallbacks : List Str := []
  MaxExpensive : Int := 0

/-- The strategy engine; `registry` is `none` for a nil registry. -/
structure StrategyEngine where
  registry : Option Registry
  cfg : StrategyConfig

/-- `roleModel`: the configured model of a (normalised) role. -/
def roleModel (role : Str) (cfg : StrategyConfig) : Str :=
  if role = "planner".toList then cfg.PlannerModel
  else if role = "critic".toList ∨ role = "reflect".toList then cfg.CriticModel
  else cfg.CoderModel

/-- The first entry of a list of model names that resolves, as both loops over
`cfg.Fallbacks` compute it. -/
def firstResolving (reg : Registry) : List Str → Option (Provider × ModelRoute)
  | [] => none
  | fb :: fbs =>
    match reg.Resolve fb with
    | .ok pr => some pr
    | .error _ => firstResolving reg fbs

/-- The candidate list of `ResolveModel`, in the order the code passes it to
`firstNonEmpty`. -/
def candidateList (cfg : StrategyConfig) (role override : Str) : List Str :=
  let role := ToLower (TrimSpace role)
  [override, (cfg.Overrides.lookup role).getD [], roleModel role cfg, cfg.DefaultModel]

/-- `StrategyEngine.ResolveModel`.  The provider component is `none` for Go's nil provider. -/
def StrategyEngine.ResolveModel (s : StrategyEngine) (role override : Str) :
    Except Str (Option Provider × ModelRoute) :=
  match s.registry with
  | none => .ok (none, {})
  | some reg =>
    let modelID := firstNonEmpty (candidateList s.cfg role override)
    let primary : Option (Provider × ModelRoute) :=
      if modelID ≠ [] then
        (match reg.Resolve modelID with
         | .ok pr => some pr
         | .error _ => none)
      else none
    match primary with
    | some (p, route) => .ok (some p, route)
    | none =>
      match firstResolving reg s.cfg.Fallbacks with
      | some (p, route) => .ok (some p, route)
      | none =>
        match reg.Resolve [] with
        | .ok (p, route) => .ok (some p, route)
        | .error e => .error e

/-- Result of `PickWithBudget`: provider, route, chosen name, is-expensive flag. -/
structure Pick where
  prov : Option Provider
  route : ModelRoute
  chosen : Str
  isExp : Bool

/-- `StrategyEngine.PickWithBudget`. -/
def StrategyEngine.PickWithBudget (s : StrategyEngine) (role override : Str)
    (expensiveUsed : Int) : Except Str Pick :=
  match s.ResolveModel role override with
  | .error e => .error e
  | .ok (none, _) => .ok ⟨none, {}, [], false⟩
  | .ok (some prov, route) =>
    match s.registry with
    | none => .ok ⟨none, {}, [], false⟩
    | some reg =>
      let chosen := route.Name
      let isExp := reg.IsExpensive chosen
      -- first loop: the first fallback that resolves replaces the route
      let st1 : Pick :=
        if s.cfg.MaxExpensive > 0 ∧ isExp = true ∧ expensiveUsed ≥ s.cfg.MaxExpensive then
          (match firstResolving reg s.cfg.Fallbacks with
           | some (p, r) => ⟨some p, r, r.Name, reg.IsExpensive r.Name⟩
           | none => ⟨some prov, route, chosen, isExp⟩)
        else ⟨some prov, route, chosen, isExp⟩
      -- second step: drop to the default model when still expensive
      let st2 : Pick :=
        if s.cfg.MaxExpensive > 0 ∧ st1.isExp = true ∧ expensiveUsed ≥ s.cfg.MaxExpensive
            ∧ s.cfg.DefaultModel ≠ [] then
          (match reg.Resolve s.cfg.DefaultModel with
           | .ok (p, r) => ⟨some p, r, r.Name, reg.IsExpensive r.Name⟩
           | .error _ => st1)
        else st1
      .ok st2

/-- `StrategyEngine.NextFallback`: the first non-blank fallback different from `current`. -/
def StrategyEngine.NextFallback (s : StrategyEngine) (current : Str) : Str :=
  match s.cfg.Fallbacks.find? (fun fb => !(TrimSpace fb = [] || fb = current)) with
  | some fb => fb
  | none => []

/-! ### Concrete strategy configurations -/

/-- A provider that always answers with an empty assistant message. -/
def exProvider : Provider := ⟨"mock".toList, fun _ _ => .ok {}⟩

/-- A registry with two models, both marked expensive. -/
def exExpensiveRegistry : Registry :=
  (((({} : Registry).RegisterProvider "p".toList exProvider).RegisterModel "big".toList
    { Provider := "p".toList, Model := "m1".toList } true).RegisterModel "big2".toList
    { Provider := "p".toList, Model := "m2".toList } false).MarkExpensive "big".toList true
    |>.MarkExpensive "big2".toList true

/-- Coder model `big`, single fallback `big2`, budget of one expensive use. -/
def exExpensiveEngine : StrategyEngine :=
  ⟨some exExpensiveRegistry,
    { CoderModel := "big".toList, Fallbacks := ["big2".toList], MaxExpensive := 1 }⟩

/-- The registry of `TestStrategyFallsBackWhenBudgetExceeded`. -/
def exBudgetRegistry : Registry :=
  ((({} : Registry).RegisterProvider "p".toList exProvider).RegisterModel
    "expensive-model".toList { Provider := "p".toList, Model := "m1".toList } true).RegisterModel
    "cheap-model".toList { Provider := "p".toList, Model := "m2".toList } false
    |>.MarkExpensive "expensive-model".toList true

/-- The strategy configuration of `TestStrategyFallsBackWhenBudgetExceeded`. -/
def exBudgetConfig : StrategyConfig :=
  { CoderModel := "expensive-model".toList, Fallbacks := ["cheap-model".toList],
    MaxExpensive := 1, DefaultModel := "cheap-model".toList }

/-- The registry of `TestStrategyResolvesRoles`, with one more model used as fallback. -/
def exRolesRegistry : Registry :=
  (((({} : Registry).RegisterProvider "p".toList exProvider).RegisterModel "plan-model".toList
    { Provider := "p".toList, Model := "m1".toList } true).RegisterModel "code-model".toList
    { Provider := "p".toList, Model := "m2".toList } false).RegisterModel "crit-model".toList
    { Provider := "p".toList, Model := "m3".toList } false
    |>.RegisterModel "fb".toList { Provider := "p".toList, Model := "m4".toList } false

/-- Role models as in `TestStrategyResolvesRoles`, with fallback list `[fb]`. -/
def exRolesConfig : StrategyConfig :=
  { PlannerModel := "plan-model".toList, CoderModel := "code-model".toList,
    CriticModel := "crit-model".toList, Fallbacks := ["fb".toList] }

/-- The reading of the candidate rule "the first non-empty entry that resolves wins": the
route of the first candidate that is non-empty and resolves in the registry. -/
def specFirstResolvingCandidate (reg : Registry) (cands : List Str) : Option ModelRoute :=
  (firstResolving reg (cands.filter (fun c => c ≠ []))).map (·.2)

/-- Route name of a `ResolveModel` result (`none` on error). -/
def resolvedName (r : Except Str (Option Provider × ModelRoute)) : Option Str :=
  match r with
  | .ok (_, route) => some route.Name
  | .error _ => none

/-! ## Path guard (`internal/tools/path.go`) -/

/-- Worker of `splitOn`: `cur` is the current piece, reversed. -/
def splitOnAux (sep : Char) : Str → Str → List Str
  | cur, [] => [cur.reverse]
  | cur, c :: cs =>
    if c = sep then cur.reverse :: splitOnAux sep [] cs else splitOnAux sep (c :: cur) cs

/-- Go `strings.Split` for a one-character separator. -/
def splitOn (sep : Char) (s : Str) : List Str := splitOnAux sep [] s

/-- One path element processed by `filepath.Clean`; `stack` holds the elements kept so far,
the last one first.  Empty and `.` elements are dropped; `..` removes the element before it
when there is one that is not itself `..`, is kept in a relative path and dropped at the
root; any other element is kept. -/
def cleanStep (rooted : Bool) (stack : List Str) (elem : Str) : List Str :=
  if elem = [] ∨ elem = ['.'] then stack
  else if elem = ['.', '.'] then
    match stack with
    | top :: rest =>
      if top = ['.', '.'] then (if rooted then stack else elem :: stack) else rest
    | [] => if rooted then [] else [elem]
  else elem :: stack

/-- Go `filepath.Clean` on a Unix system (separator `/`, no volume names): the shortest path
equivalent to `path` by purely lexical processing; `.` for the empty result. -/
def Clean (path : Str) : Str :=
  if path = [] then ['.']
  else
    let rooted := HasPrefix path ['/']
    let stack := (splitOn '/' path).foldl (cleanStep rooted) []
    let out := (if rooted then ['/'] else []) ++ Join stack.reverse ['/']
    if out = [] then ['.'] else out

/-- Go `filepath.IsAbs` on a Unix system. -/
def IsAbs (path : Str) : Bool := HasPrefix path ['/']

/-- Go `filepath.Join`: the elements from the first non-empty one on, joined with the
separator and cleaned; the empty string when every element is empty. -/
def JoinPath : List Str → Str
  | [] => []
  | e :: es => if e ≠ [] then Clean (Join (e :: es) ['/']) else JoinPath es

/-- The path guard: operations stay inside `BaseDir`. -/
structure PathGuard where
  BaseDir : Str

/-- `PathGuard.Resolve`. -/
def PathGuard.Resolve (g : PathGuard) (p : Str) : Except Str Str :=
  if p = [] then .error "path is required".toList
  else
    let clean := Clean p
    if IsAbs clean then .error "absolute paths are not allowed".toList
    else
      let abs := Clean (JoinPath [g.BaseDir, clean])
      if !HasPrefix abs (g.BaseDir ++ ['/']) && abs ≠ g.BaseDir then
        .error "path escapes base directory".toList
      else .ok abs

/-- A guard rooted at `/srv/ws`. -/
def exGuard : PathGuard := ⟨"/srv/ws".toList⟩

/-! ## Agent core (`internal/agent/agent.go`, `types.go`, `prompt.go`) -/

/-- Agent configuration (`config.AgentConfig`).  The temperature is carried in
thousandths. -/
structure AgentConfig where
  MaxSteps : Int := 0
  MaxTokens : Int := 0
  Temperature : Int := 0
  EnablePlan : Bool := false
  EnableReflect : Bool := false
  ReflectionPolicy : Str := []
  EnableSelfDiff : Bool := false
  EnableTestRun : Bool := false
  TestCommand : Str := []
  TestRetries : Int := 0
  TestTimeoutSeconds : Int := 0
  MaxContextBytes : Int := 0

/-- Contextual file content passed to the agent. -/
structure ContextFile where
  Path : Str := []
  /-- The content, a Go string measured and cut by bytes in `appendWithBudget`. -/
  Content : Bytes := []
  deriving DecidableEq, Repr

/-- A single agent invocation. -/
structure Request where
  SessionID : Str := []
  Model : Str := []
  Prompt : Str := []
  Context : List ContextFile := []
  deriving DecidableEq, Repr

/-- The model response with route metadata. -/
structure Response where
  Message : ChatMessage := {}
  Route : ModelRoute := {}
  FinishReason : Str := []
  PreviousAssistant : Str := []
  deriving DecidableEq, Repr

/-- Result of one tool invocation, for reflection. -/
structure ToolObservation where
  Name : Str := []
  Output : Str := []
  Error : Str := []
  deriving DecidableEq, Repr

/-- Outcome of an automated test run. -/
structure TestObservation where
  Command : Str := []
  Output : Str := []
  ExitCode : Int := 0
  Error : Str := []
  Summary : Str := []
  Failing : List Str := []
  Attempts : Int := 0
  deriving DecidableEq, Repr

/-- Execution artefacts handed to the reflection phase. -/
structure ReflectionContext where
  Tools : List ToolObservation := []
  Test : Option TestObservation := none
  SelfDiff : Str := []
  deriving DecidableEq, Repr

/-- Per-session conversation state. -/
structure Session where
  ID : Str := []
  History : List ChatMessage := []
  Plan : Str := []
  LastReflection : Str := []
  deriving DecidableEq, Repr

/-- What running an external process gave: the captured output and the error of
`exec.Cmd.Run`.  `err = none` is a run that exited with status 0; `some (msg, some code)` is
an `*exec.ExitError` whose `ExitCode()` is `code`; `some (msg, none)` is any other error. -/
structure ProcResult where
  Stdout : Str := []
  Stderr : Str := []
  err : Option (Str × Option Int) := none
  deriving DecidableEq, Repr

/-- A hit of the semantic engine.  The score is carried by its `%.2f` rendering, the only way
the runner reads it. -/
structure SemResult where
  Path : Str := []
  ScoreText : Str := []
  Snippet : Str := []
  deriving DecidableEq, Repr

/-- The oracles of the outside world that the agent core and the runner observe, each indexed
by the logical clock. -/
structure Env where
  /-- `time.Now().UnixNano()`. -/
  now : Nat → Nat := fun _ => 0
  /-- Whether `ctx.Err()` is non-nil. -/
  ctxErr : Nat → Bool := fun _ => false
  /-- Whether the `select` of a token emission takes the `ctx.Done()` branch. -/
  selectDone : Nat → Bool := fun _ => false
  /-- `os.Stat` of an absolute path: whether it is a directory, or the error. -/
  osStat : Nat → Str → Except Str Bool := fun _ _ => .error "no such file".toList
  /-- `os.ReadFile` of an absolute path. -/
  osReadFile : Nat → Str → Except Str Str := fun _ _ => .error "no such file".toList
  /-- `os.MkdirAll` of the parent followed by `os.WriteFile`: the error, if any. -/
  osWriteFile : Nat → Str → Str → Option Str := fun _ _ _ => none
  /-- The directory walk of `Filesystem.DescribeStructure` below an absolute path: the
  outline lines joined by newlines, or the error of the walk. -/
  osOutline : Nat → Str → Except Str Str := fun _ _ => .ok []
  /-- The file walk of `Filesystem.Search` below an absolute path for a pattern, with the
  cap on results: the matches as (relative path, line, snippet), and the error if any. -/
  osSearch : Nat → Str → Str → Int → List (Str × Int × Str) × Option Str :=
    fun _ _ _ _ => ([], none)
  /-- An external process run by `exec.Cmd.Run` in a working directory. -/
  runProcess : Nat → Str → Str → List Str → ProcResult := fun _ _ _ _ => {}
  /-- A method of the git tool (name and arguments): output and error. -/
  gitOp : Nat → Str → List Str → Str × Option Str := fun _ _ _ => ([], none)
  /-- `semantic.Engine.Search` on a query with a limit. -/
  semanticSearch : Nat → Str → Int → Except Str (List SemResult) := fun _ _ _ => .ok []

/-- The mutable state of the daemon together with a record of what it did: the logical clock,
the session map of the agent, the provider calls issued (provider name and request, in
order), the external processes run (command and arguments), and the metrics recorded
(`RecordModelFailure`, `RecordModelUsage`, `RecordAgentRun` without its duration). -/
structure World where
  tick : Nat := 0
  sessions : List (Str × Session) := []
  chatLog : List (Str × ChatRequest) := []
  execLog : List (Str × List Str) := []
  failures : List (Str × Str) := []
  usage : List (Str × Str) := []
  runs : List (Str × Int) := []

/-- The agent: registry and configuration; its session map lives in the `World`. -/
structure Agent where
  registry : Registry
  cfg : AgentConfig

/-- `buildSystemPrompt`. -/
def buildSystemPrompt (_cfg : AgentConfig) : Str :=
  ("You are MyCodex, a coding agent. Follow user instructions precisely, prefer minimal " ++
   "changes, and ask before destructive actions. Be concise in answers.").toList

/-- `buildPlanSystemPrompt`. -/
def buildPlanSystemPrompt (_cfg : AgentConfig) : Str :=
  ("You are MyCodex planning assistant. Draft a concise numbered plan (3-7 steps) to solve " ++
   "the user's task. Plans should include inspections, edits, validations, and tests when " ++
   "relevant. Do not execute actions; only outline the plan.").toList

/-- `buildReflectSystemPrompt`. -/
def buildReflectSystemPrompt (_cfg : AgentConfig) : Str :=
  ("You are MyCodex reflection assistant. Briefly assess the last assistant response for " ++
   "issues, risks, or missing checks. Return a JSON object matching:\n" ++
   "\x7b\"quality\":\"good|ok|poor\",\"issues\":[\"...\"],\"recommendations\":[\"...\"]," ++
   "\"block_apply\":true|false,\"notes\":\"optional free-text\"\x7d\n" ++
   "Be concise in text fields. Prefer block_apply=true only when you see critical " ++
   "risks.").toList

/-- `buildUserPrompt`: the prompt, followed by the context files when there are any.  The
prompt is a text; the bytes of a content are written into it as the text they encode. -/
def buildUserPrompt (prompt : Str) (ctx : List ContextFile) : Str :=
  if ctx = [] then prompt
  else
    prompt ++ "\n\nContext:\n".toList ++
      (ctx.map (fun f =>
        "File: ".toList ++ f.Path ++ ['\n'] ++ textOf f.Content ++
          (if bytesHasSuffix f.Content (utf8 ['\n']) then [] else ['\n']) ++
          "---\n".toList)).flatten

/-- `buildPlanUserPrompt`. -/
def buildPlanUserPrompt (prompt : Str) : Str :=
  "Task:\n".toList ++ prompt ++ "\n\nReturn only the numbered plan.".toList

/-- `truncateForPrompt`. -/
def truncateForPrompt (text : Str) (limit : Int) : Str :=
  if limit ≤ 0 ∨ (text.length : Int) ≤ limit then text
  else text.take limit.toNat ++ "... [truncated]".toList

/-- One line of the tool results section of the reflection prompt. -/
def reflectToolLine (t : ToolObservation) : Str :=
  let summary := if t.Output = [] then t.Error else t.Output
  let summary := truncateForPrompt summary 800
  let summary := if summary = [] then "(no output)".toList else summary
  "- ".toList ++ t.Name ++ ": ".toList ++ summary ++ ['\n']

/-- The test section of the reflection prompt. -/
def reflectTestSection (t : TestObservation) : Str :=
  let testCmd := if TrimSpace t.Command = [] then "tests".toList else TrimSpace t.Command
  let output := truncateForPrompt t.Output 1200
  "\nTest run (".toList ++ testCmd ++ ") exit=".toList ++ fmtInt t.ExitCode ++
    " attempts=".toList ++ fmtInt t.Attempts ++ ":\n".toList ++
  (if t.Failing ≠ [] then
    "Failing tests: ".toList ++ Join t.Failing ", ".toList ++ ['\n'] else []) ++
  (if TrimSpace t.Summary ≠ [] then "Summary: ".toList ++ t.Summary ++ ['\n'] else []) ++
  (if TrimSpace output ≠ [] then output ++ ['\n'] else []) ++
  (if TrimSpace t.Error ≠ [] then
    "Error: ".toList ++ truncateForPrompt t.Error 400 ++ ['\n'] else [])

/-- `buildReflectUserPrompt`. -/
def buildReflectUserPrompt (prompt lastResponse plan : Str) (ctx : ReflectionContext) : Str :=
  "Task:\n".toList ++ prompt ++ "\n\nLast response:\n".toList ++ lastResponse ++ ['\n'] ++
  (if TrimSpace plan ≠ [] then "\nPlanned steps:\n".toList ++ plan ++ ['\n'] else []) ++
  (if TrimSpace ctx.SelfDiff ≠ [] then
    "\nSelf-diff (last vs current response):\n".toList ++
      truncateForPrompt ctx.SelfDiff 2000 ++ ['\n'] else []) ++
  (if ctx.Tools ≠ [] then
    "\nTool results:\n".toList ++ (ctx.Tools.map reflectToolLine).flatten else []) ++
  (match ctx.Test with
   | some t => reflectTestSection t
   | none => []) ++
  "\nReturn only the JSON critique.".toList

/-- `pickTemperature`, in thousandths: the default is 0.2. -/
def pickTemperature (agentTemp routeTemp : Int) : Int :=
  if agentTemp > 0 then agentTemp else if routeTemp > 0 then routeTemp else 200

/-- `pickMaxTokens`. -/
def pickMaxTokens (agentMax routeMax : Int) : Int :=
  if agentMax > 0 then agentMax else if routeMax > 0 then routeMax else 0

/-- Update of the session stored under `id` (the object a `*Session` points to). -/
def updateSession (id : Str) (f : Session → Session) :
    List (Str × Session) → List (Str × Session)
  | [] => []
  | (k, s) :: rest =>
    if k = id then (k, f s) :: rest else (k, s) :: updateSession id f rest

/-- The session stored under `id`. -/
def World.session (w : World) (id : Str) : Session :=
  (w.sessions.lookup id).getD { ID := id }

/-- `Agent.ensureSession`: the key of the session for `id`, created when absent; an empty id
is replaced by `sess-<nanoseconds>`, read from the clock. -/
def ensureSession (env : Env) (id : Str) (w : World) : Str × World :=
  let (id, w) :=
    if id = [] then
      ("sess-".toList ++ fmtInt (env.now w.tick), { w with tick := w.tick + 1 })
    else (id, w)
  match w.sessions.lookup id with
  | some _ => (id, w)
  | none => (id, { w with sessions := w.sessions ++ [(id, { ID := id })] })

/-- `Agent.lastAssistantContent`: content of the last assistant entry of the history. -/
def lastAssistantContent (s : Session) : Str :=
  match s.History.reverse.find? (fun m => m.Role = Role.assistant) with
  | some m => m.Content
  | none => []

/-- A provider `Chat` call: the answer of the oracle at the current tick; the call is
recorded and the clock advances. -/
def callChat (p : Provider) (req : ChatRequest) (w : World) :
    Except Str ChatResponse × World :=
  (p.chat w.tick req, { w with tick := w.tick + 1, chatLog := w.chatLog ++ [(p.Name, req)] })

/-- `Agent.Plan`: builds and caches a short plan for the session when planning is enabled. -/
def Agent.Plan (a : Agent) (env : Env) (req : Request) (w : World) : Except Str Str × World :=
  if !a.cfg.EnablePlan then (.ok [], w)
  else if TrimSpace req.Prompt = [] then (.error "prompt is required".toList, w)
  else
    let (sid, w) := ensureSession env req.SessionID w
    if (w.session sid).Plan ≠ [] then (.ok (w.session sid).Plan, w)
    else
      match a.registry.Resolve req.Model with
      | .error e => (.error e, w)
      | .ok (provider, route) =>
        let chatReq : ChatRequest :=
          { Model := route.Model
            Messages := [⟨Role.system, buildPlanSystemPrompt a.cfg⟩,
                         ⟨Role.user, buildPlanUserPrompt req.Prompt⟩]
            MaxTokens := pickMaxTokens a.cfg.MaxTokens route.MaxTokens
            Temperature := pickTemperature a.cfg.Temperature route.Temperature
            Stream := false }
        match callChat provider chatReq w with
        | (.error e, w) => (.error e, w)
        | (.ok resp, w) =>
          let plan := TrimSpace resp.Message.Content
          (.ok plan,
            { w with sessions := updateSession sid (fun s => { s with Plan := plan }) w.sessions })

/-- `Agent.Run`: a single-turn agent call, maintaining the session history. -/
def Agent.Run (a : Agent) (env : Env) (req : Request) (w : World) :
    Except Str Response × World :=
  if req.Prompt = [] then (.error "prompt is required".toList, w)
  else
    match a.registry.Resolve req.Model with
    | .error e => (.error e, w)
    | .ok (provider, route) =>
      match (if a.cfg.EnablePlan then a.Plan env req w else (.ok [], w)) with
      | (.error e, w) => (.error e, w)
      | (.ok _, w) =>
        let (sid, w) := ensureSession env req.SessionID w
        let session := w.session sid
        let prevAssistant := lastAssistantContent session
        let userMsg : ChatMessage := ⟨Role.user, buildUserPrompt req.Prompt req.Context⟩
        let messages : List ChatMessage :=
          [⟨Role.system, buildSystemPrompt a.cfg⟩] ++
          (if session.Plan ≠ [] then
            [⟨Role.assistant, "Planned steps:\n".toList ++ session.Plan⟩] else []) ++
          (if session.LastReflection ≠ [] then
            [⟨Role.assistant, "Previous reflection:\n".toList ++ session.LastReflection⟩]
           else []) ++
          session.History ++ [userMsg]
        let chatReq : ChatRequest :=
          { Model := route.Model
            Messages := messages
            MaxTokens := pickMaxTokens a.cfg.MaxTokens route.MaxTokens
            Temperature := pickTemperature a.cfg.Temperature route.Temperature
            Stream := false }
        match callChat provider chatReq w with
        | (.error e, w) => (.error e, w)
        | (.ok resp, w) =>
          (.ok { Message := resp.Message, Route := route, FinishReason := resp.FinishReason,
                 PreviousAssistant := prevAssistant },
            { w with sessions :=
                (updateSession sid
                  (fun s => { s with History := s.History ++ [userMsg, resp.Message] })
                  w.sessions) })

/-- `Agent.Reflect`: critique of the last response, recorded for future turns. -/
def Agent.Reflect (a : Agent) (env : Env) (req : Request) (last : Response)
    (ctxInfo : ReflectionContext) (w : World) : Except Str Str × World :=
  if !a.cfg.EnableReflect then (.ok [], w)
  else if TrimSpace last.Message.Content = [] then
    (.error "last message is required for reflection".toList, w)
  else
    let (sid, w) := ensureSession env req.SessionID w
    match a.registry.Resolve req.Model with
    | .error e => (.error e, w)
    | .ok (provider, route) =>
      let chatReq : ChatRequest :=
        { Model := route.Model
          Messages := [⟨Role.system, buildReflectSystemPrompt a.cfg⟩,
                       ⟨Role.user, buildReflectUserPrompt req.Prompt last.Message.Content
                          (w.session sid).Plan ctxInfo⟩]
          MaxTokens := pickMaxTokens a.cfg.MaxTokens route.MaxTokens
          Temperature := pickTemperature a.cfg.Temperature route.Temperature
          Stream := false }
      match callChat provider chatReq w with
      | (.error e, w) => (.error e, w)
      | (.ok resp, w) =>
        let reflection := TrimSpace resp.Message.Content
        (.ok reflection,
          { w with sessions :=
              (updateSession sid
                (fun s =>
                  { s with LastReflection := reflection
                           History := s.History ++
                             [⟨Role.assistant, "Reflection: ".toList ++ reflection⟩] })
                w.sessions) })

/-- `Agent.MaxSteps`: the configured maximum, 1 when it is not positive. -/
def Agent.MaxSteps (a : Agent) : Int := if a.cfg.MaxSteps > 0 then a.cfg.MaxSteps else 1

/-- `Agent.PlanningEnabled`. -/
def Agent.PlanningEnabled (a : Agent) : Bool := a.cfg.EnablePlan

/-- `Agent.ReflectionEnabled`. -/
def Agent.ReflectionEnabled (a : Agent) : Bool := a.cfg.EnableReflect

/-- `Agent.ReflectionPolicy`. -/
def Agent.ReflectionPolicy (a : Agent) : Str :=
  if TrimSpace a.cfg.ReflectionPolicy = [] then "block_on_critical".toList
  else ToLower (TrimSpace a.cfg.ReflectionPolicy)

/-- `Agent.TestRunEnabled`. -/
def Agent.TestRunEnabled (a : Agent) : Bool :=
  a.cfg.EnableTestRun && decide (TrimSpace a.cfg.TestCommand ≠ [])

/-- `Agent.TestCommand`. -/
def Agent.TestCommand (a : Agent) : Str := a.cfg.TestCommand

/-- `Agent.TestRetries`. -/
def Agent.TestRetries (a : Agent) : Int := if a.cfg.TestRetries < 0 then 0 else a.cfg.TestRetries

/-- `Agent.TestTimeoutSeconds`. -/
def Agent.TestTimeoutSeconds (a : Agent) : Int :=
  if a.cfg.TestTimeoutSeconds < 0 then 0 else a.cfg.TestTimeoutSeconds

/-- `Agent.MaxContextBytes`. -/
def Agent.MaxContextBytes (a : Agent) : Int :=
  if a.cfg.MaxContextBytes < 0 then 0 else a.cfg.MaxContextBytes

/-- `Agent.EnableSelfDiff`. -/
def Agent.EnableSelfDiff (a : Agent) : Bool := a.cfg.EnableSelfDiff

/-! ### Concrete agents -/

/-- A registry with the single model `default`, served by a provider that answers every call
with an empty assistant message. -/
def exBlankRegistry : Registry :=
  (({} : Registry).RegisterProvider "mock".toList exProvider).RegisterModel "default".toList
    { Provider := "mock".toList, Model := "m".toList } true

/-- An agent with planning enabled over `exBlankRegistry`. -/
def exBlankPlanAgent : Agent := ⟨exBlankRegistry, { EnablePlan := true }⟩

/-- The provider of `TestAgentPlanCachesAndInjectsIntoRun`: the first call returns the plan,
later calls return `done`. -/
def exPlanProvider : Provider :=
  ⟨"mock".toList, fun tick _ =>
    if tick = 0 then .ok { Message := ⟨Role.assistant, "1) inspect\n2) edit\n3) verify".toList⟩ }
    else .ok { Message := ⟨Role.assistant, "done".toList⟩ }⟩

/-- The agent of `TestAgentPlanCachesAndInjectsIntoRun`. -/
def exPlanAgent : Agent :=
  ⟨(({} : Registry).RegisterProvider "mock".toList exPlanProvider).RegisterModel "default".toList
      { Provider := "mock".toList, Model := "m".toList } true,
    { EnablePlan := true }⟩

/-! ## Tools (`internal/tools`, `internal/rpc/messages.go`) -/

/-- A value of Go's `interface{}` as it occurs in tool arguments: the results of JSON decoding
(`nil`, `bool`, `float64`, `string`, `[]interface{}`, `map[string]interface{}`) and the
integers a Go caller may pass.  A number is carried by its integer part, the only part the
code keeps. -/
inductive JVal where
  | null
  | bool (b : Bool)
  | num (n : Int)
  | int (n : Int)
  | str (s : Str)
  | arr (xs : List JVal)
  | obj (fields : List (Str × JVal))

/-- The type assertion `v.(string)` on a map entry: the string, if the key is present with a
string value. -/
def asString (v : Option JVal) : Option Str :=
  match v with
  | some (JVal.str s) => some s
  | _ => none

/-- The type assertion `v.(bool)` on a map entry. -/
def asBool (v : Option JVal) : Option Bool :=
  match v with
  | some (JVal.bool b) => some b
  | _ => none

/-- An invocation request (`rpc.ToolCall`). -/
structure ToolCall where
  Name : Str := []
  Args : List (Str × JVal) := []

/-- A tool parameter descriptor; `Kind` is the field `Type` of the source. -/
structure SchemaField where
  Name : Str
  Kind : Str
  Required : Bool := false
  Enum : List Str := []

/-- A tool descriptor. -/
structure Schema where
  Name : Str
  Parameters : List SchemaField

/-- `Filesystem`: file operations rooted at the base directory of the guard. -/
structure Filesystem where
  guard : PathGuard
  allowWrite : Bool := false
  allowRead : Bool := true

/-- `Terminal`: command execution with allow and deny lists. -/
structure Terminal where
  WorkingDir : Str := []
  Allowed : List Str := []
  Denied : List Str := []
  AllowExecution : Bool := false

/-- `ExecResult`: output and status code of a command. -/
structure ExecResult where
  Stdout : Str := []
  Stderr : Str := []
  ExitCode : Int := 0
  deriving DecidableEq, Repr

/-- `GitTool`: the configuration flags of the git tool. -/
structure GitTool where
  WorkingDir : Str := []
  AllowExec : Bool := false
  DryRunOnly : Bool := false
  BackupDir : Str := []

/-- The tool registry; `none` is a nil tool instance. -/
structure ToolRegistry where
  FS : Option Filesystem := none
  Terminal : Option Terminal := none
  Git : Option GitTool := none
  Semantic : Bool := false

/-- `Registry.Schemas`: the static tool descriptors; `semantic.search` is listed only when
the engine is present. -/
def ToolRegistry.Schemas (r : ToolRegistry) : List Schema :=
  [ ⟨"fs.read_file".toList, [⟨"path".toList, "string".toList, true, []⟩]⟩,
    ⟨"fs.write_file".toList,
      [⟨"path".toList, "string".toList, true, []⟩, ⟨"content".toList, "string".toList, true, []⟩,
       ⟨"overwrite".toList, "boolean".toList, false, []⟩]⟩,
    ⟨"terminal.exec".toList,
      [⟨"command".toList, "string".toList, true, []⟩, ⟨"args".toList, "array".toList, false, []⟩]⟩,
    ⟨"git.apply_patch".toList,
      [⟨"patch".toList, "string".toList, true, []⟩, ⟨"dry_run".toList, "boolean".toList, false, []⟩]⟩,
    ⟨"git.restore_backup".toList, [⟨"name".toList, "string".toList, false, []⟩]⟩,
    ⟨"git.list_backups".toList, []⟩,
    ⟨"git.preview_backup".toList, [⟨"name".toList, "string".toList, false, []⟩]⟩ ] ++
  (if r.Semantic then
    [⟨"semantic.search".toList,
      [⟨"query".toList, "string".toList, true, []⟩, ⟨"limit".toList, "integer".toList, false, []⟩]⟩]
   else [])

/-- `Registry.Schema`: the descriptor of a tool name, if present. -/
def ToolRegistry.Schema (r : ToolRegistry) (name : Str) : Option Schema :=
  r.Schemas.find? (fun s => s.Name = name)

/-- The check of one schema field in `validateAgainstSchema`: the error, if any. -/
def validateField (field : SchemaField) (args : List (Str × JVal)) : Option Str :=
  match args.lookup field.Name with
  | none => if field.Required then some (field.Name ++ " is required".toList) else none
  | some val =>
    let typeErr : Option Str :=
      if field.Kind = "string".toList then
        (match val with
         | JVal.str _ => none
         | _ => some (field.Name ++ " must be string".toList))
      else if field.Kind = "boolean".toList then
        (match val with
         | JVal.bool _ => none
         | _ => some (field.Name ++ " must be boolean".toList))
      else if field.Kind = "array".toList then
        (match val with
         | JVal.arr _ => none
         | _ => some (field.Name ++ " must be array".toList))
      else if field.Kind = "integer".toList then
        (match val with
         | JVal.num _ => none
         | JVal.int _ => none
         | _ => some (field.Name ++ " must be integer".toList))
      else none
    match typeErr with
    | some e => some e
    | none =>
      if field.Enum ≠ [] then
        let s := (asString (some val)).getD []
        if field.Enum.any (fun allowed => s = allowed) then none
        else some (field.Name ++ " must be one of the allowed values".toList)
      else none

/-- `validateAgainstSchema`: the first field error, if any. -/
def validateAgainstSchema (schema : Schema) (args : List (Str × JVal)) : Option Str :=
  schema.Parameters.findSome? (fun field => validateField field args)

/-- Outcome of a check that may dereference a nil tool instance. -/
inductive Check where
  | pass
  | err (msg : Str)
  | panic

/-- `ValidateCall` on a non-nil registry. -/
def ValidateCall (reg : ToolRegistry) (name : Str) (args : List (Str × JVal)) : Check :=
  match (match reg.Schema name with
         | some schema => validateAgainstSchema schema args
         | none => none) with
  | some e => .err e
  | none =>
    if name = "fs.read_file".toList ∨ name = "fs.write_file".toList ∨ name = "fs.search".toList then
      if (asString (args.lookup "path".toList)).isNone ∧ name ≠ "fs.search".toList then
        .err "path is required and must be string".toList
      else if name = "fs.write_file".toList ∧ (asString (args.lookup "content".toList)).isNone then
        .err "content is required and must be string".toList
      else if name = "fs.write_file".toList then
        (match reg.FS with
         | none => .panic
         | some f =>
           if !f.allowWrite then .err "write operations are disabled by configuration".toList
           else .pass)
      else if name = "fs.search".toList ∧ (asString (args.lookup "pattern".toList)).isNone then
        .err "pattern is required and must be string".toList
      else .pass
    else if name = "terminal.exec".toList then
      if (match reg.Terminal with
          | none => true
          | some t => !t.AllowExecution) then
        .err "exec disabled by configuration".toList
      else if (asString (args.lookup "command".toList)).isNone then
        .err "command is required and must be string".toList
      else .pass
    else if name = "git.apply_patch".toList ∨ name = "git.status".toList then
      match reg.Git with
      | none => .err "git operations disabled".toList
      | some g =>
        if !g.AllowExec then .err "git operations disabled".toList
        else if name = "git.apply_patch".toList then
          if (asString (args.lookup "patch".toList)).isNone then .err "patch is required".toList
          else if g.DryRunOnly ∧ (asBool (args.lookup "dry_run".toList)).getD false = false then
            .err "apply_patch allowed only in dry-run mode".toList
          else .pass
        else .pass
    else if name = "git.restore_backup".toList ∨ name = "git.list_backups".toList ∨
        name = "git.preview_backup".toList then
      match reg.Git with
      | none => .err "git operations disabled".toList
      | some g =>
        if !g.AllowExec then .err "git operations disabled".toList
        else if name = "git.restore_backup".toList then
          (match args.lookup "name".toList with
           | some (JVal.str _) => .pass
           | some _ => .err "name must be string".toList
           | none => .pass)
        else .pass
    else if name = "semantic.search".toList then
      if !reg.Semantic then .err "semantic engine unavailable".toList
      else if (asString (args.lookup "query".toList)).isNone then
        .err "query is required and must be string".toList
      else
        (match args.lookup "limit".toList with
         | none => .pass
         | some (JVal.num _) => .pass
         | some (JVal.int _) => .pass
         | some _ => .err "limit must be number".toList)
    else .err ("unknown tool ".toList ++ quote name)

/-- The clock after one observation. -/
def World.advance (w : World) : World := { w with tick := w.tick + 1 }

/-- `Filesystem.ReadFile`. -/
def Filesystem.ReadFile (f : Filesystem) (env : Env) (path : Str) (w : World) :
    Except Str Str × World :=
  if !f.allowRead then (.error "read is disabled by configuration".toList, w)
  else
    match f.guard.Resolve path with
    | .error e => (.error e, w)
    | .ok resolved => (env.osReadFile w.tick resolved, w.advance)

/-- `Filesystem.WriteFile`: the error, if any. -/
def Filesystem.WriteFile (f : Filesystem) (env : Env) (path content : Str) (w : World) :
    Option Str × World :=
  if !f.allowWrite then (some "write is disabled by configuration".toList, w)
  else
    match f.guard.Resolve path with
    | .error e => (some e, w)
    | .ok resolved => (env.osWriteFile w.tick resolved content, w.advance)

/-- `Filesystem.Stat`: whether the path is a directory, or the error. -/
def Filesystem.Stat (f : Filesystem) (env : Env) (path : Str) (w : World) :
    Except Str Bool × World :=
  if !f.allowRead then (.error "read is disabled by configuration".toList, w)
  else
    match f.guard.Resolve path with
    | .error e => (.error e, w)
    | .ok resolved => (env.osStat w.tick resolved, w.advance)

/-- `Filesystem.DescribeStructure`: the outline of a directory; the walk below the resolved
path is an oracle. -/
def Filesystem.DescribeStructure (f : Filesystem) (env : Env) (root : Str) (w : World) :
    Except Str Str × World :=
  if !f.allowRead then (.error "read is disabled by configuration".toList, w)
  else
    match f.guard.Resolve root with
    | .error e => (.error e, w)
    | .ok resolved =>
      match env.osStat w.tick resolved with
      | .error e => (.error e, w.advance)
      | .ok false => (.error (root ++ " is not a directory".toList), w.advance)
      | .ok true => (env.osOutline (w.tick + 1) resolved, w.advance.advance)

/-- `Filesystem.Search`: the matches as (relative path, line, snippet); the walk below the
resolved root is an oracle. -/
def Filesystem.Search (f : Filesystem) (env : Env) (root pattern : Str) (maxResults : Int)
    (w : World) : (List (Str × Int × Str) × Option Str) × World :=
  if pattern = [] then (([], some "pattern is required".toList), w)
  else
    let maxResults := if maxResults ≤ 0 then 20 else maxResults
    match f.guard.Resolve root with
    | .error e => (([], some e), w)
    | .ok resolved => (env.osSearch w.tick resolved pattern maxResults, w.advance)

/-- `Terminal.validateCommand`: the error, if the command is denied or not allowed. -/
def Terminal.validateCommand (t : Terminal) (cmd : Str) : Option Str :=
  let lower := ToLower cmd
  if t.Denied.any (fun deny => lower = ToLower deny) then
    some ("command ".toList ++ quote cmd ++ " is denied".toList)
  else if t.Allowed ≠ [] then
    if t.Allowed.any (fun allow => lower = ToLower allow) then none
    else some ("command ".toList ++ quote cmd ++ " is not in allowlist".toList)
  else none

/-- `Terminal.Exec`: runs a command if allowed; the process itself is an oracle and every
process run is recorded in `execLog`. -/
def Terminal.Exec (t : Terminal) (env : Env) (command : Str) (args : List Str) (w : World) :
    (ExecResult × Option Str) × World :=
  if !t.AllowExecution then (({}, some "execution disabled by configuration".toList), w)
  else if command = [] then (({}, some "command is required".toList), w)
  else
    match t.validateCommand command with
    | some e => (({}, some e), w)
    | none =>
      let pr := env.runProcess w.tick t.WorkingDir command args
      let w := { w.advance with execLog := w.execLog ++ [(command, args)] }
      let code : Int :=
        match pr.err with
        | none => 0
        | some (_, some c) => c
        | some (_, none) => -1
      (({ Stdout := pr.Stdout, Stderr := pr.Stderr, ExitCode := code }, pr.err.map (·.1)), w)

/-- Result of `executeTool`: output with a nil error, output with an error, or a nil-pointer
dereference that crashes the process. -/
inductive ToolResult where
  | ok (output : Str)
  | fail (output : Str) (err : Str)
  | panic

/-- A method of the git tool behind its permission checks; the git work is an oracle. -/
def gitCall (env : Env) (op : Str) (args : List Str) (w : World) : ToolResult × World :=
  match env.gitOp w.tick op args with
  | (out, none) => (.ok out, w.advance)
  | (out, some e) => (.fail out e, w.advance)

/-- The case `fs.read_file` of the switch of `executeTool`. -/
def toolReadFile (env : Env) (reg : ToolRegistry) (tc : ToolCall) (w : World) :
    ToolResult × World :=
  match reg.FS with
  | none => (.panic, w)
  | some f =>
    match f.ReadFile env ((asString (tc.Args.lookup "path".toList)).getD []) w with
    | (.ok out, w) => (.ok out, w)
    | (.error e, w) => (.fail [] e, w)

/-- The case `fs.write_file` of the switch of `executeTool`. -/
def toolWriteFile (env : Env) (reg : ToolRegistry) (tc : ToolCall) (w : World) :
    ToolResult × World :=
  match reg.FS with
  | none => (.panic, w)
  | some f =>
    match f.WriteFile env ((asString (tc.Args.lookup "path".toList)).getD [])
        ((asString (tc.Args.lookup "content".toList)).getD []) w with
    | (some e, w) => (.fail [] e, w)
    | (none, w) => (.ok "ok".toList, w)

/-- The case `fs.search` of the switch of `executeTool`.  On a nil file system the call of
`Search` returns its error for an empty pattern before it dereferences the receiver. -/
def toolSearch (env : Env) (reg : ToolRegistry) (tc : ToolCall) (w : World) :
    ToolResult × World :=
  let root := (asString (tc.Args.lookup "root".toList)).getD []
  let pattern := (asString (tc.Args.lookup "pattern".toList)).getD []
  match reg.FS with
  | none => if pattern = [] then (.fail [] "pattern is required".toList, w) else (.panic, w)
  | some f =>
    match f.Search env root pattern 10 w with
    | ((_, some e), w) => (.fail [] e, w)
    | ((results, none), w) =>
      (.ok (results.map (fun r =>
        r.1 ++ [':'] ++ fmtInt r.2.1 ++ [' '] ++ r.2.2 ++ ['\n'])).flatten, w)

/-- The case `terminal.exec` of the switch of `executeTool`. -/
def toolTerminalExec (env : Env) (reg : ToolRegistry) (tc : ToolCall) (w : World) :
    ToolResult × World :=
  let command := (asString (tc.Args.lookup "command".toList)).getD []
  let args : List Str :=
    match tc.Args.lookup "args".toList with
    | some (JVal.arr raw) => raw.filterMap (fun a => asString (some a))
    | _ => []
  match reg.Terminal with
  | none => (.panic, w)
  | some t =>
    match t.Exec env command args w with
    | ((res, some e), w) => (.fail res.Stderr e, w)
    | ((res, none), w) => (.ok res.Stdout, w)

/-- The case `git.apply_patch` of the switch of `executeTool`, with the permission checks of
`GitTool.ApplyPatch`. -/
def toolGitApplyPatch (env : Env) (reg : ToolRegistry) (tc : ToolCall) (w : World) :
    ToolResult × World :=
  match reg.Git with
  | none => (.fail [] "git tool unavailable".toList, w)
  | some g =>
    let patch := (asString (tc.Args.lookup "patch".toList)).getD []
    let dryRun :=
      match asBool (tc.Args.lookup "dry_run".toList) with
      | some b => b
      | none => g.DryRunOnly
    if !g.AllowExec then (.fail [] "git operations disabled".toList, w)
    else if g.DryRunOnly && !dryRun then
      (.fail [] "apply_patch is restricted to dry-run mode".toList, w)
    else gitCall env "apply_patch".toList [patch, if dryRun then "dry".toList else []] w

/-- The case `git.status` of the switch of `executeTool`. -/
def toolGitStatus (env : Env) (reg : ToolRegistry) (w : World) : ToolResult × World :=
  match reg.Git with
  | none => (.fail [] "git tool unavailable".toList, w)
  | some g =>
    if !g.AllowExec then (.fail [] "git operations disabled".toList, w)
    else gitCall env "status".toList [] w

/-- The case `git.restore_backup` of the switch of `executeTool`. -/
def toolGitRestoreBackup (env : Env) (reg : ToolRegistry) (tc : ToolCall) (w : World) :
    ToolResult × World :=
  match reg.Git with
  | none => (.fail [] "git tool unavailable".toList, w)
  | some g =>
    if !g.AllowExec then (.fail [] "git operations disabled".toList, w)
    else if g.DryRunOnly then
      (.fail [] "restore_backup not allowed in dry-run-only mode".toList, w)
    else
      gitCall env "restore_backup".toList [(asString (tc.Args.lookup "name".toList)).getD []] w

/-- The case `git.list_backups` of the switch of `executeTool`. -/
def toolGitListBackups (env : Env) (reg : ToolRegistry) (w : World) : ToolResult × World :=
  match reg.Git with
  | none => (.fail [] "git tool unavailable".toList, w)
  | some _ =>
    match gitCall env "list_backups".toList [] w with
    | (.fail _ e, w) => (.fail [] e, w)
    | r => r

/-- The case `git.preview_backup` of the switch of `executeTool`. -/
def toolGitPreviewBackup (env : Env) (reg : ToolRegistry) (tc : ToolCall) (w : World) :
    ToolResult × World :=
  match reg.Git with
  | none => (.fail [] "git tool unavailable".toList, w)
  | some _ =>
    match gitCall env "preview_backup".toList
        [(asString (tc.Args.lookup "name".toList)).getD []] w with
    | (.fail _ e, w) => (.fail [] e, w)
    | r => r

/-- The case `semantic.search` of the switch of `executeTool`. -/
def toolSemanticSearch (env : Env) (reg : ToolRegistry) (tc : ToolCall) (w : World) :
    ToolResult × World :=
  if !reg.Semantic then (.fail [] "semantic tool unavailable".toList, w)
  else
    let query := (asString (tc.Args.lookup "query".toList)).getD []
    let limit : Int :=
      match tc.Args.lookup "limit".toList with
      | some (JVal.num n) => n
      | some (JVal.int n) => n
      | _ => 0
    match env.semanticSearch w.tick query limit with
    | .error e => (.fail [] e, w.advance)
    | .ok results =>
      (.ok (TrimSpace (results.map (fun r =>
        r.Path ++ " (score: ".toList ++ r.ScoreText ++ ")\n".toList ++ r.Snippet ++
          "\n\n".toList)).flatten), w.advance)

/-- The switch on the tool name of `executeTool`. -/
def dispatchTool (env : Env) (reg : ToolRegistry) (tc : ToolCall) (w : World) :
    ToolResult × World :=
  if tc.Name = "fs.read_file".toList then toolReadFile env reg tc w
  else if tc.Name = "fs.write_file".toList then toolWriteFile env reg tc w
  else if tc.Name = "fs.search".toList then toolSearch env reg tc w
  else if tc.Name = "terminal.exec".toList then toolTerminalExec env reg tc w
  else if tc.Name = "git.apply_patch".toList then toolGitApplyPatch env reg tc w
  else if tc.Name = "git.status".toList then toolGitStatus env reg w
  else if tc.Name = "git.restore_backup".toList then toolGitRestoreBackup env reg tc w
  else if tc.Name = "git.list_backups".toList then toolGitListBackups env reg w
  else if tc.Name = "git.preview_backup".toList then toolGitPreviewBackup env reg tc w
  else if tc.Name = "semantic.search".toList then toolSemanticSearch env reg tc w
  else (.fail [] ("unknown tool ".toList ++ quote tc.Name), w)

/-- `executeTool`: the registry and context checks, the validation of the call and the
switch on the tool name. -/
def executeTool (env : Env) (reg : Option ToolRegistry) (tc : ToolCall) (w : World) :
    ToolResult × World :=
  match reg with
  | none => (.fail [] "tool registry unavailable".toList, w)
  | some reg =>
    if env.ctxErr w.tick then (.fail [] "context canceled".toList, w.advance)
    else
      match ValidateCall reg tc.Name tc.Args with
      | .panic => (.panic, w.advance)
      | .err e => (.fail [] e, w.advance)
      | .pass => dispatchTool env reg tc w.advance

/-! ## Parsing of model output (`internal/rpc/agent/runner.go`) -/

/-- Whether a character can start a JSON text: white space or the first character of a JSON
value. -/
def jsonValueStart (c : Char) : Bool :=
  c = ' ' || c = '\t' || c = '\n' || c = '\r' || c = '\x7b' || c = '[' || c = '"' || c = '-' ||
  c = 't' || c = 'f' || c = 'n' || c.isDigit

/-- The three uses of `json.Unmarshal` in the runner: into `[]rpc.ToolCall`, into
`rpc.ToolCall` and into `map[string]interface{}`; `none` is a decoding error.  The decoder of
the standard library is a parameter of the model; the one fact assumed about it is that a text
which starts with a character that cannot start a JSON value is rejected. -/
structure JsonCodec where
  decodeCalls : Str → Option (List ToolCall)
  decodeCall : Str → Option ToolCall
  decodeObject : Str → Option (List (Str × JVal))
  invalid_start : ∀ (c : Char) (s : Str), jsonValueStart c = false →
    decodeCalls (c :: s) = none ∧ decodeCall (c :: s) = none ∧ decodeObject (c :: s) = none

/-- The opening and closing fence of a code block. -/
def fence : Str := ['`', '`', '`']

/-- The fence lookup of `extractToolCalls` on the trimmed content: when the content has a
fence, the text between position `start + 3` and the next fence, trimmed, where `start` is the
position of the first fence followed by `json`, or else of the first fence; the content itself
when there is no closing fence. -/
def fenceBody (content : Str) : Str :=
  if Contains content fence then
    match (match Index content (fence ++ "json".toList) with
           | some i => some i
           | none => Index content fence) with
    | some start =>
      match Index (content.drop (start + 3)) fence with
      | some e => TrimSpace ((content.drop (start + 3)).take e)
      | none => content
    | none => content
  else content

/-- `extractToolCalls`: the tool calls embedded in the model content, as a JSON array of
calls or a single call with a non-empty name. -/
def extractToolCalls (js : JsonCodec) (content : Str) : List ToolCall :=
  let content := TrimSpace content
  if content = [] then []
  else
    let content := fenceBody content
    match (if HasPrefix content ['['] then js.decodeCalls content else none) with
    | some calls => calls
    | none =>
      match js.decodeCall content with
      | some single => if single.Name ≠ [] then [single] else []
      | none => []

/-- `parseCritique`: the critique object, `none` for Go's nil map. -/
def parseCritique (js : JsonCodec) (raw : Str) : Option (List (Str × JVal)) :=
  if TrimSpace raw = [] then none else js.decodeObject raw

/-- `critiqueBlocksApply`. -/
def critiqueBlocksApply (crit : Option (List (Str × JVal))) : Bool :=
  match crit with
  | none => false
  | some fields =>
    match fields.lookup "block_apply".toList with
    | some (JVal.bool b) => b
    | some (JVal.str s) => ToLower s = "true".toList
    | _ => false

/-- `shouldBlockOnCritique`. -/
def shouldBlockOnCritique (policy : Str) : Bool :=
  let p := ToLower (TrimSpace policy)
  if p = "never_block".toList then false
  else if p = "warn_only".toList then false
  else true

/-- `computeSelfDiff`. -/
def computeSelfDiff (prev current : Str) : Str :=
  if TrimSpace prev = [] ∨ TrimSpace current = [] then []
  else
    "Previous:\n".toList ++ prev ++ (if HasSuffix prev ['\n'] then [] else ['\n']) ++
      "Current:\n".toList ++ current

/-- `isResponseDone`. -/
def isResponseDone (resp : Response) : Bool :=
  if resp.FinishReason ≠ [] ∧ resp.FinishReason ≠ "length".toList then true
  else
    let content := ToLower resp.Message.Content
    Contains content "[done]".toList || Contains content "<done>".toList

/-! ### Test output (`internal/rpc/agent/test_parser.go`) -/

/-- `unique`: the first occurrences, in order. -/
def unique : List Str → List Str
  | [] => []
  | v :: vs => v :: (unique vs).filter (fun x => x ≠ v)

/-- Whether a character belongs to the class of the test-name capture under the flag `(?i)`:
letters, digits, `_`, `.`, `/` and `-`, and the two characters outside ASCII that fold to a
letter, U+017F and U+212A. -/
def isTestNameChar (c : Char) : Bool :=
  c.isAlphanum || c = '_' || c = '.' || c = '/' || c = '-' ||
  c.toNat = 0x17F || c.toNat = 0x212A

/-- Whether a character is matched by `\s` in a Go regular expression. -/
def isReSpace (c : Char) : Bool :=
  c = ' ' || c = '\t' || c = '\n' || c = '\r' || c = '\x0c'

/-- A match of the failure pattern, `(?i)(FAIL|Error|ERROR):?\s+` followed by a non-empty run
of test-name characters, anchored at the start of `s`: the second capture.  The letters of the
two words fold only with their ASCII counterparts. -/
def matchFailAt (s : Str) : Option Str :=
  let lower := s.map Char.toLower
  let afterWord : Option Str :=
    if HasPrefix lower "fail".toList then some (s.drop 4)
    else if HasPrefix lower "error".toList then some (s.drop 5)
    else none
  match afterWord with
  | none => none
  | some rest =>
    let rest := (match rest with
      | ':' :: r => if (r.takeWhile isReSpace) ≠ [] then r else rest
      | _ => rest)
    let spaces := rest.takeWhile isReSpace
    let name := (rest.dropWhile isReSpace).takeWhile isTestNameChar
    if spaces ≠ [] ∧ name ≠ [] then some name else none

/-- The leftmost match of the failure pattern in a line (`FindStringSubmatch`): the second
capture. -/
def findFail : Str → Option Str
  | [] => none
  | c :: cs =>
    match matchFailAt (c :: cs) with
    | some name => some name
    | none => findFail cs

/-- `parseTestOutput`: summary and failing test names. -/
def parseTestOutput (output : Str) : Str × List Str :=
  let names := (splitOn '\n' output).filterMap (fun line => (findFail line).map TrimSpace)
  let summary := if names ≠ [] then "Failing tests: ".toList ++ Join (unique names) ", ".toList else []
  (summary, unique names)

/-! ### A concrete decoder -/

/-- The JSON text of one `git.status` call in an array. -/
def exCallsJson : Str := "[\x7b\"name\":\"git.status\",\"args\":\x7b\x7d\x7d]".toList

/-- The JSON text of a critique that blocks. -/
def exBlockJson : Str := "\x7b\"block_apply\":true\x7d".toList

/-- A decoder that knows two texts, `exCallsJson` and `exBlockJson`, and rejects every other
text.  It agrees with `encoding/json` on these two texts and on every text that is not
JSON. -/
def exJson : JsonCodec where
  decodeCalls s := if s = exCallsJson then some [{ Name := "git.status".toList, Args := [] }] else none
  decodeCall _ := none
  decodeObject s := if s = exBlockJson then some [("block_apply".toList, JVal.bool true)] else none
  invalid_start := by
    intro c s hc
    refine ⟨?_, rfl, ?_⟩
    · have hne : c :: s ≠ exCallsJson := by
        intro h
        have hc' : c = '[' := by
          have := congrArg List.head? h
          simpa [exCallsJson] using this
        subst hc'
        simp [jsonValueStart] at hc
      simp [hne]
    · have hne : c :: s ≠ exBlockJson := by
        intro h
        have hc' : c = '\x7b' := by
          have := congrArg List.head? h
          simpa [exBlockJson] using this
        subst hc'
        simp [jsonValueStart] at hc
      simp [hne]

/-- A model answer carrying one tool call in a fenced block tagged `json`. -/
def exFencedJson : Str := "```json\n".toList ++ exCallsJson ++ "\n```".toList

/-! ## The runner (`internal/rpc/agent/runner.go`) -/

/-- `rpc.RunTaskRequest`. -/
structure RunTaskRequest where
  SessionID : Str := []
  CorrelationID : Str := []
  Model : Str := []
  PlannerModel : Str := []
  CriticModel : Str := []
  Prompt : Str := []
  Tools : List ToolCall := []
  ContextPaths : List Str := []

/-- `rpc.RunTaskEvent`; `Kind` is the field `Type` of the source, one of `token`, `message`,
`error`, `done`, `tool`, `plan`, `reflect`, `test`. -/
structure RunTaskEvent where
  Kind : Str
  SessionID : Str := []
  CorrelationID : Str := []
  Token : Str := []
  Message : Str := []
  Error : Str := []
  Done : Bool := false
  Step : Int := 0
  FinishReason : Str := []
  ToolName : Str := []
  ToolOutput : Str := []
  ExitCode : Int := 0
  Critique : Option (List (Str × JVal)) := none
  TestSummary : Str := []
  FailingTests : List Str := []
  TestAttempts : Int := 0

/-- `AgentRunner`; `Metrics` tells whether a metrics sink is attached. -/
structure AgentRunner where
  Agent : Option Agent := none
  Metrics : Bool := false
  Tools : Option ToolRegistry := none
  Strategy : Option StrategyEngine := none

/-- `Metrics.RecordModelFailure`, when a sink is attached. -/
def AgentRunner.recordFailure (r : AgentRunner) (role model : Str) (w : World) : World :=
  if r.Metrics then { w with failures := w.failures ++ [(role, model)] } else w

/-- `Metrics.RecordModelUsage`, when a sink is attached. -/
def AgentRunner.recordUsage (r : AgentRunner) (role model : Str) (w : World) : World :=
  if r.Metrics then { w with usage := w.usage ++ [(role, model)] } else w

/-- `Metrics.RecordAgentRun`, when a sink is attached. -/
def AgentRunner.recordRun (r : AgentRunner) (finishReason : Str) (tokenCount : Int)
    (w : World) : World :=
  if r.Metrics then { w with runs := w.runs ++ [(finishReason, tokenCount)] } else w

/-- What `runTests` returns: combined output, last exit code, last error, attempts. -/
structure TestRun where
  output : Str := []
  exitCode : Int := 0
  err : Option Str := none
  attempts : Int := 0
  deriving DecidableEq, Repr

/-- The loop `for attempts = 1; attempts <= retries+1; attempts++` of `runTests`: `n` is the
number of iterations still allowed by the loop condition, `last` holds the variables
`output`, `exitCode`, `err` and the current value of `attempts`.  The loop is left by `break`
after an attempt without error and with exit code 0, or by its condition. -/
def runTestsLoop (t : Terminal) (env : Env) (parts : List Str) :
    Nat → TestRun → World → TestRun × World
  | 0, last, w => (last, w)
  | n + 1, last, w =>
    match t.Exec env (parts.headD []) parts.tail w with
    | ((res, execErr), w) =>
      let output :=
        if res.Stderr ≠ [] then
          (if res.Stdout ≠ [] then res.Stdout ++ ['\n'] else res.Stdout) ++ res.Stderr
        else res.Stdout
      let cur : TestRun :=
        { output := output, exitCode := res.ExitCode, err := execErr, attempts := last.attempts }
      if execErr = none ∧ res.ExitCode = 0 then (cur, w)
      else runTestsLoop t env parts n { cur with attempts := last.attempts + 1 } w

/-- `AgentRunner.runTests`.  The per-attempt timeout only shapes the context handed to the
terminal, whose answer is an oracle. -/
def AgentRunner.runTests (r : AgentRunner) (env : Env) (command : Str) (retries : Int)
    (_timeoutSeconds : Int) (w : World) : TestRun × World :=
  match r.Tools.bind (·.Terminal) with
  | none =>
    ({ output := [], exitCode := -1, err := some "terminal tool unavailable for tests".toList,
       attempts := 0 }, w)
  | some t =>
    let parts := Fields command
    if parts = [] then
      ({ output := [], exitCode := -1, err := some "test command is empty".toList,
         attempts := 0 }, w)
    else
      let retries := if retries < 0 then 0 else retries
      runTestsLoop t env parts (retries + 1).toNat { attempts := 1 } w

/-! ### Context files -/

/-- The mark appended to a content that was cut, `"\n[truncated]"`, as bytes. -/
def truncatedMark : Bytes := utf8 "\n[truncated]".toList

/-- `appendWithBudget`: the list with the file appended (its content cut to the limit and
marked when longer), the new total, and whether the budget is exhausted.  When nothing is
left of the budget the list and the total are returned unchanged.  The content is measured
and cut in bytes: `len(cf.Content)` and `cf.Content[:limit]`. -/
def appendWithBudget (out : List ContextFile) (cf : ContextFile) (total maxBytes perFileCap : Int) :
    List ContextFile × Int × Bool :=
  if maxBytes > 0 ∧ maxBytes - total ≤ 0 then (out, total, true)
  else
    let limit :=
      if maxBytes > 0 ∧ maxBytes - total < perFileCap then maxBytes - total else perFileCap
    let cf : ContextFile :=
      if limit > 0 ∧ (cf.Content.length : Int) > limit then
        { cf with Content := cf.Content.take limit.toNat ++ truncatedMark }
      else cf
    let total := total + cf.Content.length
    (out ++ [cf], total, decide (maxBytes > 0 ∧ total ≥ maxBytes))

/-- Worker of `findPathTokens`: `cur` is the pending match, reversed.  A match is a letter or
digit followed by at least one letter, digit, `.`, `_`, `/` or `-`, taken greedily. -/
def findPathTokensAux : Option Str → Str → List Str
  | cur, [] =>
    match cur with
    | some buf => if buf.length ≥ 2 then [buf.reverse] else []
    | none => []
  | none, c :: cs =>
    if c.isAlphanum then findPathTokensAux (some [c]) cs else findPathTokensAux none cs
  | some buf, c :: cs =>
    if c.isAlphanum || c = '.' || c = '_' || c = '/' || c = '-' then
      findPathTokensAux (some (c :: buf)) cs
    else if buf.length ≥ 2 then buf.reverse :: findPathTokensAux none cs
    else findPathTokensAux none cs

/-- `FindAllString` for the pattern of `extractMentionedPaths`: a letter or digit followed
by one or more characters among letters, digits, `.`, `_`, `/` and `-`. -/
def findPathTokens (prompt : Str) : List Str := findPathTokensAux none prompt

/-- Go `strings.Trim` with a cutset. -/
def trimCutset (s cutset : Str) : Str :=
  ((s.dropWhile (fun c => cutset.contains c)).reverse.dropWhile
    (fun c => cutset.contains c)).reverse

/-- `extractMentionedPaths`: the path-like tokens of the prompt, without duplicates. -/
def extractMentionedPaths (prompt : Str) : List Str :=
  unique (((findPathTokens prompt).map (fun t => trimCutset t ".,;:!\"'".toList)).filter
    (fun t => t ≠ [] && (t.contains '.' || t.contains '/')))

/-- The default candidates of `discoverContextPaths`. -/
def defaultContextPaths : List Str :=
  [".".toList, "README.md".toList, "CONTRIBUTING.md".toList, "go.mod".toList,
   "package.json".toList, "Makefile".toList, "configs/config.yaml".toList, "cmd".toList,
   "internal".toList, "src".toList]

/-- The loop of `discoverContextPaths` over the raw candidates: blank and repeated candidates
are skipped, the loop stops at 12 kept paths, a candidate is kept when `Stat` succeeds. -/
def discoverLoop (f : Filesystem) (env : Env) :
    List Str → List Str → List Str → World → List Str × World
  | [], _, out, w => (out, w)
  | cand :: rest, seen, out, w =>
    let cand := TrimSpace cand
    if cand = [] then discoverLoop f env rest seen out w
    else if cand ∈ seen then discoverLoop f env rest seen out w
    else if out.length ≥ 12 then (out, w)
    else
      match f.Stat env cand w with
      | (.error _, w) => discoverLoop f env rest seen out w
      | (.ok _, w) => discoverLoop f env rest (cand :: seen) (out ++ [cand]) w

/-- `discoverContextPaths`. -/
def discoverContextPaths (f : Filesystem) (env : Env) (prompt : Str) (w : World) :
    List Str × World :=
  discoverLoop f env (extractMentionedPaths prompt ++ defaultContextPaths) [] [] w

/-- Go `strings.TrimSuffix`. -/
def TrimSuffix (s suf : Str) : Str :=
  if HasSuffix s suf then s.take (s.length - suf.length) else s

/-- The loop of `buildContextFiles` over the candidates, with the variables `seen`, `total`
and `out`. -/
def contextLoop (f : Filesystem) (env : Env) (maxContext perFileCap : Int) :
    List Str → List Str → Int → List ContextFile → World →
      Except Str (List ContextFile) × World
  | [], _, _, out, w => (.ok out, w)
  | p :: ps, seen, total, out, w =>
    if p ∈ seen then contextLoop f env maxContext perFileCap ps seen total out w
    else if maxContext > 0 ∧ total ≥ maxContext then (.ok out, w)
    else
      match f.Stat env p w with
      | (.error e, w) => (.error ("read context ".toList ++ p ++ ": ".toList ++ e), w)
      | (.ok true, w) =>
        (match f.DescribeStructure env p w with
         | (.error e, w) => (.error ("describe context ".toList ++ p ++ ": ".toList ++ e), w)
         | (.ok content, w) =>
           match appendWithBudget out
               { Path := TrimSuffix p ['/'] ++ " (structure)".toList, Content := utf8 content }
               total maxContext perFileCap with
           | (out, total, exhausted) =>
             if exhausted then (.ok out, w)
             else contextLoop f env maxContext perFileCap ps (p :: seen) total out w)
      | (.ok false, w) =>
        (match f.ReadFile env p w with
         | (.error e, w) => (.error ("read context ".toList ++ p ++ ": ".toList ++ e), w)
         | (.ok content, w) =>
           match appendWithBudget out { Path := p, Content := utf8 content }
               total maxContext perFileCap with
           | (out, total, exhausted) =>
             if exhausted then (.ok out, w)
             else contextLoop f env maxContext perFileCap ps (p :: seen) total out w)

/-- `buildContextFiles`: the context files for a prompt, from the explicit paths or, without
any, from the semantic hits followed by the discovered paths. -/
def buildContextFiles (reg : Option ToolRegistry) (env : Env) (prompt : Str)
    (paths : List Str) (maxBytes : Int) (w : World) : Except Str (List ContextFile) × World :=
  match reg with
  | none => (.ok [], w)
  | some reg =>
    match reg.FS with
    | none => (.ok [], w)
    | some f =>
      let (candidates, w) : List Str × World :=
        if paths ≠ [] then (paths, w)
        else
          let (semPaths, w) : List Str × World :=
            if reg.Semantic then
              (match env.semanticSearch w.tick prompt 5 with
               | .ok hits => (hits.map (·.Path), w.advance)
               | .error _ => ([], w.advance))
            else ([], w)
          let (found, w) := discoverContextPaths f env prompt w
          (semPaths ++ found, w)
      let perFileCap : Int := if maxBytes > 0 ∧ maxBytes < 32 * 1024 then maxBytes else 32 * 1024
      contextLoop f env maxBytes perFileCap candidates [] 0 [] w

/-- Total size in bytes of the contents of a list of context files. -/
def totalContent (files : List ContextFile) : Nat := (files.map (·.Content.length)).sum

/-! ### Concrete test runs and context files -/

/-- A world in which every external process exits with status 1. -/
def exFailEnv : Env :=
  { runProcess := fun _ _ _ _ => { err := some ("exit status 1".toList, some 1) } }

/-- A world in which every external process prints `ok` and exits with status 0. -/
def exPassEnv : Env :=
  { runProcess := fun _ _ _ _ => { Stdout := "ok\n".toList } }

/-- A runner whose only tool is a terminal that may execute any command. -/
def exTermRunner : AgentRunner :=
  { Tools := some { Terminal := some { AllowExecution := true } } }

/-- A world in which every path is a regular file of 100 bytes. -/
def exBigFileEnv : Env :=
  { osStat := fun _ _ => .ok false, osReadFile := fun _ _ => .ok (List.replicate 100 'a') }

/-- A world in which every path is a regular file with the content `hello context`, as in
`TestAgentRunnerLoadsContextFiles`. -/
def exSmallFileEnv : Env :=
  { osStat := fun _ _ => .ok false, osReadFile := fun _ _ => .ok "hello context".toList }

/-- A tool registry with a read-only file system rooted at `/srv/ws`. -/
def exFsRegistry : ToolRegistry := { FS := some { guard := exGuard } }

/-- The context files of a `buildContextFiles` result, the empty list on error. -/
def contextFilesOf (r : Except Str (List ContextFile) × World) : List ContextFile :=
  match r.1 with
  | .ok files => files
  | .error _ => []

/-! ### Model selection -/

/-- `AgentRunner.selectModel`: the model for a role, the updated count of expensive uses and
the metrics recorded. -/
def AgentRunner.selectModel (r : AgentRunner) (role override : Str) (expensiveUsed : Int)
    (w : World) : Str × Int × World :=
  let model := firstNonEmpty [override]
  match r.Strategy with
  | none => (model, expensiveUsed, w)
  | some s =>
    match s.PickWithBudget role model expensiveUsed with
    | .error _ => (model, expensiveUsed, r.recordFailure role model w)
    | .ok pk =>
      if pk.route.Name = [] then (model, expensiveUsed, w)
      else
        (pk.route.Name, (if pk.isExp then expensiveUsed + 1 else expensiveUsed),
          r.recordUsage role pk.route.Name w)

/-- The loop of `pickFallbackModel`, `for fb := NextFallback(current); fb != ""; fb =
NextFallback(fb)`, with the set `tried`.  The source loop has no bound; `fuel` bounds the
number of iterations and `none` is returned when it runs out. -/
def pickFallbackLoop (r : AgentRunner) (s : StrategyEngine) (role current : Str) :
    Nat → Str → List Str → Int → World → Option (Str × Int × World)
  | 0, fb, _, eu, w => if fb = [] then some ([], eu, w) else none
  | n + 1, fb, tried, eu, w =>
    if fb = [] then some ([], eu, w)
    else if fb ∈ tried then
      pickFallbackLoop r s role current n (s.NextFallback fb) tried eu w
    else
      match s.PickWithBudget role fb eu with
      | .error _ =>
        pickFallbackLoop r s role current n (s.NextFallback fb) (fb :: tried) eu
          (r.recordFailure role fb w)
      | .ok pk =>
        if pk.route.Name = [] ∨ pk.route.Name = current then
          pickFallbackLoop r s role current n (s.NextFallback fb) (fb :: tried) eu w
        else
          some (pk.route.Name, (if pk.isExp then eu + 1 else eu),
            r.recordUsage role pk.route.Name w)

/-- `AgentRunner.pickFallbackModel`: the fallback model (empty when there is none), the
updated count of expensive uses and the world; `none` when the loop does not end within the
fuel. -/
def AgentRunner.pickFallbackModel (r : AgentRunner) (fuel : Nat) (role current : Str)
    (expensiveUsed : Int) (w : World) : Option (Str × Int × World) :=
  match r.Strategy with
  | none => some ([], expensiveUsed, w)
  | some s =>
    pickFallbackLoop r s role current fuel (s.NextFallback current)
      (if current ≠ [] then [current] else []) expensiveUsed w

/-- What the runner observed of its collaborators during a run, in order: the outcome of the
context assembly, the start of a step, a poll of the context at the start of a step, the
branch taken by the `select` of a token, the outcome of a tool call, a tool call that
dereferenced a nil tool instance, the outcome of a planner, coder (with the done detection
of its response) or critic call, the blocking decision on a critique, and a fallback selection
that did not end. -/
inductive Obs where
  | contextBuilt (ok : Bool)
  | stepStart (step : Int)
  | ctxPoll (cancelled : Bool)
  | tokenSelect (cancelled : Bool)
  | toolCall (name : Str) (ok : Bool)
  | toolPanic (name : Str)
  | planCall (ok : Bool)
  | coderCall (ok : Bool) (done : Bool)
  | criticCall (ok : Bool)
  | critique (blocks : Bool)
  | fallbackHung
  deriving DecidableEq, Repr

/-- The pattern that `Run` applies to the planner, the coder and the critic call: on an
error of the call with `model` a failure is recorded and a fallback model is picked; with a
fallback the call is made once more; when the last call made failed, a failure is recorded
for its model and the error is returned.  Every call made is noted in the trace; the result is
`none` when the fallback selection does not end. -/
def AgentRunner.callWithFallback {α : Type} (r : AgentRunner) (fuel : Nat) (role model : Str)
    (expensiveUsed : Int) (call : Str → World → Except Str α × World)
    (note : Except Str α → Obs) (w : World) :
    List Obs × Option (Except Str α × Int × World) :=
  match call model w with
  | (.ok a, w) => ([note (.ok a)], some (.ok a, expensiveUsed, w))
  | (.error e, w) =>
    match r.pickFallbackModel fuel role model expensiveUsed (r.recordFailure role model w) with
    | none => ([note (.error e), Obs.fallbackHung], none)
    | some (fb, eu, w) =>
      if fb ≠ [] then
        match call fb w with
        | (.ok a, w) => ([note (.error e), note (.ok a)], some (.ok a, eu, w))
        | (.error e2, w) =>
          ([note (.error e), note (.error e2)], some (.error e2, eu, r.recordFailure role fb w))
      else ([note (.error e)], some (.error e, eu, r.recordFailure role model w))

/-! ### The event stream -/

/-- How the producer goroutine of `Run` ended: it returned (and closed the channel), a tool
call dereferenced a nil tool instance, or the fallback selection did not end. -/
inductive Halt where
  | returned
  | panicked
  | hung
  deriving DecidableEq, Repr

/-- What a part of `Run` leads to: the rest of the function, with a value, or the end of the
goroutine. -/
inductive Flow (α : Type) where
  | next (a : α)
  | halt (h : Halt)

/-- The events a part of `Run` sent on the channel, what it observed, the state it left and
how it went on. -/
structure Out (α : Type) where
  events : List RunTaskEvent
  trace : List Obs
  world : World
  flow : Flow α

/-- Sequencing of two parts of `Run`. -/
def Out.bind {α β : Type} (o : Out α) (f : α → World → Out β) : Out β :=
  match o.flow with
  | .halt h => ⟨o.events, o.trace, o.world, .halt h⟩
  | .next a =>
    ⟨o.events ++ (f a o.world).events, o.trace ++ (f a o.world).trace, (f a o.world).world,
      (f a o.world).flow⟩

/-- The whole output of `Run`: the events sent, what was observed, the final state and how
the goroutine ended. -/
structure RunResult where
  events : List RunTaskEvent
  trace : List Obs
  world : World
  halt : Halt

/-- An `error` event. -/
def errorEvent (sid corr msg : Str) : RunTaskEvent :=
  { Kind := "error".toList, SessionID := sid, CorrelationID := corr, Error := msg }

/-- The loop over tool calls, pre-task or emitted by the model: each call is executed and
reported by a `tool` event; the first failing call is reported with its error and ends the
run. -/
def runTools (env : Env) (reg : ToolRegistry) (sid corr : Str) :
    List ToolCall → List ToolObservation → World → Out (List ToolObservation)
  | [], obs, w => ⟨[], [], w, .next obs⟩
  | tc :: tcs, obs, w =>
    match executeTool env (some reg) tc w with
    | (.panic, w) => ⟨[], [Obs.toolPanic tc.Name], w, .halt .panicked⟩
    | (.fail _ e, w) =>
      ⟨[{ Kind := "tool".toList, SessionID := sid, CorrelationID := corr, ToolName := tc.Name,
          ToolOutput := e, Error := e }], [Obs.toolCall tc.Name false], w, .halt .returned⟩
    | (.ok output, w) =>
      let rest := runTools env reg sid corr tcs (obs ++ [{ Name := tc.Name, Output := output }]) w
      ⟨{ Kind := "tool".toList, SessionID := sid, CorrelationID := corr, ToolName := tc.Name,
         ToolOutput := output } :: rest.events, Obs.toolCall tc.Name true :: rest.trace,
        rest.world, rest.flow⟩

/-- The token loop of a step: each word is sent by a `select` against `ctx.Done()`; when the
cancellation branch is taken an `error` event is sent and the run ends. -/
def emitTokens (env : Env) (sid corr : Str) (step : Int) :
    List Str → Nat → World → Out Unit
  | [], _, w => ⟨[], [], w, .next ()⟩
  | token :: rest, idx, w =>
    if env.selectDone w.tick then
      ⟨[errorEvent sid corr "cancelled".toList], [Obs.tokenSelect true], w.advance,
        .halt .returned⟩
    else
      let o := emitTokens env sid corr step rest (idx + 1) w.advance
      ⟨{ Kind := "token".toList, SessionID := sid, CorrelationID := corr, Token := token,
         Step := step * 1000 + idx } :: o.events, Obs.tokenSelect false :: o.trace, o.world,
        o.flow⟩

/-- The note of a planner call. -/
def notePlan (res : Except Str Str) : Obs :=
  match res with
  | .ok _ => Obs.planCall true
  | .error _ => Obs.planCall false

/-- The note of a coder call. -/
def noteCoder (res : Except Str Response) : Obs :=
  match res with
  | .ok resp => Obs.coderCall true (isResponseDone resp)
  | .error _ => Obs.coderCall false false

/-- The note of a critic call. -/
def noteCritic (res : Except Str Str) : Obs :=
  match res with
  | .ok _ => Obs.criticCall true
  | .error _ => Obs.criticCall false

/-- The planning part of `Run`: the value passed on is the count of expensive uses. -/
def AgentRunner.planPhase (r : AgentRunner) (a : Animus.Agent) (env : Env) (fuel : Nat)
    (req : RunTaskRequest) (corr : Str) (ctxFiles : List ContextFile) (expensiveUsed : Int)
    (w : World) : Out Int :=
  if a.PlanningEnabled then
    match r.selectModel "planner".toList (firstNonEmpty [req.PlannerModel, req.Model])
        expensiveUsed w with
    | (planModel, eu, w) =>
      match r.callWithFallback fuel "planner".toList planModel eu
          (fun m w => a.Plan env
            { SessionID := req.SessionID, Model := m, Prompt := req.Prompt, Context := ctxFiles }
            w) notePlan w with
      | (tr, none) => ⟨[], tr, w, .halt .hung⟩
      | (tr, some (.error e, _, w)) =>
        ⟨[errorEvent req.SessionID corr e], tr, w, .halt .returned⟩
      | (tr, some (.ok plan, eu, w)) =>
        ⟨(if TrimSpace plan ≠ [] then
            [{ Kind := "plan".toList, SessionID := req.SessionID, CorrelationID := corr,
               Message := plan }]
          else []), tr, w, .next eu⟩
  else ⟨[], [], w, .next expensiveUsed⟩

/-- The test part of a step: when the step is done and test runs are enabled, the tests are
run and reported by one `test` event. -/
def AgentRunner.testPhase (r : AgentRunner) (a : Animus.Agent) (env : Env) (sid corr : Str)
    (step : Int) (done : Bool) (w : World) : Out (Option TestObservation) :=
  if done && a.TestRunEnabled then
    match r.runTests env a.TestCommand a.TestRetries a.TestTimeoutSeconds w with
    | (run, w) =>
      let parsed := parseTestOutput run.output
      ⟨[{ Kind := "test".toList, SessionID := sid, CorrelationID := corr, Message := run.output,
          Step := step, ExitCode := run.exitCode, TestSummary := parsed.1,
          TestAttempts := run.attempts, Error := run.err.getD [], FailingTests := parsed.2 }],
        [], w,
        .next (some { Command := a.TestCommand, Output := run.output, ExitCode := run.exitCode,
                      Summary := parsed.1, Failing := parsed.2, Attempts := run.attempts,
                      Error := run.err.getD [] })⟩
  else ⟨[], [], w, .next none⟩

/-- What the reflection part of a step passes on: the done flag, the forced finish reason and
the count of expensive uses. -/
structure ReflectOut where
  done : Bool
  forcedFinish : Str
  expensiveUsed : Int

/-- The reflection part of a step. -/
def AgentRunner.reflectPhase (r : AgentRunner) (a : Animus.Agent) (js : JsonCodec) (env : Env)
    (fuel : Nat) (req : RunTaskRequest) (corr : Str) (step : Int) (resp : Response)
    (stepTools : List ToolObservation) (testObs : Option TestObservation) (done : Bool)
    (expensiveUsed : Int) (w : World) : Out ReflectOut :=
  if a.ReflectionEnabled then
    let selfDiff :=
      if a.EnableSelfDiff then computeSelfDiff resp.PreviousAssistant resp.Message.Content
      else []
    match r.selectModel "critic".toList (firstNonEmpty [req.CriticModel, req.Model])
        expensiveUsed w with
    | (criticModel, eu, w) =>
      match r.callWithFallback fuel "critic".toList criticModel eu
          (fun m w => a.Reflect env { SessionID := req.SessionID, Model := m, Prompt := req.Prompt }
            resp { Tools := stepTools, Test := testObs, SelfDiff := selfDiff } w)
          noteCritic w with
      | (tr, none) => ⟨[], tr, w, .halt .hung⟩
      | (tr, some (.error e, _, w)) =>
        ⟨[errorEvent req.SessionID corr e], tr, w, .halt .returned⟩
      | (tr, some (.ok reflection, eu, w)) =>
        if TrimSpace reflection ≠ [] then
          let critique := parseCritique js reflection
          let blocks := critiqueBlocksApply critique && shouldBlockOnCritique a.ReflectionPolicy
          ⟨[{ Kind := "reflect".toList, SessionID := req.SessionID, CorrelationID := corr,
              Message := reflection, Critique := critique, Step := step }],
            tr ++ [Obs.critique blocks], w,
            .next ⟨done || blocks, (if blocks then "blocked_by_reflect".toList else []), eu⟩⟩
        else ⟨[], tr, w, .next ⟨done, [], eu⟩⟩
  else ⟨[], [], w, .next ⟨done, [], expensiveUsed⟩⟩

/-- The variables of `Run` that live across steps: the observations of the pre-task tools
(handed to the first step), the count of expensive uses and the token count. -/
structure LoopState where
  initialTools : List ToolObservation
  expensiveUsed : Int
  tokenCount : Int

/-- The coder call of a step, after the poll of the context: model selection and the call
with one fallback.  The value passed on is the response and the count of expensive uses. -/
def AgentRunner.coderPhase (r : AgentRunner) (a : Animus.Agent) (env : Env) (fuel : Nat)
    (req : RunTaskRequest) (corr : Str) (ctxFiles : List ContextFile) (expensiveUsed : Int)
    (w : World) : Out (Response × Int) :=
  match r.selectModel "coder".toList (firstNonEmpty [req.Model]) expensiveUsed w with
  | (modelOverride, eu, w) =>
    match r.callWithFallback fuel "coder".toList modelOverride eu
        (fun m w => a.Run env
          { SessionID := req.SessionID, Model := m, Prompt := req.Prompt, Context := ctxFiles }
          w) noteCoder w with
    | (tr, none) => ⟨[], tr, w, .halt .hung⟩
    | (tr, some (.error e, _, w)) => ⟨[errorEvent req.SessionID corr e], tr, w, .halt .returned⟩
    | (tr, some (.ok resp, eu, w)) => ⟨[], tr, w, .next (resp, eu)⟩

/-- The end of a step: when the step is done, the `done` event (after the message that
announces a forced finish) and the end of the run; otherwise the state of the next step. -/
def AgentRunner.finishStep (r : AgentRunner) (req : RunTaskRequest) (corr : Str) (step : Int)
    (resp : Response) (tokenCount : Int) (ro : ReflectOut) (w : World) : Out LoopState :=
  if ro.done then
    let finishReason := if ro.forcedFinish ≠ [] then ro.forcedFinish else resp.FinishReason
    ⟨(if ro.forcedFinish ≠ [] then
        [({ Kind := "message".toList, SessionID := req.SessionID, CorrelationID := corr,
            Message := "Run halted by reflection policy (".toList ++ finishReason ++ [')'],
            Step := step } : RunTaskEvent)]
      else []) ++
      [({ Kind := "done".toList, SessionID := req.SessionID, CorrelationID := corr,
          Done := true, FinishReason := finishReason, Step := step } : RunTaskEvent)],
      [], r.recordRun finishReason tokenCount w, .halt .returned⟩
  else
    ⟨[], [], w, .next { initialTools := [], expensiveUsed := ro.expensiveUsed,
                        tokenCount := tokenCount }⟩

/-- One iteration of the step loop of `Run`. -/
def AgentRunner.runStep (r : AgentRunner) (a : Animus.Agent) (js : JsonCodec) (env : Env)
    (fuel : Nat) (req : RunTaskRequest) (corr : Str) (ctxFiles : List ContextFile) (step : Int)
    (st : LoopState) (w : World) : Out LoopState :=
  if env.ctxErr w.tick then
    ⟨[errorEvent req.SessionID corr "cancelled".toList], [Obs.stepStart step, Obs.ctxPoll true],
      w.advance, .halt .returned⟩
  else
    (Out.mk [] [Obs.stepStart step, Obs.ctxPoll false] w.advance (.next ())).bind
    fun _ w => (r.coderPhase a env fuel req corr ctxFiles st.expensiveUsed w).bind
    fun re w =>
      (Out.mk [{ Kind := "message".toList, SessionID := req.SessionID, CorrelationID := corr,
                 Message := re.1.Message.Content, Step := step }] [] w (.next ())).bind
    fun _ w =>
      (emitTokens env req.SessionID corr step (Fields re.1.Message.Content) 0 w).bind
    fun _ w =>
      (match r.Tools with
       | some reg =>
         runTools env reg req.SessionID corr (extractToolCalls js re.1.Message.Content)
           st.initialTools w
       | none => ⟨[], [], w, .next st.initialTools⟩).bind
    fun stepTools w =>
      (r.testPhase a env req.SessionID corr step (isResponseDone re.1) w).bind
    fun testObs w =>
      (r.reflectPhase a js env fuel req corr step re.1 stepTools testObs
        (isResponseDone re.1) re.2 w).bind
    fun ro w =>
      r.finishStep req corr step re.1
        (st.tokenCount + (Fields re.1.Message.Content).length) ro w

/-- The step loop of `Run`, `for step := 1; step <= maxSteps; step++`: `n` is the number of
iterations still allowed by the loop condition.  After the loop the `done` event with finish
reason `max_steps` is sent. -/
def AgentRunner.stepLoop (r : AgentRunner) (a : Animus.Agent) (js : JsonCodec) (env : Env)
    (fuel : Nat) (req : RunTaskRequest) (corr : Str) (ctxFiles : List ContextFile) :
    Nat → Int → LoopState → World → RunResult
  | 0, _, st, w =>
    ⟨[{ Kind := "done".toList, SessionID := req.SessionID, CorrelationID := corr, Done := true,
        FinishReason := "max_steps".toList, Step := a.MaxSteps }], [],
      r.recordRun "max_steps".toList st.tokenCount w, .returned⟩
  | n + 1, step, st, w =>
    match r.runStep a js env fuel req corr ctxFiles step st w with
    | ⟨evs, tr, w, .halt h⟩ => ⟨evs, tr, w, h⟩
    | ⟨evs, tr, w, .next st⟩ =>
      let rest := AgentRunner.stepLoop r a js env fuel req corr ctxFiles n (step + 1) st w
      ⟨evs ++ rest.events, tr ++ rest.trace, rest.world, rest.halt⟩

/-- The pre-task tool calls of `Run`: executed when there are any and a tool registry is
present. -/
def AgentRunner.preTools (r : AgentRunner) (env : Env) (req : RunTaskRequest) (corr : Str)
    (w : World) : Out (List ToolObservation) :=
  match r.Tools with
  | some reg =>
    if !req.Tools.isEmpty then runTools env reg req.SessionID corr req.Tools [] w
    else ⟨[], [], w, .next []⟩
  | none => ⟨[], [], w, .next []⟩

/-- `AgentRunner.Run`: the events the producer goroutine sends on the channel, in order,
assuming the consumer drains the channel. -/
def AgentRunner.Run (r : AgentRunner) (js : JsonCodec) (env : Env) (fuel : Nat)
    (req : RunTaskRequest) (w : World) : RunResult :=
  let corr := if req.CorrelationID = [] then req.SessionID else req.CorrelationID
  match r.Agent with
  | none => ⟨[errorEvent req.SessionID corr "agent unavailable".toList], [], w, .returned⟩
  | some a =>
    match buildContextFiles r.Tools env req.Prompt req.ContextPaths a.MaxContextBytes w with
    | (.error e, w) =>
      ⟨[errorEvent req.SessionID corr e], [Obs.contextBuilt false], w, .returned⟩
    | (.ok ctxFiles, w) =>
      match r.preTools env req corr w with
      | ⟨evs, tr, w, .halt h⟩ => ⟨evs, Obs.contextBuilt true :: tr, w, h⟩
      | ⟨evs1, tr1, w, .next initialTools⟩ =>
        match r.planPhase a env fuel req corr ctxFiles 0 w with
        | ⟨evs2, tr2, w, .halt h⟩ => ⟨evs1 ++ evs2, Obs.contextBuilt true :: (tr1 ++ tr2), w, h⟩
        | ⟨evs2, tr2, w, .next eu⟩ =>
          let res := r.stepLoop a js env fuel req corr ctxFiles a.MaxSteps.toNat 1
            { initialTools := initialTools, expensiveUsed := eu, tokenCount := 0 } w
          ⟨evs1 ++ evs2 ++ res.events, Obs.contextBuilt true :: (tr1 ++ tr2 ++ res.trace),
            res.world, res.halt⟩

/-- Whether an event is terminal: its type is `done` or `error`. -/
def RunTaskEvent.isTerminal (e : RunTaskEvent) : Bool :=
  e.Kind = "done".toList || e.Kind = "error".toList

/-- The types of a list of events. -/
def kinds (evs : List RunTaskEvent) : List Str := evs.map (·.Kind)

/-- The step numbers of the loop iterations entered, read off the trace. -/
def stepsOf (trace : List Obs) : List Int :=
  trace.filterMap (fun o =>
    match o with
    | Obs.stepStart n => some n
    | _ => none)

/-! ### Shape of the event stream -/

/-- No event of the list is terminal. -/
def NoTerminal (evs : List RunTaskEvent) : Prop := ∀ e ∈ evs, e.isTerminal = false

/-- No tool call of the trace failed. -/
def NoToolFailure (trace : List Obs) : Prop := ∀ name, Obs.toolCall name false ∉ trace

/-- The shape of the events of a run that ended with `h`, given its trace.  When the
goroutine returned, the events are some non-terminal events followed by a last event, which
is terminal when no tool call failed and otherwise is a `tool` event; when the goroutine did
not return, no event is terminal. -/
def EndsWell (events : List RunTaskEvent) (trace : List Obs) (h : Halt) : Prop :=
  match h with
  | .returned =>
    ∃ pre e, events = pre ++ [e] ∧ NoTerminal pre ∧
      ((e.isTerminal = true ∧ NoToolFailure trace) ∨
       (e.Kind = "tool".toList ∧ ∃ name, Obs.toolCall name false ∈ trace))
  | _ => NoTerminal events

/-- The shape of the output of a part of `Run`: a part that goes on has sent no terminal event
and seen no tool failure; a part that ends the goroutine leaves the events in the shape
`EndsWell`. -/
def GoodOut {α : Type} (o : Out α) : Prop :=
  match o.flow with
  | .next _ => NoTerminal o.events ∧ NoToolFailure o.trace
  | .halt h => EndsWell o.events o.trace h

/-! ### Concrete runs -/

/-- A registry with the single model `default` served by the given provider. -/
def exRegistryOf (p : Provider) : Registry :=
  (({} : Registry).RegisterProvider "mock".toList p).RegisterModel "default".toList
    { Provider := "mock".toList, Model := "m".toList } true

/-- The provider of `newTestAgent`: every call returns `ok [done]` with finish reason
`stop`. -/
def exDoneProvider : Provider :=
  ⟨"mock".toList, fun _ _ =>
    .ok { Message := ⟨Role.assistant, "ok [done]".toList⟩, FinishReason := "stop".toList }⟩

/-- The provider of `TestAgentRunnerRespectsMaxSteps`: every call returns `loop` with an
empty finish reason. -/
def exLoopProvider : Provider :=
  ⟨"mock".toList, fun _ _ => .ok { Message := ⟨Role.assistant, "loop".toList⟩ }⟩

/-- The runner of `TestAgentRunnerStopsOnDone`, with a file system tool rooted at
`/srv/ws`. -/
def exDoneRunner : AgentRunner :=
  { Agent := some ⟨exRegistryOf exDoneProvider, { MaxSteps := 2 }⟩, Tools := some exFsRegistry }

/-- The runner of `TestAgentRunnerRespectsMaxSteps`. -/
def exLoopRunner : AgentRunner :=
  { Agent := some ⟨exRegistryOf exLoopProvider, { MaxSteps := 2 }⟩ }

/-- A request with one pre-task tool call that reads a file outside the workspace. -/
def exEscapeRequest : RunTaskRequest :=
  { SessionID := "s1".toList, Prompt := "p".toList,
    Tools := [{ Name := "fs.read_file".toList,
                Args := [("path".toList, JVal.str "../etc/passwd".toList)] }] }

/-! ### Smooth runs -/

/-- An observation under which a run goes on: the context assembly, planner and critic calls
succeed, a coder call succeeds with a response that is not done, a tool call succeeds, a
critique does not block, the context is not cancelled. -/
def Obs.smooth : Obs → Bool
  | .contextBuilt ok => ok
  | .stepStart _ => true
  | .ctxPoll cancelled => !cancelled
  | .tokenSelect cancelled => !cancelled
  | .toolCall _ ok => ok
  | .toolPanic _ => false
  | .planCall ok => ok
  | .coderCall ok done => ok && !done
  | .criticCall ok => ok
  | .critique blocks => !blocks
  | .fallbackHung => false

/-- The conditions on a run that the step bound is stated under, word for word: every coder
call succeeds with a response that is not done, no tool call fails, reflection does not block
and the context is never cancelled.  Nothing is asked of the context assembly, of the planner
calls or of the critic calls. -/
def Obs.smoothAsStated : Obs → Bool
  | .ctxPoll cancelled => !cancelled
  | .tokenSelect cancelled => !cancelled
  | .toolCall _ ok => ok
  | .toolPanic _ => false
  | .coderCall ok done => ok && !done
  | .critique blocks => !blocks
  | _ => true

/-- Every observation of the trace is smooth. -/
def Smooth (trace : List Obs) : Prop := ∀ o ∈ trace, o.smooth = true

/-- The step numbers `step, step + 1, ...` of `n` consecutive iterations. -/
def stepRange : Nat → Int → List Int
  | 0, _ => []
  | n + 1, step => step :: stepRange n (step + 1)

/-- A provider that answers every call with an empty assistant message and an empty finish
reason, behind an agent with reflection enabled and at most two steps. -/
def exBlankReflectRunner : AgentRunner :=
  { Agent := some ⟨exBlankRegistry, { MaxSteps := 2, EnableReflect := true }⟩ }

/-! ### Rejected runs -/

/-- The way a part of `Run` ends when the agent rejects the prompt: no provider call is made,
and either a single `error` event is sent and the goroutine returns, or nothing is sent and
the fallback selection does not end. -/
def FailsFast {α : Type} (o : Out α) (w : World) : Prop :=
  o.world.chatLog = w.chatLog ∧
  ((∃ e, o.events = [e] ∧ e.Kind = "error".toList ∧ o.flow = .halt .returned) ∨
   (o.events = [] ∧ o.flow = .halt .hung))

/-- A runner with a writable file system tool rooted at `/srv/ws`, over the provider that
always answers `loop`. -/
def exWriteRunner : AgentRunner :=
  { Agent := some ⟨exRegistryOf exLoopProvider, { MaxSteps := 2 }⟩,
    Tools := some { FS := some { guard := exGuard, allowWrite := true } } }

/-- A request with an empty prompt and one pre-task tool call that writes a file. -/
def exEmptyPromptRequest : RunTaskRequest :=
  { SessionID := "s1".toList, Prompt := [],
    Tools := [{ Name := "fs.write_file".toList,
                Args := [("path".toList, JVal.str "a.txt".toList),
                         ("content".toList, JVal.str "hello".toList)] }] }

/-! ### A strategy whose fallbacks resolve to the current model -/

/-- A strategy engine over the registry with the single model `default`, with two fallback
names that are not registered. -/
def exHangStrategy : StrategyEngine :=
  ⟨some (exRegistryOf exLoopProvider), { Fallbacks := ["x".toList, "y".toList] }⟩

/-- The runner of `TestAgentRunnerRespectsMaxSteps` with the strategy engine
`exHangStrategy`. -/
def exHangRunner : AgentRunner :=
  { Agent := some ⟨exRegistryOf exLoopProvider, { MaxSteps := 2 }⟩,
    Strategy := some exHangStrategy }

/-! ### Concrete agents for the session history -/

/-- The provider of `TestAgentUsesRegistryAndHistory`: the first call returns `first`, every
later call `second`. -/
def exHistoryProvider : Provider :=
  ⟨"mock".toList, fun tick _ =>
    .ok { Message := ⟨Role.assistant, if tick = 0 then "first".toList else "second".toList⟩ }⟩

/-- The agent of `TestAgentUsesRegistryAndHistory`. -/
def exHistoryAgent : Agent := ⟨exRegistryOf exHistoryProvider, { MaxSteps := 4 }⟩

/-- The provider of `TestAgentReflectionFeedsNextRun`: the answers `made change`,
`reflect: add tests` and then `final`. -/
def exReflectProvider : Provider :=
  ⟨"mock".toList, fun tick _ =>
    .ok { Message := ⟨Role.assistant,
      if tick = 0 then "made change".toList
      else if tick = 1 then "reflect: add tests".toList else "final".toList⟩ }⟩

/-- The agent of `TestAgentReflectionFeedsNextRun`. -/
def exReflectAgent : Agent := ⟨exRegistryOf exReflectProvider, { EnableReflect := true }⟩

/-! ### Comparison ignoring case -/

/-- A string contains a literal compared case-insensitively: some substring of it equals the
literal once the basic Latin letters of both are lowered. -/
def ContainsIgnoringCase (s lit : Str) : Prop :=
  ∃ pre mid suf : Str, s = pre ++ mid ++ suf ∧ mid.map Char.toLower = lit.map Char.toLower

/-! ### Runs halted by the reflection policy -/

/-- Whether an event is a `reflect` event whose critique blocks under a policy. -/
def RunTaskEvent.blocksUnder (policy : Str) (e : RunTaskEvent) : Bool :=
  decide (e.Kind = "reflect".toList) &&
    (critiqueBlocksApply e.Critique && shouldBlockOnCritique policy)

/-- No event of the list is a blocking `reflect` event. -/
def NoBlock (policy : Str) (evs : List RunTaskEvent) : Prop :=
  ∀ e ∈ evs, e.blocksUnder policy = false

/-- The events end with a blocking `reflect` event followed by the message that announces the
halt and the `done` event with finish reason `blocked_by_reflect`, both with the step of the
`reflect` event; no earlier event is a blocking `reflect` event, and the blocking decision is
the last observation of the trace. -/
def BlockedTail (policy : Str) (events : List RunTaskEvent) (trace : List Obs) : Prop :=
  ∃ (pre : List RunTaskEvent) (e m d : RunTaskEvent) (tr : List Obs),
    events = pre ++ [e, m, d] ∧ NoBlock policy pre ∧ e.blocksUnder policy = true ∧
    m.Kind = "message".toList ∧
    m.Message = "Run halted by reflection policy (blocked_by_reflect)".toList ∧
    m.Step = e.Step ∧
    d.Kind = "done".toList ∧ d.FinishReason = "blocked_by_reflect".toList ∧ d.Step = e.Step ∧
    d.Done = true ∧ trace = tr ++ [Obs.critique true]

/-- The shape of the output of a part of `Run` with respect to blocking critiques: a part
that goes on has sent no blocking `reflect` event; a part that ends the goroutine has sent
none, or it returned with the events in the shape `BlockedTail`. -/
def ReflectShape {α : Type} (policy : Str) (o : Out α) : Prop :=
  match o.flow with
  | .next _ => NoBlock policy o.events
  | .halt h => NoBlock policy o.events ∨ (h = .returned ∧ BlockedTail policy o.events o.trace)

/-- The provider of `TestAgentRunnerBlocksOnCritique`, with a coder answer that is not done:
a call whose first message reads `reflection` after `You are MyCodex ` gets a critique with
`block_apply` true,
every other call gets `working` with an empty finish reason. -/
def exCriticProvider : Provider :=
  ⟨"mock".toList, fun _ req =>
    if HasPrefix (((req.Messages.head?.map (·.Content)).getD []).drop 16)
        "reflection".toList then
      .ok { Message := ⟨Role.assistant, exBlockJson⟩ }
    else .ok { Message := ⟨Role.assistant, "working".toList⟩ }⟩

/-- The runner of `TestAgentRunnerBlocksOnCritique`: two steps at most, reflection enabled,
the default policy. -/
def exCriticRunner : AgentRunner :=
  { Agent := some ⟨exRegistryOf exCriticProvider, { MaxSteps := 2, EnableReflect := true }⟩ }

/-! ### Runs on a cancelled context -/

/-- A world whose execution context is cancelled from the start: `ctx.Err()` is always
non-nil and every `select` takes the `ctx.Done()` branch. -/
def exCancelledEnv : Env := { ctxErr := fun _ => true, selectDone := fun _ => true }

/-- A request with the prompt `p` and one pre-task tool call that writes a file. -/
def exToolRequest : RunTaskRequest :=
  { SessionID := "s1".toList, Prompt := "p".toList,
    Tools := [{ Name := "fs.write_file".toList,
                Args := [("path".toList, JVal.str "a.txt".toList),
                         ("content".toList, JVal.str "hello".toList)] }] }

/-- The runner of `TestAgentRunnerRespectsMaxSteps` with planning enabled. -/
def exPlanLoopRunner : AgentRunner :=
  { Agent := some ⟨exRegistryOf exLoopProvider, { MaxSteps := 2, EnablePlan := true }⟩ }

/-! ### Token events -/

/-- The `token` events of the words `toks` of a step, the first with index `idx`: each carries
its word and the step key `step * 1000 + index`. -/
def tokenEventsFrom (sid corr : Str) (step : Int) : Nat → List Str → List RunTaskEvent
  | _, [] => []
  | idx, tok :: rest =>
    { Kind := "token".toList, SessionID := sid, CorrelationID := corr, Token := tok,
      Step := step * 1000 + idx } :: tokenEventsFrom sid corr step (idx + 1) rest

/-- The step keys of the `token` events of a list of events, in order. -/
def tokenKeys (evs : List RunTaskEvent) : List Int :=
  (evs.filter (fun e => decide (e.Kind = "token".toList))).map (·.Step)

/-- No event of the list is a `token` event. -/
def NoToken (evs : List RunTaskEvent) : Prop := ∀ e ∈ evs, e.Kind ≠ "token".toList

/-- An assistant content of 1001 words `w`. -/
def exWordyContent : Str := (List.replicate 1001 "w ".toList).flatten

/-- A provider that answers every call with the 1001 words of `exWordyContent` and an empty
finish reason. -/
def exWordyProvider : Provider :=
  ⟨"mock".toList, fun _ _ => .ok { Message := ⟨Role.assistant, exWordyContent⟩ }⟩

/-- A runner over `exWordyProvider` with at most two steps, without tools, strategy, planning,
tests or reflection. -/
def exWordyRunner : AgentRunner :=
  { Agent := some ⟨exRegistryOf exWordyProvider, { MaxSteps := 2 }⟩ }

/-! ### The closed tool set -/

/-- The tool names handled by the `switch` of `ValidateCall`; every other name reaches its
`default` branch. -/
def knownTools : List Str :=
  ["fs.read_file".toList, "fs.write_file".toList, "fs.search".toList, "terminal.exec".toList,
   "git.apply_patch".toList, "git.status".toList, "git.restore_backup".toList,
   "git.list_backups".toList, "git.preview_backup".toList, "semantic.search".toList]

/-- Whether an argument value has the type a schema field declares: a string for `string`,
a bool for `boolean`, a list for `array`, a number for `integer`. -/
def JVal.hasType (kind : Str) (v : JVal) : Bool :=
  match v with
  | JVal.str _ => kind = "string".toList
  | JVal.bool _ => kind = "boolean".toList
  | JVal.arr _ => kind = "array".toList
  | JVal.num _ => kind = "integer".toList
  | JVal.int _ => kind = "integer".toList
  | _ => false

/-- `ValidateCall` on a registry pointer, `none` being the nil pointer. -/
def ValidateCallOn (reg : Option ToolRegistry) (name : Str) (args : List (Str × JVal)) :
    Check :=
  match reg with
  | none => .err "tool registry unavailable".toList
  | some r => ValidateCall r name args

/-! ### Patch backups (`internal/tools/patch_stack.go`, `internal/tools/git.go`) -/

/-- `PatchEntry`: a single backup with lineage; `CreatedAt` is carried in nanoseconds. -/
structure PatchEntry where
  ID : Str := []
  ParentID : Str := []
  FileName : Str := []
  CreatedAt : Int := 0
  deriving DecidableEq

/-- `patchStack`: the backups of a tool, the oldest first. -/
structure patchStack where
  Entries : List PatchEntry := []
  deriving DecidableEq

/-- `patchStack.latest`: the last entry, `none` for the nil pointer of an empty stack. -/
def patchStack.latest (s : patchStack) : Option PatchEntry := s.Entries.getLast?

/-- What reading and decoding a `stack.json` gives: the file does not exist, it cannot be
read or decoded, or it decodes to a stack. -/
inductive StackFile where
  | missing
  | unreadable (err : Str)
  | holds (s : patchStack)
  deriving DecidableEq

/-- The behaviour of the operating system and of git as seen by the git tool, by the time of
the observation. -/
structure GitEnv where
  /-- `os.MkdirAll` on a directory: the error, if any. -/
  osMkdirAll : Nat → Str → Option Str := fun _ _ => none
  /-- `time.Now()` in nanoseconds. -/
  unixNano : Nat → Int := fun t => t
  /-- `os.WriteFile` of a patch file: the error, if any. -/
  osWriteFile : Nat → Str → Str → Option Str := fun _ _ _ => none
  /-- Failure of `patchStack.save` (creation of the directory, encoding, writing): the error
  and what the file holds afterwards; `none` when the stack is saved. -/
  saveFailure : Nat → Str → Option (Str × StackFile) := fun _ _ => none
  /-- `os.ReadFile` of a backup file. -/
  osReadFile : Nat → Str → Except Str Str := fun _ _ => .error "no such file".toList
  /-- A run of git in a directory with arguments and input: on success the standard output,
  on failure the standard error and the error. -/
  runGit : Nat → Str → List Str → Str → Str × Option Str := fun _ _ _ _ => ([], none)

/-- The state of a git tool and of the files it keeps: the clock, the field `stack` of the
tool (`none` for nil) and what each `stack.json` path holds. -/
structure GitState where
  tick : Nat := 0
  stack : Option patchStack := none
  disk : Str → StackFile := fun _ => StackFile.missing

/-- The clock after one observation. -/
def GitState.advance (st : GitState) : GitState := { st with tick := st.tick + 1 }

/-- `loadPatchStack`: an empty stack when the file does not exist. -/
def loadPatchStack (disk : Str → StackFile) (path : Str) : Except Str patchStack :=
  match disk path with
  | StackFile.missing => .ok {}
  | StackFile.unreadable e => .error e
  | StackFile.holds s => .ok s

/-- `patchStack.save`: the stack is written to the file unless the save fails. -/
def patchStack.save (s : patchStack) (env : GitEnv) (path : Str) (st : GitState) :
    Option Str × GitState :=
  match env.saveFailure st.tick path with
  | some (e, left) =>
    (some e, { st.advance with disk := fun p => if p = path then left else st.disk p })
  | none =>
    (none, { st.advance with
             disk := fun p => if p = path then StackFile.holds s else st.disk p })

/-- `GitTool.runWithInput`. -/
def GitTool.runWithInput (g : GitTool) (env : GitEnv) (args : List Str) (input : Str)
    (st : GitState) : (Str × Option Str) × GitState :=
  (env.runGit st.tick g.WorkingDir args input, st.advance)

/-- `GitTool.createBackup`: the error, if any, and the state afterwards. -/
def GitTool.createBackup (g : GitTool) (env : GitEnv) (patch : Str) (st : GitState) :
    Option Str × GitState :=
  let targetDir := if g.BackupDir = [] then ".mycodex/patch-backups".toList else g.BackupDir
  match env.osMkdirAll st.tick (JoinPath [g.WorkingDir, targetDir]) with
  | some e => (some e, st.advance)
  | none =>
    let st := st.advance
    match (match st.stack with
           | some s => (Except.ok s : Except Str patchStack)
           | none =>
             loadPatchStack st.disk (JoinPath [g.WorkingDir, targetDir, "stack.json".toList]))
      with
    | .error e => (some e, st)
    | .ok s =>
      let parent :=
        match s.latest with
        | some latest => latest.ID
        | none => []
      let entryID := "backup-".toList ++ fmtInt (env.unixNano st.tick)
      let filename := entryID ++ ".patch".toList
      match env.osWriteFile (st.tick + 1) (JoinPath [g.WorkingDir, targetDir, filename]) patch
        with
      | some e => (some e, { st.advance.advance with stack := some s })
      | none =>
        let s2 : patchStack :=
          { Entries := s.Entries ++
              [{ ID := entryID, ParentID := parent, FileName := filename,
                 CreatedAt := env.unixNano (st.tick + 2) }] }
        s2.save env (JoinPath [g.WorkingDir, targetDir, "stack.json".toList])
          { st.advance.advance.advance with stack := some s2 }

/-- `GitTool.ApplyPatch`: output and error, and the state afterwards. -/
def GitTool.ApplyPatch (g : GitTool) (env : GitEnv) (patch : Str) (dryRun : Bool)
    (st : GitState) : (Str × Option Str) × GitState :=
  if !g.AllowExec then (([], some "git operations disabled".toList), st)
  else if g.DryRunOnly && !dryRun then
    (([], some "apply_patch is restricted to dry-run mode".toList), st)
  else
    match (if !dryRun then g.createBackup env patch st else (none, st)) with
    | (some e, st) => (([], some ("create backup: ".toList ++ e)), st)
    | (none, st) =>
      g.runWithInput env
        (["apply".toList] ++ (if dryRun then ["--check".toList] else []) ++ ["-".toList])
        patch st

/-- `GitTool.Status`. -/
def GitTool.Status (g : GitTool) (env : GitEnv) (st : GitState) :
    (Str × Option Str) × GitState :=
  if !g.AllowExec then (([], some "git operations disabled".toList), st)
  else g.runWithInput env ["status".toList, "--short".toList] [] st

/-- `GitTool.loadOrInitStack`: the stack of the tool, loaded from the directory on first
use. -/
def GitTool.loadOrInitStack (g : GitTool) (dir : Str) (st : GitState) :
    Except Str patchStack × GitState :=
  match st.stack with
  | some s => (.ok s, st)
  | none =>
    match loadPatchStack st.disk (JoinPath [g.WorkingDir, dir, "stack.json".toList]) with
    | .error e => (.error e, st)
    | .ok s => (.ok s, { st with stack := some s })

/-- `GitTool.readBackup`: the content of a backup by id or file name, of the latest one for
an empty name. -/
def GitTool.readBackup (g : GitTool) (env : GitEnv) (dir name : Str) (st : GitState) :
    Except Str Str × GitState :=
  let dir := if dir = [] then ".mycodex/patch-backups".toList else dir
  match g.loadOrInitStack dir st with
  | (.error e, st) => (.error e, st)
  | (.ok stack, st) =>
    if stack.Entries = [] then (.error "no backups available".toList, st)
    else
      let targetFile : Str :=
        if name ≠ [] then
          match stack.Entries.find? (fun e => e.ID = name ∨ e.FileName = name) with
          | some e => e.FileName
          | none => []
        else
          match stack.Entries.getLast? with
          | some e => e.FileName
          | none => []
      if name ≠ [] ∧ targetFile = [] then
        (.error ("backup ".toList ++ name ++ " not found".toList), st)
      else (env.osReadFile st.tick (JoinPath [g.WorkingDir, dir, targetFile]), st.advance)

/-- `GitTool.RestoreBackup`. -/
def GitTool.RestoreBackup (g : GitTool) (env : GitEnv) (name : Str) (st : GitState) :
    (Str × Option Str) × GitState :=
  if !g.AllowExec then (([], some "git operations disabled".toList), st)
  else if g.DryRunOnly then
    (([], some "restore_backup not allowed in dry-run-only mode".toList), st)
  else
    let dir := if g.BackupDir = [] then ".mycodex/patch-backups".toList else g.BackupDir
    match g.readBackup env dir name st with
    | (.error e, st) => (([], some e), st)
    | (.ok data, st) => g.runWithInput env ["apply".toList, "-R".toList] data st

/-- `GitTool.ListBackups`: the ids of the backups, the oldest first. -/
def GitTool.ListBackups (g : GitTool) (st : GitState) : Except Str (List Str) × GitState :=
  let dir := if g.BackupDir = [] then ".mycodex/patch-backups".toList else g.BackupDir
  match g.loadOrInitStack dir st with
  | (.error e, st) => (.error e, st)
  | (.ok stack, st) => (.ok (stack.Entries.map (·.ID)), st)

/-- `GitTool.PreviewBackup`. -/
def GitTool.PreviewBackup (g : GitTool) (env : GitEnv) (name : Str) (st : GitState) :
    Except Str Str × GitState :=
  g.readBackup env g.BackupDir name st

/-- The operations of the git tool. -/
inductive GitOp where
  | status
  | applyPatch (patch : Str) (dryRun : Bool)
  | restoreBackup (name : Str)
  | listBackups
  | previewBackup (name : Str)

/-- The state after an operation of the git tool. -/
def GitTool.after (g : GitTool) (env : GitEnv) (op : GitOp) (st : GitState) : GitState :=
  match op with
  | GitOp.status => (g.Status env st).2
  | GitOp.applyPatch patch dryRun => (g.ApplyPatch env patch dryRun st).2
  | GitOp.restoreBackup name => (g.RestoreBackup env name st).2
  | GitOp.listBackups => (g.ListBackups st).2
  | GitOp.previewBackup name => (g.PreviewBackup env name st).2

/-- The path of the `stack.json` of a tool. -/
def GitTool.stackPath (g : GitTool) : Str :=
  JoinPath [g.WorkingDir,
    if g.BackupDir = [] then ".mycodex/patch-backups".toList else g.BackupDir,
    "stack.json".toList]

/-- The stack the operations of a tool work on: the field `stack` once it is loaded, before
that what `stack.json` decodes to. -/
def GitTool.currentStack (g : GitTool) (st : GitState) : Except Str patchStack :=
  match st.stack with
  | some s => .ok s
  | none => loadPatchStack st.disk g.stackPath

/-- The chain of parents from the id `prev` on: the parent id of each entry is the id of the
entry before it, `prev` for the first. -/
def chainFrom (prev : Str) : List PatchEntry → Bool
  | [] => true
  | e :: es => decide (e.ParentID = prev) && chainFrom e.ID es

/-- The chain invariant of a stack: the parent id of each entry is the id of the entry before
it, and empty for the first entry. -/
def patchStack.chained (s : patchStack) : Bool := chainFrom [] s.Entries

/-- A tool that may apply patches, with its backups in `.backup`, as in
`TestGitApplyPatchCreatesBackup`. -/
def exGitTool : GitTool :=
  { WorkingDir := "/w".toList, AllowExec := true, BackupDir := ".backup".toList }

/-- The stack is the same before and after, and so are the files. -/
def StackKept (g : GitTool) (st st2 : GitState) : Prop :=
  g.currentStack st2 = g.currentStack st ∧ st2.disk = st.disk

/-- The stack after is the stack before with one entry appended, whose parent id is the id of
the entry that was the latest, empty when there was none. -/
def StackPushed (g : GitTool) (st st2 : GitState) : Prop :=
  ∃ (s : patchStack) (e : PatchEntry),
    g.currentStack st = .ok s ∧ st2.stack = some { Entries := s.Entries ++ [e] } ∧
    e.ParentID = (match s.latest with
                  | some latest => latest.ID
                  | none => [])

/-- The state after `exGitTool` has applied a first patch from the initial state, on a system
where nothing fails. -/
def exGitState : GitState := (exGitTool.ApplyPatch {} "p".toList false {}).2

/-! ### Failing test names -/

/-- The loop of `unique`: `seen` holds the values met so far, `out` the values kept, in
order. -/
def uniqueLoop : List Str → List Str → List Str → List Str
  | [], _, out => out
  | v :: vs, seen, out =>
    if v ∈ seen then uniqueLoop vs seen out else uniqueLoop vs (v :: seen) (out ++ [v])

/-- The names `parseTestOutput` collects before it removes the repetitions: for each line with
a match of the failure pattern, the second capture of the leftmost match, trimmed. -/
def capturedNames (output : Str) : List Str :=
  (splitOn '\n' output).filterMap (fun line => (findFail line).map TrimSpace)

/-! ### The cap on a context file -/

/-- The effective cap on the content of a context file under the budget `maxBytes` when
`total` bytes are already accumulated: 32 KiB without a budget, otherwise the smaller of
32 KiB and what is left of the budget. -/
def effectiveCap (maxBytes total : Int) : Int :=
  if maxBytes > 0 then min (32 * 1024) (maxBytes - total) else 32 * 1024

/-- A system on which every run of git fails. -/
def exGitFailEnv : GitEnv :=
  { runGit := fun _ _ _ _ => ("error: patch failed".toList, some "exit status 1".toList) }

/-! ### The messages of a run -/

/-- The message list of a run as the specification describes it, for a session with the plan
`plan`, the last reflection `reflection` and the history `history`: the system message, the
plan when it is not empty, the reflection when it is not empty, the history, and the user
message built from the prompt and the context files. -/
def expectedMessages (cfg : AgentConfig) (plan reflection : Str) (history : List ChatMessage)
    (prompt : Str) (ctx : List ContextFile) : List ChatMessage :=
  [⟨Role.system, buildSystemPrompt cfg⟩] ++
    (if plan ≠ [] then [⟨Role.assistant, "Planned steps:\n".toList ++ plan⟩] else []) ++
    (if reflection ≠ [] then [⟨Role.assistant, "Previous reflection:\n".toList ++ reflection⟩]
     else []) ++
    history ++ [⟨Role.user, buildUserPrompt prompt ctx⟩]

/-! ## Semantic search (`internal/semantic/engine.go`) -/

/-- Whether a character is matched by the class of the token pattern: an ASCII letter, a
digit or `_`. -/
def isTokenChar (c : Char) : Bool := c.isAlphanum || c = '_'

/-- Worker of `tokenize`: `cur` is the pending match, reversed. -/
def tokenRuns : Str → Str → List Str
  | cur, [] => if cur = [] then [] else [cur.reverse]
  | cur, c :: cs =>
    if isTokenChar c then tokenRuns (c :: cur) cs
    else (if cur = [] then tokenRuns [] cs else cur.reverse :: tokenRuns [] cs)

/-- `tokenize`: the matches of the token pattern in the lowered text, that is its maximal runs
of token characters, in order. -/
def tokenize (s : Str) : List Str := tokenRuns [] (ToLower s)

/-- A score of the search: the quotient of two counts, the second positive.  The source
divides the counts as `float64`; two scores of one search have the same second count, and for
counts below 2^53 the rounded quotients compare as the fractions do. -/
structure Score where
  num : Nat
  den : Nat
  pos : 0 < den

/-- The score 0. -/
def Score.zero : Score := ⟨0, 1, Nat.one_pos⟩

/-- The value of a score as a rational number. -/
def Score.val (s : Score) : ℚ := (s.num : ℚ) / (s.den : ℚ)

/-- Comparison `a < b` of two scores. -/
def Score.lt (a b : Score) : Prop := a.num * b.den < b.num * a.den

/-- Comparison `a == b` of two scores. -/
def Score.same (a b : Score) : Prop := a.num * b.den = b.num * a.den

instance (a b : Score) : Decidable (a.lt b) :=
  inferInstanceAs (Decidable (a.num * b.den < b.num * a.den))

instance (a b : Score) : Decidable (a.same b) :=
  inferInstanceAs (Decidable (a.num * b.den = b.num * a.den))

/-- `overlapScore`: the number of entries of the query that occur in the document, divided by
the number of entries of the query; 0 when either list is empty. -/
def overlapScore (query doc : List Str) : Score :=
  if h : query = [] ∨ doc = [] then Score.zero
  else
    ⟨query.countP (fun q => decide (q ∈ doc)), query.length,
      List.length_pos.mpr (fun e => h (Or.inl e))⟩

/-- `summarize`: the first line that is not blank, trimmed and cut to 200 characters; for a
blank content the content itself, cut to 200 characters. -/
def summarize (content : Str) : Str :=
  match ((splitOn '\n' content).map TrimSpace).find? (fun trim => trim ≠ []) with
  | some trim => if trim.length > 200 then trim.take 200 ++ "...".toList else trim
  | none => if content.length > 200 then content.take 200 ++ "...".toList else content

/-- `Result`: a hit of the semantic search. -/
structure Result where
  Path : Str
  Score : Score
  Snippet : Str

/-- A `FileWalker`, seen from `Search`: the entries `WalkFiles` passes to the callback for a
root and a maximum, in order, each with its relative path and whether its type has the symlink
bit; the error `WalkFiles` returns in the end; and `ReadFile`, which may answer differently
from one call to the next, by the number of earlier calls. -/
structure FileWalker where
  walk : Str → Int → List (Str × Bool)
  walkErr : Str → Int → Option Str := fun _ _ => none
  readFile : Nat → Str → Except Str Str

/-- `Engine`; `fs` is `none` for a nil walker.  The fields are set by `NewEngine` only. -/
structure Engine where
  fs : Option FileWalker
  maxFiles : Int
  maxFileBytes : Int

/-- `NewEngine`. -/
def NewEngine (fw : Option FileWalker) (maxFiles maxFileBytes : Int) : Engine :=
  { fs := fw,
    maxFiles := if maxFiles ≤ 0 then 200 else maxFiles,
    maxFileBytes := if maxFileBytes ≤ 0 then 64 * 1024 else maxFileBytes }

/-- The callback of `Search` over the walked entries, with the number of reads made and the
results collected so far: symlinks and unreadable entries are skipped, the content is cut to
`maxFileBytes`, and an entry is kept when its score is positive. -/
def searchVisit (fw : FileWalker) (maxFileBytes : Int) (qTokens : List Str) :
    List (Str × Bool) → Nat → List Result → List Result
  | [], _, results => results
  | (rel, symlink) :: rest, reads, results =>
    if symlink then searchVisit fw maxFileBytes qTokens rest reads results
    else
      match fw.readFile reads rel with
      | .error _ => searchVisit fw maxFileBytes qTokens rest (reads + 1) results
      | .ok content =>
        let content :=
          if (content.length : Int) > maxFileBytes then content.take maxFileBytes.toNat
          else content
        let score := overlapScore qTokens (tokenize content)
        if score.num = 0 then searchVisit fw maxFileBytes qTokens rest (reads + 1) results
        else
          searchVisit fw maxFileBytes qTokens rest (reads + 1)
            (results ++ [{ Path := rel, Score := score, Snippet := summarize content }])

/-- The comparison `Search` passes to `sort.Slice`: the higher score first, and for equal
scores the smaller path first. -/
def resultLess (a b : Result) : Prop :=
  if a.Score.same b.Score then a.Path < b.Path else b.Score.lt a.Score

instance (a b : Result) : Decidable (resultLess a b) :=
  inferInstanceAs (Decidable (if a.Score.same b.Score then a.Path < b.Path
    else b.Score.lt a.Score))

/-- `sort.Slice` with the comparison of `Search`.  The standard library sorts in place without
keeping the order of equal elements; what it promises for a comparison that is a strict weak
ordering is that the outcome is a permutation of the input in which no element stands before
one that the comparison puts before it. -/
structure SliceSorter where
  sort : List Result → List Result
  perm : ∀ l, (sort l).Perm l
  sorted : ∀ l, (sort l).Pairwise (fun a b => ¬ resultLess b a)

/-- `Engine.Search`: the top files ranked by token overlap with the query; the engine is
`none` for a nil pointer. -/
def Engine.Search (e : Option Engine) (sorter : SliceSorter) (query : Str) (limit : Int) :
    Except Str (List Result) :=
  match e with
  | none => .error "semantic engine unavailable".toList
  | some e =>
    match e.fs with
    | none => .error "semantic engine unavailable".toList
    | some fw =>
      if TrimSpace query = [] then .error "query is required".toList
      else
        let limit := if limit ≤ 0 then 5 else limit
        let qTokens := tokenize query
        if qTokens = [] then .error "query too short".toList
        else
          let results :=
            searchVisit fw e.maxFileBytes qTokens (fw.walk ['.'] e.maxFiles) 0 []
          match fw.walkErr ['.'] e.maxFiles with
          | some err => .error err
          | none =>
            let results := sorter.sort results
            .ok (if (results.length : Int) > limit then results.take limit.toNat else results)
/-- The score of the specification: the number of distinct query tokens that occur among the
document tokens, divided by the number of distinct query tokens; 0 when either list is
empty. -/
def setOverlap (query doc : List Str) : ℚ :=
  if query = [] ∨ doc = [] then 0
  else ((query.dedup.filter (fun q => decide (q ∈ doc))).length : ℚ) / (query.dedup.length : ℚ)

/-- A sorter that meets the promise of `sort.Slice`: insertion sort by the comparison of
`Search`. -/
def exSorter : SliceSorter where
  sort := List.insertionSort (fun a b => ¬ resultLess b a)
  perm := List.perm_insertionSort _
  sorted := by
    have hlt : ∀ a b : Score, a.lt b ↔ a.val < b.val := by
      intro a b
      unfold Score.lt Score.val
      have ha : (0 : ℚ) < (a.den : ℚ) := by exact_mod_cast a.pos
      have hb : (0 : ℚ) < (b.den : ℚ) := by exact_mod_cast b.pos
      rw [div_lt_div_iff₀ ha hb]
      exact_mod_cast Iff.rfl
    have hsame : ∀ a b : Score, a.same b ↔ a.val = b.val := by
      intro a b
      unfold Score.same Score.val
      have ha : (a.den : ℚ) ≠ 0 := by exact_mod_cast (Nat.pos_iff_ne_zero.mp a.pos)
      have hb : (b.den : ℚ) ≠ 0 := by exact_mod_cast (Nat.pos_iff_ne_zero.mp b.pos)
      rw [div_eq_div_iff ha hb]
      exact_mod_cast Iff.rfl
    have key : ∀ a b : Result, resultLess a b
        ↔ toLex (-a.Score.val, a.Path) < toLex (-b.Score.val, b.Path) := by
      intro a b
      unfold resultLess
      rw [Prod.Lex.lt_iff]
      by_cases hs : a.Score.same b.Score
      · rw [if_pos hs]
        have hv := (hsame _ _).mp hs
        simp only [hv, lt_self_iff_false, true_and, false_or]
      · rw [if_neg hs, hlt]
        have hv : ¬ a.Score.val = b.Score.val := fun e => hs ((hsame _ _).mpr e)
        simp only [neg_lt_neg_iff, neg_inj, hv, false_and, or_false]
    haveI : IsTotal Result (fun a b => ¬ resultLess b a) :=
      ⟨fun a b => by
        rw [key, key, not_lt, not_lt]
        exact le_total _ _⟩
    haveI : IsTrans Result (fun a b => ¬ resultLess b a) :=
      ⟨fun a b c => by
        rw [key, key, key, not_lt, not_lt, not_lt]
        exact le_trans⟩
    intro l
    exact List.sorted_insertionSort _ l

/-- The walker of `TestEngineSearchRanksMatches`, a map of two files, when the map is
traversed from `b.txt` to `a.txt`. -/
def exWalker : FileWalker where
  walk := fun _ _ => [("b.txt".toList, false), ("a.txt".toList, false)]
  readFile := fun _ path =>
    if path = "a.txt".toList then .ok "alpha beta gamma".toList
    else if path = "b.txt".toList then .ok "beta delta epsilon".toList
    else .ok []

/-! ### A runner over the strategy of the budget test -/

/-- A runner with a metrics sink whose strategy engine is the one of
`TestStrategyFallsBackWhenBudgetExceeded`: coder model `expensive-model`, fallback and default
`cheap-model`, at most one expensive use. -/
def exBudgetRunner : AgentRunner :=
  { Metrics := true, Strategy := some ⟨some exBudgetRegistry, exBudgetConfig⟩ }

/-! ### Runs with failing coder calls -/

/-- A runner with a metrics sink and no strategy engine, over a provider every call of which
fails with `boom`. -/
def exFailRunner : AgentRunner :=
  { Agent := some ⟨exRegistryOf ⟨"mock".toList, fun _ _ => .error "boom".toList⟩,
                   { MaxSteps := 2 }⟩,
    Metrics := true }

/-- The registry of `TestAgentRunnerFallsBackOnCoderError`: the model `primary` (the default)
is served by a provider that fails with `boom`, the model `backup` by a provider that answers
`fallback [done]` with finish reason `stop`. -/
def exFallbackRegistry : Registry :=
  (((({} : Registry).RegisterProvider "fail".toList
      ⟨"fail".toList, fun _ _ => .error "boom".toList⟩).RegisterProvider "ok".toList
      ⟨"ok".toList, fun _ _ =>
        .ok { Message := ⟨Role.assistant, "fallback [done]".toList⟩,
              FinishReason := "stop".toList }⟩).RegisterModel "primary".toList
      { Provider := "fail".toList, Model := "m1".toList } true).RegisterModel "backup".toList
      { Provider := "ok".toList, Model := "m2".toList } false

/-- The runner of `TestAgentRunnerFallsBackOnCoderError`. -/
def exFallbackRunner : AgentRunner :=
  { Agent := some ⟨exFallbackRegistry, { MaxSteps := 1 }⟩,
    Metrics := true,
    Strategy := some ⟨some exFallbackRegistry,
      { CoderModel := "primary".toList, Fallbacks := ["backup".toList] }⟩ }

/-- The coder calls noted in a trace. -/
def coderCallsOf (trace : List Obs) : List Obs :=
  trace.filter (fun o =>
    match o with
    | Obs.coderCall _ _ => true
    | _ => false)

/-! # Theorems -/

/-! ## Strategy engine -/

theorem TrimSpace_nil : TrimSpace [] = [] := rfl

theorem firstResolving_some_of_mem (reg : Registry) :
    ∀ (fbs : List Str) (fb : Str), fb ∈ fbs → (∃ pr, reg.Resolve fb = .ok pr) →
      ∃ pr, firstResolving reg fbs = some pr := by
  intro fbs
  induction fbs with
  | nil => intro fb h; cases h
  | cons a as ih =>
    intro fb hmem hres
    unfold firstResolving
    cases ha : reg.Resolve a with
    | ok pr => exact ⟨pr, rfl⟩
    | error e =>
      rcases List.mem_cons.mp hmem with h | h
      · subst h
        rcases hres with ⟨pr, hpr⟩
        rw [ha] at hpr
        cases hpr
      · exact ih fb h hres

theorem ResolveModel_ok_of_fallback (reg : Registry) (cfg : StrategyConfig)
    (role override : Str) (pr : Provider × ModelRoute)
    (hfb : firstResolving reg cfg.Fallbacks = some pr) :
    ∃ p route, StrategyEngine.ResolveModel ⟨some reg, cfg⟩ role override
      = .ok (some p, route) := by
  unfold StrategyEngine.ResolveModel
  simp only
  split
  · exact ⟨_, _, rfl⟩
  · rw [hfb]
    exact ⟨_, _, rfl⟩

/-- C2 (as stated) fails: coder model `big` and the only fallback `big2` are both expensive;
with the budget of one use exhausted, a fallback resolves and yet the returned route is
expensive and the is-expensive flag is true. -/
theorem pickWithBudget_expensive_fallback_counterexample :
    exExpensiveEngine.cfg.MaxExpensive > 0 ∧ (1 : Int) ≥ exExpensiveEngine.cfg.MaxExpensive ∧
    (∃ fb ∈ exExpensiveEngine.cfg.Fallbacks, ∃ pr, exExpensiveRegistry.Resolve fb = .ok pr) ∧
    ∃ pk, exExpensiveEngine.PickWithBudget "coder".toList [] 1 = .ok pk ∧
      pk.isExp = true ∧ pk.route.Name = "big2".toList ∧
      exExpensiveRegistry.IsExpensive pk.route.Name = true :=
  ⟨by decide, by decide, ⟨"big2".toList, by decide, _, rfl⟩, _, rfl, rfl, rfl, rfl⟩

/-- C2 (amended): with max_expensive > 0 and expensiveUsed >= max_expensive, if the first
entry of the fallback list that resolves has a route that is not marked expensive, then
PickWithBudget succeeds, the route it returns is not marked expensive and the returned
is-expensive flag is false. -/
theorem pickWithBudget_cheap_first_fallback (reg : Registry) (cfg : StrategyConfig)
    (role override : Str) (expensiveUsed : Int) (p : Provider) (r : ModelRoute)
    (hmax : cfg.MaxExpensive > 0) (hused : expensiveUsed ≥ cfg.MaxExpensive)
    (hfb : firstResolving reg cfg.Fallbacks = some (p, r))
    (hcheap : reg.IsExpensive r.Name = false) :
    ∃ pk, StrategyEngine.PickWithBudget ⟨some reg, cfg⟩ role override expensiveUsed = .ok pk ∧
      pk.isExp = false ∧ reg.IsExpensive pk.route.Name = false ∧ pk.prov.isSome = true := by
  obtain ⟨p0, route0, h0⟩ := ResolveModel_ok_of_fallback reg cfg role override (p, r) hfb
  unfold StrategyEngine.PickWithBudget
  rw [h0]
  simp only [hfb]
  by_cases hexp : reg.IsExpensive route0.Name = true
  · refine ⟨_, rfl, ?_⟩
    simp [hmax, hused, hexp, hcheap]
  · have hexp' : reg.IsExpensive route0.Name = false := by simpa using hexp
    refine ⟨_, rfl, ?_⟩
    simp [hexp']

/-- Witness for C2 (amended): the configuration of `TestStrategyFallsBackWhenBudgetExceeded`;
the chosen model is `cheap-model`. -/
theorem pickWithBudget_cheap_first_fallback_witness :
    ∃ pk, StrategyEngine.PickWithBudget ⟨some exBudgetRegistry, exBudgetConfig⟩
        "coder".toList [] 1 = .ok pk ∧
      pk.isExp = false ∧ exBudgetRegistry.IsExpensive pk.route.Name = false ∧
      pk.prov.isSome = true :=
  pickWithBudget_cheap_first_fallback exBudgetRegistry exBudgetConfig "coder".toList [] 1
    exProvider { Name := "cheap-model".toList, Provider := "p".toList, Model := "m2".toList }
    (by decide) (by decide) rfl (by decide)

theorem firstNonEmpty_skip_nil (vs : List Str) : firstNonEmpty ([] :: vs) = firstNonEmpty vs := by
  simp [firstNonEmpty, TrimSpace_nil]

theorem ResolveModel_primary (reg : Registry) (cfg : StrategyConfig) (role override : Str)
    (p : Provider) (r : ModelRoute)
    (hne : firstNonEmpty (candidateList cfg role override) ≠ [])
    (hres : reg.Resolve (firstNonEmpty (candidateList cfg role override)) = .ok (p, r)) :
    StrategyEngine.ResolveModel ⟨some reg, cfg⟩ role override = .ok (some p, r) := by
  unfold StrategyEngine.ResolveModel
  simp [hne, hres]

theorem ResolveModel_secondary (reg : Registry) (cfg : StrategyConfig) (role override : Str)
    (h : firstNonEmpty (candidateList cfg role override) = [] ∨
      ∃ e, reg.Resolve (firstNonEmpty (candidateList cfg role override)) = .error e) :
    StrategyEngine.ResolveModel ⟨some reg, cfg⟩ role override =
      (match firstResolving reg cfg.Fallbacks with
       | some (p, route) => .ok (some p, route)
       | none =>
         match reg.Resolve [] with
         | .ok (p, route) => .ok (some p, route)
         | .error e => .error e) := by
  unfold StrategyEngine.ResolveModel
  rcases h with h | ⟨e, h⟩
  · simp [h]
  · simp only [h]
    split <;> simp_all

/-- C3 (as stated) fails: with override `missing` (not registered), coder model `code-model`
(registered) and fallback `fb`, the first candidate that is non-empty and resolves is
`code-model`, but ResolveModel returns the route of the fallback `fb`. -/
theorem resolveModel_later_candidate_counterexample :
    specFirstResolvingCandidate exRolesRegistry
        (candidateList exRolesConfig "coder".toList "missing".toList)
      = some { Name := "code-model".toList, Provider := "p".toList, Model := "m2".toList } ∧
    resolvedName (StrategyEngine.ResolveModel ⟨some exRolesRegistry, exRolesConfig⟩
        "coder".toList "missing".toList) = some "fb".toList := by
  decide

/-- C3 (amended): ResolveModel takes the first non-blank entry m of the candidate list
[override, strategy.overrides[role], the role's configured model, strategy.default_model]
(role trimmed and lower-cased) and tries only that entry: if m resolves in the registry its
route is returned; if every entry is blank or m does not resolve, the result is the first
entry of the fallback list that resolves, and the registry default when none does (later
candidates are not tried).  With an empty override and no overrides map, roles planner, coder
and critic resolve to planner_model, coder_model and critic_model whenever that model is
non-blank and resolves. -/
theorem resolveModel_first_nonblank_candidate (reg : Registry) (cfg : StrategyConfig)
    (role override : Str) :
    (∀ p r, firstNonEmpty (candidateList cfg role override) ≠ [] →
      reg.Resolve (firstNonEmpty (candidateList cfg role override)) = .ok (p, r) →
      StrategyEngine.ResolveModel ⟨some reg, cfg⟩ role override = .ok (some p, r)) ∧
    ((firstNonEmpty (candidateList cfg role override) = [] ∨
        ∃ e, reg.Resolve (firstNonEmpty (candidateList cfg role override)) = .error e) →
      StrategyEngine.ResolveModel ⟨some reg, cfg⟩ role override =
        (match firstResolving reg cfg.Fallbacks with
         | some (p, route) => .ok (some p, route)
         | none =>
           match reg.Resolve [] with
           | .ok (p, route) => .ok (some p, route)
           | .error e => .error e)) ∧
    (cfg.Overrides = [] →
      (∀ p r, TrimSpace cfg.PlannerModel ≠ [] → reg.Resolve cfg.PlannerModel = .ok (p, r) →
        StrategyEngine.ResolveModel ⟨some reg, cfg⟩ "planner".toList [] = .ok (some p, r)) ∧
      (∀ p r, TrimSpace cfg.CoderModel ≠ [] → reg.Resolve cfg.CoderModel = .ok (p, r) →
        StrategyEngine.ResolveModel ⟨some reg, cfg⟩ "coder".toList [] = .ok (some p, r)) ∧
      (∀ p r, TrimSpace cfg.CriticModel ≠ [] → reg.Resolve cfg.CriticModel = .ok (p, r) →
        StrategyEngine.ResolveModel ⟨some reg, cfg⟩ "critic".toList [] = .ok (some p, r))) := by
  refine ⟨fun p r hne hres => ResolveModel_primary reg cfg role override p r hne hres,
    fun h => ResolveModel_secondary reg cfg role override h, ?_⟩
  intro hov
  have hnil : ∀ m : Str, TrimSpace m ≠ [] → m ≠ [] := by
    intro m hm h; subst h; exact hm TrimSpace_nil
  refine ⟨?_, ?_, ?_⟩
  · intro p r hnb hres
    have hc : firstNonEmpty (candidateList cfg "planner".toList []) = cfg.PlannerModel := by
      have hrole : roleModel (ToLower (TrimSpace "planner".toList)) cfg = cfg.PlannerModel := by
        have : ToLower (TrimSpace "planner".toList) = "planner".toList := by decide
        rw [this]; simp [roleModel]
      simp only [candidateList]
      rw [hrole]
      simp [hov, firstNonEmpty, TrimSpace_nil, hnb]
    exact ResolveModel_primary reg cfg _ _ p r (by rw [hc]; exact hnil _ hnb) (by rw [hc]; exact hres)
  · intro p r hnb hres
    have hc : firstNonEmpty (candidateList cfg "coder".toList []) = cfg.CoderModel := by
      have hrole : roleModel (ToLower (TrimSpace "coder".toList)) cfg = cfg.CoderModel := by
        have : ToLower (TrimSpace "coder".toList) = "coder".toList := by decide
        rw [this]; simp [roleModel]
      simp only [candidateList]
      rw [hrole]
      simp [hov, firstNonEmpty, TrimSpace_nil, hnb]
    exact ResolveModel_primary reg cfg _ _ p r (by rw [hc]; exact hnil _ hnb) (by rw [hc]; exact hres)
  · intro p r hnb hres
    have hc : firstNonEmpty (candidateList cfg "critic".toList []) = cfg.CriticModel := by
      have hrole : roleModel (ToLower (TrimSpace "critic".toList)) cfg = cfg.CriticModel := by
        have : ToLower (TrimSpace "critic".toList) = "critic".toList := by decide
        rw [this]; simp [roleModel]
      simp only [candidateList]
      rw [hrole]
      simp [hov, firstNonEmpty, TrimSpace_nil, hnb]
    exact ResolveModel_primary reg cfg _ _ p r (by rw [hc]; exact hnil _ hnb) (by rw [hc]; exact hres)

/-- Witness for C3 (amended): the three roles of `TestStrategyResolvesRoles`. -/
theorem resolveModel_first_nonblank_candidate_witness :
    resolvedName (StrategyEngine.ResolveModel ⟨some exRolesRegistry, exRolesConfig⟩
      "planner".toList []) = some "plan-model".toList ∧
    resolvedName (StrategyEngine.ResolveModel ⟨some exRolesRegistry, exRolesConfig⟩
      "coder".toList []) = some "code-model".toList ∧
    resolvedName (StrategyEngine.ResolveModel ⟨some exRolesRegistry, exRolesConfig⟩
      "critic".toList []) = some "crit-model".toList := by
  have h := (resolveModel_first_nonblank_candidate exRolesRegistry exRolesConfig
    "coder".toList []).2.2 rfl
  refine ⟨?_, ?_, ?_⟩
  · rw [h.1 exProvider _ (by decide) rfl]; rfl
  · rw [h.2.1 exProvider _ (by decide) rfl]; rfl
  · rw [h.2.2 exProvider _ (by decide) rfl]; rfl

/-! ## Path guard -/

theorem HasPrefix_iff (s pre : Str) : HasPrefix s pre = true ↔ pre <+: s := by
  unfold HasPrefix
  exact List.isPrefixOf_iff_prefix

theorem Clean_rooted (p : Str) (h : IsAbs p = true) : IsAbs (Clean p) = true := by
  have hp : p ≠ [] := by
    intro hnil
    subst hnil
    simp [IsAbs, HasPrefix] at h
  unfold IsAbs at h
  unfold Clean
  rw [if_neg hp]
  simp only [h, if_true]
  simp [IsAbs, HasPrefix]

/-- C9: for every PathGuard and every input path p, a successful Resolve(p) returns the base
directory or a path that starts with the base directory followed by the separator; Resolve
fails for the empty path, for every absolute p, and for every relative p whose cleaned join
with the base is neither the base nor below it, such as `../etc/passwd` and `a/../../x`
under the base `/srv/ws`. -/
theorem pathGuard_resolve_inside_base (g : PathGuard) (p : Str) :
    (∀ r, g.Resolve p = .ok r → r = g.BaseDir ∨ (g.BaseDir ++ ['/']) <+: r) ∧
    (∃ e, g.Resolve [] = .error e) ∧
    (IsAbs p = true → ∃ e, g.Resolve p = .error e) ∧
    (p ≠ [] → IsAbs p = false →
      Clean (JoinPath [g.BaseDir, Clean p]) ≠ g.BaseDir →
      ¬ (g.BaseDir ++ ['/']) <+: Clean (JoinPath [g.BaseDir, Clean p]) →
      ∃ e, g.Resolve p = .error e) ∧
    exGuard.Resolve "../etc/passwd".toList = .error "path escapes base directory".toList ∧
    exGuard.Resolve "a/../../x".toList = .error "path escapes base directory".toList := by
  refine ⟨?_, ⟨_, rfl⟩, ?_, ?_, rfl, rfl⟩
  · intro r hr
    unfold PathGuard.Resolve at hr
    split at hr
    · cases hr
    · simp only at hr
      split at hr
      · cases hr
      · split at hr
        · cases hr
        · rename_i hcond
          cases hr
          by_cases hp : HasPrefix (Clean (JoinPath [g.BaseDir, Clean p])) (g.BaseDir ++ ['/']) = true
          · exact Or.inr ((HasPrefix_iff _ _).mp hp)
          · left
            by_contra hne
            apply hcond
            simp [hp, hne]
  · intro habs
    have hp : p ≠ [] := by
      intro hnil
      subst hnil
      simp [IsAbs, HasPrefix] at habs
    unfold PathGuard.Resolve
    simp [hp, Clean_rooted p habs]
  · intro hp _ hne hnp
    have hpre : HasPrefix (Clean (JoinPath [g.BaseDir, Clean p])) (g.BaseDir ++ ['/']) = false := by
      cases h : HasPrefix (Clean (JoinPath [g.BaseDir, Clean p])) (g.BaseDir ++ ['/'])
      · rfl
      · exact absurd ((HasPrefix_iff _ _).mp h) hnp
    unfold PathGuard.Resolve
    simp only [hp, if_false]
    split
    · exact ⟨_, rfl⟩
    · simp [hpre, hne]

/-! ## Agent core -/

theorem lookup_updateSession (id : Str) (f : Session → Session) :
    ∀ l : List (Str × Session), (updateSession id f l).lookup id = (l.lookup id).map f := by
  intro l
  induction l with
  | nil => rfl
  | cons hd tl ih =>
    obtain ⟨k, s⟩ := hd
    unfold updateSession
    by_cases hk : k = id
    · subst hk
      simp [List.lookup]
    · have hk' : (id == k) = false := by
        simp only [beq_eq_false_iff_ne, ne_eq]
        exact fun h => hk h.symm
      simp [hk, List.lookup, hk', ih]

theorem lookup_append_new (id : Str) (s : Session) :
    ∀ l : List (Str × Session), l.lookup id = none → (l ++ [(id, s)]).lookup id = some s := by
  intro l
  induction l with
  | nil => intro _; simp [List.lookup]
  | cons hd tl ih =>
    obtain ⟨k, s'⟩ := hd
    intro h
    by_cases hk : (id == k) = true
    · simp [List.lookup, hk] at h
    · have hk' : (id == k) = false := by simpa using hk
      simp only [List.lookup, hk', List.cons_append] at h ⊢
      exact ih h

theorem ensureSession_existing (env : Env) (id : Str) (w : World) (s : Session)
    (hid : id ≠ []) (h : w.sessions.lookup id = some s) : ensureSession env id w = (id, w) := by
  unfold ensureSession
  simp [hid, h]

theorem ensureSession_spec (env : Env) (id : Str) (w : World) (hid : id ≠ []) :
    (ensureSession env id w).1 = id ∧
    (ensureSession env id w).2.chatLog = w.chatLog ∧
    (ensureSession env id w).2.session id = w.session id ∧
    ∃ s, (ensureSession env id w).2.sessions.lookup id = some s := by
  unfold ensureSession
  simp only [hid, if_false]
  cases h : w.sessions.lookup id with
  | some s => exact ⟨rfl, rfl, rfl, s, h⟩
  | none =>
    refine ⟨rfl, rfl, ?_, { ID := id }, lookup_append_new id _ _ h⟩
    simp [World.session, lookup_append_new id _ _ h, h]

/-- C10 (as stated) fails: with planning enabled and a provider that answers with empty
content, two successive successful Plan calls on session `s` both return the empty plan and
issue two provider calls, because an empty plan is not cached. -/
theorem plan_blank_not_cached_counterexample :
    (exBlankPlanAgent.Plan {} { SessionID := "s".toList, Prompt := "build feature".toList } {}).1
      = .ok [] ∧
    (exBlankPlanAgent.Plan {} { SessionID := "s".toList, Prompt := "ignored".toList }
      (exBlankPlanAgent.Plan {} { SessionID := "s".toList, Prompt := "build feature".toList }
        {}).2).1 = .ok [] ∧
    (exBlankPlanAgent.Plan {} { SessionID := "s".toList, Prompt := "ignored".toList }
      (exBlankPlanAgent.Plan {} { SessionID := "s".toList, Prompt := "build feature".toList }
        {}).2).2.chatLog.length = 2 :=
  ⟨rfl, rfl, rfl⟩

/-- C10 (amended): with planning enabled, for every non-empty session id and every provider
behaviour: when a successful Plan call returns a non-empty plan, a following Plan call on the
same session with a non-blank prompt succeeds, returns that same plan (whatever its prompt or
model), issues no provider call and leaves the state unchanged; the first call issues at most
one provider call, and exactly one when the session had no cached plan, so the two calls
together issue exactly one. -/
theorem plan_cached_once_nonempty (a : Animus.Agent) (env : Env) (w w1 : World)
    (req1 req2 : Request) (plan1 : Str)
    (hen : a.cfg.EnablePlan = true) (hsid : req1.SessionID ≠ [])
    (hsame : req2.SessionID = req1.SessionID)
    (h1 : a.Plan env req1 w = (.ok plan1, w1)) (hne : plan1 ≠ [])
    (hp2 : TrimSpace req2.Prompt ≠ []) :
    a.Plan env req2 w1 = (.ok plan1, w1) ∧
    w1.chatLog.length ≤ w.chatLog.length + 1 ∧
    ((w.session req1.SessionID).Plan = [] → w1.chatLog.length = w.chatLog.length + 1) := by
  obtain ⟨he1, he2, he3, s0, he4⟩ := ensureSession_spec env req1.SessionID w hsid
  -- the state after the first call holds the plan under the session id
  have key : (∃ s, w1.sessions.lookup req1.SessionID = some s ∧ s.Plan = plan1) ∧
      w1.chatLog.length ≤ w.chatLog.length + 1 ∧
      ((w.session req1.SessionID).Plan = [] → w1.chatLog.length = w.chatLog.length + 1) := by
    unfold Agent.Plan at h1
    simp only [hen, Bool.not_true, Bool.false_eq_true, if_false] at h1
    split at h1
    · cases h1
    · generalize hes : ensureSession env req1.SessionID w = es at h1 he1 he2 he3 he4
      obtain ⟨sid, w'⟩ := es
      simp only at h1 he1 he2 he3 he4
      subst he1
      split at h1
      · rename_i hplan
        cases h1
        refine ⟨⟨s0, he4, ?_⟩, by rw [he2]; omega, ?_⟩
        · simp [World.session, he4]
        · intro hw
          rw [← he3] at hw
          exact absurd hw hplan
      · rename_i hplan
        split at h1
        · cases h1
        · rename_i provider route hres
          unfold callChat at h1
          cases hc : provider.chat w'.tick
              { Model := route.Model
                Messages := [⟨Role.system, buildPlanSystemPrompt a.cfg⟩,
                             ⟨Role.user, buildPlanUserPrompt req1.Prompt⟩]
                MaxTokens := pickMaxTokens a.cfg.MaxTokens route.MaxTokens
                Temperature := pickTemperature a.cfg.Temperature route.Temperature
                Stream := false } with
          | error e => simp [hc] at h1
          | ok resp =>
            simp only [hc] at h1
            cases h1
            refine ⟨⟨{ s0 with Plan := TrimSpace resp.Message.Content }, ?_, rfl⟩, ?_, ?_⟩
            · simp only [lookup_updateSession, he4, Option.map_some']
            · simp [he2]
            · intro _
              simp [he2]
  obtain ⟨⟨s1, hs1, hs1p⟩, hlen, hexact⟩ := key
  refine ⟨?_, hlen, hexact⟩
  unfold Agent.Plan
  simp only [hen, Bool.not_true, Bool.false_eq_true, if_false, hp2, hsame]
  rw [ensureSession_existing env req1.SessionID w1 s1 hsid hs1]
  simp [World.session, hs1, hs1p, hne]

/-- Witness for C10 (amended): the provider and the session of
`TestAgentPlanCachesAndInjectsIntoRun`; the second call, with prompt `ignored`, returns the
cached plan and the provider has been called once. -/
theorem plan_cached_once_nonempty_witness :
    exPlanAgent.Plan {} { SessionID := "p1".toList, Prompt := "ignored".toList }
        (exPlanAgent.Plan {} { SessionID := "p1".toList, Prompt := "build feature".toList } {}).2
      = (.ok "1) inspect\n2) edit\n3) verify".toList,
         (exPlanAgent.Plan {} { SessionID := "p1".toList, Prompt := "build feature".toList }
           {}).2) ∧
    (exPlanAgent.Plan {} { SessionID := "p1".toList, Prompt := "build feature".toList }
      {}).2.chatLog.length = 1 := by
  have h := plan_cached_once_nonempty exPlanAgent {} {}
    (exPlanAgent.Plan {} { SessionID := "p1".toList, Prompt := "build feature".toList } {}).2
    { SessionID := "p1".toList, Prompt := "build feature".toList }
    { SessionID := "p1".toList, Prompt := "ignored".toList }
    "1) inspect\n2) edit\n3) verify".toList rfl (by decide) rfl rfl (by decide) (by decide)
  exact ⟨h.1, h.2.2 rfl⟩

/-! ## Tool-call extraction -/

theorem extractToolCalls_of_body (js : JsonCodec) (content : Str) (c : Char) (rest : Str)
    (hne : TrimSpace content ≠ []) (hbody : fenceBody (TrimSpace content) = c :: rest)
    (hc : jsonValueStart c = false) : extractToolCalls js content = [] := by
  have hlaw := js.invalid_start c rest hc
  have hpre : HasPrefix (c :: rest) ['['] = false := by
    have hc' : c ≠ '[' := by
      intro h
      subst h
      simp [jsonValueStart] at hc
    have hb : ('[' == c) = false := by
      simp only [beq_eq_false_iff_ne, ne_eq]
      exact fun h => hc' h.symm
    simp [HasPrefix, List.isPrefixOf, hb]
  unfold extractToolCalls
  simp only [hne, if_false, hbody, hpre, hlaw.2.1]
  simp

theorem Index_some_prefix (sub : Str) : ∀ (s : Str) (i : Nat),
    Index s sub = some i → sub <+: s.drop i := by
  intro s
  induction s with
  | nil =>
    intro i h
    unfold Index at h
    split at h
    · rename_i hs
      subst hs
      simp
    · cases h
  | cons c cs ih =>
    intro i h
    unfold Index at h
    split at h
    · rename_i hp
      cases h
      exact (HasPrefix_iff _ _).mp hp
    · cases hI : Index cs sub with
      | none => rw [hI] at h; cases h
      | some j =>
        rw [hI] at h
        simp only [Option.map_some'] at h
        cases h
        simpa using ih j hI

theorem Index_le_of_append (sub : Str) : ∀ (a b : Str),
    ∃ i, Index (a ++ sub ++ b) sub = some i ∧ i ≤ a.length := by
  intro a
  induction a with
  | nil =>
    intro b
    refine ⟨0, ?_, le_refl _⟩
    rw [List.nil_append]
    cases hs : sub ++ b with
    | nil =>
      have hsub : sub = [] := (List.append_eq_nil.mp hs).1
      unfold Index
      rw [if_pos hsub]
    | cons c cs =>
      have hp : HasPrefix (c :: cs) sub = true := by
        rw [HasPrefix_iff, ← hs]
        exact List.prefix_append _ _
      unfold Index
      rw [if_pos hp]
  | cons c cs ih =>
    intro b
    obtain ⟨j, hj, hle⟩ := ih b
    by_cases hp : HasPrefix (c :: (cs ++ sub ++ b)) sub = true
    · refine ⟨0, ?_, Nat.zero_le _⟩
      have : c :: cs ++ sub ++ b = c :: (cs ++ sub ++ b) := by simp
      rw [this]
      unfold Index
      rw [if_pos hp]
    · refine ⟨j + 1, ?_, by simpa using hle⟩
      have : c :: cs ++ sub ++ b = c :: (cs ++ sub ++ b) := by simp
      rw [this]
      unfold Index
      rw [if_neg hp, hj]
      rfl



theorem dropWhile_append_keep (p : Char → Bool) (c : Char) (r : Str) (hc : p c = false) :
    ∀ a : Str, ∃ a2 : Str, (a ++ c :: r).dropWhile p = a2 ++ c :: r := by
  intro a
  induction a with
  | nil => exact ⟨[], by simp [List.dropWhile, hc]⟩
  | cons x xs ih =>
    by_cases hx : p x = true
    · obtain ⟨a2, h2⟩ := ih
      exact ⟨a2, by simp [List.dropWhile, hx, h2]⟩
    · exact ⟨x :: xs, by simp [List.dropWhile, hx]⟩

theorem TrimSpace_middle (a b mid : Str) (c d : Char) (hc : isSpace c = false)
    (hd : isSpace d = false) :
    ∃ a2 b2 : Str, TrimSpace (a ++ (c :: mid ++ [d]) ++ b) = a2 ++ (c :: mid ++ [d]) ++ b2 := by
  obtain ⟨a2, h1⟩ := dropWhile_append_keep isSpace c (mid ++ [d] ++ b) hc a
  obtain ⟨b2, h2⟩ :=
    dropWhile_append_keep isSpace d (mid.reverse ++ c :: a2.reverse) hd b.reverse
  refine ⟨a2, b2.reverse, ?_⟩
  unfold TrimSpace
  have e1 : a ++ (c :: mid ++ [d]) ++ b = a ++ c :: (mid ++ [d] ++ b) := by simp
  rw [e1, h1]
  have e2 : (a2 ++ c :: (mid ++ [d] ++ b)).reverse
      = b.reverse ++ d :: (mid.reverse ++ c :: a2.reverse) := by simp
  rw [e2, h2]
  simp

theorem TrimSpace_cons_keep (c : Char) (s : Str) (hc : isSpace c = false) :
    ∃ X : Str, TrimSpace (c :: s) = c :: X := by
  obtain ⟨b2, h2⟩ := dropWhile_append_keep isSpace c [] hc s.reverse
  refine ⟨b2.reverse, ?_⟩
  unfold TrimSpace
  have e1 : (c :: s).dropWhile isSpace = c :: s := by simp [List.dropWhile, hc]
  rw [e1]
  have e2 : (c :: s).reverse = s.reverse ++ [c] := by simp
  rw [e2, h2]
  simp

theorem Index_skip_tag (rest : Str) :
    Index ("json".toList ++ rest) fence = (Index rest fence).map (· + 4) := by
  have e : "json".toList ++ rest = 'j' :: 's' :: 'o' :: 'n' :: rest := rfl
  rw [e]
  have h1 : ∀ (x : Char) (l : Str), x ≠ '`' → HasPrefix (x :: l) fence = false := by
    intro x l hx
    have hb : ('`' == x) = false := by
      simp only [beq_eq_false_iff_ne, ne_eq]
      exact fun h => hx h.symm
    simp [HasPrefix, fence, List.isPrefixOf, hb]
  rw [Index, h1 _ _ (by decide), Index, h1 _ _ (by decide), Index, h1 _ _ (by decide),
    Index, h1 _ _ (by decide)]
  cases Index rest fence <;> simp

/-- A content with a fence tagged `json` and a closing fence yields no tool call, whatever
stands before, between and after the fences: the text kept starts with the tag. -/
theorem extractToolCalls_tagged_fence (js : JsonCodec) (pre body suf : Str) :
    extractToolCalls js (pre ++ fence ++ "json".toList ++ body ++ fence ++ suf) = [] := by
  have hform : pre ++ fence ++ "json".toList ++ body ++ fence ++ suf
      = pre ++ ('`' :: (['`', '`'] ++ "json".toList ++ body ++ ['`', '`']) ++ ['`']) ++ suf := by
    simp [fence]
  obtain ⟨a2, b2, ht⟩ := TrimSpace_middle pre suf
    (['`', '`'] ++ "json".toList ++ body ++ ['`', '`']) '`' '`' (by decide) (by decide)
  rw [← hform] at ht
  have ht2 : TrimSpace (pre ++ fence ++ "json".toList ++ body ++ fence ++ suf)
      = a2 ++ (fence ++ "json".toList) ++ (body ++ fence ++ b2) := by
    rw [ht]
    simp [fence]
  obtain ⟨i, hi, hle⟩ := Index_le_of_append (fence ++ "json".toList) a2 (body ++ fence ++ b2)
  rw [← ht2] at hi
  obtain ⟨rest, hrest⟩ := Index_some_prefix _ _ _ hi
  have hdrop3 : (TrimSpace (pre ++ fence ++ "json".toList ++ body ++ fence ++ suf)).drop (i + 3)
      = "json".toList ++ rest := by
    rw [← List.drop_drop, ← hrest]
    rfl
  have hrest2 : rest = (a2 ++ (fence ++ "json".toList)).drop (i + 7) ++ body ++ fence ++ b2 := by
    have h7 : (TrimSpace (pre ++ fence ++ "json".toList ++ body ++ fence ++ suf)).drop (i + 7)
        = rest := by
      rw [← List.drop_drop, ← hrest]
      rfl
    rw [← h7, ht2, List.drop_append_of_le_length]
    · simp
    · simp [fence]
      omega
  obtain ⟨e, he, _⟩ := Index_le_of_append fence
    ((a2 ++ (fence ++ "json".toList)).drop (i + 7) ++ body) b2
  have he2 : Index rest fence = some e := by
    rw [hrest2]
    simpa using he
  have hclose : Index ("json".toList ++ rest) fence = some (e + 4) := by
    rw [Index_skip_tag, he2]
    rfl
  have hcont : Contains (TrimSpace (pre ++ fence ++ "json".toList ++ body ++ fence ++ suf))
      fence = true := by
    obtain ⟨k, hk, _⟩ := Index_le_of_append fence a2 ("json".toList ++ (body ++ fence ++ b2))
    unfold Contains
    rw [ht2]
    have : a2 ++ (fence ++ "json".toList) ++ (body ++ fence ++ b2)
        = a2 ++ fence ++ ("json".toList ++ (body ++ fence ++ b2)) := by simp
    rw [this, hk]
    rfl
  obtain ⟨X, hX⟩ := TrimSpace_cons_keep 'j' ("son".toList ++ rest.take e) (by decide)
  have hbody : fenceBody (TrimSpace (pre ++ fence ++ "json".toList ++ body ++ fence ++ suf))
      = 'j' :: X := by
    unfold fenceBody
    rw [if_pos hcont, hi]
    simp only
    rw [hdrop3, hclose]
    simp only
    rw [← hX]
    rfl
  have hne : TrimSpace (pre ++ fence ++ "json".toList ++ body ++ fence ++ suf) ≠ [] := by
    rw [ht2]
    simp [fence]
  exact extractToolCalls_of_body js _ 'j' X hne hbody (by decide)

/-- C4 (code defect): for every JSON decoder and every content of the form prefix, "```json",
body, "```", suffix, extractToolCalls returns no tool call, because the text it keeps starts
right after the three fence characters, with the tag `json`; so on the answer "```json",
newline, a JSON array with one `git.status` call, newline, "```" it returns nothing, while on
the body itself it returns what the decoder reads, one call for the decoder `exJson`. -/
theorem extractToolCalls_json_fence_keeps_tag (js : JsonCodec) :
    (∀ pre body suf : Str,
      extractToolCalls js (pre ++ fence ++ "json".toList ++ body ++ fence ++ suf) = []) ∧
    exFencedJson = fence ++ "json".toList ++ ('\n' :: exCallsJson ++ ['\n']) ++ fence ∧
    fenceBody (TrimSpace exFencedJson) = "json\n".toList ++ exCallsJson ∧
    extractToolCalls js exFencedJson = [] ∧
    (∀ cs, js.decodeCalls exCallsJson = some cs →
      extractToolCalls js ('\n' :: exCallsJson ++ ['\n']) = cs) ∧
    (extractToolCalls exJson ('\n' :: exCallsJson ++ ['\n'])).map (·.Name)
      = ["git.status".toList] := by
  refine ⟨extractToolCalls_tagged_fence js, by decide, rfl, ?_, ?_, rfl⟩
  · exact extractToolCalls_of_body js exFencedJson 'j' ("son\n".toList ++ exCallsJson)
      (by decide) rfl (by decide)
  · intro cs hcs
    have h1 : TrimSpace ('\n' :: exCallsJson ++ ['\n']) = exCallsJson := by decide
    have h2 : fenceBody exCallsJson = exCallsJson := by decide
    have h3 : HasPrefix exCallsJson ['['] = true := by decide
    have h4 : exCallsJson ≠ [] := by decide
    unfold extractToolCalls
    simp only [h1, h4, if_false, h2, h3, if_true, hcs]

/-! ## Test execution -/

theorem runTestsLoop_all_fail (t : Terminal) (env : Env) (parts : List Str)
    (hallow : t.AllowExecution = true) (hcmd : parts.headD [] ≠ [])
    (hvalid : t.validateCommand (parts.headD []) = none)
    (hfail : ∀ tick, (env.runProcess tick t.WorkingDir (parts.headD []) parts.tail).err ≠ none) :
    ∀ (n : Nat) (last : TestRun) (w : World),
      (runTestsLoop t env parts n last w).1.attempts = last.attempts + n ∧
      (runTestsLoop t env parts n last w).2.execLog.length = w.execLog.length + n := by
  intro n
  induction n with
  | zero => intro last w; simp [runTestsLoop]
  | succ n ih =>
    intro last w
    have hne : ((env.runProcess w.tick t.WorkingDir (parts.headD []) parts.tail).err.map
        (·.1)) ≠ none := by
      cases h : (env.runProcess w.tick t.WorkingDir (parts.headD []) parts.tail).err with
      | none => exact absurd h (hfail w.tick)
      | some e => simp
    unfold runTestsLoop
    simp only [Terminal.Exec, hallow, hcmd, hvalid, Bool.not_true, Bool.false_eq_true,
      if_false, hne, false_and]
    refine ⟨?_, ?_⟩
    · rw [(ih _ _).1]
      push_cast
      ring
    · rw [(ih _ _).2]
      simp [World.advance]
      ring

theorem runTests_all_fail_count (n : Nat) :
    (exTermRunner.runTests exFailEnv "false".toList (n : Int) 0 {}).1.attempts = (n : Int) + 2 ∧
    (exTermRunner.runTests exFailEnv "false".toList (n : Int) 0 {}).2.execLog.length = n + 1 := by
  have hparts : Fields "false".toList = ["false".toList] := by decide
  have hrun : exTermRunner.runTests exFailEnv "false".toList (n : Int) 0 {}
      = runTestsLoop { AllowExecution := true } exFailEnv ["false".toList] (n + 1)
          { attempts := 1 } {} := by
    have hn : ¬ ((n : Int) < 0) := by omega
    have ht : (((n : Int) + 1).toNat) = n + 1 := by omega
    unfold AgentRunner.runTests
    simp only [exTermRunner, Option.bind, hparts, if_neg hn, ht]
    rfl
  have h := runTestsLoop_all_fail { AllowExecution := true } exFailEnv ["false".toList]
    rfl (by decide) (by decide) (by intro tick; simp [exFailEnv]) (n + 1) { attempts := 1 } {}
  rw [hrun]
  refine ⟨?_, ?_⟩
  · rw [h.1]
    push_cast
    ring
  · rw [h.2]
    simp

theorem runTestsLoop_attempts_bounds (t : Terminal) (env : Env) (parts : List Str) :
    ∀ (n : Nat) (last : TestRun) (w : World),
      last.attempts ≤ (runTestsLoop t env parts n last w).1.attempts ∧
      (runTestsLoop t env parts n last w).1.attempts ≤ last.attempts + n := by
  intro n
  induction n with
  | zero => intro last w; simp [runTestsLoop]
  | succ n ih =>
    intro last w
    unfold runTestsLoop
    split
    rename_i res execErr w2 _
    simp only
    split
    · simp only
      constructor <;> omega
    · refine ⟨le_trans ?_ (ih _ _).1, le_trans (ih _ _).2 ?_⟩
      · simp only
        omega
      · simp only
        push_cast
        omega

/-- C5 (code defect): with a terminal that runs every command and a command that always
exits with status 1, runTests with retries = n runs the command n + 1 times and returns
attempts = n + 2, for every n (attempts = 2 for retries = 0, attempts = 4 for retries = 2);
in general the loop returns a count between its start value 1 and retries + 2; when the
command exits with status 0 it is run once and attempts = 1. -/
theorem runTests_attempts_after_failures :
    (∀ n : Nat,
      (exTermRunner.runTests exFailEnv "false".toList (n : Int) 0 {}).1.attempts = (n : Int) + 2 ∧
      (exTermRunner.runTests exFailEnv "false".toList (n : Int) 0 {}).2.execLog.length = n + 1) ∧
    (∀ (t : Terminal) (env : Env) (parts : List Str) (n : Nat) (last : TestRun) (w : World),
      last.attempts ≤ (runTestsLoop t env parts n last w).1.attempts ∧
      (runTestsLoop t env parts n last w).1.attempts ≤ last.attempts + n) ∧
    ((exTermRunner.runTests exFailEnv "false".toList 0 0 {}).1.attempts = 2 ∧
     (exTermRunner.runTests exFailEnv "false".toList 0 0 {}).2.execLog.length = 1) ∧
    ((exTermRunner.runTests exFailEnv "go test ./...".toList 2 0 {}).1.attempts = 4 ∧
     (exTermRunner.runTests exFailEnv "go test ./...".toList 2 0 {}).2.execLog.length = 3) ∧
    ((exTermRunner.runTests exPassEnv "echo ok".toList 0 0 {}).1.attempts = 1 ∧
     (exTermRunner.runTests exPassEnv "echo ok".toList 0 0 {}).2.execLog.length = 1) := by
  refine ⟨runTests_all_fail_count, runTestsLoop_attempts_bounds, ?_⟩
  decide

/-! ## Context files -/

theorem totalContent_append (a : List ContextFile) (cf : ContextFile) :
    totalContent (a ++ [cf]) = totalContent a + cf.Content.length := by
  simp [totalContent]

/-- The invariant of `appendWithBudget`: the running total stays the size of the list, is at
most the budget plus the twelve bytes of the truncation mark, and is below the budget
whenever the budget is not reported as exhausted. -/
theorem appendWithBudget_bound (out : List ContextFile) (cf : ContextFile)
    (total maxBytes perFileCap : Int) (hmax : 0 < maxBytes) (hcap : 0 < perFileCap)
    (htot : total = (totalContent out : Int)) (hlt : total < maxBytes) :
    (appendWithBudget out cf total maxBytes perFileCap).2.1
        = (totalContent (appendWithBudget out cf total maxBytes perFileCap).1 : Int) ∧
    (appendWithBudget out cf total maxBytes perFileCap).2.1 ≤ maxBytes + 12 ∧
    ((appendWithBudget out cf total maxBytes perFileCap).2.2 = false →
      (appendWithBudget out cf total maxBytes perFileCap).2.1 < maxBytes) := by
  unfold appendWithBudget
  have h0 : ¬ (maxBytes > 0 ∧ maxBytes - total ≤ 0) := by omega
  rw [if_neg h0]
  simp only
  by_cases hl : maxBytes > 0 ∧ maxBytes - total < perFileCap
  · rw [if_pos hl]
    by_cases hc : maxBytes - total > 0 ∧ (cf.Content.length : Int) > maxBytes - total
    · rw [if_pos hc]
      simp only [totalContent_append, List.length_append, List.length_take]
      have hm : truncatedMark.length = 12 := by decide
      rw [hm]
      refine ⟨by push_cast; omega, by push_cast; omega, ?_⟩
      intro hf
      simp only [decide_eq_false_iff_not] at hf
      push_cast at hf ⊢
      omega
    · rw [if_neg hc]
      simp only [totalContent_append]
      refine ⟨by push_cast; omega, by omega, ?_⟩
      intro hf
      simp only [decide_eq_false_iff_not] at hf
      omega
  · rw [if_neg hl]
    by_cases hc : perFileCap > 0 ∧ (cf.Content.length : Int) > perFileCap
    · rw [if_pos hc]
      simp only [totalContent_append, List.length_append, List.length_take]
      have hm : truncatedMark.length = 12 := by decide
      rw [hm]
      refine ⟨by push_cast; omega, by push_cast; omega, ?_⟩
      intro hf
      simp only [decide_eq_false_iff_not] at hf
      push_cast at hf ⊢
      omega
    · rw [if_neg hc]
      simp only [totalContent_append]
      refine ⟨by push_cast; omega, by omega, ?_⟩
      intro hf
      simp only [decide_eq_false_iff_not] at hf
      omega

theorem contextFilesOf_error (e : Str) (w : World) :
    contextFilesOf ((Except.error e : Except Str (List ContextFile)), w) = [] := rfl

theorem contextFilesOf_ok (l : List ContextFile) (w : World) :
    contextFilesOf ((Except.ok l : Except Str (List ContextFile)), w) = l := rfl

theorem contextLoop_bound (f : Filesystem) (env : Env) (maxContext perFileCap : Int)
    (hmax : 0 < maxContext) (hcap : 0 < perFileCap) :
    ∀ (ps seen : List Str) (total : Int) (out : List ContextFile) (w : World),
      total = (totalContent out : Int) → total ≤ maxContext + 12 →
      (totalContent (contextFilesOf
        (contextLoop f env maxContext perFileCap ps seen total out w)) : Int)
        ≤ maxContext + 12 := by
  intro ps
  induction ps with
  | nil =>
    intro seen total out w htot hle
    unfold contextLoop
    rw [contextFilesOf_ok, ← htot]
    exact hle
  | cons p rest ih =>
    intro seen total out w htot hle
    unfold contextLoop
    split
    · exact ih _ _ _ _ htot hle
    · split
      · rw [contextFilesOf_ok, ← htot]
        exact hle
      · rename_i hnot
        have hlt : total < maxContext := by omega
        split
        · rw [contextFilesOf_error]
          simp [totalContent]
          omega
        · split
          · rw [contextFilesOf_error]
            simp [totalContent]
            omega
          · rename_i content w2 h2
            split
            rename_i out2 total2 exhausted happ
            have hb := appendWithBudget_bound out
              { Path := TrimSuffix p ['/'] ++ " (structure)".toList, Content := utf8 content }
              total maxContext perFileCap hmax hcap htot hlt
            rw [happ] at hb
            simp only at hb
            split
            · rw [contextFilesOf_ok, ← hb.1]
              exact hb.2.1
            · rename_i hex
              exact ih _ _ _ _ hb.1 hb.2.1
        · split
          · rw [contextFilesOf_error]
            simp [totalContent]
            omega
          · rename_i content w2 h2
            split
            rename_i out2 total2 exhausted happ
            have hb := appendWithBudget_bound out { Path := p, Content := utf8 content }
              total maxContext perFileCap hmax hcap htot hlt
            rw [happ] at hb
            simp only at hb
            split
            · rw [contextFilesOf_ok, ← hb.1]
              exact hb.2.1
            · rename_i hex
              exact ih _ _ _ _ hb.1 hb.2.1

/-- The total size of the context files is at most the budget plus the twelve bytes of one
truncation mark. -/
theorem buildContextFiles_bound (reg : Option ToolRegistry) (env : Env) (prompt : Str)
    (paths : List Str) (b : Nat) (w : World) :
    totalContent (contextFilesOf (buildContextFiles reg env prompt paths ((b : Int) + 1) w))
      ≤ b + 1 + 12 := by
  have hmax : (0 : Int) < (b : Int) + 1 := by omega
  unfold buildContextFiles
  cases reg with
  | none => simp [contextFilesOf, totalContent]
  | some reg =>
    dsimp only
    cases reg.FS with
    | none => simp [contextFilesOf, totalContent]
    | some f =>
      dsimp only
      have hcap : (0 : Int) <
          (if (b : Int) + 1 > 0 ∧ (b : Int) + 1 < 32 * 1024 then (b : Int) + 1 else 32 * 1024) := by
        split <;> omega
      have h := fun ps w0 => contextLoop_bound f env ((b : Int) + 1) _ hmax hcap ps [] 0 [] w0
        (by simp [totalContent]) (by omega)
      exact_mod_cast h _ _

/-- C8 (code defect): with the byte budget B = 20 and one explicit path whose file holds 100
bytes, buildContextFiles returns that file with the first 20 bytes followed by the 12 bytes
of the truncation mark, a total of 32 bytes, more than the budget; for every budget B > 0,
every registry, path list and file system the total is at most B + 12. -/
theorem buildContextFiles_exceeds_budget :
    contextFilesOf (buildContextFiles (some exFsRegistry) exBigFileEnv "use context".toList
        ["big.txt".toList] 20 {})
      = [{ Path := "big.txt".toList,
           Content := utf8 (List.replicate 20 'a' ++ "\n[truncated]".toList) }] ∧
    totalContent (contextFilesOf (buildContextFiles (some exFsRegistry) exBigFileEnv
        "use context".toList ["big.txt".toList] 20 {})) = 32 ∧
    (∀ (reg : Option ToolRegistry) (env : Env) (prompt : Str) (paths : List Str) (b : Nat)
        (w : World),
      totalContent (contextFilesOf (buildContextFiles reg env prompt paths ((b : Int) + 1) w))
        ≤ b + 1 + 12) := by
  refine ⟨by decide, by decide, buildContextFiles_bound⟩

/-! ## The event stream of a run -/

theorem NoTerminal_nil : NoTerminal [] := by
  intro e he
  cases he

theorem NoTerminal_append {a b : List RunTaskEvent} (ha : NoTerminal a) (hb : NoTerminal b) :
    NoTerminal (a ++ b) := by
  intro e he
  rcases List.mem_append.mp he with h | h
  · exact ha e h
  · exact hb e h

theorem NoTerminal_cons {e : RunTaskEvent} {b : List RunTaskEvent} (he : e.isTerminal = false)
    (hb : NoTerminal b) : NoTerminal (e :: b) := by
  intro x hx
  rcases List.mem_cons.mp hx with h | h
  · rw [h]; exact he
  · exact hb x h

theorem NoToolFailure_nil : NoToolFailure [] := by
  intro name h
  cases h

theorem NoToolFailure_append {a b : List Obs} (ha : NoToolFailure a) (hb : NoToolFailure b) :
    NoToolFailure (a ++ b) := by
  intro name h
  rcases List.mem_append.mp h with h | h
  · exact ha name h
  · exact hb name h

theorem NoToolFailure_cons {o : Obs} {b : List Obs} (ho : ∀ name, o ≠ Obs.toolCall name false)
    (hb : NoToolFailure b) : NoToolFailure (o :: b) := by
  intro name h
  rcases List.mem_cons.mp h with h | h
  · exact ho name h.symm
  · exact hb name h

theorem EndsWell_prepend {evs1 evs2 : List RunTaskEvent} {tr1 tr2 : List Obs} {h : Halt}
    (h1 : NoTerminal evs1) (t1 : NoToolFailure tr1) (h2 : EndsWell evs2 tr2 h) :
    EndsWell (evs1 ++ evs2) (tr1 ++ tr2) h := by
  cases h with
  | returned =>
    obtain ⟨pre, e, heq, hpre, hlast⟩ := h2
    refine ⟨evs1 ++ pre, e, by rw [heq, List.append_assoc], NoTerminal_append h1 hpre, ?_⟩
    rcases hlast with ⟨hterm, hnf⟩ | ⟨hk, name, hmem⟩
    · exact Or.inl ⟨hterm, NoToolFailure_append t1 hnf⟩
    · exact Or.inr ⟨hk, name, List.mem_append.mpr (Or.inr hmem)⟩
  | panicked => exact NoTerminal_append h1 h2
  | hung => exact NoTerminal_append h1 h2

theorem GoodOut_bind {α β : Type} (o : Out α) (f : α → World → Out β) (ho : GoodOut o)
    (hf : ∀ a w, GoodOut (f a w)) : GoodOut (o.bind f) := by
  unfold Out.bind
  cases hflow : o.flow with
  | halt h =>
    simp only [GoodOut, hflow] at ho ⊢
    exact ho
  | next a =>
    simp only [GoodOut, hflow] at ho
    have h2 := hf a o.world
    simp only [GoodOut] at h2 ⊢
    cases hflow2 : (f a o.world).flow with
    | next b =>
      simp only [hflow2] at h2 ⊢
      exact ⟨NoTerminal_append ho.1 h2.1, NoToolFailure_append ho.2 h2.2⟩
    | halt h =>
      simp only [hflow2] at h2 ⊢
      exact EndsWell_prepend ho.1 ho.2 h2

theorem EndsWell_single_terminal (e : RunTaskEvent) (tr : List Obs) (he : e.isTerminal = true)
    (ht : NoToolFailure tr) : EndsWell [e] tr .returned :=
  ⟨[], e, rfl, NoTerminal_nil, Or.inl ⟨he, ht⟩⟩

theorem errorEvent_isTerminal (sid corr msg : Str) :
    (errorEvent sid corr msg).isTerminal = true := by
  simp [errorEvent, RunTaskEvent.isTerminal]

theorem isTerminal_false_of_kind (e : RunTaskEvent) (k : Str) (hk : e.Kind = k)
    (h1 : k ≠ "done".toList) (h2 : k ≠ "error".toList) : e.isTerminal = false := by
  subst hk
  unfold RunTaskEvent.isTerminal
  rw [decide_eq_false h1, decide_eq_false h2]
  rfl

theorem GoodOut_cons {α : Type} (e : RunTaskEvent) (ob : Obs) (rest : Out α)
    (he : e.isTerminal = false) (hob : ∀ name, ob ≠ Obs.toolCall name false)
    (hrest : GoodOut rest) :
    GoodOut (⟨e :: rest.events, ob :: rest.trace, rest.world, rest.flow⟩ : Out α) := by
  simp only [GoodOut] at hrest ⊢
  cases hflow : rest.flow with
  | next b =>
    simp only [hflow] at hrest ⊢
    exact ⟨NoTerminal_cons he hrest.1, NoToolFailure_cons hob hrest.2⟩
  | halt h =>
    simp only [hflow] at hrest ⊢
    have := @EndsWell_prepend [e] rest.events [ob] rest.trace h
      (NoTerminal_cons he NoTerminal_nil) (NoToolFailure_cons hob NoToolFailure_nil) hrest
    simpa using this

theorem runTools_good (env : Env) (reg : ToolRegistry) (sid corr : Str) :
    ∀ (tcs : List ToolCall) (obs : List ToolObservation) (w : World),
      GoodOut (runTools env reg sid corr tcs obs w) := by
  intro tcs
  induction tcs with
  | nil =>
    intro obs w
    simp only [runTools, GoodOut]
    exact ⟨NoTerminal_nil, NoToolFailure_nil⟩
  | cons tc tcs ih =>
    intro obs w
    unfold runTools
    cases hexec : executeTool env (some reg) tc w with
    | mk res w' =>
      cases res with
      | panic =>
        simp only [GoodOut, EndsWell]
        exact NoTerminal_nil
      | fail out e =>
        simp only [GoodOut, EndsWell]
        exact ⟨[], _, rfl, NoTerminal_nil, Or.inr ⟨rfl, tc.Name, List.mem_singleton.mpr rfl⟩⟩
      | ok output =>
        simp only
        apply GoodOut_cons
        · exact isTerminal_false_of_kind _ "tool".toList rfl (by decide) (by decide)
        · intro name h
          cases h
        · exact ih _ _

theorem emitTokens_good (env : Env) (sid corr : Str) (step : Int) :
    ∀ (tokens : List Str) (idx : Nat) (w : World),
      GoodOut (emitTokens env sid corr step tokens idx w) := by
  intro tokens
  induction tokens with
  | nil =>
    intro idx w
    simp only [emitTokens, GoodOut]
    exact ⟨NoTerminal_nil, NoToolFailure_nil⟩
  | cons token rest ih =>
    intro idx w
    unfold emitTokens
    by_cases hsel : env.selectDone w.tick = true
    · simp only [hsel, if_true, GoodOut]
      refine EndsWell_single_terminal _ _ (errorEvent_isTerminal _ _ _) ?_
      apply NoToolFailure_cons _ NoToolFailure_nil
      intro name h
      cases h
    · simp only [hsel, Bool.false_eq_true, if_false]
      apply GoodOut_cons
      · exact isTerminal_false_of_kind _ "token".toList rfl (by decide) (by decide)
      · intro name h
        cases h
      · exact ih _ _

theorem callWithFallback_trace {α : Type} (r : AgentRunner) (fuel : Nat) (role model : Str)
    (eu : Int) (call : Str → World → Except Str α × World) (note : Except Str α → Obs)
    (w : World) (hnote : ∀ res name, note res ≠ Obs.toolCall name false) :
    NoToolFailure (r.callWithFallback fuel role model eu call note w).1 := by
  have hh : ∀ name, Obs.fallbackHung ≠ Obs.toolCall name false := by
    intro name h
    cases h
  unfold AgentRunner.callWithFallback
  split
  · exact NoToolFailure_cons (hnote _) NoToolFailure_nil
  · split
    · exact NoToolFailure_cons (hnote _) (NoToolFailure_cons hh NoToolFailure_nil)
    · split
      · split
        · exact NoToolFailure_cons (hnote _) (NoToolFailure_cons (hnote _) NoToolFailure_nil)
        · exact NoToolFailure_cons (hnote _) (NoToolFailure_cons (hnote _) NoToolFailure_nil)
      · exact NoToolFailure_cons (hnote _) NoToolFailure_nil

theorem notePlan_ne (res : Except Str Str) (name : Str) :
    notePlan res ≠ Obs.toolCall name false := by
  cases res <;> (intro h; cases h)

theorem noteCoder_ne (res : Except Str Response) (name : Str) :
    noteCoder res ≠ Obs.toolCall name false := by
  cases res <;> (intro h; cases h)

theorem noteCritic_ne (res : Except Str Str) (name : Str) :
    noteCritic res ≠ Obs.toolCall name false := by
  cases res <;> (intro h; cases h)

theorem planPhase_good (r : AgentRunner) (a : Agent) (env : Env) (fuel : Nat)
    (req : RunTaskRequest) (corr : Str) (ctxFiles : List ContextFile) (eu : Int) (w : World) :
    GoodOut (r.planPhase a env fuel req corr ctxFiles eu w) := by
  unfold AgentRunner.planPhase
  split
  · generalize r.selectModel "planner".toList (firstNonEmpty [req.PlannerModel, req.Model]) eu w
      = sel
    obtain ⟨planModel, eu1, w1⟩ := sel
    simp only
    have htr := callWithFallback_trace r fuel "planner".toList planModel eu1
      (fun m w => a.Plan env
        { SessionID := req.SessionID, Model := m, Prompt := req.Prompt, Context := ctxFiles } w)
      notePlan w1 notePlan_ne
    generalize r.callWithFallback fuel "planner".toList planModel eu1
      (fun m w => a.Plan env
        { SessionID := req.SessionID, Model := m, Prompt := req.Prompt, Context := ctxFiles } w)
      notePlan w1 = res at htr
    obtain ⟨tr, opt⟩ := res
    cases opt with
    | none => exact NoTerminal_nil
    | some x =>
      obtain ⟨result, eu2, w2⟩ := x
      cases result with
      | error e => exact EndsWell_single_terminal _ _ (errorEvent_isTerminal _ _ _) htr
      | ok plan =>
        refine ⟨?_, htr⟩
        simp only
        split
        · exact NoTerminal_cons
            (isTerminal_false_of_kind _ "plan".toList rfl (by decide) (by decide)) NoTerminal_nil
        · exact NoTerminal_nil
  · exact ⟨NoTerminal_nil, NoToolFailure_nil⟩

theorem coderPhase_good (r : AgentRunner) (a : Agent) (env : Env) (fuel : Nat)
    (req : RunTaskRequest) (corr : Str) (ctxFiles : List ContextFile) (eu : Int) (w : World) :
    GoodOut (r.coderPhase a env fuel req corr ctxFiles eu w) := by
  unfold AgentRunner.coderPhase
  generalize r.selectModel "coder".toList (firstNonEmpty [req.Model]) eu w = sel
  obtain ⟨model, eu1, w1⟩ := sel
  simp only
  have htr := callWithFallback_trace r fuel "coder".toList model eu1
    (fun m w => a.Run env
      { SessionID := req.SessionID, Model := m, Prompt := req.Prompt, Context := ctxFiles } w)
    noteCoder w1 noteCoder_ne
  generalize r.callWithFallback fuel "coder".toList model eu1
    (fun m w => a.Run env
      { SessionID := req.SessionID, Model := m, Prompt := req.Prompt, Context := ctxFiles } w)
    noteCoder w1 = res at htr
  obtain ⟨tr, opt⟩ := res
  cases opt with
  | none => exact NoTerminal_nil
  | some x =>
    obtain ⟨result, eu2, w2⟩ := x
    cases result with
    | error e => exact EndsWell_single_terminal _ _ (errorEvent_isTerminal _ _ _) htr
    | ok resp => exact ⟨NoTerminal_nil, htr⟩

theorem testPhase_good (r : AgentRunner) (a : Agent) (env : Env) (sid corr : Str) (step : Int)
    (done : Bool) (w : World) : GoodOut (r.testPhase a env sid corr step done w) := by
  unfold AgentRunner.testPhase
  split
  · exact ⟨NoTerminal_cons
      (isTerminal_false_of_kind _ "test".toList rfl (by decide) (by decide)) NoTerminal_nil,
      NoToolFailure_nil⟩
  · exact ⟨NoTerminal_nil, NoToolFailure_nil⟩

theorem reflectPhase_good (r : AgentRunner) (a : Agent) (js : JsonCodec) (env : Env)
    (fuel : Nat) (req : RunTaskRequest) (corr : Str) (step : Int) (resp : Response)
    (stepTools : List ToolObservation) (testObs : Option TestObservation) (done : Bool)
    (eu : Int) (w : World) :
    GoodOut (r.reflectPhase a js env fuel req corr step resp stepTools testObs done eu w) := by
  unfold AgentRunner.reflectPhase
  split
  · generalize r.selectModel "critic".toList (firstNonEmpty [req.CriticModel, req.Model]) eu w
      = sel
    obtain ⟨model, eu1, w1⟩ := sel
    simp only
    generalize hcall : (fun m w => a.Reflect env
        { SessionID := req.SessionID, Model := m, Prompt := req.Prompt } resp
        { Tools := stepTools, Test := testObs,
          SelfDiff := if a.EnableSelfDiff = true then
            computeSelfDiff resp.PreviousAssistant resp.Message.Content else [] } w) = call
    have htr := callWithFallback_trace r fuel "critic".toList model eu1 call noteCritic w1
      noteCritic_ne
    generalize r.callWithFallback fuel "critic".toList model eu1 call noteCritic w1 = res at htr
    obtain ⟨tr, opt⟩ := res
    cases opt with
    | none => exact NoTerminal_nil
    | some x =>
      obtain ⟨result, eu2, w2⟩ := x
      cases result with
      | error e => exact EndsWell_single_terminal _ _ (errorEvent_isTerminal _ _ _) htr
      | ok reflection =>
        simp only
        split
        · refine ⟨NoTerminal_cons
            (isTerminal_false_of_kind _ "reflect".toList rfl (by decide) (by decide))
            NoTerminal_nil, NoToolFailure_append htr ?_⟩
          apply NoToolFailure_cons _ NoToolFailure_nil
          intro name h
          cases h
        · exact ⟨NoTerminal_nil, htr⟩
  · exact ⟨NoTerminal_nil, NoToolFailure_nil⟩

theorem finishStep_good (r : AgentRunner) (req : RunTaskRequest) (corr : Str) (step : Int)
    (resp : Response) (tokenCount : Int) (ro : ReflectOut) (w : World) :
    GoodOut (r.finishStep req corr step resp tokenCount ro w) := by
  unfold AgentRunner.finishStep
  split
  · simp only [GoodOut, EndsWell]
    split
    · exact ⟨[_], _, rfl,
        NoTerminal_cons
          (isTerminal_false_of_kind _ "message".toList rfl (by decide) (by decide))
          NoTerminal_nil,
        Or.inl ⟨by simp [RunTaskEvent.isTerminal], NoToolFailure_nil⟩⟩
    · exact ⟨[], _, rfl, NoTerminal_nil,
        Or.inl ⟨by simp [RunTaskEvent.isTerminal], NoToolFailure_nil⟩⟩
  · exact ⟨NoTerminal_nil, NoToolFailure_nil⟩

theorem runStep_good (r : AgentRunner) (a : Agent) (js : JsonCodec) (env : Env) (fuel : Nat)
    (req : RunTaskRequest) (corr : Str) (ctxFiles : List ContextFile) (step : Int)
    (st : LoopState) (w : World) :
    GoodOut (r.runStep a js env fuel req corr ctxFiles step st w) := by
  have ho : ∀ (n : Int) (b : Bool) (name : Str),
      Obs.stepStart n ≠ Obs.toolCall name false ∧ Obs.ctxPoll b ≠ Obs.toolCall name false := by
    intro n b name
    constructor
    · intro h
      cases h
    · intro h
      cases h
  have htr : ∀ b, NoToolFailure [Obs.stepStart step, Obs.ctxPoll b] := fun b =>
    NoToolFailure_cons (fun name => (ho step b name).1)
      (NoToolFailure_cons (fun name => (ho step b name).2) NoToolFailure_nil)
  unfold AgentRunner.runStep
  split
  · exact EndsWell_single_terminal _ _ (errorEvent_isTerminal _ _ _) (htr true)
  · apply GoodOut_bind
    · exact ⟨NoTerminal_nil, htr false⟩
    intro _ w1
    apply GoodOut_bind
    · exact coderPhase_good _ _ _ _ _ _ _ _ _
    intro re w2
    apply GoodOut_bind
    · exact ⟨NoTerminal_cons
        (isTerminal_false_of_kind _ "message".toList rfl (by decide) (by decide))
        NoTerminal_nil, NoToolFailure_nil⟩
    intro _ w3
    apply GoodOut_bind
    · exact emitTokens_good _ _ _ _ _ _ _
    intro _ w4
    apply GoodOut_bind
    · cases r.Tools with
      | none => exact ⟨NoTerminal_nil, NoToolFailure_nil⟩
      | some reg => exact runTools_good _ _ _ _ _ _ _
    intro stepTools w5
    apply GoodOut_bind
    · exact testPhase_good _ _ _ _ _ _ _ _
    intro testObs w6
    apply GoodOut_bind
    · exact reflectPhase_good _ _ _ _ _ _ _ _ _ _ _ _ _ _
    intro ro w7
    exact finishStep_good _ _ _ _ _ _ _ _

theorem stepLoop_good (r : AgentRunner) (a : Agent) (js : JsonCodec) (env : Env) (fuel : Nat)
    (req : RunTaskRequest) (corr : Str) (ctxFiles : List ContextFile) :
    ∀ (n : Nat) (step : Int) (st : LoopState) (w : World),
      EndsWell (r.stepLoop a js env fuel req corr ctxFiles n step st w).events
        (r.stepLoop a js env fuel req corr ctxFiles n step st w).trace
        (r.stepLoop a js env fuel req corr ctxFiles n step st w).halt := by
  intro n
  induction n with
  | zero =>
    intro step st w
    simp only [AgentRunner.stepLoop]
    exact EndsWell_single_terminal _ _ (by simp [RunTaskEvent.isTerminal]) NoToolFailure_nil
  | succ n ih =>
    intro step st w
    have hstep := runStep_good r a js env fuel req corr ctxFiles step st w
    unfold AgentRunner.stepLoop
    generalize r.runStep a js env fuel req corr ctxFiles step st w = o at hstep
    obtain ⟨evs, tr, w1, flow⟩ := o
    cases flow with
    | halt h => exact hstep
    | next st1 =>
      simp only [GoodOut] at hstep
      exact EndsWell_prepend hstep.1 hstep.2 (ih (step + 1) st1 w1)

theorem preTools_good (r : AgentRunner) (env : Env) (req : RunTaskRequest) (corr : Str)
    (w : World) : GoodOut (r.preTools env req corr w) := by
  unfold AgentRunner.preTools
  cases r.Tools with
  | none => exact ⟨NoTerminal_nil, NoToolFailure_nil⟩
  | some reg =>
    simp only
    split
    · exact runTools_good _ _ _ _ _ _ _
    · exact ⟨NoTerminal_nil, NoToolFailure_nil⟩

theorem Run_good (r : AgentRunner) (js : JsonCodec) (env : Env) (fuel : Nat)
    (req : RunTaskRequest) (w : World) :
    EndsWell (r.Run js env fuel req w).events (r.Run js env fuel req w).trace
      (r.Run js env fuel req w).halt := by
  have hcb : ∀ b, NoToolFailure [Obs.contextBuilt b] := fun b =>
    NoToolFailure_cons (fun name h => by cases h) NoToolFailure_nil
  unfold AgentRunner.Run
  simp only
  cases r.Agent with
  | none => exact EndsWell_single_terminal _ _ (errorEvent_isTerminal _ _ _) NoToolFailure_nil
  | some a =>
    simp only
    generalize buildContextFiles r.Tools env req.Prompt req.ContextPaths a.MaxContextBytes w = cb
    obtain ⟨cres, w1⟩ := cb
    cases cres with
    | error e => exact EndsWell_single_terminal _ _ (errorEvent_isTerminal _ _ _) (hcb false)
    | ok ctxFiles =>
      simp only
      have hpre := preTools_good r env req
        (if req.CorrelationID = [] then req.SessionID else req.CorrelationID) w1
      generalize r.preTools env req
        (if req.CorrelationID = [] then req.SessionID else req.CorrelationID) w1 = pre at hpre
      obtain ⟨evs1, tr1, w2, flow1⟩ := pre
      cases flow1 with
      | halt h =>
        have := @EndsWell_prepend [] evs1 [Obs.contextBuilt true] tr1 h NoTerminal_nil
          (hcb true) hpre
        simpa using this
      | next initialTools =>
        simp only [GoodOut] at hpre
        simp only
        have hplan := planPhase_good r a env fuel req
          (if req.CorrelationID = [] then req.SessionID else req.CorrelationID) ctxFiles 0 w2
        generalize r.planPhase a env fuel req
          (if req.CorrelationID = [] then req.SessionID else req.CorrelationID) ctxFiles 0 w2
          = pl at hplan
        obtain ⟨evs2, tr2, w3, flow2⟩ := pl
        cases flow2 with
        | halt h =>
          have := @EndsWell_prepend [] (evs1 ++ evs2) [Obs.contextBuilt true] (tr1 ++ tr2) h
            NoTerminal_nil (hcb true) (EndsWell_prepend hpre.1 hpre.2 hplan)
          simpa using this
        | next eu =>
          simp only [GoodOut] at hplan
          simp only
          have hloop := stepLoop_good r a js env fuel req
            (if req.CorrelationID = [] then req.SessionID else req.CorrelationID) ctxFiles
            a.MaxSteps.toNat 1
            { initialTools := initialTools, expensiveUsed := eu, tokenCount := 0 } w3
          have := @EndsWell_prepend [] (evs1 ++ evs2 ++ _) [Obs.contextBuilt true]
            (tr1 ++ tr2 ++ _) _ NoTerminal_nil (hcb true)
            (EndsWell_prepend (NoTerminal_append hpre.1 hplan.1)
              (NoToolFailure_append hpre.2 hplan.2) hloop)
          simpa using this

theorem bind_not_hung {α β : Type} (o : Out α) (f : α → World → Out β)
    (ho : o.flow ≠ .halt .hung) (hf : ∀ a w, (f a w).flow ≠ .halt .hung) :
    (o.bind f).flow ≠ .halt .hung := by
  unfold Out.bind
  cases hflow : o.flow with
  | halt h =>
    simp only
    rw [hflow] at ho
    intro hh
    injection hh with h1
    subst h1
    exact ho rfl
  | next a =>
    simp only
    exact hf a o.world

theorem pickFallbackModel_no_strategy (r : AgentRunner) (fuel : Nat) (role current : Str)
    (eu : Int) (w : World) (hS : r.Strategy = none) :
    r.pickFallbackModel fuel role current eu w = some ([], eu, w) := by
  unfold AgentRunner.pickFallbackModel
  rw [hS]

theorem callWithFallback_no_strategy {α : Type} (r : AgentRunner) (fuel : Nat)
    (role model : Str) (eu : Int) (call : Str → World → Except Str α × World)
    (note : Except Str α → Obs) (w : World) (hS : r.Strategy = none) :
    (r.callWithFallback fuel role model eu call note w).2 ≠ none := by
  unfold AgentRunner.callWithFallback
  split
  · simp
  · rw [pickFallbackModel_no_strategy r fuel role model eu _ hS]
    simp

theorem planPhase_not_hung (r : AgentRunner) (a : Agent) (env : Env) (fuel : Nat)
    (req : RunTaskRequest) (corr : Str) (ctxFiles : List ContextFile) (eu : Int) (w : World)
    (hS : r.Strategy = none) :
    (r.planPhase a env fuel req corr ctxFiles eu w).flow ≠ .halt .hung := by
  unfold AgentRunner.planPhase
  split
  · split
    split
    · rename_i heq
      exact absurd (congrArg Prod.snd heq) (callWithFallback_no_strategy _ _ _ _ _ _ _ _ hS)
    · simp
    · simp
  · simp

theorem coderPhase_not_hung (r : AgentRunner) (a : Agent) (env : Env) (fuel : Nat)
    (req : RunTaskRequest) (corr : Str) (ctxFiles : List ContextFile) (eu : Int) (w : World)
    (hS : r.Strategy = none) :
    (r.coderPhase a env fuel req corr ctxFiles eu w).flow ≠ .halt .hung := by
  unfold AgentRunner.coderPhase
  split
  split
  · rename_i heq
    exact absurd (congrArg Prod.snd heq) (callWithFallback_no_strategy _ _ _ _ _ _ _ _ hS)
  · simp
  · simp

theorem reflectPhase_not_hung (r : AgentRunner) (a : Agent) (js : JsonCodec) (env : Env)
    (fuel : Nat) (req : RunTaskRequest) (corr : Str) (step : Int) (resp : Response)
    (stepTools : List ToolObservation) (testObs : Option TestObservation) (done : Bool)
    (eu : Int) (w : World) (hS : r.Strategy = none) :
    (r.reflectPhase a js env fuel req corr step resp stepTools testObs done eu w).flow
      ≠ .halt .hung := by
  unfold AgentRunner.reflectPhase
  split
  · simp only
    split
    · rename_i heq
      exact absurd (congrArg Prod.snd heq) (callWithFallback_no_strategy _ _ _ _ _ _ _ _ hS)
    · simp
    · split <;> simp
  · simp

theorem runTools_not_hung (env : Env) (reg : ToolRegistry) (sid corr : Str) :
    ∀ (tcs : List ToolCall) (obs : List ToolObservation) (w : World),
      (runTools env reg sid corr tcs obs w).flow ≠ .halt .hung := by
  intro tcs
  induction tcs with
  | nil => intro obs w; simp [runTools]
  | cons tc tcs ih =>
    intro obs w
    unfold runTools
    split
    · simp
    · simp
    · simp only
      exact ih _ _

theorem emitTokens_not_hung (env : Env) (sid corr : Str) (step : Int) :
    ∀ (toks : List Str) (idx : Nat) (w : World),
      (emitTokens env sid corr step toks idx w).flow ≠ .halt .hung := by
  intro toks
  induction toks with
  | nil => intro idx w; simp [emitTokens]
  | cons t ts ih =>
    intro idx w
    unfold emitTokens
    split
    · simp
    · simp only
      exact ih _ _

theorem testPhase_not_hung (r : AgentRunner) (a : Agent) (env : Env) (sid corr : Str)
    (step : Int) (done : Bool) (w : World) :
    (r.testPhase a env sid corr step done w).flow ≠ .halt .hung := by
  unfold AgentRunner.testPhase
  split
  · split
    simp
  · simp

theorem finishStep_not_hung (r : AgentRunner) (req : RunTaskRequest) (corr : Str) (step : Int)
    (resp : Response) (tokenCount : Int) (ro : ReflectOut) (w : World) :
    (r.finishStep req corr step resp tokenCount ro w).flow ≠ .halt .hung := by
  unfold AgentRunner.finishStep
  split <;> simp

theorem runStep_not_hung (r : AgentRunner) (a : Agent) (js : JsonCodec) (env : Env) (fuel : Nat)
    (req : RunTaskRequest) (corr : Str) (ctxFiles : List ContextFile) (step : Int)
    (st : LoopState) (w : World) (hS : r.Strategy = none) :
    (r.runStep a js env fuel req corr ctxFiles step st w).flow ≠ .halt .hung := by
  unfold AgentRunner.runStep
  split
  · simp
  · apply bind_not_hung
    · simp
    intro _ w1
    apply bind_not_hung
    · exact coderPhase_not_hung _ _ _ _ _ _ _ _ _ hS
    intro re w2
    apply bind_not_hung
    · simp
    intro _ w3
    apply bind_not_hung
    · exact emitTokens_not_hung _ _ _ _ _ _ _
    intro _ w4
    apply bind_not_hung
    · cases r.Tools with
      | none => simp
      | some reg => exact runTools_not_hung _ _ _ _ _ _ _
    intro stepTools w5
    apply bind_not_hung
    · exact testPhase_not_hung _ _ _ _ _ _ _ _
    intro testObs w6
    apply bind_not_hung
    · exact reflectPhase_not_hung _ _ _ _ _ _ _ _ _ _ _ _ _ _ hS
    intro ro w7
    exact finishStep_not_hung _ _ _ _ _ _ _ _

theorem stepLoop_not_hung (r : AgentRunner) (a : Agent) (js : JsonCodec) (env : Env)
    (fuel : Nat) (req : RunTaskRequest) (corr : Str) (ctxFiles : List ContextFile)
    (hS : r.Strategy = none) :
    ∀ (n : Nat) (step : Int) (st : LoopState) (w : World),
      (r.stepLoop a js env fuel req corr ctxFiles n step st w).halt ≠ .hung := by
  intro n
  induction n with
  | zero =>
    intro step st w
    simp [AgentRunner.stepLoop]
  | succ n ih =>
    intro step st w
    have hstep := runStep_not_hung r a js env fuel req corr ctxFiles step st w hS
    unfold AgentRunner.stepLoop
    generalize r.runStep a js env fuel req corr ctxFiles step st w = o at hstep
    obtain ⟨evs, tr, w1, flow⟩ := o
    cases flow with
    | halt h =>
      simp only at hstep ⊢
      intro hh
      exact hstep (by rw [hh])
    | next st1 =>
      simp only
      exact ih _ _ _

theorem preTools_not_hung (r : AgentRunner) (env : Env) (req : RunTaskRequest) (corr : Str)
    (w : World) : (r.preTools env req corr w).flow ≠ .halt .hung := by
  unfold AgentRunner.preTools
  cases r.Tools with
  | none => simp
  | some reg =>
    simp only
    split
    · exact runTools_not_hung _ _ _ _ _ _ _
    · simp

/-- Without a strategy engine there is no fallback selection, and no run ends in one. -/
theorem Run_not_hung (r : AgentRunner) (js : JsonCodec) (env : Env) (fuel : Nat)
    (req : RunTaskRequest) (w : World) (hS : r.Strategy = none) :
    (r.Run js env fuel req w).halt ≠ .hung := by
  unfold AgentRunner.Run
  simp only
  cases r.Agent with
  | none => simp
  | some a =>
    simp only
    generalize buildContextFiles r.Tools env req.Prompt req.ContextPaths a.MaxContextBytes w = cb
    obtain ⟨cres, w1⟩ := cb
    cases cres with
    | error e => simp
    | ok ctxFiles =>
      simp only
      have hpre := preTools_not_hung r env req
        (if req.CorrelationID = [] then req.SessionID else req.CorrelationID) w1
      generalize r.preTools env req
        (if req.CorrelationID = [] then req.SessionID else req.CorrelationID) w1 = pre at hpre
      obtain ⟨evs1, tr1, w2, flow1⟩ := pre
      cases flow1 with
      | halt h =>
        simp only at hpre ⊢
        intro hh
        exact hpre (by rw [hh])
      | next initialTools =>
        simp only
        have hplan := planPhase_not_hung r a env fuel req
          (if req.CorrelationID = [] then req.SessionID else req.CorrelationID) ctxFiles 0 w2 hS
        generalize r.planPhase a env fuel req
          (if req.CorrelationID = [] then req.SessionID else req.CorrelationID) ctxFiles 0 w2
          = pl at hplan
        obtain ⟨evs2, tr2, w3, flow2⟩ := pl
        cases flow2 with
        | halt h =>
          simp only at hplan ⊢
          intro hh
          exact hplan (by rw [hh])
        | next eu =>
          simp only
          exact stepLoop_not_hung r a js env fuel req _ ctxFiles hS _ _ _ _

theorem bind_panic_trace {α β : Type} (o : Out α) (f : α → World → Out β)
    (ho : o.flow = .halt .panicked → ∃ name, Obs.toolPanic name ∈ o.trace)
    (hf : ∀ a w, (f a w).flow = .halt .panicked → ∃ name, Obs.toolPanic name ∈ (f a w).trace) :
    (o.bind f).flow = .halt .panicked → ∃ name, Obs.toolPanic name ∈ (o.bind f).trace := by
  unfold Out.bind
  cases hflow : o.flow with
  | halt h =>
    simp only
    intro hh
    injection hh with h1
    subst h1
    exact ho hflow
  | next a =>
    simp only
    intro hh
    obtain ⟨name, hmem⟩ := hf a o.world hh
    exact ⟨name, List.mem_append.mpr (Or.inr hmem)⟩

theorem planPhase_not_panicked (r : AgentRunner) (a : Agent) (env : Env) (fuel : Nat)
    (req : RunTaskRequest) (corr : Str) (ctxFiles : List ContextFile) (eu : Int) (w : World) :
    (r.planPhase a env fuel req corr ctxFiles eu w).flow ≠ .halt .panicked := by
  unfold AgentRunner.planPhase
  split
  · split
    split <;> simp
  · simp

theorem coderPhase_not_panicked (r : AgentRunner) (a : Agent) (env : Env) (fuel : Nat)
    (req : RunTaskRequest) (corr : Str) (ctxFiles : List ContextFile) (eu : Int) (w : World) :
    (r.coderPhase a env fuel req corr ctxFiles eu w).flow ≠ .halt .panicked := by
  unfold AgentRunner.coderPhase
  split
  split <;> simp

theorem reflectPhase_not_panicked (r : AgentRunner) (a : Agent) (js : JsonCodec) (env : Env)
    (fuel : Nat) (req : RunTaskRequest) (corr : Str) (step : Int) (resp : Response)
    (stepTools : List ToolObservation) (testObs : Option TestObservation) (done : Bool)
    (eu : Int) (w : World) :
    (r.reflectPhase a js env fuel req corr step resp stepTools testObs done eu w).flow
      ≠ .halt .panicked := by
  unfold AgentRunner.reflectPhase
  split
  · simp only
    split
    · simp
    · simp
    · split <;> simp
  · simp

theorem runTools_panic_trace (env : Env) (reg : ToolRegistry) (sid corr : Str) :
    ∀ (tcs : List ToolCall) (obs : List ToolObservation) (w : World),
      (runTools env reg sid corr tcs obs w).flow = .halt .panicked →
      ∃ name, Obs.toolPanic name ∈ (runTools env reg sid corr tcs obs w).trace := by
  intro tcs
  induction tcs with
  | nil => intro obs w; simp [runTools]
  | cons tc tcs ih =>
    intro obs w
    unfold runTools
    split
    · intro _
      exact ⟨tc.Name, List.mem_singleton.mpr rfl⟩
    · simp
    · simp only
      intro hh
      obtain ⟨name, hmem⟩ := ih _ _ hh
      exact ⟨name, List.mem_cons_of_mem _ hmem⟩

theorem emitTokens_not_panicked (env : Env) (sid corr : Str) (step : Int) :
    ∀ (toks : List Str) (idx : Nat) (w : World),
      (emitTokens env sid corr step toks idx w).flow ≠ .halt .panicked := by
  intro toks
  induction toks with
  | nil => intro idx w; simp [emitTokens]
  | cons t ts ih =>
    intro idx w
    unfold emitTokens
    split
    · simp
    · simp only
      exact ih _ _

theorem testPhase_not_panicked (r : AgentRunner) (a : Agent) (env : Env) (sid corr : Str)
    (step : Int) (done : Bool) (w : World) :
    (r.testPhase a env sid corr step done w).flow ≠ .halt .panicked := by
  unfold AgentRunner.testPhase
  split
  · split
    simp
  · simp

theorem finishStep_not_panicked (r : AgentRunner) (req : RunTaskRequest) (corr : Str)
    (step : Int) (resp : Response) (tokenCount : Int) (ro : ReflectOut) (w : World) :
    (r.finishStep req corr step resp tokenCount ro w).flow ≠ .halt .panicked := by
  unfold AgentRunner.finishStep
  split <;> simp

theorem runStep_panic_trace (r : AgentRunner) (a : Agent) (js : JsonCodec) (env : Env)
    (fuel : Nat) (req : RunTaskRequest) (corr : Str) (ctxFiles : List ContextFile) (step : Int)
    (st : LoopState) (w : World) :
    (r.runStep a js env fuel req corr ctxFiles step st w).flow = .halt .panicked →
    ∃ name, Obs.toolPanic name ∈ (r.runStep a js env fuel req corr ctxFiles step st w).trace := by
  unfold AgentRunner.runStep
  split
  · simp
  · apply bind_panic_trace
    · simp
    intro _ w1
    apply bind_panic_trace
    · exact fun h => absurd h (coderPhase_not_panicked _ _ _ _ _ _ _ _ _)
    intro re w2
    apply bind_panic_trace
    · simp
    intro _ w3
    apply bind_panic_trace
    · exact fun h => absurd h (emitTokens_not_panicked _ _ _ _ _ _ _)
    intro _ w4
    apply bind_panic_trace
    · cases r.Tools with
      | none => simp
      | some reg => exact runTools_panic_trace _ _ _ _ _ _ _
    intro stepTools w5
    apply bind_panic_trace
    · exact fun h => absurd h (testPhase_not_panicked _ _ _ _ _ _ _ _)
    intro testObs w6
    apply bind_panic_trace
    · exact fun h => absurd h (reflectPhase_not_panicked _ _ _ _ _ _ _ _ _ _ _ _ _ _)
    intro ro w7
    exact fun h => absurd h (finishStep_not_panicked _ _ _ _ _ _ _ _)

theorem stepLoop_panic_trace (r : AgentRunner) (a : Agent) (js : JsonCodec) (env : Env)
    (fuel : Nat) (req : RunTaskRequest) (corr : Str) (ctxFiles : List ContextFile) :
    ∀ (n : Nat) (step : Int) (st : LoopState) (w : World),
      (r.stepLoop a js env fuel req corr ctxFiles n step st w).halt = .panicked →
      ∃ name, Obs.toolPanic name ∈ (r.stepLoop a js env fuel req corr ctxFiles n step st w).trace := by
  intro n
  induction n with
  | zero =>
    intro step st w
    simp [AgentRunner.stepLoop]
  | succ n ih =>
    intro step st w
    have hstep := runStep_panic_trace r a js env fuel req corr ctxFiles step st w
    unfold AgentRunner.stepLoop
    generalize r.runStep a js env fuel req corr ctxFiles step st w = o at hstep
    obtain ⟨evs, tr, w1, flow⟩ := o
    cases flow with
    | halt h =>
      simp only at hstep ⊢
      intro hh
      exact hstep (by rw [hh])
    | next st1 =>
      simp only
      intro hh
      obtain ⟨name, hmem⟩ := ih _ _ _ hh
      exact ⟨name, List.mem_append.mpr (Or.inr hmem)⟩

theorem preTools_panic_trace (r : AgentRunner) (env : Env) (req : RunTaskRequest) (corr : Str)
    (w : World) :
    (r.preTools env req corr w).flow = .halt .panicked →
    ∃ name, Obs.toolPanic name ∈ (r.preTools env req corr w).trace := by
  unfold AgentRunner.preTools
  cases r.Tools with
  | none => simp
  | some reg =>
    simp only
    split
    · exact runTools_panic_trace _ _ _ _ _ _ _
    · simp

/-- A run whose goroutine ended by a nil dereference made a tool call on a nil tool
instance. -/
theorem Run_panic_trace (r : AgentRunner) (js : JsonCodec) (env : Env) (fuel : Nat)
    (req : RunTaskRequest) (w : World) :
    (r.Run js env fuel req w).halt = .panicked →
    ∃ name, Obs.toolPanic name ∈ (r.Run js env fuel req w).trace := by
  unfold AgentRunner.Run
  simp only
  cases r.Agent with
  | none => simp
  | some a =>
    simp only
    generalize buildContextFiles r.Tools env req.Prompt req.ContextPaths a.MaxContextBytes w = cb
    obtain ⟨cres, w1⟩ := cb
    cases cres with
    | error e => simp
    | ok ctxFiles =>
      simp only
      have hpre := preTools_panic_trace r env req
        (if req.CorrelationID = [] then req.SessionID else req.CorrelationID) w1
      generalize r.preTools env req
        (if req.CorrelationID = [] then req.SessionID else req.CorrelationID) w1 = pre at hpre
      obtain ⟨evs1, tr1, w2, flow1⟩ := pre
      cases flow1 with
      | halt h =>
        simp only at hpre ⊢
        intro hh
        obtain ⟨name, hmem⟩ := hpre (by rw [hh])
        exact ⟨name, List.mem_cons_of_mem _ hmem⟩
      | next initialTools =>
        simp only
        have hplan := planPhase_not_panicked r a env fuel req
          (if req.CorrelationID = [] then req.SessionID else req.CorrelationID) ctxFiles 0 w2
        generalize r.planPhase a env fuel req
          (if req.CorrelationID = [] then req.SessionID else req.CorrelationID) ctxFiles 0 w2
          = pl at hplan
        obtain ⟨evs2, tr2, w3, flow2⟩ := pl
        cases flow2 with
        | halt h =>
          simp only at hplan ⊢
          intro hh
          exact absurd (by rw [hh]) hplan
        | next eu =>
          simp only
          intro hh
          obtain ⟨name, hmem⟩ := stepLoop_panic_trace r a js env fuel req _ ctxFiles _ _ _ _ hh
          exact ⟨name, List.mem_cons_of_mem _
            (List.mem_append.mpr (Or.inr hmem))⟩

/-- Without a strategy engine, a run that makes no tool call on a nil tool instance
returns. -/
theorem Run_returns (r : AgentRunner) (js : JsonCodec) (env : Env) (fuel : Nat)
    (req : RunTaskRequest) (w : World) (hS : r.Strategy = none)
    (hP : ∀ name, Obs.toolPanic name ∉ (r.Run js env fuel req w).trace) :
    (r.Run js env fuel req w).halt = .returned := by
  cases hh : (r.Run js env fuel req w).halt with
  | returned => rfl
  | panicked =>
    obtain ⟨name, hmem⟩ := Run_panic_trace r js env fuel req w hh
    exact absurd hmem (hP name)
  | hung => exact absurd hh (Run_not_hung r js env fuel req w hS)

/-- C1 (as stated) fails: the runner of `TestAgentRunnerStopsOnDone` with a file system tool,
on a request whose pre-task tool call `fs.read_file` asks for `../etc/passwd`: the path guard
rejects the call, the goroutine returns, and the event sequence is the single `tool` event
carrying the error, with no `done` or `error` event. -/
theorem run_tool_failure_no_terminal_counterexample :
    (exDoneRunner.Run exJson {} 3 exEscapeRequest {}).halt = Halt.returned ∧
    kinds (exDoneRunner.Run exJson {} 3 exEscapeRequest {}).events = ["tool".toList] ∧
    (exDoneRunner.Run exJson {} 3 exEscapeRequest {}).events.map (·.Error)
      = ["path escapes base directory".toList] ∧
    ((exDoneRunner.Run exJson {} 3 exEscapeRequest {}).events.filter
      (fun e => e.isTerminal)).length = 0 := by
  decide

/-- C1 (amended): for every request and every behaviour of the provider, the tools and the
cancellation signal, when the producer of AgentRunner.Run returns, its event sequence is a
sequence of non-terminal events followed by one last event: if no tool call failed, that
last event is the only event of type `done` or `error`; if a pre-task or model-emitted tool
call failed, the last event is the `tool` event of that call and the sequence has no `done`
or `error` event.  A run whose producer does not return sends no `done` or `error` event;
without a strategy engine and without a tool call on a nil tool instance the producer
returns. -/
theorem run_one_terminal_event_last (r : AgentRunner) (js : JsonCodec) (env : Env) (fuel : Nat)
    (req : RunTaskRequest) (w : World) :
    ((r.Run js env fuel req w).halt = Halt.returned →
      ∃ pre e, (r.Run js env fuel req w).events = pre ++ [e] ∧ NoTerminal pre ∧
        (NoToolFailure (r.Run js env fuel req w).trace → e.isTerminal = true) ∧
        ((∃ name, Obs.toolCall name false ∈ (r.Run js env fuel req w).trace) →
          e.Kind = "tool".toList ∧ e.isTerminal = false)) ∧
    ((r.Run js env fuel req w).halt ≠ Halt.returned →
      NoTerminal (r.Run js env fuel req w).events) ∧
    (r.Strategy = none → (∀ name, Obs.toolPanic name ∉ (r.Run js env fuel req w).trace) →
      (r.Run js env fuel req w).halt = Halt.returned) := by
  have h := Run_good r js env fuel req w
  refine ⟨?_, ?_, Run_returns r js env fuel req w⟩
  · intro hret
    rw [hret] at h
    obtain ⟨pre, e, heq, hpre, hlast⟩ := h
    refine ⟨pre, e, heq, hpre, ?_, ?_⟩
    · intro hnf
      rcases hlast with ⟨ht, _⟩ | ⟨_, name, hmem⟩
      · exact ht
      · exact absurd hmem (hnf name)
    · rintro ⟨name, hmem⟩
      rcases hlast with ⟨_, hnf⟩ | ⟨hk, _⟩
      · exact absurd hmem (hnf name)
      · exact ⟨hk, isTerminal_false_of_kind e _ hk (by decide) (by decide)⟩
  · intro hne
    cases hh : (r.Run js env fuel req w).halt with
    | returned => exact absurd hh hne
    | panicked => rw [hh] at h; exact h
    | hung => rw [hh] at h; exact h

/-- Witness for C1 (amended): the run of `TestAgentRunnerStopsOnDone` returns, no tool call
fails, and its events are a message, two tokens and one final `done`. -/
theorem run_one_terminal_event_last_witness :
    (exDoneRunner.Run exJson {} 3 { SessionID := "s1".toList, Prompt := "p".toList } {}).halt
      = Halt.returned ∧
    kinds (exDoneRunner.Run exJson {} 3 { SessionID := "s1".toList, Prompt := "p".toList }
      {}).events = ["message".toList, "token".toList, "token".toList, "done".toList] ∧
    ∃ pre e, (exDoneRunner.Run exJson {} 3 { SessionID := "s1".toList, Prompt := "p".toList }
        {}).events = pre ++ [e] ∧ NoTerminal pre ∧ e.isTerminal = true := by
  refine ⟨by decide, by decide, ?_⟩
  obtain ⟨pre, e, heq, hpre, hterm, _⟩ :=
    (run_one_terminal_event_last exDoneRunner exJson {} 3
      { SessionID := "s1".toList, Prompt := "p".toList } {}).1 (by decide)
  refine ⟨pre, e, heq, hpre, hterm ?_⟩
  intro name hmem
  have ht : (exDoneRunner.Run exJson {} 3 { SessionID := "s1".toList, Prompt := "p".toList }
      {}).trace = [Obs.contextBuilt true, Obs.stepStart 1, Obs.ctxPoll false,
        Obs.coderCall true true, Obs.tokenSelect false, Obs.tokenSelect false] := by
    decide
  rw [ht] at hmem
  simp at hmem

/-! ## The step bound -/

theorem stepsOf_append (a b : List Obs) : stepsOf (a ++ b) = stepsOf a ++ stepsOf b := by
  simp [stepsOf, List.filterMap_append]

theorem stepsOf_bind {α β : Type} (o : Out α) (f : α → World → Out β)
    (hf : ∀ a w, stepsOf (f a w).trace = []) :
    stepsOf (o.bind f).trace = stepsOf o.trace := by
  unfold Out.bind
  cases o.flow with
  | halt h => rfl
  | next a => simp [stepsOf_append, hf]

theorem runTools_steps (env : Env) (reg : ToolRegistry) (sid corr : Str) :
    ∀ (tcs : List ToolCall) (obs : List ToolObservation) (w : World),
      stepsOf (runTools env reg sid corr tcs obs w).trace = [] := by
  intro tcs
  induction tcs with
  | nil => intro obs w; rfl
  | cons tc tcs ih =>
    intro obs w
    unfold runTools
    cases hexec : executeTool env (some reg) tc w with
    | mk res w' =>
      cases res with
      | panic => rfl
      | fail out e => rfl
      | ok output =>
        simp only
        have := ih (obs ++ [{ Name := tc.Name, Output := output }]) w'
        simpa [stepsOf] using this

theorem emitTokens_steps (env : Env) (sid corr : Str) (step : Int) :
    ∀ (tokens : List Str) (idx : Nat) (w : World),
      stepsOf (emitTokens env sid corr step tokens idx w).trace = [] := by
  intro tokens
  induction tokens with
  | nil => intro idx w; rfl
  | cons token rest ih =>
    intro idx w
    unfold emitTokens
    split
    · rfl
    · have := ih (idx + 1) w.advance
      simpa [stepsOf] using this

theorem callWithFallback_steps {α : Type} (r : AgentRunner) (fuel : Nat) (role model : Str)
    (eu : Int) (call : Str → World → Except Str α × World) (note : Except Str α → Obs)
    (w : World) (hnote : ∀ res, stepsOf [note res] = []) :
    stepsOf (r.callWithFallback fuel role model eu call note w).1 = [] := by
  have h2 : ∀ a b, stepsOf [note a, note b] = [] := by
    intro a b
    show stepsOf ([note a] ++ [note b]) = []
    rw [stepsOf_append, hnote, hnote]
    rfl
  have h3 : ∀ a, stepsOf [note a, Obs.fallbackHung] = [] := by
    intro a
    show stepsOf ([note a] ++ [Obs.fallbackHung]) = []
    rw [stepsOf_append, hnote]
    rfl
  unfold AgentRunner.callWithFallback
  split
  · exact hnote _
  · split
    · exact h3 _
    · split
      · split
        · exact h2 _ _
        · exact h2 _ _
      · exact hnote _

theorem notePlan_steps (res : Except Str Str) : stepsOf [notePlan res] = [] := by
  cases res <;> rfl

theorem noteCoder_steps (res : Except Str Response) : stepsOf [noteCoder res] = [] := by
  cases res <;> rfl

theorem noteCritic_steps (res : Except Str Str) : stepsOf [noteCritic res] = [] := by
  cases res <;> rfl

theorem planPhase_steps (r : AgentRunner) (a : Agent) (env : Env) (fuel : Nat)
    (req : RunTaskRequest) (corr : Str) (ctxFiles : List ContextFile) (eu : Int) (w : World) :
    stepsOf (r.planPhase a env fuel req corr ctxFiles eu w).trace = [] := by
  unfold AgentRunner.planPhase
  split
  · generalize r.selectModel "planner".toList (firstNonEmpty [req.PlannerModel, req.Model]) eu w
      = sel
    obtain ⟨planModel, eu1, w1⟩ := sel
    simp only
    have htr := callWithFallback_steps r fuel "planner".toList planModel eu1
      (fun m w => a.Plan env
        { SessionID := req.SessionID, Model := m, Prompt := req.Prompt, Context := ctxFiles } w)
      notePlan w1 notePlan_steps
    generalize r.callWithFallback fuel "planner".toList planModel eu1
      (fun m w => a.Plan env
        { SessionID := req.SessionID, Model := m, Prompt := req.Prompt, Context := ctxFiles } w)
      notePlan w1 = res at htr
    obtain ⟨tr, opt⟩ := res
    cases opt with
    | none => exact htr
    | some x =>
      obtain ⟨result, eu2, w2⟩ := x
      cases result with
      | error e => exact htr
      | ok plan => exact htr
  · rfl

theorem coderPhase_steps (r : AgentRunner) (a : Agent) (env : Env) (fuel : Nat)
    (req : RunTaskRequest) (corr : Str) (ctxFiles : List ContextFile) (eu : Int) (w : World) :
    stepsOf (r.coderPhase a env fuel req corr ctxFiles eu w).trace = [] := by
  unfold AgentRunner.coderPhase
  generalize r.selectModel "coder".toList (firstNonEmpty [req.Model]) eu w = sel
  obtain ⟨model, eu1, w1⟩ := sel
  simp only
  have htr := callWithFallback_steps r fuel "coder".toList model eu1
    (fun m w => a.Run env
      { SessionID := req.SessionID, Model := m, Prompt := req.Prompt, Context := ctxFiles } w)
    noteCoder w1 noteCoder_steps
  generalize r.callWithFallback fuel "coder".toList model eu1
    (fun m w => a.Run env
      { SessionID := req.SessionID, Model := m, Prompt := req.Prompt, Context := ctxFiles } w)
    noteCoder w1 = res at htr
  obtain ⟨tr, opt⟩ := res
  cases opt with
  | none => exact htr
  | some x =>
    obtain ⟨result, eu2, w2⟩ := x
    cases result with
    | error e => exact htr
    | ok resp => exact htr

theorem testPhase_steps (r : AgentRunner) (a : Agent) (env : Env) (sid corr : Str) (step : Int)
    (done : Bool) (w : World) : stepsOf (r.testPhase a env sid corr step done w).trace = [] := by
  unfold AgentRunner.testPhase
  split <;> rfl

theorem reflectPhase_steps (r : AgentRunner) (a : Agent) (js : JsonCodec) (env : Env)
    (fuel : Nat) (req : RunTaskRequest) (corr : Str) (step : Int) (resp : Response)
    (stepTools : List ToolObservation) (testObs : Option TestObservation) (done : Bool)
    (eu : Int) (w : World) :
    stepsOf (r.reflectPhase a js env fuel req corr step resp stepTools testObs done eu
      w).trace = [] := by
  unfold AgentRunner.reflectPhase
  split
  · generalize r.selectModel "critic".toList (firstNonEmpty [req.CriticModel, req.Model]) eu w
      = sel
    obtain ⟨model, eu1, w1⟩ := sel
    simp only
    generalize hcall : (fun m w => a.Reflect env
        { SessionID := req.SessionID, Model := m, Prompt := req.Prompt } resp
        { Tools := stepTools, Test := testObs,
          SelfDiff := if a.EnableSelfDiff = true then
            computeSelfDiff resp.PreviousAssistant resp.Message.Content else [] } w) = call
    have htr := callWithFallback_steps r fuel "critic".toList model eu1 call noteCritic w1
      noteCritic_steps
    generalize r.callWithFallback fuel "critic".toList model eu1 call noteCritic w1 = res at htr
    obtain ⟨tr, opt⟩ := res
    cases opt with
    | none => exact htr
    | some x =>
      obtain ⟨result, eu2, w2⟩ := x
      cases result with
      | error e => exact htr
      | ok reflection =>
        simp only
        split
        · simp only [stepsOf_append, htr]
          rfl
        · exact htr
  · rfl

theorem finishStep_steps (r : AgentRunner) (req : RunTaskRequest) (corr : Str) (step : Int)
    (resp : Response) (tokenCount : Int) (ro : ReflectOut) (w : World) :
    stepsOf (r.finishStep req corr step resp tokenCount ro w).trace = [] := by
  unfold AgentRunner.finishStep
  split <;> rfl

theorem preTools_steps (r : AgentRunner) (env : Env) (req : RunTaskRequest) (corr : Str)
    (w : World) : stepsOf (r.preTools env req corr w).trace = [] := by
  unfold AgentRunner.preTools
  cases r.Tools with
  | none => rfl
  | some reg =>
    simp only
    split
    · exact runTools_steps _ _ _ _ _ _ _
    · rfl

theorem runStep_steps (r : AgentRunner) (a : Agent) (js : JsonCodec) (env : Env) (fuel : Nat)
    (req : RunTaskRequest) (corr : Str) (ctxFiles : List ContextFile) (step : Int)
    (st : LoopState) (w : World) :
    stepsOf (r.runStep a js env fuel req corr ctxFiles step st w).trace = [step] := by
  unfold AgentRunner.runStep
  split
  · rfl
  · rw [stepsOf_bind]
    · rfl
    intro _ w1
    rw [stepsOf_bind]
    · exact coderPhase_steps _ _ _ _ _ _ _ _ _
    intro re w2
    rw [stepsOf_bind]
    · rfl
    intro _ w3
    rw [stepsOf_bind]
    · exact emitTokens_steps _ _ _ _ _ _ _
    intro _ w4
    rw [stepsOf_bind]
    · cases r.Tools with
      | none => rfl
      | some reg => exact runTools_steps _ _ _ _ _ _ _
    intro stepTools w5
    rw [stepsOf_bind]
    · exact testPhase_steps _ _ _ _ _ _ _ _
    intro testObs w6
    rw [stepsOf_bind]
    · exact reflectPhase_steps _ _ _ _ _ _ _ _ _ _ _ _ _ _
    intro ro w7
    exact finishStep_steps _ _ _ _ _ _ _ _

theorem stepRange_length (n : Nat) : ∀ step, (stepRange n step).length = n := by
  induction n with
  | zero => intro step; rfl
  | succ n ih => intro step; simp [stepRange, ih]

theorem stepLoop_steps_prefix (r : AgentRunner) (a : Agent) (js : JsonCodec) (env : Env)
    (fuel : Nat) (req : RunTaskRequest) (corr : Str) (ctxFiles : List ContextFile) :
    ∀ (n : Nat) (step : Int) (st : LoopState) (w : World),
      stepsOf (r.stepLoop a js env fuel req corr ctxFiles n step st w).trace
        <+: stepRange n step := by
  intro n
  induction n with
  | zero =>
    intro step st w
    simp [AgentRunner.stepLoop, stepsOf, stepRange]
  | succ n ih =>
    intro step st w
    have hstep := runStep_steps r a js env fuel req corr ctxFiles step st w
    unfold AgentRunner.stepLoop
    generalize r.runStep a js env fuel req corr ctxFiles step st w = o at hstep
    obtain ⟨evs, tr, w1, flow⟩ := o
    simp only at hstep
    cases flow with
    | halt h =>
      simp only [hstep, stepRange]
      exact ⟨stepRange n (step + 1), rfl⟩
    | next st1 =>
      simp only [stepsOf_append, hstep, stepRange, List.singleton_append]
      obtain ⟨t, ht⟩ := ih (step + 1) st1 w1
      exact ⟨t, by rw [← ht]; rfl⟩

theorem Smooth_nil : Smooth [] := by
  intro o h
  cases h

theorem Smooth_append {a b : List Obs} (h : Smooth (a ++ b)) : Smooth a ∧ Smooth b :=
  ⟨fun o ho => h o (List.mem_append.mpr (Or.inl ho)),
   fun o ho => h o (List.mem_append.mpr (Or.inr ho))⟩

theorem Smooth_cons {o : Obs} {b : List Obs} (h : Smooth (o :: b)) :
    o.smooth = true ∧ Smooth b :=
  ⟨h o (List.mem_cons_self _ _), fun x hx => h x (List.mem_cons_of_mem _ hx)⟩

theorem bind_smooth {α β : Type} (o : Out α) (f : α → World → Out β) (P : α → Prop)
    (hs : Smooth (o.bind f).trace) (ho : Smooth o.trace → ∃ a, o.flow = .next a ∧ P a) :
    ∃ a, P a ∧ Smooth (f a o.world).trace ∧ (o.bind f).flow = (f a o.world).flow := by
  unfold Out.bind at hs ⊢
  cases hflow : o.flow with
  | halt h =>
    simp only [hflow] at hs
    obtain ⟨a, ha, _⟩ := ho hs
    rw [hflow] at ha
    cases ha
  | next a =>
    simp only [hflow] at hs ⊢
    obtain ⟨a', ha', hP⟩ := ho (Smooth_append hs).1
    rw [hflow] at ha'
    cases ha'
    exact ⟨a, hP, (Smooth_append hs).2, rfl⟩

theorem runTools_smooth (env : Env) (reg : ToolRegistry) (sid corr : Str) :
    ∀ (tcs : List ToolCall) (obs : List ToolObservation) (w : World),
      Smooth (runTools env reg sid corr tcs obs w).trace →
      ∃ out, (runTools env reg sid corr tcs obs w).flow = .next out := by
  intro tcs
  induction tcs with
  | nil => intro obs w _; exact ⟨obs, rfl⟩
  | cons tc tcs ih =>
    intro obs w
    unfold runTools
    cases hexec : executeTool env (some reg) tc w with
    | mk res w' =>
      cases res with
      | panic =>
        intro hs
        have := (Smooth_cons hs).1
        simp [Obs.smooth] at this
      | fail out e =>
        intro hs
        have := (Smooth_cons hs).1
        simp [Obs.smooth] at this
      | ok output =>
        intro hs
        exact ih _ _ (Smooth_cons hs).2

theorem emitTokens_smooth (env : Env) (sid corr : Str) (step : Int) :
    ∀ (tokens : List Str) (idx : Nat) (w : World),
      Smooth (emitTokens env sid corr step tokens idx w).trace →
      ∃ u, (emitTokens env sid corr step tokens idx w).flow = .next u := by
  intro tokens
  induction tokens with
  | nil => intro idx w _; exact ⟨(), rfl⟩
  | cons token rest ih =>
    intro idx w
    unfold emitTokens
    split
    · intro hs
      have := (Smooth_cons hs).1
      simp [Obs.smooth] at this
    · intro hs
      exact ih _ _ (Smooth_cons hs).2

theorem callWithFallback_smooth {α : Type} (r : AgentRunner) (fuel : Nat) (role model : Str)
    (eu : Int) (call : Str → World → Except Str α × World) (note : Except Str α → Obs)
    (w : World) (hnote : ∀ e, (note (.error e)).smooth = false)
    (hs : Smooth (r.callWithFallback fuel role model eu call note w).1) :
    ∃ a w', r.callWithFallback fuel role model eu call note w
      = ([note (.ok a)], some (.ok a, eu, w')) ∧ (note (.ok a)).smooth = true := by
  unfold AgentRunner.callWithFallback at hs ⊢
  cases hcall : call model w with
  | mk res w1 =>
    cases res with
    | ok a =>
      simp only [hcall] at hs ⊢
      exact ⟨a, w1, rfl, (Smooth_cons hs).1⟩
    | error e =>
      simp only [hcall] at hs
      exfalso
      have hbad : ∀ rest : List Obs, ¬ Smooth (note (.error e) :: rest) := by
        intro rest h
        have := (Smooth_cons h).1
        rw [hnote] at this
        cases this
      split at hs
      · exact hbad _ hs
      · split at hs
        · split at hs
          · exact hbad _ hs
          · exact hbad _ hs
        · exact hbad _ hs

theorem coderPhase_smooth (r : AgentRunner) (a : Agent) (env : Env) (fuel : Nat)
    (req : RunTaskRequest) (corr : Str) (ctxFiles : List ContextFile) (eu : Int) (w : World)
    (hs : Smooth (r.coderPhase a env fuel req corr ctxFiles eu w).trace) :
    ∃ re, (r.coderPhase a env fuel req corr ctxFiles eu w).flow = .next re ∧
      isResponseDone re.1 = false := by
  unfold AgentRunner.coderPhase at hs ⊢
  generalize r.selectModel "coder".toList (firstNonEmpty [req.Model]) eu w = sel at hs ⊢
  obtain ⟨model, eu1, w1⟩ := sel
  simp only at hs ⊢
  have key := callWithFallback_smooth r fuel "coder".toList model eu1
    (fun m w => a.Run env
      { SessionID := req.SessionID, Model := m, Prompt := req.Prompt, Context := ctxFiles } w)
    noteCoder w1 (fun e => rfl)
  generalize r.callWithFallback fuel "coder".toList model eu1
    (fun m w => a.Run env
      { SessionID := req.SessionID, Model := m, Prompt := req.Prompt, Context := ctxFiles } w)
    noteCoder w1 = res at hs key
  obtain ⟨tr, opt⟩ := res
  have hsm : Smooth tr := by
    cases opt with
    | none => exact hs
    | some x =>
      obtain ⟨result, eu2, w2⟩ := x
      cases result <;> exact hs
  obtain ⟨resp, w', heq, hnote⟩ := key hsm
  cases heq
  refine ⟨(resp, eu1), rfl, ?_⟩
  simp only [noteCoder, Obs.smooth, Bool.true_and, Bool.not_eq_true'] at hnote
  exact hnote

theorem planPhase_smooth (r : AgentRunner) (a : Agent) (env : Env) (fuel : Nat)
    (req : RunTaskRequest) (corr : Str) (ctxFiles : List ContextFile) (eu : Int) (w : World)
    (hs : Smooth (r.planPhase a env fuel req corr ctxFiles eu w).trace) :
    ∃ eu', (r.planPhase a env fuel req corr ctxFiles eu w).flow = .next eu' := by
  unfold AgentRunner.planPhase at hs ⊢
  split at hs
  · rename_i hen
    simp only [hen, if_true]
    generalize r.selectModel "planner".toList (firstNonEmpty [req.PlannerModel, req.Model]) eu w
      = sel at hs ⊢
    obtain ⟨model, eu1, w1⟩ := sel
    simp only at hs ⊢
    have key := callWithFallback_smooth r fuel "planner".toList model eu1
      (fun m w => a.Plan env
        { SessionID := req.SessionID, Model := m, Prompt := req.Prompt, Context := ctxFiles } w)
      notePlan w1 (fun e => rfl)
    generalize r.callWithFallback fuel "planner".toList model eu1
      (fun m w => a.Plan env
        { SessionID := req.SessionID, Model := m, Prompt := req.Prompt, Context := ctxFiles } w)
      notePlan w1 = res at hs key
    obtain ⟨tr, opt⟩ := res
    have hsm : Smooth tr := by
      cases opt with
      | none => exact hs
      | some x =>
        obtain ⟨result, eu2, w2⟩ := x
        cases result <;> exact hs
    obtain ⟨plan, w', heq, _⟩ := key hsm
    cases heq
    exact ⟨eu1, rfl⟩
  · rename_i hen
    simp only [hen, if_false]
    exact ⟨eu, rfl⟩

theorem testPhase_next (r : AgentRunner) (a : Agent) (env : Env) (sid corr : Str) (step : Int)
    (done : Bool) (w : World) :
    ∃ t, (r.testPhase a env sid corr step done w).flow = .next t := by
  unfold AgentRunner.testPhase
  split
  · exact ⟨_, rfl⟩
  · exact ⟨none, rfl⟩

theorem reflectPhase_smooth (r : AgentRunner) (a : Agent) (js : JsonCodec) (env : Env)
    (fuel : Nat) (req : RunTaskRequest) (corr : Str) (step : Int) (resp : Response)
    (stepTools : List ToolObservation) (testObs : Option TestObservation) (done : Bool)
    (eu : Int) (w : World)
    (hs : Smooth (r.reflectPhase a js env fuel req corr step resp stepTools testObs done eu
      w).trace) :
    ∃ ro, (r.reflectPhase a js env fuel req corr step resp stepTools testObs done eu w).flow
      = .next ro ∧ ro.done = done := by
  unfold AgentRunner.reflectPhase at hs ⊢
  split at hs
  · rename_i hen
    simp only [hen, if_true]
    generalize r.selectModel "critic".toList (firstNonEmpty [req.CriticModel, req.Model]) eu w
      = sel at hs ⊢
    obtain ⟨model, eu1, w1⟩ := sel
    simp only at hs ⊢
    generalize hcall : (fun m w => a.Reflect env
        { SessionID := req.SessionID, Model := m, Prompt := req.Prompt } resp
        { Tools := stepTools, Test := testObs,
          SelfDiff := if a.EnableSelfDiff = true then
            computeSelfDiff resp.PreviousAssistant resp.Message.Content else [] } w) = call
      at hs ⊢
    have key := callWithFallback_smooth r fuel "critic".toList model eu1 call noteCritic w1
      (fun e => rfl)
    generalize r.callWithFallback fuel "critic".toList model eu1 call noteCritic w1 = res
      at hs key
    obtain ⟨tr, opt⟩ := res
    have hsm : Smooth tr := by
      cases opt with
      | none => exact hs
      | some x =>
        obtain ⟨result, eu2, w2⟩ := x
        cases result with
        | error e => exact hs
        | ok reflection =>
          simp only at hs
          split at hs
          · exact (Smooth_append hs).1
          · exact hs
    obtain ⟨reflection, w', heq, _⟩ := key hsm
    cases heq
    simp only at hs ⊢
    split
    · rename_i hne
      rw [if_pos hne] at hs
      have hb := (Smooth_cons (Smooth_append hs).2).1
      simp only [Obs.smooth, Bool.not_eq_true'] at hb
      refine ⟨_, rfl, ?_⟩
      simp [hb]
    · exact ⟨_, rfl, rfl⟩
  · rename_i hen
    simp only [hen, if_false]
    exact ⟨_, rfl, rfl⟩

theorem finishStep_next (r : AgentRunner) (req : RunTaskRequest) (corr : Str) (step : Int)
    (resp : Response) (tokenCount : Int) (ro : ReflectOut) (w : World) (h : ro.done = false) :
    ∃ st, (r.finishStep req corr step resp tokenCount ro w).flow = .next st := by
  unfold AgentRunner.finishStep
  simp only [h, Bool.false_eq_true, if_false]
  exact ⟨_, rfl⟩

theorem preTools_smooth (r : AgentRunner) (env : Env) (req : RunTaskRequest) (corr : Str)
    (w : World) (hs : Smooth (r.preTools env req corr w).trace) :
    ∃ obs, (r.preTools env req corr w).flow = .next obs := by
  unfold AgentRunner.preTools at hs ⊢
  cases hT : r.Tools with
  | none => exact ⟨[], rfl⟩
  | some reg =>
    simp only [hT] at hs ⊢
    split
    · rename_i hne
      simp only [hne, if_true] at hs
      exact runTools_smooth _ _ _ _ _ _ _ hs
    · exact ⟨[], rfl⟩

theorem runStep_smooth (r : AgentRunner) (a : Agent) (js : JsonCodec) (env : Env) (fuel : Nat)
    (req : RunTaskRequest) (corr : Str) (ctxFiles : List ContextFile) (step : Int)
    (st : LoopState) (w : World)
    (hs : Smooth (r.runStep a js env fuel req corr ctxFiles step st w).trace) :
    ∃ st', (r.runStep a js env fuel req corr ctxFiles step st w).flow = .next st' := by
  unfold AgentRunner.runStep at hs ⊢
  split at hs
  · have := (Smooth_cons (Smooth_cons hs).2).1
    simp [Obs.smooth] at this
  · rename_i hctx
    rw [if_neg hctx]
    obtain ⟨_, -, hs1, hf1⟩ := bind_smooth _ _ (fun _ => True) hs (fun _ => ⟨(), rfl, trivial⟩)
    rw [hf1]
    try dsimp only at hs1 ⊢
    obtain ⟨re, hdone, hs2, hf2⟩ := bind_smooth _ _ (fun re => isResponseDone re.1 = false) hs1
      (fun h => coderPhase_smooth _ _ _ _ _ _ _ _ _ h)
    rw [hf2]
    try dsimp only at hs2 ⊢
    obtain ⟨_, -, hs3, hf3⟩ := bind_smooth _ _ (fun _ => True) hs2 (fun _ => ⟨(), rfl, trivial⟩)
    rw [hf3]
    try dsimp only at hs3 ⊢
    obtain ⟨_, -, hs4, hf4⟩ := bind_smooth _ _ (fun _ => True) hs3
      (fun h => by
        obtain ⟨u, hu⟩ := emitTokens_smooth _ _ _ _ _ _ _ h
        exact ⟨u, hu, trivial⟩)
    rw [hf4]
    try dsimp only at hs4 ⊢
    obtain ⟨stepTools, -, hs5, hf5⟩ := bind_smooth _ _ (fun _ => True) hs4
      (fun h => by
        cases hT : r.Tools with
        | none => exact ⟨st.initialTools, rfl, trivial⟩
        | some reg =>
          simp only [hT] at h
          obtain ⟨u, hu⟩ := runTools_smooth _ _ _ _ _ _ _ h
          exact ⟨u, hu, trivial⟩)
    rw [hf5]
    try dsimp only at hs5 ⊢
    obtain ⟨testObs, -, hs6, hf6⟩ := bind_smooth _ _ (fun _ => True) hs5
      (fun _ => by
        obtain ⟨u, hu⟩ := testPhase_next r a env req.SessionID corr step
          (isResponseDone re.1) _
        exact ⟨u, hu, trivial⟩)
    rw [hf6]
    try dsimp only at hs6 ⊢
    obtain ⟨ro, hro, hs7, hf7⟩ := bind_smooth _ _
      (fun ro : ReflectOut => ro.done = isResponseDone re.1) hs6
      (fun h => reflectPhase_smooth _ _ _ _ _ _ _ _ _ _ _ _ _ _ h)
    rw [hf7]
    try dsimp only at hs7 ⊢
    exact finishStep_next _ _ _ _ _ _ _ _ (by rw [hro, hdone])

/-- The `done` event sent after the step loop. -/
theorem stepLoop_smooth (r : AgentRunner) (a : Agent) (js : JsonCodec) (env : Env) (fuel : Nat)
    (req : RunTaskRequest) (corr : Str) (ctxFiles : List ContextFile) :
    ∀ (n : Nat) (step : Int) (st : LoopState) (w : World),
      Smooth (r.stepLoop a js env fuel req corr ctxFiles n step st w).trace →
      (r.stepLoop a js env fuel req corr ctxFiles n step st w).halt = Halt.returned ∧
      stepsOf (r.stepLoop a js env fuel req corr ctxFiles n step st w).trace
        = stepRange n step ∧
      ∃ pre e, (r.stepLoop a js env fuel req corr ctxFiles n step st w).events = pre ++ [e] ∧
        e.Kind = "done".toList ∧ e.FinishReason = "max_steps".toList ∧ e.Step = a.MaxSteps ∧
        e.Done = true := by
  intro n
  induction n with
  | zero =>
    intro step st w _
    unfold AgentRunner.stepLoop
    exact ⟨rfl, rfl, [], _, rfl, rfl, rfl, rfl, rfl⟩
  | succ n ih =>
    intro step st w hs
    have hstep := runStep_steps r a js env fuel req corr ctxFiles step st w
    have hsm := runStep_smooth r a js env fuel req corr ctxFiles step st w
    unfold AgentRunner.stepLoop at hs ⊢
    generalize r.runStep a js env fuel req corr ctxFiles step st w = o at hstep hsm hs ⊢
    obtain ⟨evs, tr, w1, flow⟩ := o
    simp only at hstep hsm
    cases flow with
    | halt h =>
      simp only at hs
      obtain ⟨st', hst'⟩ := hsm hs
      cases hst'
    | next st1 =>
      simp only at hs ⊢
      obtain ⟨hret, hsteps, pre, e, hev, hk, hf, hstp, hd⟩ := ih (step + 1) st1 w1
        (Smooth_append hs).2
      refine ⟨hret, ?_, evs ++ pre, e, ?_, hk, hf, hstp, hd⟩
      · rw [stepsOf_append, hstep, hsteps]
        rfl
      · rw [hev, List.append_assoc]

theorem Run_steps_prefix (r : AgentRunner) (a : Agent) (js : JsonCodec) (env : Env)
    (fuel : Nat) (req : RunTaskRequest) (w : World) (hA : r.Agent = some a) :
    stepsOf (r.Run js env fuel req w).trace <+: stepRange a.MaxSteps.toNat 1 := by
  unfold AgentRunner.Run
  simp only [hA]
  generalize buildContextFiles r.Tools env req.Prompt req.ContextPaths a.MaxContextBytes w = cb
  obtain ⟨cres, w1⟩ := cb
  cases cres with
  | error e => exact List.nil_prefix
  | ok ctxFiles =>
    simp only
    have hpre := preTools_steps r env req
      (if req.CorrelationID = [] then req.SessionID else req.CorrelationID) w1
    generalize r.preTools env req
      (if req.CorrelationID = [] then req.SessionID else req.CorrelationID) w1 = pre at hpre
    obtain ⟨evs1, tr1, w2, flow1⟩ := pre
    simp only at hpre
    have hcons : ∀ t : List Obs, stepsOf (Obs.contextBuilt true :: t) = stepsOf t := by
      intro t
      rfl
    cases flow1 with
    | halt h =>
      simp only [hcons, hpre]
      exact List.nil_prefix
    | next initialTools =>
      simp only
      have hplan := planPhase_steps r a env fuel req
        (if req.CorrelationID = [] then req.SessionID else req.CorrelationID) ctxFiles 0 w2
      generalize r.planPhase a env fuel req
        (if req.CorrelationID = [] then req.SessionID else req.CorrelationID) ctxFiles 0 w2
        = pl at hplan
      obtain ⟨evs2, tr2, w3, flow2⟩ := pl
      simp only at hplan
      cases flow2 with
      | halt h =>
        simp only [hcons, stepsOf_append, hpre, hplan]
        exact List.nil_prefix
      | next eu =>
        simp only [hcons, stepsOf_append, hpre, hplan, List.nil_append]
        exact stepLoop_steps_prefix _ _ _ _ _ _ _ _ _ _ _ _

theorem Run_smooth (r : AgentRunner) (a : Agent) (js : JsonCodec) (env : Env) (fuel : Nat)
    (req : RunTaskRequest) (w : World) (hA : r.Agent = some a)
    (hs : Smooth (r.Run js env fuel req w).trace) :
    (r.Run js env fuel req w).halt = Halt.returned ∧
    stepsOf (r.Run js env fuel req w).trace = stepRange a.MaxSteps.toNat 1 ∧
    ∃ pre e, (r.Run js env fuel req w).events = pre ++ [e] ∧ e.Kind = "done".toList ∧
      e.FinishReason = "max_steps".toList ∧ e.Step = a.MaxSteps ∧ e.Done = true := by
  unfold AgentRunner.Run at hs ⊢
  simp only [hA] at hs ⊢
  generalize buildContextFiles r.Tools env req.Prompt req.ContextPaths a.MaxContextBytes w = cb
    at hs ⊢
  obtain ⟨cres, w1⟩ := cb
  cases cres with
  | error e =>
    have := (Smooth_cons hs).1
    simp [Obs.smooth] at this
  | ok ctxFiles =>
    simp only at hs ⊢
    have hpre := preTools_steps r env req
      (if req.CorrelationID = [] then req.SessionID else req.CorrelationID) w1
    have hpre2 := preTools_smooth r env req
      (if req.CorrelationID = [] then req.SessionID else req.CorrelationID) w1
    generalize r.preTools env req
      (if req.CorrelationID = [] then req.SessionID else req.CorrelationID) w1 = pre
      at hpre hpre2 hs ⊢
    obtain ⟨evs1, tr1, w2, flow1⟩ := pre
    simp only at hpre hpre2
    have hcons : ∀ t : List Obs, stepsOf (Obs.contextBuilt true :: t) = stepsOf t := by
      intro t
      rfl
    cases flow1 with
    | halt h =>
      simp only at hs
      obtain ⟨obs, hobs⟩ := hpre2 (Smooth_cons hs).2
      cases hobs
    | next initialTools =>
      simp only at hs ⊢
      have hplan := planPhase_steps r a env fuel req
        (if req.CorrelationID = [] then req.SessionID else req.CorrelationID) ctxFiles 0 w2
      have hplan2 := planPhase_smooth r a env fuel req
        (if req.CorrelationID = [] then req.SessionID else req.CorrelationID) ctxFiles 0 w2
      generalize r.planPhase a env fuel req
        (if req.CorrelationID = [] then req.SessionID else req.CorrelationID) ctxFiles 0 w2
        = pl at hplan hplan2 hs ⊢
      obtain ⟨evs2, tr2, w3, flow2⟩ := pl
      simp only at hplan hplan2
      cases flow2 with
      | halt h =>
        simp only at hs
        obtain ⟨eu, heu⟩ := hplan2 (Smooth_append (Smooth_cons hs).2).2
        cases heu
      | next eu =>
        simp only at hs ⊢
        obtain ⟨hret, hsteps, pre, e, hev, hk, hf, hstp, hd⟩ :=
          stepLoop_smooth r a js env fuel req
            (if req.CorrelationID = [] then req.SessionID else req.CorrelationID) ctxFiles
            a.MaxSteps.toNat 1
            { initialTools := initialTools, expensiveUsed := eu, tokenCount := 0 } w3
            (Smooth_append (Smooth_cons hs).2).2
        refine ⟨hret, ?_, evs1 ++ evs2 ++ pre, e, ?_, hk, hf, hstp, hd⟩
        · rw [hcons, stepsOf_append, stepsOf_append, hpre, hplan, hsteps]
          rfl
        · rw [hev]
          simp only [List.append_assoc]

/-- C6 (as stated) fails: the provider answers every call with an empty message and an empty
finish reason, reflection is enabled and the maximum is two steps.  Every coder call
succeeds with a response that is not done, no tool call fails, no critique blocks and the
context is never cancelled; yet the critic call of step 1 fails (the last message is blank),
the run executes step 1 only and its final event is `error`. -/
theorem run_reflect_error_before_max_steps_counterexample :
    (∀ o ∈ (exBlankReflectRunner.Run exJson {} 3
        { SessionID := "s1".toList, Prompt := "p".toList } {}).trace,
      o.smoothAsStated = true) ∧
    stepsOf (exBlankReflectRunner.Run exJson {} 3
      { SessionID := "s1".toList, Prompt := "p".toList } {}).trace = [1] ∧
    kinds (exBlankReflectRunner.Run exJson {} 3
      { SessionID := "s1".toList, Prompt := "p".toList } {}).events
      = ["message".toList, "error".toList] ∧
    (exBlankReflectRunner.Run exJson {} 3
      { SessionID := "s1".toList, Prompt := "p".toList } {}).events.map (·.Error)
      = [[], "last message is required for reflection".toList] := by
  decide

/-- C6 (amended): let N be the configured max steps, or 1 when the configured value is <= 0.
In every run the step loop enters at most N steps, and the steps entered are 1, 2, ... in
order; and if the context assembly succeeds, every planner, coder and critic call succeeds,
every coder response is not done, no tool call fails, no critique blocks and the context is
never cancelled, the run executes exactly steps 1..N, returns, and its final event is `done`
with finish reason `max_steps` and step = N. -/
theorem run_at_most_max_steps (r : AgentRunner) (a : Agent) (js : JsonCodec) (env : Env)
    (fuel : Nat) (req : RunTaskRequest) (w : World) (hA : r.Agent = some a) :
    a.MaxSteps = (if a.cfg.MaxSteps > 0 then a.cfg.MaxSteps else 1) ∧
    (stepsOf (r.Run js env fuel req w).trace).length ≤ a.MaxSteps.toNat ∧
    stepsOf (r.Run js env fuel req w).trace <+: stepRange a.MaxSteps.toNat 1 ∧
    (Smooth (r.Run js env fuel req w).trace →
      (r.Run js env fuel req w).halt = Halt.returned ∧
      stepsOf (r.Run js env fuel req w).trace = stepRange a.MaxSteps.toNat 1 ∧
      ∃ pre e, (r.Run js env fuel req w).events = pre ++ [e] ∧ e.Kind = "done".toList ∧
        e.FinishReason = "max_steps".toList ∧ e.Step = a.MaxSteps ∧ e.Done = true) := by
  have hp := Run_steps_prefix r a js env fuel req w hA
  refine ⟨rfl, ?_, hp, fun hs => Run_smooth r a js env fuel req w hA hs⟩
  have := hp.length_le
  rwa [stepRange_length] at this

/-- Witness for C6 (amended): the run of `TestAgentRunnerRespectsMaxSteps` (two steps, the
provider always answers `loop`): steps 1 and 2 are executed and the final event is `done`
with finish reason `max_steps` and step 2. -/
theorem run_at_most_max_steps_witness :
    stepsOf (exLoopRunner.Run exJson {} 3 { SessionID := "s2".toList, Prompt := "p".toList }
      {}).trace = [1, 2] ∧
    ∃ pre e, (exLoopRunner.Run exJson {} 3 { SessionID := "s2".toList, Prompt := "p".toList }
        {}).events = pre ++ [e] ∧ e.Kind = "done".toList ∧
      e.FinishReason = "max_steps".toList ∧ e.Step = 2 ∧ e.Done = true := by
  have h := (run_at_most_max_steps exLoopRunner
    ⟨exRegistryOf exLoopProvider, { MaxSteps := 2 }⟩ exJson {} 3
    { SessionID := "s2".toList, Prompt := "p".toList } {} rfl).2.2.2 (by
      intro o ho
      have ht : (exLoopRunner.Run exJson {} 3
          { SessionID := "s2".toList, Prompt := "p".toList } {}).trace
          = [Obs.contextBuilt true, Obs.stepStart 1, Obs.ctxPoll false,
             Obs.coderCall true false, Obs.tokenSelect false, Obs.stepStart 2,
             Obs.ctxPoll false, Obs.coderCall true false, Obs.tokenSelect false] := by
        decide
      rw [ht] at ho
      revert o
      decide)
  exact ⟨h.2.1, h.2.2⟩

/-! ## Runs on an empty prompt -/

theorem advance_chatLog (w : World) : w.advance.chatLog = w.chatLog := rfl

theorem ReadFile_chatLog (f : Filesystem) (env : Env) (path : Str) (w : World) :
    (f.ReadFile env path w).2.chatLog = w.chatLog := by
  unfold Filesystem.ReadFile
  split
  · rfl
  · split <;> rfl

theorem WriteFile_chatLog (f : Filesystem) (env : Env) (path content : Str) (w : World) :
    (f.WriteFile env path content w).2.chatLog = w.chatLog := by
  unfold Filesystem.WriteFile
  split
  · rfl
  · split <;> rfl

theorem Stat_chatLog (f : Filesystem) (env : Env) (path : Str) (w : World) :
    (f.Stat env path w).2.chatLog = w.chatLog := by
  unfold Filesystem.Stat
  split
  · rfl
  · split <;> rfl

theorem DescribeStructure_chatLog (f : Filesystem) (env : Env) (path : Str) (w : World) :
    (f.DescribeStructure env path w).2.chatLog = w.chatLog := by
  unfold Filesystem.DescribeStructure
  split
  · rfl
  · split
    · rfl
    · split <;> rfl

theorem Search_chatLog (f : Filesystem) (env : Env) (root pattern : Str) (n : Int) (w : World) :
    (f.Search env root pattern n w).2.chatLog = w.chatLog := by
  unfold Filesystem.Search
  split
  · rfl
  · simp only
    split <;> rfl

theorem Exec_chatLog (t : Terminal) (env : Env) (c : Str) (args : List Str) (w : World) :
    (t.Exec env c args w).2.chatLog = w.chatLog := by
  unfold Terminal.Exec
  split
  · rfl
  · split
    · rfl
    · split <;> rfl

theorem gitCall_chatLog (env : Env) (op : Str) (args : List Str) (w : World) :
    (gitCall env op args w).2.chatLog = w.chatLog := by
  unfold gitCall
  split <;> rfl

theorem snd_chatLog_of_eq {α : Type} {x : α × World} {a : α} {w' w : World}
    (h : x = (a, w')) (hx : x.2.chatLog = w.chatLog) : w'.chatLog = w.chatLog := by
  subst h
  exact hx

theorem toolReadFile_chatLog (env : Env) (reg : ToolRegistry) (tc : ToolCall) (w : World) :
    (toolReadFile env reg tc w).2.chatLog = w.chatLog := by
  unfold toolReadFile
  split
  · rfl
  · split <;>
      (rename_i h; exact snd_chatLog_of_eq h (ReadFile_chatLog _ _ _ _))

theorem toolWriteFile_chatLog (env : Env) (reg : ToolRegistry) (tc : ToolCall) (w : World) :
    (toolWriteFile env reg tc w).2.chatLog = w.chatLog := by
  unfold toolWriteFile
  split
  · rfl
  · split <;>
      (rename_i h; exact snd_chatLog_of_eq h (WriteFile_chatLog _ _ _ _ _))

theorem toolSearch_chatLog (env : Env) (reg : ToolRegistry) (tc : ToolCall) (w : World) :
    (toolSearch env reg tc w).2.chatLog = w.chatLog := by
  unfold toolSearch
  dsimp only
  split
  · split <;> rfl
  · split <;>
      (rename_i h; exact snd_chatLog_of_eq h (Search_chatLog _ _ _ _ _ _))

theorem toolTerminalExec_chatLog (env : Env) (reg : ToolRegistry) (tc : ToolCall) (w : World) :
    (toolTerminalExec env reg tc w).2.chatLog = w.chatLog := by
  unfold toolTerminalExec
  dsimp only
  split
  · rfl
  · split <;>
      (rename_i h; exact snd_chatLog_of_eq h (Exec_chatLog _ _ _ _ _))

theorem toolGitApplyPatch_chatLog (env : Env) (reg : ToolRegistry) (tc : ToolCall) (w : World) :
    (toolGitApplyPatch env reg tc w).2.chatLog = w.chatLog := by
  unfold toolGitApplyPatch
  split
  · rfl
  · dsimp only
    split
    · rfl
    · split
      · rfl
      · exact gitCall_chatLog _ _ _ _

theorem toolGitStatus_chatLog (env : Env) (reg : ToolRegistry) (w : World) :
    (toolGitStatus env reg w).2.chatLog = w.chatLog := by
  unfold toolGitStatus
  split
  · rfl
  · split
    · rfl
    · exact gitCall_chatLog _ _ _ _

theorem toolGitRestoreBackup_chatLog (env : Env) (reg : ToolRegistry) (tc : ToolCall) (w : World) :
    (toolGitRestoreBackup env reg tc w).2.chatLog = w.chatLog := by
  unfold toolGitRestoreBackup
  split
  · rfl
  · split
    · rfl
    · split
      · rfl
      · exact gitCall_chatLog _ _ _ _

theorem toolGitListBackups_chatLog (env : Env) (reg : ToolRegistry) (w : World) :
    (toolGitListBackups env reg w).2.chatLog = w.chatLog := by
  unfold toolGitListBackups
  split
  · rfl
  · split
    · rename_i h
      exact snd_chatLog_of_eq h (gitCall_chatLog _ _ _ _)
    · exact gitCall_chatLog _ _ _ _

theorem toolGitPreviewBackup_chatLog (env : Env) (reg : ToolRegistry) (tc : ToolCall)
    (w : World) : (toolGitPreviewBackup env reg tc w).2.chatLog = w.chatLog := by
  unfold toolGitPreviewBackup
  split
  · rfl
  · split
    · rename_i h
      exact snd_chatLog_of_eq h (gitCall_chatLog _ _ _ _)
    · exact gitCall_chatLog _ _ _ _

theorem toolSemanticSearch_chatLog (env : Env) (reg : ToolRegistry) (tc : ToolCall)
    (w : World) : (toolSemanticSearch env reg tc w).2.chatLog = w.chatLog := by
  unfold toolSemanticSearch
  split
  · rfl
  · dsimp only
    split <;> rfl

theorem dispatchTool_chatLog (env : Env) (reg : ToolRegistry) (tc : ToolCall) (w : World) :
    (dispatchTool env reg tc w).2.chatLog = w.chatLog := by
  unfold dispatchTool
  by_cases h0 : tc.Name = "fs.read_file".toList
  · rw [if_pos h0]
    exact toolReadFile_chatLog env reg tc w
  rw [if_neg h0]
  by_cases h1 : tc.Name = "fs.write_file".toList
  · rw [if_pos h1]
    exact toolWriteFile_chatLog env reg tc w
  rw [if_neg h1]
  by_cases h2 : tc.Name = "fs.search".toList
  · rw [if_pos h2]
    exact toolSearch_chatLog env reg tc w
  rw [if_neg h2]
  by_cases h3 : tc.Name = "terminal.exec".toList
  · rw [if_pos h3]
    exact toolTerminalExec_chatLog env reg tc w
  rw [if_neg h3]
  by_cases h4 : tc.Name = "git.apply_patch".toList
  · rw [if_pos h4]
    exact toolGitApplyPatch_chatLog env reg tc w
  rw [if_neg h4]
  by_cases h5 : tc.Name = "git.status".toList
  · rw [if_pos h5]
    exact toolGitStatus_chatLog env reg w
  rw [if_neg h5]
  by_cases h6 : tc.Name = "git.restore_backup".toList
  · rw [if_pos h6]
    exact toolGitRestoreBackup_chatLog env reg tc w
  rw [if_neg h6]
  by_cases h7 : tc.Name = "git.list_backups".toList
  · rw [if_pos h7]
    exact toolGitListBackups_chatLog env reg w
  rw [if_neg h7]
  by_cases h8 : tc.Name = "git.preview_backup".toList
  · rw [if_pos h8]
    exact toolGitPreviewBackup_chatLog env reg tc w
  rw [if_neg h8]
  by_cases h9 : tc.Name = "semantic.search".toList
  · rw [if_pos h9]
    exact toolSemanticSearch_chatLog env reg tc w
  rw [if_neg h9]

theorem executeTool_chatLog (env : Env) (reg : Option ToolRegistry) (tc : ToolCall) (w : World) :
    (executeTool env reg tc w).2.chatLog = w.chatLog := by
  unfold executeTool
  cases reg with
  | none => rfl
  | some reg =>
    dsimp only
    split
    · rfl
    · split
      · rfl
      · rfl
      · exact dispatchTool_chatLog _ _ _ _

theorem discoverLoop_chatLog (f : Filesystem) (env : Env) :
    ∀ (cands seen out : List Str) (w : World),
      (discoverLoop f env cands seen out w).2.chatLog = w.chatLog := by
  intro cands
  induction cands with
  | nil => intro seen out w; rfl
  | cons c rest ih =>
    intro seen out w
    unfold discoverLoop
    dsimp only
    split
    · exact ih _ _ _
    · split
      · exact ih _ _ _
      · split
        · rfl
        · split
          · rename_i h
            rw [ih]
            exact snd_chatLog_of_eq h (Stat_chatLog _ _ _ _)
          · rename_i h
            rw [ih]
            exact snd_chatLog_of_eq h (Stat_chatLog _ _ _ _)

theorem contextLoop_chatLog (f : Filesystem) (env : Env) (maxContext perFileCap : Int) :
    ∀ (ps seen : List Str) (total : Int) (out : List ContextFile) (w : World),
      (contextLoop f env maxContext perFileCap ps seen total out w).2.chatLog = w.chatLog := by
  intro ps
  induction ps with
  | nil => intro seen total out w; rfl
  | cons p rest ih =>
    intro seen total out w
    unfold contextLoop
    split
    · exact ih _ _ _ _
    · split
      · rfl
      · split
        · rename_i h
          exact snd_chatLog_of_eq h (Stat_chatLog _ _ _ _)
        · rename_i w1 h
          have h1 : w1.chatLog = w.chatLog := snd_chatLog_of_eq h (Stat_chatLog _ _ _ _)
          split
          · rename_i h2
            rw [snd_chatLog_of_eq h2 (DescribeStructure_chatLog _ _ _ _), h1]
          · rename_i w2 h2
            have h3 : w2.chatLog = w1.chatLog :=
              snd_chatLog_of_eq h2 (DescribeStructure_chatLog _ _ _ _)
            split
            rename_i out' total' exhausted _
            split
            · rw [h3, h1]
            · rw [ih, h3, h1]
        · rename_i w1 h
          have h1 : w1.chatLog = w.chatLog := snd_chatLog_of_eq h (Stat_chatLog _ _ _ _)
          split
          · rename_i h2
            rw [snd_chatLog_of_eq h2 (ReadFile_chatLog _ _ _ _), h1]
          · rename_i w2 h2
            have h3 : w2.chatLog = w1.chatLog :=
              snd_chatLog_of_eq h2 (ReadFile_chatLog _ _ _ _)
            split
            rename_i out' total' exhausted _
            split
            · rw [h3, h1]
            · rw [ih, h3, h1]

theorem buildContextFiles_chatLog (reg : Option ToolRegistry) (env : Env) (prompt : Str)
    (paths : List Str) (maxBytes : Int) (w : World) :
    (buildContextFiles reg env prompt paths maxBytes w).2.chatLog = w.chatLog := by
  unfold buildContextFiles
  cases reg with
  | none => rfl
  | some reg =>
    dsimp only
    cases reg.FS with
    | none => rfl
    | some f =>
      dsimp only
      rw [contextLoop_chatLog]
      split
      · rfl
      · unfold discoverContextPaths
        split
        · split <;> exact discoverLoop_chatLog _ _ _ _ _ _
        · exact discoverLoop_chatLog _ _ _ _ _ _

theorem runTools_tool_events (env : Env) (reg : ToolRegistry) (sid corr : Str) :
    ∀ (tcs : List ToolCall) (obs : List ToolObservation) (w : World),
      (∀ e ∈ (runTools env reg sid corr tcs obs w).events, e.Kind = "tool".toList) ∧
      (runTools env reg sid corr tcs obs w).world.chatLog = w.chatLog := by
  intro tcs
  induction tcs with
  | nil =>
    intro obs w
    exact ⟨fun e he => (by cases he), rfl⟩
  | cons tc tcs ih =>
    intro obs w
    have hw := executeTool_chatLog env (some reg) tc w
    unfold runTools
    cases hexec : executeTool env (some reg) tc w with
    | mk res w' =>
      rw [hexec] at hw
      cases res with
      | panic => exact ⟨fun e he => (by cases he), hw⟩
      | fail out e =>
        refine ⟨fun x hx => ?_, hw⟩
        rw [List.mem_singleton.mp hx]
      | ok output =>
        obtain ⟨h1, h2⟩ := ih (obs ++ [{ Name := tc.Name, Output := output }]) w'
        refine ⟨fun x hx => ?_, by rw [← hw]; exact h2⟩
        rcases List.mem_cons.mp hx with h | h
        · rw [h]
        · exact h1 x h

theorem recordFailure_chatLog (r : AgentRunner) (role model : Str) (w : World) :
    (r.recordFailure role model w).chatLog = w.chatLog := by
  unfold AgentRunner.recordFailure
  split <;> rfl

theorem recordUsage_chatLog (r : AgentRunner) (role model : Str) (w : World) :
    (r.recordUsage role model w).chatLog = w.chatLog := by
  unfold AgentRunner.recordUsage
  split <;> rfl

theorem selectModel_chatLog (r : AgentRunner) (role override : Str) (eu : Int) (w : World) :
    (r.selectModel role override eu w).2.2.chatLog = w.chatLog := by
  unfold AgentRunner.selectModel
  dsimp only
  split
  · rfl
  · split
    · exact recordFailure_chatLog _ _ _ _
    · split
      · rfl
      · exact recordUsage_chatLog _ _ _ _

theorem pickFallbackLoop_chatLog (r : AgentRunner) (s : StrategyEngine) (role current : Str) :
    ∀ (n : Nat) (fb : Str) (tried : List Str) (eu : Int) (w : World) (res : Str × Int × World),
      pickFallbackLoop r s role current n fb tried eu w = some res →
      res.2.2.chatLog = w.chatLog := by
  intro n
  induction n with
  | zero =>
    intro fb tried eu w res h
    unfold pickFallbackLoop at h
    split at h
    · cases h; rfl
    · cases h
  | succ n ih =>
    intro fb tried eu w res h
    unfold pickFallbackLoop at h
    split at h
    · cases h; rfl
    · split at h
      · exact ih _ _ _ _ _ h
      · split at h
        · rw [ih _ _ _ _ _ h]
          exact recordFailure_chatLog _ _ _ _
        · split at h
          · exact ih _ _ _ _ _ h
          · cases h
            exact recordUsage_chatLog _ _ _ _

theorem pickFallbackModel_chatLog (r : AgentRunner) (fuel : Nat) (role current : Str)
    (eu : Int) (w : World) (res : Str × Int × World)
    (h : r.pickFallbackModel fuel role current eu w = some res) :
    res.2.2.chatLog = w.chatLog := by
  unfold AgentRunner.pickFallbackModel at h
  split at h
  · cases h; rfl
  · exact pickFallbackLoop_chatLog _ _ _ _ _ _ _ _ _ _ h

theorem callWithFallback_failing {α : Type} (r : AgentRunner) (fuel : Nat) (role model : Str)
    (eu : Int) (call : Str → World → Except Str α × World) (note : Except Str α → Obs)
    (w : World) (hcall : ∀ m w, ∃ e, call m w = (.error e, w)) :
    (r.callWithFallback fuel role model eu call note w).2 = none ∨
    ∃ e eu' w', (r.callWithFallback fuel role model eu call note w).2
      = some (.error e, eu', w') ∧ w'.chatLog = w.chatLog := by
  unfold AgentRunner.callWithFallback
  obtain ⟨e, he⟩ := hcall model w
  rw [he]
  dsimp only
  cases hp : r.pickFallbackModel fuel role model eu (r.recordFailure role model w) with
  | none => exact Or.inl rfl
  | some res =>
    obtain ⟨fb, eu1, w1⟩ := res
    have hw1 : w1.chatLog = w.chatLog := by
      have := pickFallbackModel_chatLog _ _ _ _ _ _ _ hp
      rw [this]
      exact recordFailure_chatLog _ _ _ _
    dsimp only
    right
    split
    · obtain ⟨e2, he2⟩ := hcall fb w1
      rw [he2]
      exact ⟨e2, eu1, _, rfl, by rw [recordFailure_chatLog]; exact hw1⟩
    · exact ⟨e, eu1, _, rfl, by rw [recordFailure_chatLog]; exact hw1⟩

theorem Plan_blank (a : Agent) (env : Env) (req : Request) (w : World)
    (hen : a.cfg.EnablePlan = true) (hblank : TrimSpace req.Prompt = []) :
    a.Plan env req w = (.error "prompt is required".toList, w) := by
  unfold Agent.Plan
  simp [hen, hblank]

theorem Run_empty_prompt (a : Agent) (env : Env) (req : Request) (w : World)
    (hempty : req.Prompt = []) :
    a.Run env req w = (.error "prompt is required".toList, w) := by
  unfold Agent.Run
  simp [hempty]

theorem errorEvent_kind (sid corr msg : Str) : (errorEvent sid corr msg).Kind = "error".toList :=
  rfl

theorem planPhase_blank (r : AgentRunner) (a : Agent) (env : Env) (fuel : Nat)
    (req : RunTaskRequest) (corr : Str) (ctxFiles : List ContextFile) (eu : Int) (w : World)
    (hen : a.cfg.EnablePlan = true) (hblank : TrimSpace req.Prompt = []) :
    FailsFast (r.planPhase a env fuel req corr ctxFiles eu w) w := by
  unfold AgentRunner.planPhase
  have hen' : a.PlanningEnabled = true := hen
  rw [if_pos hen']
  have hsel := selectModel_chatLog r "planner".toList
    (firstNonEmpty [req.PlannerModel, req.Model]) eu w
  generalize r.selectModel "planner".toList (firstNonEmpty [req.PlannerModel, req.Model]) eu w
    = sel at hsel
  obtain ⟨planModel, eu1, w1⟩ := sel
  dsimp only at hsel ⊢
  have key := callWithFallback_failing r fuel "planner".toList planModel eu1
    (fun m w => a.Plan env
      { SessionID := req.SessionID, Model := m, Prompt := req.Prompt, Context := ctxFiles } w)
    notePlan w1 (fun m w' => ⟨_, Plan_blank a env _ w' hen hblank⟩)
  generalize r.callWithFallback fuel "planner".toList planModel eu1
    (fun m w => a.Plan env
      { SessionID := req.SessionID, Model := m, Prompt := req.Prompt, Context := ctxFiles } w)
    notePlan w1 = res at key
  obtain ⟨tr, opt⟩ := res
  rcases key with h | ⟨e, eu', w', h, hw'⟩
  · dsimp only at h
    subst h
    exact ⟨hsel, Or.inr ⟨rfl, rfl⟩⟩
  · dsimp only at h
    subst h
    exact ⟨by rw [← hsel]; exact hw', Or.inl ⟨_, rfl, rfl, rfl⟩⟩

theorem coderPhase_empty (r : AgentRunner) (a : Agent) (env : Env) (fuel : Nat)
    (req : RunTaskRequest) (corr : Str) (ctxFiles : List ContextFile) (eu : Int) (w : World)
    (hempty : req.Prompt = []) :
    FailsFast (r.coderPhase a env fuel req corr ctxFiles eu w) w := by
  unfold AgentRunner.coderPhase
  have hsel := selectModel_chatLog r "coder".toList (firstNonEmpty [req.Model]) eu w
  generalize r.selectModel "coder".toList (firstNonEmpty [req.Model]) eu w = sel at hsel
  obtain ⟨model, eu1, w1⟩ := sel
  dsimp only at hsel ⊢
  have key := callWithFallback_failing r fuel "coder".toList model eu1
    (fun m w => a.Run env
      { SessionID := req.SessionID, Model := m, Prompt := req.Prompt, Context := ctxFiles } w)
    noteCoder w1 (fun m w' => ⟨_, Run_empty_prompt a env _ w' hempty⟩)
  generalize r.callWithFallback fuel "coder".toList model eu1
    (fun m w => a.Run env
      { SessionID := req.SessionID, Model := m, Prompt := req.Prompt, Context := ctxFiles } w)
    noteCoder w1 = res at key
  obtain ⟨tr, opt⟩ := res
  rcases key with h | ⟨e, eu', w', h, hw'⟩
  · dsimp only at h
    subst h
    exact ⟨hsel, Or.inr ⟨rfl, rfl⟩⟩
  · dsimp only at h
    subst h
    exact ⟨by rw [← hsel]; exact hw', Or.inl ⟨_, rfl, rfl, rfl⟩⟩

theorem FailsFast_bind {α β : Type} (o : Out α) (f : α → World → Out β) (w : World)
    (h : FailsFast o w) : FailsFast (o.bind f) w := by
  obtain ⟨hw, hcase⟩ := h
  unfold Out.bind
  rcases hcase with ⟨e, hev, hk, hflow⟩ | ⟨hev, hflow⟩
  · rw [hflow]
    exact ⟨hw, Or.inl ⟨e, hev, hk, rfl⟩⟩
  · rw [hflow]
    exact ⟨hw, Or.inr ⟨hev, rfl⟩⟩

theorem runStep_empty (r : AgentRunner) (a : Agent) (js : JsonCodec) (env : Env) (fuel : Nat)
    (req : RunTaskRequest) (corr : Str) (ctxFiles : List ContextFile) (step : Int)
    (st : LoopState) (w : World) (hempty : req.Prompt = []) :
    FailsFast (r.runStep a js env fuel req corr ctxFiles step st w) w := by
  unfold AgentRunner.runStep
  split
  · exact ⟨rfl, Or.inl ⟨_, rfl, rfl, rfl⟩⟩
  · have hc := FailsFast_bind
      (r.coderPhase a env fuel req corr ctxFiles st.expensiveUsed w.advance)
      (fun re w =>
        (Out.mk [{ Kind := "message".toList, SessionID := req.SessionID, CorrelationID := corr,
                   Message := re.1.Message.Content, Step := step }] [] w (.next ())).bind
        fun _ w =>
          (emitTokens env req.SessionID corr step (Fields re.1.Message.Content) 0 w).bind
        fun _ w =>
          (match r.Tools with
           | some reg =>
             runTools env reg req.SessionID corr (extractToolCalls js re.1.Message.Content)
               st.initialTools w
           | none => ⟨[], [], w, .next st.initialTools⟩).bind
        fun stepTools w =>
          (r.testPhase a env req.SessionID corr step (isResponseDone re.1) w).bind
        fun testObs w =>
          (r.reflectPhase a js env fuel req corr step re.1 stepTools testObs
            (isResponseDone re.1) re.2 w).bind
        fun ro w =>
          r.finishStep req corr step re.1
            (st.tokenCount + (Fields re.1.Message.Content).length) ro w)
      w.advance (coderPhase_empty r a env fuel req corr ctxFiles _ _ hempty)
    obtain ⟨hw, hcase⟩ := hc
    refine ⟨hw, ?_⟩
    rcases hcase with ⟨e, hev, hk, hflow⟩ | ⟨hev, hflow⟩
    · left
      refine ⟨e, ?_, hk, ?_⟩
      · simp only [Out.bind, List.nil_append]
        exact hev
      · simp only [Out.bind]
        exact hflow
    · right
      refine ⟨?_, ?_⟩
      · simp only [Out.bind, List.nil_append]
        exact hev
      · simp only [Out.bind]
        exact hflow

theorem MaxSteps_toNat_pos (a : Agent) : ∃ k, a.MaxSteps.toNat = k + 1 := by
  have h : 0 < a.MaxSteps := by
    unfold Agent.MaxSteps
    split
    · assumption
    · decide
  have h2 : 0 < a.MaxSteps.toNat := by
    omega
  exact ⟨a.MaxSteps.toNat - 1, by omega⟩

theorem preTools_shape (r : AgentRunner) (env : Env) (req : RunTaskRequest) (corr : Str)
    (w : World) :
    (∀ e ∈ (r.preTools env req corr w).events, e.Kind = "tool".toList) ∧
    (r.preTools env req corr w).world.chatLog = w.chatLog ∧
    ((req.Tools = [] ∨ r.Tools = none) →
      (r.preTools env req corr w).events = [] ∧
      ∃ obs, (r.preTools env req corr w).flow = .next obs) := by
  unfold AgentRunner.preTools
  cases hT : r.Tools with
  | none => exact ⟨fun e he => (by cases he), rfl, fun _ => ⟨rfl, [], rfl⟩⟩
  | some reg =>
    dsimp only
    split
    · rename_i hne
      obtain ⟨h1, h2⟩ := runTools_tool_events env reg req.SessionID corr req.Tools [] w
      refine ⟨h1, h2, ?_⟩
      intro hno
      rcases hno with h | h
      · rw [h] at hne
        simp at hne
      · cases h
    · exact ⟨fun e he => (by cases he), rfl, fun _ => ⟨rfl, [], rfl⟩⟩

theorem Run_rejected_shape (r : AgentRunner) (a : Agent) (js : JsonCodec) (env : Env)
    (fuel : Nat) (req : RunTaskRequest) (w : World) (hA : r.Agent = some a)
    (hp : req.Prompt = [] ∨ (TrimSpace req.Prompt = [] ∧ a.cfg.EnablePlan = true)) :
    (r.Run js env fuel req w).world.chatLog = w.chatLog ∧
    ∃ evs1 tail, (r.Run js env fuel req w).events = evs1 ++ tail ∧
      (∀ e ∈ evs1, e.Kind = "tool".toList) ∧
      ((req.Tools = [] ∨ r.Tools = none) → evs1 = []) ∧
      ((∃ e, tail = [e] ∧ e.Kind = "error".toList ∧
          (r.Run js env fuel req w).halt = Halt.returned) ∨
       (tail = [] ∧ (r.Run js env fuel req w).halt = Halt.hung) ∨
       (tail = [] ∧ ¬ (req.Tools = [] ∨ r.Tools = none))) := by
  have hblank : TrimSpace req.Prompt = [] := by
    rcases hp with h | ⟨h, _⟩
    · rw [h]; rfl
    · exact h
  unfold AgentRunner.Run
  simp only [hA]
  have hcb := buildContextFiles_chatLog r.Tools env req.Prompt req.ContextPaths
    a.MaxContextBytes w
  generalize buildContextFiles r.Tools env req.Prompt req.ContextPaths a.MaxContextBytes w = cb
    at hcb
  obtain ⟨cres, w1⟩ := cb
  dsimp only at hcb
  cases cres with
  | error e =>
    exact ⟨hcb, [], _, rfl, fun e he => (by cases he), fun _ => rfl,
      Or.inl ⟨_, rfl, rfl, rfl⟩⟩
  | ok ctxFiles =>
    dsimp only
    have hpre := preTools_shape r env req
      (if req.CorrelationID = [] then req.SessionID else req.CorrelationID) w1
    generalize r.preTools env req
      (if req.CorrelationID = [] then req.SessionID else req.CorrelationID) w1 = pre at hpre
    obtain ⟨evs1, tr1, w2, flow1⟩ := pre
    obtain ⟨hk1, hw2, hno⟩ := hpre
    dsimp only at hk1 hw2 hno
    cases flow1 with
    | halt h =>
      refine ⟨by rw [← hcb]; exact hw2, evs1, [], by simp, hk1, fun hn => (hno hn).1,
        Or.inr (Or.inr ⟨rfl, ?_⟩)⟩
      intro hn
      obtain ⟨_, obs, hobs⟩ := hno hn
      cases hobs
    | next initialTools =>
      dsimp only
      by_cases hen : a.cfg.EnablePlan = true
      · have hplan := planPhase_blank r a env fuel req
          (if req.CorrelationID = [] then req.SessionID else req.CorrelationID) ctxFiles 0 w2
          hen hblank
        generalize r.planPhase a env fuel req
          (if req.CorrelationID = [] then req.SessionID else req.CorrelationID) ctxFiles 0 w2
          = pl at hplan
        obtain ⟨evs2, tr2, w3, flow2⟩ := pl
        obtain ⟨hw3, hcase⟩ := hplan
        dsimp only at hw3 hcase
        rcases hcase with ⟨e, hev, hk, hflow⟩ | ⟨hev, hflow⟩
        · subst hflow hev
          exact ⟨by rw [← hcb, ← hw2]; exact hw3, evs1, [e], rfl, hk1,
            fun hn => (hno hn).1, Or.inl ⟨e, rfl, hk, rfl⟩⟩
        · subst hflow hev
          exact ⟨by rw [← hcb, ← hw2]; exact hw3, evs1, [], rfl, hk1,
            fun hn => (hno hn).1, Or.inr (Or.inl ⟨rfl, rfl⟩)⟩
      · have hempty : req.Prompt = [] := by
          rcases hp with h | ⟨_, h⟩
          · exact h
          · exact absurd h hen
        have hoff : a.PlanningEnabled = false := by
          unfold Agent.PlanningEnabled
          simpa using hen
        have hplan : r.planPhase a env fuel req
            (if req.CorrelationID = [] then req.SessionID else req.CorrelationID) ctxFiles 0 w2
            = ⟨[], [], w2, .next 0⟩ := by
          unfold AgentRunner.planPhase
          simp [hoff]
        rw [hplan]
        dsimp only
        obtain ⟨k, hk⟩ := MaxSteps_toNat_pos a
        rw [hk]
        unfold AgentRunner.stepLoop
        have hstep := runStep_empty r a js env fuel req
          (if req.CorrelationID = [] then req.SessionID else req.CorrelationID) ctxFiles 1
          { initialTools := initialTools, expensiveUsed := 0, tokenCount := 0 } w2 hempty
        generalize r.runStep a js env fuel req
          (if req.CorrelationID = [] then req.SessionID else req.CorrelationID) ctxFiles 1
          { initialTools := initialTools, expensiveUsed := 0, tokenCount := 0 } w2 = o at hstep
        obtain ⟨evs3, tr3, w4, flow3⟩ := o
        obtain ⟨hw4, hcase⟩ := hstep
        dsimp only at hw4 hcase
        rcases hcase with ⟨e, hev, hke, hflow⟩ | ⟨hev, hflow⟩
        · subst hflow hev
          exact ⟨by rw [← hcb, ← hw2]; exact hw4, evs1, [e], by simp, hk1,
            fun hn => (hno hn).1, Or.inl ⟨e, rfl, hke, rfl⟩⟩
        · subst hflow hev
          exact ⟨by rw [← hcb, ← hw2]; exact hw4, evs1, [], by simp, hk1,
            fun hn => (hno hn).1, Or.inr (Or.inl ⟨rfl, rfl⟩)⟩

/-- C7 (as stated) fails: on a request with an empty prompt and one pre-task tool call
`fs.write_file`, the runner executes the tool call first (it succeeds with output `ok`) and
only then the agent rejects the prompt: the event sequence is a `tool` event followed by the
`error` event, not a single `error` event. -/
theorem run_empty_prompt_runs_tools_counterexample :
    TrimSpace exEmptyPromptRequest.Prompt = [] ∧
    kinds (exWriteRunner.Run exJson {} 3 exEmptyPromptRequest {}).events
      = ["tool".toList, "error".toList] ∧
    (exWriteRunner.Run exJson {} 3 exEmptyPromptRequest {}).events.map (·.ToolOutput)
      = ["ok".toList, []] ∧
    (exWriteRunner.Run exJson {} 3 exEmptyPromptRequest {}).events.map (·.Error)
      = [[], "prompt is required".toList] ∧
    Obs.toolCall "fs.write_file".toList true
      ∈ (exWriteRunner.Run exJson {} 3 exEmptyPromptRequest {}).trace := by
  decide

/-- A prompt of two spaces, with planning disabled, is not rejected: the provider is called
and the run goes through its steps. -/
theorem run_blank_prompt_reaches_provider :
    TrimSpace "  ".toList = [] ∧
    (exLoopRunner.Run exJson {} 3 { SessionID := "s1".toList, Prompt := "  ".toList }
      {}).world.chatLog.length = 2 ∧
    kinds (exLoopRunner.Run exJson {} 3 { SessionID := "s1".toList, Prompt := "  ".toList }
      {}).events
      = ["message".toList, "token".toList, "message".toList, "token".toList,
         "done".toList] := by
  decide

/-- C7 (amended): for every request whose prompt is the empty string, or is blank while
planning is enabled (with an agent present): AgentRunner.Run makes no provider call and emits
no `plan`, `message`, `token` or `done` event, only `tool` events of the pre-task tool calls,
which are executed first, and `error`; when the run returns without a failed tool call its
events are those `tool` events followed by one `error` event, and without pre-task tool calls
a run that returns emits a single `error` event; without pre-task tool calls and without a
strategy engine the run returns. -/
theorem run_empty_prompt_rejected (r : AgentRunner) (a : Agent) (js : JsonCodec) (env : Env)
    (fuel : Nat) (req : RunTaskRequest) (w : World) (hA : r.Agent = some a)
    (hp : req.Prompt = [] ∨ (TrimSpace req.Prompt = [] ∧ a.cfg.EnablePlan = true)) :
    (r.Run js env fuel req w).world.chatLog = w.chatLog ∧
    (∀ e ∈ (r.Run js env fuel req w).events,
      e.Kind = "tool".toList ∨ e.Kind = "error".toList) ∧
    ((r.Run js env fuel req w).halt = Halt.returned →
      NoToolFailure (r.Run js env fuel req w).trace →
      ∃ pre e, (r.Run js env fuel req w).events = pre ++ [e] ∧ e.Kind = "error".toList ∧
        ∀ x ∈ pre, x.Kind = "tool".toList) ∧
    ((req.Tools = [] ∨ r.Tools = none) → (r.Run js env fuel req w).halt = Halt.returned →
      ∃ e, (r.Run js env fuel req w).events = [e] ∧ e.Kind = "error".toList) ∧
    ((req.Tools = [] ∨ r.Tools = none) → r.Strategy = none →
      (r.Run js env fuel req w).halt = Halt.returned) := by
  obtain ⟨hlog, evs1, tail, hev, hk1, hno, hcase⟩ :=
    Run_rejected_shape r a js env fuel req w hA hp
  have hgood := Run_good r js env fuel req w
  refine ⟨hlog, ?_, ?_, ?_, ?_⟩
  · intro e he
    rw [hev] at he
    rcases List.mem_append.mp he with h | h
    · exact Or.inl (hk1 e h)
    · rcases hcase with ⟨e', ht, hk, _⟩ | ⟨ht, _⟩ | ⟨ht, _⟩
      · rw [ht] at h
        rw [List.mem_singleton.mp h]
        exact Or.inr hk
      · rw [ht] at h
        cases h
      · rw [ht] at h
        cases h
  · intro hret hnf
    rcases hcase with ⟨e', ht, hk, _⟩ | ⟨_, hh⟩ | ⟨ht, _⟩
    · exact ⟨evs1, e', by rw [hev, ht], hk, hk1⟩
    · rw [hret] at hh
      cases hh
    · exfalso
      rw [hret] at hgood
      obtain ⟨pre, e', heq, _, hlast⟩ := hgood
      rcases hlast with ⟨hterm, _⟩ | ⟨_, name, hmem⟩
      · have hmem : e' ∈ evs1 := by
          have : e' ∈ (r.Run js env fuel req w).events := by
            rw [heq]
            exact List.mem_append.mpr (Or.inr (List.mem_singleton.mpr rfl))
          rw [hev, ht, List.append_nil] at this
          exact this
        have := isTerminal_false_of_kind e' _ (hk1 e' hmem) (by decide) (by decide)
        rw [hterm] at this
        cases this
      · exact hnf name hmem
  · intro hn hret
    have h1 := hno hn
    rcases hcase with ⟨e', ht, hk, _⟩ | ⟨_, hh⟩ | ⟨_, hnn⟩
    · exact ⟨e', by rw [hev, ht, h1]; rfl, hk⟩
    · rw [hret] at hh
      cases hh
    · exact absurd hn hnn
  · intro hn hS
    rcases hcase with ⟨_, _, _, hret⟩ | ⟨_, hh⟩ | ⟨_, hnn⟩
    · exact hret
    · exact absurd hh (Run_not_hung r js env fuel req w hS)
    · exact absurd hn hnn

/-- Witness for C7 (amended): the runner with a writable file system on an empty prompt
without pre-task tool calls: the run returns, no provider call is made and the single event
is `error` with message `prompt is required`. -/
theorem run_empty_prompt_rejected_witness :
    (exWriteRunner.Run exJson {} 3 { SessionID := "s1".toList } {}).world.chatLog = [] ∧
    (∃ e, (exWriteRunner.Run exJson {} 3 { SessionID := "s1".toList } {}).events = [e] ∧
      e.Kind = "error".toList) ∧
    (exWriteRunner.Run exJson {} 3 { SessionID := "s1".toList } {}).events.map (·.Error)
      = ["prompt is required".toList] := by
  have h := run_empty_prompt_rejected exWriteRunner
    ⟨exRegistryOf exLoopProvider, { MaxSteps := 2 }⟩ exJson {} 3 { SessionID := "s1".toList } {}
    rfl (Or.inl rfl)
  exact ⟨h.1, h.2.2.2.1 (Or.inl rfl) (h.2.2.2.2 (Or.inl rfl) rfl), by decide⟩

/-! ## A fallback selection without end -/

theorem exHang_pick (fb : Str) (hfb : fb = "x".toList ∨ fb = "y".toList) :
    exHangStrategy.PickWithBudget "coder".toList fb 0
      = .ok ⟨some exLoopProvider,
          { Name := "default".toList, Provider := "mock".toList, Model := "m".toList },
          "default".toList, false⟩ := by
  rcases hfb with h | h <;> subst h <;> rfl

theorem exHang_next (fb : Str) (hfb : fb = "x".toList ∨ fb = "y".toList) :
    exHangStrategy.NextFallback fb = "x".toList ∨ exHangStrategy.NextFallback fb = "y".toList := by
  rcases hfb with h | h <;> subst h
  · exact Or.inr (by decide)
  · exact Or.inl (by decide)

theorem exHang_loop (r : AgentRunner) :
    ∀ (n : Nat) (fb : Str) (tried : List Str) (w : World),
      (fb = "x".toList ∨ fb = "y".toList) →
      pickFallbackLoop r exHangStrategy "coder".toList "default".toList n fb tried 0 w = none := by
  intro n
  induction n with
  | zero =>
    intro fb tried w hfb
    have hne : fb ≠ [] := by rcases hfb with h | h <;> subst h <;> decide
    simp [pickFallbackLoop, hne]
  | succ n ih =>
    intro fb tried w hfb
    have hne : fb ≠ [] := by rcases hfb with h | h <;> subst h <;> decide
    unfold pickFallbackLoop
    rw [if_neg hne]
    split
    · exact ih _ _ _ (exHang_next fb hfb)
    · rw [exHang_pick fb hfb]
      simp only
      rw [if_pos (Or.inr trivial)]
      exact ih _ _ _ (exHang_next fb hfb)

/-- The fallback selection of `exHangRunner` for the coder role never ends: both fallbacks
resolve to the registry default, which is the current model, and `NextFallback` alternates
between them. -/
theorem exHang_pickFallbackModel (fuel : Nat) (w : World) :
    exHangRunner.pickFallbackModel fuel "coder".toList "default".toList 0 w = none := by
  unfold AgentRunner.pickFallbackModel
  show pickFallbackLoop exHangRunner exHangStrategy "coder".toList "default".toList fuel
    (exHangStrategy.NextFallback "default".toList) _ 0 w = none
  exact exHang_loop _ _ _ _ _ (Or.inl (by decide))

theorem callWithFallback_hung {α : Type} (r : AgentRunner) (fuel : Nat) (role model : Str)
    (eu : Int) (call : Str → World → Except Str α × World) (note : Except Str α → Obs)
    (w : World) (e : Str) (w1 : World) (hcall : call model w = (.error e, w1))
    (hpick : r.pickFallbackModel fuel role model eu (r.recordFailure role model w1) = none) :
    (r.callWithFallback fuel role model eu call note w).2 = none := by
  unfold AgentRunner.callWithFallback
  rw [hcall]
  simp only
  rw [hpick]

theorem Out.bind_next {α β : Type} (evs : List RunTaskEvent) (tr : List Obs) (w : World)
    (a : α) (f : α → World → Out β) :
    (Out.mk evs tr w (.next a)).bind f
      = ⟨evs ++ (f a w).events, tr ++ (f a w).trace, (f a w).world, (f a w).flow⟩ := rfl

theorem Out.bind_halt {α β : Type} (o : Out α) (f : α → World → Out β) (h : Halt)
    (ho : o.flow = .halt h) : o.bind f = ⟨o.events, o.trace, o.world, .halt h⟩ := by
  unfold Out.bind
  rw [ho]

/-- On an empty prompt the run of `exHangRunner` sends no event and does not return, whatever
the fuel: the coder call is rejected and the fallback selection that follows never ends. -/
theorem run_empty_prompt_fallback_hangs (fuel : Nat) :
    (exHangRunner.Run exJson {} fuel { SessionID := "s1".toList } {}).halt = Halt.hung ∧
    (exHangRunner.Run exJson {} fuel { SessionID := "s1".toList } {}).events = [] := by
  have hc : ∀ w ctx, (exHangRunner.coderPhase
        ⟨exRegistryOf exLoopProvider, { MaxSteps := 2 }⟩ {} fuel { SessionID := "s1".toList }
        "s1".toList ctx 0 w).flow = .halt .hung ∧
      (exHangRunner.coderPhase
        ⟨exRegistryOf exLoopProvider, { MaxSteps := 2 }⟩ {} fuel { SessionID := "s1".toList }
        "s1".toList ctx 0 w).events = [] := by
    intro w ctx
    unfold AgentRunner.coderPhase
    have hsel : exHangRunner.selectModel "coder".toList
        (firstNonEmpty [({ SessionID := "s1".toList } : RunTaskRequest).Model]) 0 w
        = ("default".toList, 0, w) := rfl
    rw [hsel]
    simp only
    have hnone := callWithFallback_hung exHangRunner fuel "coder".toList "default".toList 0
      (fun m w => Agent.Run ⟨exRegistryOf exLoopProvider, { MaxSteps := 2 }⟩ {}
        { SessionID := "s1".toList, Model := m, Prompt := [], Context := ctx } w)
      noteCoder w "prompt is required".toList w (Run_empty_prompt _ _ _ _ rfl)
      (exHang_pickFallbackModel fuel _)
    split
    · exact ⟨rfl, rfl⟩
    · rename_i heq
      rw [heq] at hnone
      cases hnone
    · rename_i heq
      rw [heq] at hnone
      cases hnone
  have hstep : ∀ w ctx it, (exHangRunner.runStep
        ⟨exRegistryOf exLoopProvider, { MaxSteps := 2 }⟩ exJson {} fuel
        { SessionID := "s1".toList } "s1".toList ctx 1
        { initialTools := it, expensiveUsed := 0, tokenCount := 0 } w).flow = .halt .hung ∧
      (exHangRunner.runStep
        ⟨exRegistryOf exLoopProvider, { MaxSteps := 2 }⟩ exJson {} fuel
        { SessionID := "s1".toList } "s1".toList ctx 1
        { initialTools := it, expensiveUsed := 0, tokenCount := 0 } w).events = [] := by
    intro w ctx it
    unfold AgentRunner.runStep
    rw [if_neg (by simp)]
    have h := hc w.advance ctx
    rw [Out.bind_next]
    simp only
    rw [Out.bind_halt _ _ _ h.1, h.2]
    exact ⟨rfl, rfl⟩
  have hrun : exHangRunner.Run exJson {} fuel { SessionID := "s1".toList } {}
      = ⟨(exHangRunner.stepLoop ⟨exRegistryOf exLoopProvider, { MaxSteps := 2 }⟩ exJson {} fuel
            { SessionID := "s1".toList } "s1".toList [] 2 1
            { initialTools := [], expensiveUsed := 0, tokenCount := 0 } {}).events,
         Obs.contextBuilt true :: (exHangRunner.stepLoop
            ⟨exRegistryOf exLoopProvider, { MaxSteps := 2 }⟩ exJson {} fuel
            { SessionID := "s1".toList } "s1".toList [] 2 1
            { initialTools := [], expensiveUsed := 0, tokenCount := 0 } {}).trace,
         (exHangRunner.stepLoop ⟨exRegistryOf exLoopProvider, { MaxSteps := 2 }⟩ exJson {} fuel
            { SessionID := "s1".toList } "s1".toList [] 2 1
            { initialTools := [], expensiveUsed := 0, tokenCount := 0 } {}).world,
         (exHangRunner.stepLoop ⟨exRegistryOf exLoopProvider, { MaxSteps := 2 }⟩ exJson {} fuel
            { SessionID := "s1".toList } "s1".toList [] 2 1
            { initialTools := [], expensiveUsed := 0, tokenCount := 0 } {}).halt⟩ := rfl
  rw [hrun]
  simp only
  have h := hstep {} [] []
  unfold AgentRunner.stepLoop
  generalize exHangRunner.runStep ⟨exRegistryOf exLoopProvider, { MaxSteps := 2 }⟩ exJson {} fuel
        { SessionID := "s1".toList } "s1".toList [] 1
        { initialTools := [], expensiveUsed := 0, tokenCount := 0 } {} = o at h
  obtain ⟨evs, tr, w1, flow⟩ := o
  simp only at h
  obtain ⟨h1, h2⟩ := h
  subst h1
  subst h2
  exact ⟨rfl, rfl⟩

/-! ## Session histories -/

theorem lookup_updateSession_ne (id y : Str) (f : Session → Session) (hy : y ≠ id) :
    ∀ l : List (Str × Session), (updateSession id f l).lookup y = l.lookup y := by
  intro l
  induction l with
  | nil => rfl
  | cons hd tl ih =>
    obtain ⟨k, s⟩ := hd
    unfold updateSession
    by_cases hk : k = id
    · subst hk
      have hk' : (y == k) = false := by
        simp only [beq_eq_false_iff_ne, ne_eq]
        exact hy
      simp [List.lookup, hk']
    · rw [if_neg hk]
      by_cases hyk : (y == k) = true
      · simp [List.lookup, hyk]
      · have hyk' : (y == k) = false := by simpa using hyk
        simp only [List.lookup, hyk']
        exact ih

theorem lookup_append_ne (id y : Str) (s : Session) (hy : y ≠ id) :
    ∀ l : List (Str × Session), (l ++ [(id, s)]).lookup y = l.lookup y := by
  intro l
  induction l with
  | nil =>
    have hk' : (y == id) = false := by
      simp only [beq_eq_false_iff_ne, ne_eq]
      exact hy
    simp [List.lookup, hk']
  | cons hd tl ih =>
    obtain ⟨k, s'⟩ := hd
    by_cases hyk : (y == k) = true
    · simp [List.lookup, hyk]
    · have hyk' : (y == k) = false := by simpa using hyk
      simp only [List.cons_append, List.lookup, hyk']
      exact ih

/-- An update of the session stored under `id` that keeps the history keeps the history of
every session. -/
theorem session_update_history (w : World) (id y : Str) (f : Session → Session)
    (hf : ∀ s, (f s).History = s.History) :
    (World.session { w with sessions := updateSession id f w.sessions } y).History
      = (w.session y).History := by
  unfold World.session
  by_cases hy : y = id
  · subst hy
    simp only [lookup_updateSession]
    cases w.sessions.lookup y with
    | none => rfl
    | some s => exact hf s
  · simp only [lookup_updateSession_ne id y f hy]

/-- An update of the session stored under `id`, seen from a session that is present. -/
theorem session_update_same (w : World) (id : Str) (f : Session → Session) (s : Session)
    (hs : w.sessions.lookup id = some s) :
    World.session { w with sessions := updateSession id f w.sessions } id = f s := by
  unfold World.session
  simp only [lookup_updateSession, hs, Option.map_some', Option.getD_some]

theorem session_update_other (w : World) (id y : Str) (f : Session → Session) (hy : y ≠ id) :
    World.session { w with sessions := updateSession id f w.sessions } y = w.session y := by
  unfold World.session
  simp only [lookup_updateSession_ne id y f hy]

/-- `ensureSession` returns the key of a stored session and changes neither the history nor
the last reflection of any session: a session it creates is empty, as an absent one is. -/
theorem ensureSession_keeps (env : Env) (id : Str) (w : World) :
    (∃ s, (ensureSession env id w).2.sessions.lookup (ensureSession env id w).1 = some s) ∧
    (id ≠ [] → (ensureSession env id w).1 = id) ∧
    (ensureSession env id w).2.chatLog = w.chatLog ∧
    ∀ y, ((ensureSession env id w).2.session y).History = (w.session y).History ∧
      ((ensureSession env id w).2.session y).LastReflection = (w.session y).LastReflection := by
  have hnew : ∀ (k : Str) (w0 : World), w0.sessions.lookup k = none →
      ∀ y, (World.session { w0 with sessions := w0.sessions ++ [(k, { ID := k })] } y).History
          = (w0.session y).History ∧
        (World.session { w0 with sessions := w0.sessions ++ [(k, { ID := k })] } y).LastReflection
          = (w0.session y).LastReflection := by
    intro k w0 h y
    unfold World.session
    by_cases hy : y = k
    · subst hy
      simp only [lookup_append_new y _ _ h, h]
      exact ⟨rfl, rfl⟩
    · simp only [lookup_append_ne k y _ hy]
      exact ⟨trivial, trivial⟩
  unfold ensureSession
  by_cases hid : id = []
  · simp only [hid, if_true]
    split
    · rename_i s h
      exact ⟨⟨s, h⟩, fun h => absurd rfl h, rfl, fun y => ⟨rfl, rfl⟩⟩
    · rename_i h
      exact ⟨⟨_, lookup_append_new _ _ _ h⟩, fun h => absurd rfl h, rfl,
        hnew _ { w with tick := w.tick + 1 } h⟩
  · simp only [hid, if_false]
    split
    · rename_i s h
      exact ⟨⟨s, h⟩, fun _ => rfl, rfl, fun y => ⟨rfl, rfl⟩⟩
    · rename_i h
      exact ⟨⟨_, lookup_append_new _ _ _ h⟩, fun _ => rfl, rfl, hnew _ w h⟩

theorem callChat_sessions {p : Provider} {creq : ChatRequest} {w w2 : World}
    {r : Except Str ChatResponse} (h : callChat p creq w = (r, w2)) :
    w2.sessions = w.sessions ∧ r = p.chat w.tick creq ∧
    w2.chatLog = w.chatLog ++ [(p.Name, creq)] := by
  unfold callChat at h
  cases h
  exact ⟨rfl, rfl, rfl⟩

theorem session_congr {w w2 : World} (h : w2.sessions = w.sessions) (y : Str) :
    w2.session y = w.session y := by
  unfold World.session
  rw [h]

/-- `Agent.Plan` changes neither the history nor the last reflection of any session. -/
theorem Plan_keeps_history (a : Agent) (env : Env) (req : Request) (w : World) (y : Str) :
    ((a.Plan env req w).2.session y).History = (w.session y).History ∧
    ((a.Plan env req w).2.session y).LastReflection = (w.session y).LastReflection := by
  obtain ⟨_, _, _, hkeep⟩ := ensureSession_keeps env req.SessionID w
  unfold Agent.Plan
  split
  · exact ⟨rfl, rfl⟩
  · split
    · exact ⟨rfl, rfl⟩
    · generalize ensureSession env req.SessionID w = es at hkeep
      obtain ⟨sid, w1⟩ := es
      simp only at hkeep ⊢
      split
      · exact hkeep y
      · split
        · exact hkeep y
        · rename_i provider route _
          split
          · rename_i e w2 hc
            rw [session_congr (callChat_sessions hc).1]
            exact hkeep y
          · rename_i resp w2 hc
            have hs := session_congr (callChat_sessions hc).1 y
            constructor
            · refine (session_update_history w2 sid y
                (fun s => { s with Plan := TrimSpace resp.Message.Content })
                (fun _ => rfl)).trans ?_
              rw [hs]
              exact (hkeep y).1
            · rw [← (hkeep y).2, ← hs]
              unfold World.session
              by_cases hy : y = sid
              · subst hy
                simp only [lookup_updateSession]
                cases w2.sessions.lookup y <;> rfl
              · simp only [lookup_updateSession_ne sid y _ hy]

theorem getLast?_snoc {α : Type} (l : List α) (x : α) : (l ++ [x]).getLast? = some x := by
  simp

/-- What `Agent.Run` does to the histories: a failed call changes none; a successful call
appends the user message it sent and the message of the provider to the history of its
session and changes no other history. -/
theorem Run_history (a : Agent) (env : Env) (req : Request) (w : World) :
    (∀ e, (a.Run env req w).1 = .error e →
      ∀ y, ((a.Run env req w).2.session y).History = (w.session y).History) ∧
    (∀ resp, (a.Run env req w).1 = .ok resp →
      ∃ (sid : Str) (provider : Provider) (route : ModelRoute) (creq : ChatRequest)
        (cresp : ChatResponse) (tick : Nat) (log : List (Str × ChatRequest)),
        (req.SessionID ≠ [] → sid = req.SessionID) ∧
        a.registry.Resolve req.Model = .ok (provider, route) ∧
        provider.chat tick creq = .ok cresp ∧ resp.Message = cresp.Message ∧
        creq.Messages.getLast? = some ⟨Role.user, buildUserPrompt req.Prompt req.Context⟩ ∧
        (a.Run env req w).2.chatLog = log ++ [(provider.Name, creq)] ∧
        ((a.Run env req w).2.session sid).History
          = (w.session sid).History ++
              [⟨Role.user, buildUserPrompt req.Prompt req.Context⟩, resp.Message] ∧
        ∀ y, y ≠ sid → ((a.Run env req w).2.session y).History = (w.session y).History) := by
  have hplan : ∀ y, (((if a.cfg.EnablePlan then a.Plan env req w else (.ok [], w)) :
      Except Str Str × World).2.session y).History = (w.session y).History := by
    intro y
    split
    · exact (Plan_keeps_history a env req w y).1
    · rfl
  unfold Agent.Run
  split
  · exact ⟨fun _ _ _ => rfl, fun resp h => by cases h⟩
  · split
    · exact ⟨fun _ _ _ => rfl, fun resp h => by cases h⟩
    · rename_i provider route hres
      generalize ((if a.cfg.EnablePlan then a.Plan env req w else (.ok [], w)) :
        Except Str Str × World) = pr at hplan
      obtain ⟨pres, w1⟩ := pr
      simp only at hplan
      cases pres with
      | error e => exact ⟨fun _ _ y => hplan y, fun resp h => by cases h⟩
      | ok plan =>
        simp only
        obtain ⟨hpresent, hsid, _, hkeep⟩ := ensureSession_keeps env req.SessionID w1
        generalize ensureSession env req.SessionID w1 = es at hpresent hsid hkeep
        obtain ⟨sid, w2⟩ := es
        simp only at hpresent hsid hkeep ⊢
        obtain ⟨s0, hs0⟩ := hpresent
        split
        · rename_i e w3 hc
          refine ⟨fun _ _ y => ?_, fun resp h => by cases h⟩
          rw [session_congr (callChat_sessions hc).1, (hkeep y).1]
          exact hplan y
        · rename_i cresp w3 hc
          obtain ⟨hsess, hchat, hlog⟩ := callChat_sessions hc
          refine ⟨fun e h => (by cases h), fun resp h => ?_⟩
          simp only at h
          cases h
          refine ⟨sid, provider, route, _, cresp, w2.tick, w2.chatLog, hsid, hres, hchat.symm,
            rfl, getLast?_snoc _ _, hlog, ?_, ?_⟩
          · have hs3 : w3.sessions.lookup sid = some s0 := by rw [hsess]; exact hs0
            have h1 : (w2.session sid).History = (w.session sid).History := by
              rw [(hkeep sid).1]
              exact hplan sid
            have h2 : w2.session sid = s0 := by
              unfold World.session
              rw [hs0]
              rfl
            refine (congrArg Session.History (session_update_same w3 sid
              (fun s => { s with History := s.History ++
                [⟨Role.user, buildUserPrompt req.Prompt req.Context⟩, cresp.Message] })
              s0 hs3)).trans ?_
            simp only
            rw [← h1, h2]
          · intro y hy
            refine (congrArg Session.History (session_update_other w3 sid y
              (fun s => { s with History := s.History ++
                [⟨Role.user, buildUserPrompt req.Prompt req.Context⟩, cresp.Message] })
              hy)).trans ?_
            rw [session_congr hsess, (hkeep y).1]
            exact hplan y

/-- What `Agent.Reflect` does to the sessions: a failed call changes no history and no last
reflection; a successful call with reflection enabled records the trimmed content of the
provider as the last reflection of its session and appends one assistant entry that carries
it to the history, and changes no other session. -/
theorem Reflect_effect (a : Agent) (env : Env) (req : Request) (last : Response)
    (ctxInfo : ReflectionContext) (w : World) :
    (∀ e, (a.Reflect env req last ctxInfo w).1 = .error e →
      ∀ y, ((a.Reflect env req last ctxInfo w).2.session y).History = (w.session y).History ∧
        ((a.Reflect env req last ctxInfo w).2.session y).LastReflection
          = (w.session y).LastReflection) ∧
    (∀ t, (a.Reflect env req last ctxInfo w).1 = .ok t → a.cfg.EnableReflect = true →
      ∃ (sid : Str) (provider : Provider) (route : ModelRoute) (creq : ChatRequest)
        (cresp : ChatResponse) (tick : Nat),
        (req.SessionID ≠ [] → sid = req.SessionID) ∧
        a.registry.Resolve req.Model = .ok (provider, route) ∧
        provider.chat tick creq = .ok cresp ∧ t = TrimSpace cresp.Message.Content ∧
        ((a.Reflect env req last ctxInfo w).2.session sid).History
          = (w.session sid).History ++ [⟨Role.assistant, "Reflection: ".toList ++ t⟩] ∧
        ((a.Reflect env req last ctxInfo w).2.session sid).LastReflection = t ∧
        ∀ y, y ≠ sid →
          ((a.Reflect env req last ctxInfo w).2.session y).History = (w.session y).History ∧
          ((a.Reflect env req last ctxInfo w).2.session y).LastReflection
            = (w.session y).LastReflection) := by
  unfold Agent.Reflect
  split
  · rename_i hen
    refine ⟨fun _ _ _ => ⟨rfl, rfl⟩, fun t _ hen2 => ?_⟩
    rw [hen2] at hen
    cases hen
  · split
    · exact ⟨fun _ _ _ => ⟨rfl, rfl⟩, fun t h => (by cases h)⟩
    · obtain ⟨hpresent, hsid, _, hkeep⟩ := ensureSession_keeps env req.SessionID w
      generalize ensureSession env req.SessionID w = es at hpresent hsid hkeep
      obtain ⟨sid, w2⟩ := es
      simp only at hpresent hsid hkeep ⊢
      obtain ⟨s0, hs0⟩ := hpresent
      split
      · exact ⟨fun _ _ y => hkeep y, fun t h => (by cases h)⟩
      · rename_i provider route hres
        split
        · rename_i e w3 hc
          refine ⟨fun _ _ y => ?_, fun t h => (by cases h)⟩
          rw [session_congr (callChat_sessions hc).1]
          exact hkeep y
        · rename_i cresp w3 hc
          obtain ⟨hsess, hchat, hlog⟩ := callChat_sessions hc
          refine ⟨fun e h => (by cases h), fun t h _ => ?_⟩
          simp only at h
          cases h
          have hs3 : w3.sessions.lookup sid = some s0 := by rw [hsess]; exact hs0
          have h2 : w2.session sid = s0 := by
            unfold World.session
            rw [hs0]
            rfl
          have hupd := session_update_same w3 sid
            (fun s => { s with LastReflection := TrimSpace cresp.Message.Content
                               History := s.History ++
                                 [⟨Role.assistant, "Reflection: ".toList ++
                                    TrimSpace cresp.Message.Content⟩] }) s0 hs3
          refine ⟨sid, provider, route, _, cresp, w2.tick, hsid, hres, hchat.symm, rfl,
            ?_, ?_, ?_⟩
          · refine (congrArg Session.History hupd).trans ?_
            simp only
            rw [← (hkeep sid).1, h2]
          · exact congrArg Session.LastReflection hupd
          · intro y hy
            have hoth := session_update_other w3 sid y
              (fun s => { s with LastReflection := TrimSpace cresp.Message.Content
                                 History := s.History ++
                                   [⟨Role.assistant, "Reflection: ".toList ++
                                      TrimSpace cresp.Message.Content⟩] }) hy
            constructor
            · refine (congrArg Session.History hoth).trans ?_
              rw [session_congr hsess]
              exact (hkeep y).1
            · refine (congrArg Session.LastReflection hoth).trans ?_
              rw [session_congr hsess]
              exact (hkeep y).2

theorem Reflect_disabled (a : Agent) (env : Env) (req : Request) (last : Response)
    (ctxInfo : ReflectionContext) (w : World) (hen : a.cfg.EnableReflect = false) :
    a.Reflect env req last ctxInfo w = (.ok [], w) := by
  unfold Agent.Reflect
  simp [hen]

/-- C11: for every session id y and every Agent operation (Run, Plan, Reflect), the history
of session y before the operation is a prefix of its history after it.  Plan changes no
history; a Run that returns an error changes no history; a successful Run on a non-empty
session id appends exactly two entries to the history of that session, the user message it
sent (the last message of the chat request) followed by the message the provider returned,
and changes no other history. -/
theorem agent_history_append_only (a : Agent) (env : Env) (req : Request) (last : Response)
    (ctxInfo : ReflectionContext) (w : World) (y : Str) :
    (w.session y).History <+: ((a.Run env req w).2.session y).History ∧
    (w.session y).History <+: ((a.Plan env req w).2.session y).History ∧
    (w.session y).History <+: ((a.Reflect env req last ctxInfo w).2.session y).History ∧
    ((a.Plan env req w).2.session y).History = (w.session y).History ∧
    (∀ e, (a.Run env req w).1 = .error e →
      ((a.Run env req w).2.session y).History = (w.session y).History) ∧
    (∀ resp, (a.Run env req w).1 = .ok resp → req.SessionID ≠ [] →
      ∃ (provider : Provider) (route : ModelRoute) (creq : ChatRequest) (cresp : ChatResponse)
        (tick : Nat) (log : List (Str × ChatRequest)),
        a.registry.Resolve req.Model = .ok (provider, route) ∧
        provider.chat tick creq = .ok cresp ∧ resp.Message = cresp.Message ∧
        creq.Messages.getLast? = some ⟨Role.user, buildUserPrompt req.Prompt req.Context⟩ ∧
        (a.Run env req w).2.chatLog = log ++ [(provider.Name, creq)] ∧
        ((a.Run env req w).2.session req.SessionID).History
          = (w.session req.SessionID).History ++
              [⟨Role.user, buildUserPrompt req.Prompt req.Context⟩, resp.Message] ∧
        (y ≠ req.SessionID →
          ((a.Run env req w).2.session y).History = (w.session y).History)) := by
  obtain ⟨hrunE, hrunO⟩ := Run_history a env req w
  obtain ⟨hrefE, hrefO⟩ := Reflect_effect a env req last ctxInfo w
  have hplan := (Plan_keeps_history a env req w y).1
  refine ⟨?_, ?_, ?_, hplan, fun e he => hrunE e he y, ?_⟩
  · cases hr : (a.Run env req w).1 with
    | error e => rw [hrunE e hr y]
    | ok resp =>
      obtain ⟨sid, _, _, _, _, _, _, _, _, _, _, _, _, hsame, hother⟩ := hrunO resp hr
      by_cases hy : y = sid
      · subst hy
        rw [hsame]
        exact List.prefix_append _ _
      · rw [hother y hy]
  · rw [hplan]
  · cases hen : a.cfg.EnableReflect with
    | false => rw [Reflect_disabled a env req last ctxInfo w hen]
    | true =>
      cases hr : (a.Reflect env req last ctxInfo w).1 with
      | error e => rw [(hrefE e hr y).1]
      | ok t =>
        obtain ⟨sid, _, _, _, _, _, _, _, _, _, hsame, _, hother⟩ := hrefO t hr hen
        by_cases hy : y = sid
        · subst hy
          rw [hsame]
          exact List.prefix_append _ _
        · rw [(hother y hy).1]
  · intro resp hr hsid
    obtain ⟨sid, provider, route, creq, cresp, tick, log, hs, h1, h2, h3, h4, h5, hsame, hother⟩ :=
      hrunO resp hr
    have := hs hsid
    subst this
    exact ⟨provider, route, creq, cresp, tick, log, h1, h2, h3, h4, h5, hsame,
      fun hy => hother y hy⟩

/-- Witness for C11: the two runs of `TestAgentUsesRegistryAndHistory` on session `s1`: after
the first the history is the user message `hello` and the answer `first`, after the second
these two entries are followed by the user message `next` and the answer `second`. -/
theorem agent_history_append_only_witness :
    ((exHistoryAgent.Run {} { SessionID := "s1".toList, Prompt := "hello".toList } {}).2.session
      "s1".toList).History
      = [⟨Role.user, "hello".toList⟩, ⟨Role.assistant, "first".toList⟩] ∧
    ((exHistoryAgent.Run {} { SessionID := "s1".toList, Prompt := "next".toList }
      (exHistoryAgent.Run {} { SessionID := "s1".toList, Prompt := "hello".toList } {}).2).2.session
      "s1".toList).History
      = [⟨Role.user, "hello".toList⟩, ⟨Role.assistant, "first".toList⟩,
         ⟨Role.user, "next".toList⟩, ⟨Role.assistant, "second".toList⟩] := by
  have h1 := (agent_history_append_only exHistoryAgent {}
    { SessionID := "s1".toList, Prompt := "hello".toList } {} {} {} "s1".toList).2.2.2.2.2
    { Message := ⟨Role.assistant, "first".toList⟩,
      Route := { Name := "default".toList, Provider := "mock".toList, Model := "m".toList } }
    rfl (by decide)
  have h2 := (agent_history_append_only exHistoryAgent {}
    { SessionID := "s1".toList, Prompt := "next".toList } {} {}
    (exHistoryAgent.Run {} { SessionID := "s1".toList, Prompt := "hello".toList } {}).2
    "s1".toList).2.2.2.2.2
    { Message := ⟨Role.assistant, "second".toList⟩,
      Route := { Name := "default".toList, Provider := "mock".toList, Model := "m".toList },
      PreviousAssistant := "first".toList }
    rfl (by decide)
  obtain ⟨_, _, _, _, _, _, _, _, _, _, _, hh1, _⟩ := h1
  obtain ⟨_, _, _, _, _, _, _, _, _, _, _, hh2, _⟩ := h2
  constructor
  · rw [hh1]
    rfl
  · rw [hh2, hh1]
    rfl

/-! ## Done detection -/

theorem Contains_iff (s sub : Str) :
    Contains s sub = true ↔ ∃ pre suf : Str, s = pre ++ sub ++ suf := by
  unfold Contains
  constructor
  · intro h
    cases hi : Index s sub with
    | none => rw [hi] at h; cases h
    | some i =>
      obtain ⟨rest, hrest⟩ := Index_some_prefix sub s i hi
      refine ⟨s.take i, rest, ?_⟩
      rw [List.append_assoc, hrest, List.take_append_drop]
  · rintro ⟨pre, suf, rfl⟩
    obtain ⟨i, hi, _⟩ := Index_le_of_append sub pre suf
    rw [hi]
    rfl

theorem toLowerRune_eq_toLower (c : Char) (h1 : c.toNat ≠ 0x130) (h2 : c.toNat ≠ 0x212A) :
    toLowerRune c = c.toLower := by
  unfold toLowerRune Char.toLower
  simp only [h1, h2, if_false]

theorem toLower_of_large (c : Char) (h : 90 < c.toNat) : c.toLower = c := by
  unfold Char.toLower
  have : ¬ (c.toNat ≥ 65 ∧ c.toNat ≤ 90) := by omega
  simp only [this, if_false]

/-- Lowering a character as Go does gives a given character, other than `i`, `k` and the two
characters that Go lowers to them, exactly when lowering its basic Latin letter does. -/
theorem toLowerRune_eq_iff (c l : Char) (hi : l ≠ 'i') (hk : l ≠ 'k') (h1 : l.toNat ≠ 0x130)
    (h2 : l.toNat ≠ 0x212A) : toLowerRune c = l ↔ c.toLower = l := by
  by_cases c1 : c.toNat = 0x130
  · have hl : toLowerRune c = 'i' := by simp [toLowerRune, c1]
    rw [hl, toLower_of_large c (by omega)]
    constructor
    · intro h
      exact absurd h.symm hi
    · intro h
      subst h
      exact absurd c1 h1
  · by_cases c2 : c.toNat = 0x212A
    · have hl : toLowerRune c = 'k' := by simp [toLowerRune, c2]
      rw [hl, toLower_of_large c (by omega)]
      constructor
      · intro h
        exact absurd h.symm hk
      · intro h
        subst h
        exact absurd c2 h2
    · rw [toLowerRune_eq_toLower c c1 c2]

theorem map_toLowerRune_eq_iff (lit : Str)
    (hlit : ∀ l ∈ lit, l ≠ 'i' ∧ l ≠ 'k' ∧ l.toNat ≠ 0x130 ∧ l.toNat ≠ 0x212A) :
    ∀ mid : Str, mid.map toLowerRune = lit ↔ mid.map Char.toLower = lit := by
  induction lit with
  | nil =>
    intro mid
    cases mid <;> simp
  | cons l ls ih =>
    intro mid
    cases mid with
    | nil => simp
    | cons c cs =>
      obtain ⟨a1, a2, a3, a4⟩ := hlit l (List.mem_cons_self _ _)
      have ih2 := ih (fun x hx => hlit x (List.mem_cons_of_mem _ hx)) cs
      simp only [List.map_cons, List.cons.injEq]
      rw [toLowerRune_eq_iff c l a1 a2 a3 a4, ih2]

/-- The lowered string contains a literal of plain lower-case characters exactly when the
string contains it ignoring case. -/
theorem Contains_ToLower_iff (s lit : Str)
    (hlit : ∀ l ∈ lit, l ≠ 'i' ∧ l ≠ 'k' ∧ l.toNat ≠ 0x130 ∧ l.toNat ≠ 0x212A)
    (hlow : lit.map Char.toLower = lit) :
    Contains (ToLower s) lit = true ↔ ContainsIgnoringCase s lit := by
  rw [Contains_iff]
  unfold ContainsIgnoringCase ToLower
  rw [hlow]
  constructor
  · rintro ⟨pre, suf, h⟩
    rw [List.append_assoc] at h
    obtain ⟨a, rest, hs, ha, hrest⟩ := List.map_eq_append_iff.mp h
    obtain ⟨mid, b, hr, hmid, hb⟩ := List.map_eq_append_iff.mp hrest
    refine ⟨a, mid, b, ?_, (map_toLowerRune_eq_iff lit hlit mid).mp hmid⟩
    rw [hs, hr, List.append_assoc]
  · rintro ⟨pre, mid, suf, rfl, hmid⟩
    refine ⟨pre.map toLowerRune, suf.map toLowerRune, ?_⟩
    rw [List.map_append, List.map_append, (map_toLowerRune_eq_iff lit hlit mid).mpr hmid]

/-- C12: for every response, isResponseDone returns true if and only if the finish reason is
non-empty and different from `length`, or the assistant content contains, compared
case-insensitively, the literal `[done]` or the literal `<done>`; so it is true on the content
`all good [done]` and on the finish reason `stop`, and false on the content `keep going`. -/
theorem isResponseDone_iff (resp : Response) :
    (isResponseDone resp = true ↔
      (resp.FinishReason ≠ [] ∧ resp.FinishReason ≠ "length".toList) ∨
      ContainsIgnoringCase resp.Message.Content "[done]".toList ∨
      ContainsIgnoringCase resp.Message.Content "<done>".toList) ∧
    isResponseDone { Message := { Content := "all good [done]".toList } } = true ∧
    isResponseDone { Message := { Content := "All good [DONE]".toList } } = true ∧
    isResponseDone { Message := { Content := "keep going".toList } } = false ∧
    isResponseDone { FinishReason := "stop".toList } = true ∧
    isResponseDone { FinishReason := "length".toList } = false := by
  refine ⟨?_, by decide, by decide, by decide, by decide, by decide⟩
  have h1 := Contains_ToLower_iff resp.Message.Content "[done]".toList (by decide) (by decide)
  have h2 := Contains_ToLower_iff resp.Message.Content "<done>".toList (by decide) (by decide)
  unfold isResponseDone
  by_cases hf : resp.FinishReason ≠ [] ∧ resp.FinishReason ≠ "length".toList
  · rw [if_pos hf]
    exact ⟨fun _ => Or.inl hf, fun _ => rfl⟩
  · rw [if_neg hf]
    simp only [Bool.or_eq_true, h1, h2]
    constructor
    · intro h
      exact Or.inr h
    · rintro (h | h)
      · exact absurd h hf
      · exact h

/-! ## Reflection policy -/

theorem ToLower_eq_iff (s lit : Str)
    (hlit : ∀ l ∈ lit, l ≠ 'i' ∧ l ≠ 'k' ∧ l.toNat ≠ 0x130 ∧ l.toNat ≠ 0x212A) :
    ToLower s = lit ↔ s.map Char.toLower = lit :=
  map_toLowerRune_eq_iff lit hlit s

/-- C13: for every parsed critique and every policy string, the blocking decision of the
runner, critiqueBlocksApply(critique) and shouldBlockOnCritique(policy), is true if and only
if the critique is not nil, its `block_apply` value is the boolean true or a string equal to
`true` ignoring case, and the policy, trimmed and lower-cased, is neither `never_block` nor
`warn_only`.  Every other policy, the empty and unknown ones included, decides as
`block_on_critical`, and a `block_apply` that is false, a number, null, absent or in a nil
critique does not block. -/
theorem blocking_decision_iff (crit : Option (List (Str × JVal))) (policy : Str) :
    ((critiqueBlocksApply crit && shouldBlockOnCritique policy) = true ↔
      (∃ fields, crit = some fields ∧
        (fields.lookup "block_apply".toList = some (JVal.bool true) ∨
         ∃ s, fields.lookup "block_apply".toList = some (JVal.str s) ∧
           s.map Char.toLower = "true".toList)) ∧
      ToLower (TrimSpace policy) ≠ "never_block".toList ∧
      ToLower (TrimSpace policy) ≠ "warn_only".toList) ∧
    (ToLower (TrimSpace policy) ≠ "never_block".toList →
      ToLower (TrimSpace policy) ≠ "warn_only".toList →
      shouldBlockOnCritique policy = shouldBlockOnCritique "block_on_critical".toList) ∧
    shouldBlockOnCritique [] = true ∧
    shouldBlockOnCritique "anything else".toList = true ∧
    shouldBlockOnCritique " Never_Block ".toList = false ∧
    shouldBlockOnCritique "WARN_ONLY".toList = false ∧
    critiqueBlocksApply none = false ∧
    (∀ fields, fields.lookup "block_apply".toList = none →
      critiqueBlocksApply (some fields) = false) ∧
    (∀ fields n, fields.lookup "block_apply".toList = some (JVal.num n) →
      critiqueBlocksApply (some fields) = false) ∧
    (∀ fields, fields.lookup "block_apply".toList = some JVal.null →
      critiqueBlocksApply (some fields) = false) ∧
    (∀ fields, fields.lookup "block_apply".toList = some (JVal.bool false) →
      critiqueBlocksApply (some fields) = false) ∧
    critiqueBlocksApply (some [("block_apply".toList, JVal.str "TRUE".toList)]) = true ∧
    critiqueBlocksApply (some [("block_apply".toList, JVal.str "yes".toList)]) = false := by
  have hpol : shouldBlockOnCritique policy = true ↔
      ToLower (TrimSpace policy) ≠ "never_block".toList ∧
      ToLower (TrimSpace policy) ≠ "warn_only".toList := by
    unfold shouldBlockOnCritique
    by_cases h1 : ToLower (TrimSpace policy) = "never_block".toList
    · simp [h1]
    · by_cases h2 : ToLower (TrimSpace policy) = "warn_only".toList
      · simp [h2]
      · simp [h1, h2]
  have hcrit : critiqueBlocksApply crit = true ↔
      ∃ fields, crit = some fields ∧
        (fields.lookup "block_apply".toList = some (JVal.bool true) ∨
         ∃ s, fields.lookup "block_apply".toList = some (JVal.str s) ∧
           s.map Char.toLower = "true".toList) := by
    cases crit with
    | none =>
      constructor
      · intro h
        cases h
      · rintro ⟨fields, h, _⟩
        cases h
    | some fields =>
      have hout : ∀ v, fields.lookup "block_apply".toList = some v →
          (∀ b, v ≠ JVal.bool b) → (∀ s, v ≠ JVal.str s) →
          (critiqueBlocksApply (some fields) = true ↔
            ∃ fields2, some fields = some fields2 ∧
              (fields2.lookup "block_apply".toList = some (JVal.bool true) ∨
               ∃ s, fields2.lookup "block_apply".toList = some (JVal.str s) ∧
                 s.map Char.toLower = "true".toList)) := by
        intro v hl hb hs
        have hval : critiqueBlocksApply (some fields) = false := by
          unfold critiqueBlocksApply
          simp only
          rw [hl]
          cases v with
          | bool b => exact absurd rfl (hb b)
          | str s => exact absurd rfl (hs s)
          | null => rfl
          | num n => rfl
          | int n => rfl
          | arr xs => rfl
          | obj fs => rfl
        rw [hval]
        constructor
        · intro h
          cases h
        · rintro ⟨fields2, h, h2⟩
          cases h
          rcases h2 with h2 | ⟨s, h2, _⟩
          · rw [hl] at h2
            cases h2
            exact absurd rfl (hb true)
          · rw [hl] at h2
            cases h2
            exact absurd rfl (hs s)
      cases hl : fields.lookup "block_apply".toList with
      | none =>
        have hval : critiqueBlocksApply (some fields) = false := by
          unfold critiqueBlocksApply
          simp only
          rw [hl]
        rw [hval]
        constructor
        · intro h
          cases h
        · rintro ⟨fields2, h, h2⟩
          cases h
          rcases h2 with h2 | ⟨s, h2, _⟩
          · rw [hl] at h2
            cases h2
          · rw [hl] at h2
            cases h2
      | some v =>
        cases v with
        | bool b =>
          have hval : critiqueBlocksApply (some fields) = b := by
            unfold critiqueBlocksApply
            simp only
            rw [hl]
          rw [hval]
          constructor
          · intro h
            subst h
            exact ⟨fields, rfl, Or.inl hl⟩
          · rintro ⟨fields2, h, h2⟩
            cases h
            rcases h2 with h2 | ⟨s, h2, _⟩
            · rw [hl] at h2
              cases h2
              rfl
            · rw [hl] at h2
              cases h2
        | str s =>
          have hval : critiqueBlocksApply (some fields) = decide (ToLower s = "true".toList) := by
            unfold critiqueBlocksApply
            simp only
            rw [hl]
          rw [hval, decide_eq_true_eq, ToLower_eq_iff s "true".toList (by decide)]
          constructor
          · intro h
            exact ⟨fields, rfl, Or.inr ⟨s, hl, h⟩⟩
          · rintro ⟨fields2, h, h2⟩
            cases h
            rcases h2 with h2 | ⟨s2, h2, h3⟩
            · rw [hl] at h2
              cases h2
            · rw [hl] at h2
              cases h2
              exact h3
        | null => exact hout _ hl (fun b h => (by cases h)) (fun s h => (by cases h))
        | num n => exact hout _ hl (fun b h => (by cases h)) (fun s h => (by cases h))
        | int n => exact hout _ hl (fun b h => (by cases h)) (fun s h => (by cases h))
        | arr xs => exact hout _ hl (fun b h => (by cases h)) (fun s h => (by cases h))
        | obj fs => exact hout _ hl (fun b h => (by cases h)) (fun s h => (by cases h))
  refine ⟨?_, ?_, by decide, by decide, by decide, by decide, rfl, ?_, ?_, ?_, ?_, by decide,
    by decide⟩
  · rw [Bool.and_eq_true, hcrit, hpol]
  · intro h1 h2
    have : shouldBlockOnCritique "block_on_critical".toList = true := by decide
    rw [this]
    exact hpol.mpr ⟨h1, h2⟩
  · intro fields h
    unfold critiqueBlocksApply
    simp only
    rw [h]
  · intro fields n h
    unfold critiqueBlocksApply
    simp only
    rw [h]
  · intro fields h
    unfold critiqueBlocksApply
    simp only
    rw [h]
  · intro fields h
    unfold critiqueBlocksApply
    simp only
    rw [h]

/-! ## Runs halted by the reflection policy -/

theorem blocksUnder_false_of_kind (policy : Str) (e : RunTaskEvent)
    (h : e.Kind ≠ "reflect".toList) : e.blocksUnder policy = false := by
  unfold RunTaskEvent.blocksUnder
  rw [decide_eq_false h]
  rfl

theorem NoBlock_nil (policy : Str) : NoBlock policy [] := by
  intro e he
  cases he

theorem NoBlock_append {policy : Str} {a b : List RunTaskEvent} (ha : NoBlock policy a)
    (hb : NoBlock policy b) : NoBlock policy (a ++ b) := by
  intro e he
  rcases List.mem_append.mp he with h | h
  · exact ha e h
  · exact hb e h

theorem NoBlock_of_kinds (policy : Str) (evs : List RunTaskEvent)
    (h : ∀ e ∈ evs, e.Kind ≠ "reflect".toList) : NoBlock policy evs :=
  fun e he => blocksUnder_false_of_kind policy e (h e he)

theorem ReflectShape_of_NoBlock {α : Type} (policy : Str) (o : Out α)
    (h : NoBlock policy o.events) : ReflectShape policy o := by
  unfold ReflectShape
  cases o.flow with
  | next a => exact h
  | halt hh => exact Or.inl h

theorem ReflectShape_bind {α β : Type} (policy : Str) (o : Out α) (f : α → World → Out β)
    (ho : ReflectShape policy o) (hf : ∀ a w, ReflectShape policy (f a w)) :
    ReflectShape policy (o.bind f) := by
  unfold Out.bind
  cases hflow : o.flow with
  | halt h =>
    simp only [ReflectShape, hflow] at ho ⊢
    exact ho
  | next a =>
    simp only [ReflectShape, hflow] at ho
    have h2 := hf a o.world
    simp only [ReflectShape] at h2 ⊢
    cases hflow2 : (f a o.world).flow with
    | next b =>
      simp only [hflow2] at h2 ⊢
      exact NoBlock_append ho h2
    | halt h =>
      simp only [hflow2] at h2 ⊢
      rcases h2 with h2 | ⟨hret, pre, e, m, d, tr, hev, hpre, rest⟩
      · exact Or.inl (NoBlock_append ho h2)
      · refine Or.inr ⟨hret, o.events ++ pre, e, m, d, o.trace ++ tr, ?_, NoBlock_append ho hpre, ?_⟩
        · rw [hev, List.append_assoc]
        · obtain ⟨h1, h3, h4, h5, h6, h7, h8, h9, h10⟩ := rest
          exact ⟨h1, h3, h4, h5, h6, h7, h8, h9, by rw [h10, List.append_assoc]⟩

theorem coderPhase_kinds (r : AgentRunner) (a : Agent) (env : Env) (fuel : Nat)
    (req : RunTaskRequest) (corr : Str) (ctxFiles : List ContextFile) (eu : Int) (w : World) :
    ∀ e ∈ (r.coderPhase a env fuel req corr ctxFiles eu w).events, e.Kind = "error".toList := by
  unfold AgentRunner.coderPhase
  split
  split
  · intro e he
    cases he
  · intro e he
    rw [List.mem_singleton.mp he]
    rfl
  · intro e he
    cases he

theorem planPhase_kinds (r : AgentRunner) (a : Agent) (env : Env) (fuel : Nat)
    (req : RunTaskRequest) (corr : Str) (ctxFiles : List ContextFile) (eu : Int) (w : World) :
    ∀ e ∈ (r.planPhase a env fuel req corr ctxFiles eu w).events,
      e.Kind = "plan".toList ∨ e.Kind = "error".toList := by
  unfold AgentRunner.planPhase
  split
  · split
    split
    · intro e he
      cases he
    · intro e he
      rw [List.mem_singleton.mp he]
      exact Or.inr rfl
    · intro e he
      simp only at he
      split at he
      · rw [List.mem_singleton.mp he]
        exact Or.inl rfl
      · cases he
  · intro e he
    cases he

theorem emitTokens_kinds (env : Env) (sid corr : Str) (step : Int) :
    ∀ (toks : List Str) (idx : Nat) (w : World),
      ∀ e ∈ (emitTokens env sid corr step toks idx w).events,
        e.Kind = "token".toList ∨ e.Kind = "error".toList := by
  intro toks
  induction toks with
  | nil =>
    intro idx w e he
    simp [emitTokens] at he
  | cons t ts ih =>
    intro idx w e he
    unfold emitTokens at he
    split at he
    · rw [List.mem_singleton.mp he]
      exact Or.inr rfl
    · simp only at he
      rcases List.mem_cons.mp he with h | h
      · rw [h]
        exact Or.inl rfl
      · exact ih _ _ e h

theorem testPhase_kinds (r : AgentRunner) (a : Agent) (env : Env) (sid corr : Str)
    (step : Int) (done : Bool) (w : World) :
    ∀ e ∈ (r.testPhase a env sid corr step done w).events, e.Kind = "test".toList := by
  unfold AgentRunner.testPhase
  split
  · split
    intro e he
    rw [List.mem_singleton.mp he]
  · intro e he
    cases he

theorem stepTools_kinds (r : AgentRunner) (js : JsonCodec) (env : Env) (sid corr : Str)
    (content : Str) (obs : List ToolObservation) (w : World) :
    ∀ e ∈ (match r.Tools with
       | some reg => runTools env reg sid corr (extractToolCalls js content) obs w
       | none => ⟨[], [], w, .next obs⟩).events, e.Kind = "tool".toList := by
  cases r.Tools with
  | none =>
    intro e he
    cases he
  | some reg => exact (runTools_tool_events env reg sid corr _ _ _).1

theorem finishStep_kinds (r : AgentRunner) (req : RunTaskRequest) (corr : Str) (step : Int)
    (resp : Response) (tokenCount : Int) (ro : ReflectOut) (w : World) :
    ∀ e ∈ (r.finishStep req corr step resp tokenCount ro w).events,
      e.Kind = "message".toList ∨ e.Kind = "done".toList := by
  unfold AgentRunner.finishStep
  split
  · intro e he
    simp only at he
    rcases List.mem_append.mp he with h | h
    · split at h
      · rw [List.mem_singleton.mp h]
        exact Or.inl rfl
      · cases h
    · rw [List.mem_singleton.mp h]
      exact Or.inr rfl
  · intro e he
    cases he

/-- The reflection part of a step either sends no blocking `reflect` event, or it goes on
with exactly one event, a blocking `reflect` event of the step, with the done flag set, the
forced finish reason `blocked_by_reflect`, and the blocking decision as its last
observation. -/
theorem reflectPhase_cases (r : AgentRunner) (a : Agent) (js : JsonCodec) (env : Env)
    (fuel : Nat) (req : RunTaskRequest) (corr : Str) (step : Int) (resp : Response)
    (stepTools : List ToolObservation) (testObs : Option TestObservation) (done : Bool)
    (eu : Int) (w : World) :
    NoBlock a.ReflectionPolicy
      (r.reflectPhase a js env fuel req corr step resp stepTools testObs done eu w).events ∨
    ∃ (e : RunTaskEvent) (tr : List Obs) (w2 : World) (eu2 : Int),
      r.reflectPhase a js env fuel req corr step resp stepTools testObs done eu w
        = ⟨[e], tr ++ [Obs.critique true], w2,
            .next ⟨true, "blocked_by_reflect".toList, eu2⟩⟩ ∧
      e.blocksUnder a.ReflectionPolicy = true ∧ e.Step = step := by
  unfold AgentRunner.reflectPhase
  split
  · simp only
    split
    · exact Or.inl (NoBlock_nil _)
    · left
      intro e he
      rw [List.mem_singleton.mp he]
      exact blocksUnder_false_of_kind _ _ (by rw [errorEvent_kind]; decide)
    · rename_i tr reflection eu2 w2 _
      split
      · cases hb : (critiqueBlocksApply (parseCritique js reflection) &&
            shouldBlockOnCritique a.ReflectionPolicy) with
        | false =>
          left
          intro e he
          rw [List.mem_singleton.mp he]
          unfold RunTaskEvent.blocksUnder
          simp only
          rw [hb]
          rfl
        | true =>
          right
          refine ⟨({ Kind := "reflect".toList
                     SessionID := req.SessionID
                     CorrelationID := corr
                     Message := reflection
                     Critique := parseCritique js reflection
                     Step := step } : RunTaskEvent), tr, w2, eu2, ?_, ?_, rfl⟩
          · simp only [Bool.or_true, if_true]
          · unfold RunTaskEvent.blocksUnder
            simp only
            rw [hb]
            rfl
      · exact Or.inl (NoBlock_nil _)
  · exact Or.inl (NoBlock_nil _)

theorem reflectFinish_shape (r : AgentRunner) (a : Agent) (js : JsonCodec) (env : Env)
    (fuel : Nat) (req : RunTaskRequest) (corr : Str) (step : Int) (resp : Response)
    (stepTools : List ToolObservation) (testObs : Option TestObservation) (done : Bool)
    (eu : Int) (tokenCount : Int) (w : World) :
    ReflectShape a.ReflectionPolicy
      ((r.reflectPhase a js env fuel req corr step resp stepTools testObs done eu w).bind
        fun ro w => r.finishStep req corr step resp tokenCount ro w) := by
  have hfin : ∀ ro w, ReflectShape a.ReflectionPolicy
      (r.finishStep req corr step resp tokenCount ro w) := by
    intro ro w
    apply ReflectShape_of_NoBlock
    apply NoBlock_of_kinds
    intro e he
    rcases finishStep_kinds r req corr step resp tokenCount ro w e he with h | h <;>
      rw [h] <;> decide
  rcases reflectPhase_cases r a js env fuel req corr step resp stepTools testObs done eu w with
    h | ⟨e, tr, w2, eu2, heq, hblock, hstep⟩
  · exact ReflectShape_bind _ _ _ (ReflectShape_of_NoBlock _ _ h) hfin
  · rw [heq]
    refine Or.inr ⟨rfl, [], e, _, _, tr, rfl, NoBlock_nil _, hblock, rfl, rfl, hstep.symm,
      rfl, rfl, hstep.symm, rfl, ?_⟩
    simp [Out.bind, AgentRunner.finishStep]

theorem BlockedTail_prepend {policy : Str} {pre0 events : List RunTaskEvent}
    {tr0 trace : List Obs} (h0 : NoBlock policy pre0) (h : BlockedTail policy events trace) :
    BlockedTail policy (pre0 ++ events) (tr0 ++ trace) := by
  obtain ⟨pre, e, m, d, tr, hev, hpre, h1, h2, h3, h4, h5, h6, h7, h8, h9⟩ := h
  refine ⟨pre0 ++ pre, e, m, d, tr0 ++ tr, ?_, NoBlock_append h0 hpre, h1, h2, h3, h4, h5, h6,
    h7, h8, ?_⟩
  · rw [hev, List.append_assoc]
  · rw [h9, List.append_assoc]

theorem runStep_reflect (r : AgentRunner) (a : Agent) (js : JsonCodec) (env : Env) (fuel : Nat)
    (req : RunTaskRequest) (corr : Str) (ctxFiles : List ContextFile) (step : Int)
    (st : LoopState) (w : World) :
    ReflectShape a.ReflectionPolicy (r.runStep a js env fuel req corr ctxFiles step st w) := by
  unfold AgentRunner.runStep
  split
  · apply ReflectShape_of_NoBlock
    intro e he
    rw [List.mem_singleton.mp he]
    exact blocksUnder_false_of_kind _ _ (by rw [errorEvent_kind]; decide)
  · apply ReflectShape_bind
    · exact ReflectShape_of_NoBlock _ _ (NoBlock_nil _)
    intro _ w1
    apply ReflectShape_bind
    · apply ReflectShape_of_NoBlock
      apply NoBlock_of_kinds
      intro e he
      rw [coderPhase_kinds _ _ _ _ _ _ _ _ _ e he]
      decide
    intro re w2
    apply ReflectShape_bind
    · apply ReflectShape_of_NoBlock
      intro e he
      rw [List.mem_singleton.mp he]
      exact blocksUnder_false_of_kind _ _
        (by show "message".toList ≠ "reflect".toList; decide)
    intro _ w3
    apply ReflectShape_bind
    · apply ReflectShape_of_NoBlock
      apply NoBlock_of_kinds
      intro e he
      rcases emitTokens_kinds _ _ _ _ _ _ _ e he with h | h <;> rw [h] <;> decide
    intro _ w4
    apply ReflectShape_bind
    · apply ReflectShape_of_NoBlock
      apply NoBlock_of_kinds
      intro e he
      rw [stepTools_kinds r js env _ _ _ _ _ e he]
      decide
    intro stepTools w5
    apply ReflectShape_bind
    · apply ReflectShape_of_NoBlock
      apply NoBlock_of_kinds
      intro e he
      rw [testPhase_kinds _ _ _ _ _ _ _ _ e he]
      decide
    intro testObs w6
    exact reflectFinish_shape _ _ _ _ _ _ _ _ _ _ _ _ _ _ _

theorem stepLoop_reflect (r : AgentRunner) (a : Agent) (js : JsonCodec) (env : Env)
    (fuel : Nat) (req : RunTaskRequest) (corr : Str) (ctxFiles : List ContextFile) :
    ∀ (n : Nat) (step : Int) (st : LoopState) (w : World),
      NoBlock a.ReflectionPolicy
        (r.stepLoop a js env fuel req corr ctxFiles n step st w).events ∨
      ((r.stepLoop a js env fuel req corr ctxFiles n step st w).halt = .returned ∧
        BlockedTail a.ReflectionPolicy
          (r.stepLoop a js env fuel req corr ctxFiles n step st w).events
          (r.stepLoop a js env fuel req corr ctxFiles n step st w).trace) := by
  intro n
  induction n with
  | zero =>
    intro step st w
    left
    simp only [AgentRunner.stepLoop]
    intro e he
    rw [List.mem_singleton.mp he]
    exact blocksUnder_false_of_kind _ _ (by show "done".toList ≠ "reflect".toList; decide)
  | succ n ih =>
    intro step st w
    have hstep := runStep_reflect r a js env fuel req corr ctxFiles step st w
    unfold AgentRunner.stepLoop
    generalize r.runStep a js env fuel req corr ctxFiles step st w = o at hstep
    obtain ⟨evs, tr, w1, flow⟩ := o
    cases flow with
    | halt h => exact hstep
    | next st1 =>
      simp only [ReflectShape] at hstep
      simp only
      rcases ih (step + 1) st1 w1 with h | ⟨hret, hb⟩
      · exact Or.inl (NoBlock_append hstep h)
      · exact Or.inr ⟨hret, BlockedTail_prepend hstep hb⟩

/-- Every run either sends no blocking `reflect` event, or it returns with its events ending
in a blocking `reflect` event, the halt message and the `done` event. -/
theorem Run_reflect (r : AgentRunner) (a : Agent) (js : JsonCodec) (env : Env) (fuel : Nat)
    (req : RunTaskRequest) (w : World) (hA : r.Agent = some a) :
    NoBlock a.ReflectionPolicy (r.Run js env fuel req w).events ∨
    ((r.Run js env fuel req w).halt = .returned ∧
      BlockedTail a.ReflectionPolicy (r.Run js env fuel req w).events
        (r.Run js env fuel req w).trace) := by
  unfold AgentRunner.Run
  simp only
  rw [hA]
  simp only
  generalize buildContextFiles r.Tools env req.Prompt req.ContextPaths a.MaxContextBytes w = cb
  obtain ⟨cres, w1⟩ := cb
  cases cres with
  | error e =>
    left
    intro x hx
    rw [List.mem_singleton.mp hx]
    exact blocksUnder_false_of_kind _ _ (by rw [errorEvent_kind]; decide)
  | ok ctxFiles =>
    simp only
    have hpre : NoBlock a.ReflectionPolicy (r.preTools env req
        (if req.CorrelationID = [] then req.SessionID else req.CorrelationID) w1).events := by
      apply NoBlock_of_kinds
      intro e he
      rw [(preTools_shape r env req _ w1).1 e he]
      decide
    generalize r.preTools env req
      (if req.CorrelationID = [] then req.SessionID else req.CorrelationID) w1 = pre at hpre
    obtain ⟨evs1, tr1, w2, flow1⟩ := pre
    cases flow1 with
    | halt h => exact Or.inl hpre
    | next initialTools =>
      simp only at hpre ⊢
      have hplan : NoBlock a.ReflectionPolicy (r.planPhase a env fuel req
          (if req.CorrelationID = [] then req.SessionID else req.CorrelationID) ctxFiles 0
          w2).events := by
        apply NoBlock_of_kinds
        intro e he
        rcases planPhase_kinds _ _ _ _ _ _ _ _ _ e he with h | h <;> rw [h] <;> decide
      generalize r.planPhase a env fuel req
        (if req.CorrelationID = [] then req.SessionID else req.CorrelationID) ctxFiles 0 w2
        = pl at hplan
      obtain ⟨evs2, tr2, w3, flow2⟩ := pl
      cases flow2 with
      | halt h => exact Or.inl (NoBlock_append hpre hplan)
      | next eu =>
        simp only at hplan ⊢
        rcases stepLoop_reflect r a js env fuel req
          (if req.CorrelationID = [] then req.SessionID else req.CorrelationID) ctxFiles
          a.MaxSteps.toNat 1
          { initialTools := initialTools, expensiveUsed := eu, tokenCount := 0 } w3 with
          h | ⟨hret, hb⟩
        · exact Or.inl (NoBlock_append (NoBlock_append hpre hplan) h)
        · refine Or.inr ⟨hret, ?_⟩
          have := @BlockedTail_prepend _ (evs1 ++ evs2) _
            (Obs.contextBuilt true :: (tr1 ++ tr2)) _ (NoBlock_append hpre hplan) hb
          simpa using this

theorem split_at_unique {α : Type} (P : α → Prop) :
    ∀ (a a2 : List α) (x x2 : α) (b b2 : List α),
      a ++ x :: b = a2 ++ x2 :: b2 → (∀ y ∈ a, ¬ P y) → P x → (∀ y ∈ b, ¬ P y) → P x2 →
      a = a2 ∧ x = x2 ∧ b = b2 := by
  intro a
  induction a with
  | nil =>
    intro a2 x x2 b b2 h _ hx hb hx2
    cases a2 with
    | nil =>
      simp only [List.nil_append, List.cons.injEq] at h
      exact ⟨rfl, h.1, h.2⟩
    | cons y ys =>
      simp only [List.nil_append, List.cons_append, List.cons.injEq] at h
      have : x2 ∈ b := by
        rw [h.2]
        exact List.mem_append.mpr (Or.inr (List.mem_cons_self _ _))
      exact absurd hx2 (hb x2 this)
  | cons z zs ih =>
    intro a2 x x2 b b2 h ha hx hb hx2
    cases a2 with
    | nil =>
      simp only [List.nil_append, List.cons_append, List.cons.injEq] at h
      have hz := ha z (List.mem_cons_self _ _)
      rw [h.1] at hz
      exact absurd hx2 hz
    | cons y ys =>
      simp only [List.cons_append, List.cons.injEq] at h
      obtain ⟨h1, h2, h3⟩ := ih ys x x2 b b2 h.2
        (fun y hy => ha y (List.mem_cons_of_mem _ hy)) hx hb hx2
      exact ⟨by rw [h.1, h1], h2, h3⟩

theorem list_split_at {α : Type} (l : List α) (n : Nat) (h : n < l.length) :
    l = l.take n ++ l.get ⟨n, h⟩ :: l.drop (n + 1) := by
  induction l generalizing n with
  | nil => cases h
  | cons x xs ih =>
    cases n with
    | zero => rfl
    | succ k =>
      simp only [List.take_succ_cons, List.drop_succ_cons, List.cons_append, List.get_cons_succ]
      exact congrArg _ (ih k (Nat.lt_of_succ_lt_succ h))

/-- C14: in every run, whenever a `reflect` event carries a critique that blocks under the
reflection policy of the agent, whether or not the step was done by the done-detection rule,
the run returns and the events after that `reflect` event are exactly a `message` event with
the text `Run halted by reflection policy (blocked_by_reflect)` and a `done` event with finish
reason `blocked_by_reflect`, both with the step of the `reflect` event; the blocking decision
is the last observation of the run, so no further step is entered and no further provider
call is made. -/
theorem run_blocked_by_reflect (r : AgentRunner) (a : Agent) (js : JsonCodec) (env : Env)
    (fuel : Nat) (req : RunTaskRequest) (w : World) (hA : r.Agent = some a)
    (pre post : List RunTaskEvent) (e : RunTaskEvent)
    (hev : (r.Run js env fuel req w).events = pre ++ e :: post)
    (hk : e.Kind = "reflect".toList)
    (hb : (critiqueBlocksApply e.Critique && shouldBlockOnCritique a.ReflectionPolicy) = true) :
    (r.Run js env fuel req w).halt = Halt.returned ∧
    (∃ m d : RunTaskEvent, post = [m, d] ∧
      m.Kind = "message".toList ∧
      m.Message = "Run halted by reflection policy (blocked_by_reflect)".toList ∧
      m.Step = e.Step ∧
      d.Kind = "done".toList ∧ d.FinishReason = "blocked_by_reflect".toList ∧
      d.Step = e.Step ∧ d.Done = true) ∧
    (r.Run js env fuel req w).trace.getLast? = some (Obs.critique true) ∧
    (∀ x ∈ pre, x.blocksUnder a.ReflectionPolicy = false) := by
  have hblock : e.blocksUnder a.ReflectionPolicy = true := by
    unfold RunTaskEvent.blocksUnder
    rw [decide_eq_true hk, hb]
    rfl
  rcases Run_reflect r a js env fuel req w hA with h | ⟨hret, pre1, e1, m, d, tr, hev1, hpre1,
    he1, hm1, hm2, hm3, hd1, hd2, hd3, hd4, htr⟩
  · have hmem : e ∈ (r.Run js env fuel req w).events := by
      rw [hev]
      exact List.mem_append.mpr (Or.inr (List.mem_cons_self _ _))
    rw [h e hmem] at hblock
    cases hblock
  · rw [hev1] at hev
    have hmd : ∀ y ∈ [m, d], ¬ (y.blocksUnder a.ReflectionPolicy = true) := by
      intro y hy
      have hy2 : y.blocksUnder a.ReflectionPolicy = false := by
        rcases List.mem_cons.mp hy with h | h
        · rw [h]
          exact blocksUnder_false_of_kind _ _ (by rw [hm1]; decide)
        · rw [List.mem_singleton.mp h]
          exact blocksUnder_false_of_kind _ _ (by rw [hd1]; decide)
      rw [hy2]
      decide
    obtain ⟨h1, h2, h3⟩ := split_at_unique (fun y => y.blocksUnder a.ReflectionPolicy = true)
      pre1 pre e1 e [m, d] post hev
      (fun y hy => by show ¬ (y.blocksUnder _ = true); rw [hpre1 y hy]; decide) he1 hmd hblock
    subst h1
    subst h2
    refine ⟨hret, ⟨m, d, h3.symm, hm1, hm2, hm3, hd1, hd2, hd3, hd4⟩, ?_, hpre1⟩
    rw [htr]
    exact getLast?_snoc _ _

/-- Witness for C14: the run of `TestAgentRunnerBlocksOnCritique` with a coder answer that is
not done: step 1 sends a message and a token, the critique blocks, and the events after the
`reflect` event are the halt message and `done` with finish reason `blocked_by_reflect`, step
1; the second step is not entered and the provider is called twice. -/
theorem run_blocked_by_reflect_witness :
    kinds (exCriticRunner.Run exJson {} 3
      { SessionID := "block-reflect".toList, Prompt := "do something risky".toList } {}).events
      = ["message".toList, "token".toList, "reflect".toList, "message".toList,
         "done".toList] ∧
    ((exCriticRunner.Run exJson {} 3
      { SessionID := "block-reflect".toList, Prompt := "do something risky".toList }
      {}).events.drop 3).map (fun x => (x.Message, x.FinishReason, x.Step))
      = [("Run halted by reflection policy (blocked_by_reflect)".toList, [], 1),
         ([], "blocked_by_reflect".toList, 1)] ∧
    stepsOf (exCriticRunner.Run exJson {} 3
      { SessionID := "block-reflect".toList, Prompt := "do something risky".toList } {}).trace
      = [1] ∧
    (exCriticRunner.Run exJson {} 3
      { SessionID := "block-reflect".toList, Prompt := "do something risky".toList }
      {}).world.chatLog.length = 2 ∧
    (exCriticRunner.Run exJson {} 3
      { SessionID := "block-reflect".toList, Prompt := "do something risky".toList }
      {}).halt = Halt.returned := by
  have h := run_blocked_by_reflect exCriticRunner
    ⟨exRegistryOf exCriticProvider, { MaxSteps := 2, EnableReflect := true }⟩ exJson {} 3
    { SessionID := "block-reflect".toList, Prompt := "do something risky".toList } {} rfl
    ((exCriticRunner.Run exJson {} 3
      { SessionID := "block-reflect".toList, Prompt := "do something risky".toList }
      {}).events.take 2)
    ((exCriticRunner.Run exJson {} 3
      { SessionID := "block-reflect".toList, Prompt := "do something risky".toList }
      {}).events.drop 3)
    { Kind := "reflect".toList, SessionID := "block-reflect".toList,
      CorrelationID := "block-reflect".toList, Message := exBlockJson,
      Critique := some [("block_apply".toList, JVal.bool true)], Step := 1 }
    rfl rfl (by decide)
  exact ⟨by decide, by decide, by decide, by decide, h.1⟩

/-! ## Runs on a cancelled context -/

/-- On a cancelled context the first pre-task tool call is refused before it is validated:
the only event is its `tool` event with the error of the context, and the run ends. -/
theorem preTools_cancelled (r : AgentRunner) (env : Env) (req : RunTaskRequest) (corr : Str)
    (w : World) (reg : ToolRegistry) (tc : ToolCall) (rest : List ToolCall)
    (hT : r.Tools = some reg) (hreq : req.Tools = tc :: rest) (hc : ∀ t, env.ctxErr t = true) :
    r.preTools env req corr w
      = ⟨[{ Kind := "tool".toList, SessionID := req.SessionID, CorrelationID := corr,
            ToolName := tc.Name, ToolOutput := "context canceled".toList,
            Error := "context canceled".toList }],
         [Obs.toolCall tc.Name false], w.advance, .halt .returned⟩ := by
  unfold AgentRunner.preTools
  rw [hT, hreq]
  simp only [List.isEmpty_cons, Bool.not_false, if_true]
  unfold runTools executeTool
  simp only [hc, if_true]

theorem preTools_none (r : AgentRunner) (env : Env) (req : RunTaskRequest) (corr : Str)
    (w : World) (h : req.Tools = [] ∨ r.Tools = none) :
    r.preTools env req corr w = ⟨[], [], w, .next []⟩ := by
  unfold AgentRunner.preTools
  rcases h with h | h
  · rw [h]
    cases r.Tools <;> rfl
  · rw [h]

/-- On a cancelled context the step loop sends `error` with the message `cancelled` at the
poll of its first step. -/
theorem stepLoop_cancelled (r : AgentRunner) (a : Agent) (js : JsonCodec) (env : Env)
    (fuel : Nat) (req : RunTaskRequest) (corr : Str) (ctxFiles : List ContextFile) (n : Nat)
    (step : Int) (st : LoopState) (w : World) (hc : ∀ t, env.ctxErr t = true) :
    r.stepLoop a js env fuel req corr ctxFiles (n + 1) step st w
      = ⟨[errorEvent req.SessionID corr "cancelled".toList],
         [Obs.stepStart step, Obs.ctxPoll true], w.advance, .returned⟩ := by
  unfold AgentRunner.stepLoop AgentRunner.runStep
  simp only [hc, if_true]

/-- The outcomes of the call pattern with one fallback, for the planner notes: the trace
holds only planner notes and the mark of a fallback selection without end, and it holds a
successful planner call exactly when the pattern returns a plan. -/
theorem callWithFallback_plan (r : AgentRunner) (fuel : Nat) (role model : Str) (eu : Int)
    (call : Str → World → Except Str Str × World) (w : World) :
    (∀ o ∈ (r.callWithFallback fuel role model eu call notePlan w).1,
      o = Obs.planCall true ∨ o = Obs.planCall false ∨ o = Obs.fallbackHung) ∧
    (Obs.planCall true ∈ (r.callWithFallback fuel role model eu call notePlan w).1 →
      ∃ p eu2 w2, (r.callWithFallback fuel role model eu call notePlan w).2
        = some (.ok p, eu2, w2)) := by
  unfold AgentRunner.callWithFallback
  split
  · refine ⟨?_, fun _ => ⟨_, _, _, rfl⟩⟩
    intro o ho
    rw [List.mem_singleton.mp ho]
    exact Or.inl rfl
  · split
    · constructor
      · intro o ho
        simp only [List.mem_cons, List.mem_singleton, List.not_mem_nil, or_false] at ho
        rcases ho with h | h
        · rw [h]
          exact Or.inr (Or.inl rfl)
        · rw [h]
          exact Or.inr (Or.inr rfl)
      · intro h
        simp only [List.mem_cons, List.mem_singleton, List.not_mem_nil, or_false, notePlan,
          reduceCtorEq] at h
        simp at h
    · split
      · split
        · refine ⟨?_, fun _ => ⟨_, _, _, rfl⟩⟩
          intro o ho
          simp only [List.mem_cons, List.mem_singleton, List.not_mem_nil, or_false] at ho
          rcases ho with h | h
          · rw [h]
            exact Or.inr (Or.inl rfl)
          · rw [h]
            exact Or.inl rfl
        · constructor
          · intro o ho
            simp only [List.mem_cons, List.mem_singleton, List.not_mem_nil, or_false] at ho
            rcases ho with h | h <;> (rw [h]; exact Or.inr (Or.inl rfl))
          · intro h
            simp [notePlan] at h
      · constructor
        · intro o ho
          rw [List.mem_singleton.mp ho]
          exact Or.inr (Or.inl rfl)
        · intro h
          simp [notePlan] at h

theorem planPhase_outcome (r : AgentRunner) (a : Agent) (env : Env) (fuel : Nat)
    (req : RunTaskRequest) (corr : Str) (ctxFiles : List ContextFile) (eu : Int) (w : World) :
    (a.cfg.EnablePlan = false →
      r.planPhase a env fuel req corr ctxFiles eu w = ⟨[], [], w, .next eu⟩) ∧
    (∀ o ∈ (r.planPhase a env fuel req corr ctxFiles eu w).trace,
      o = Obs.planCall true ∨ o = Obs.planCall false ∨ o = Obs.fallbackHung) ∧
    (Obs.planCall true ∈ (r.planPhase a env fuel req corr ctxFiles eu w).trace →
      ∃ x, (r.planPhase a env fuel req corr ctxFiles eu w).flow = .next x) ∧
    (∀ x, (r.planPhase a env fuel req corr ctxFiles eu w).flow = .next x →
      (∀ e ∈ (r.planPhase a env fuel req corr ctxFiles eu w).events, e.Kind = "plan".toList) ∧
      (r.planPhase a env fuel req corr ctxFiles eu w).events.length ≤ 1) := by
  unfold AgentRunner.planPhase
  split
  · rename_i hen
    split
    rename_i planModel eu1 w1 _
    obtain ⟨h1, h2⟩ := callWithFallback_plan r fuel "planner".toList planModel eu1
      (fun m w => a.Plan env
        { SessionID := req.SessionID, Model := m, Prompt := req.Prompt, Context := ctxFiles } w)
      w1
    refine ⟨fun h => ?_, ?_⟩
    · have : a.PlanningEnabled = false := h
      rw [this] at hen
      cases hen
    · split
      · rename_i heq
        rw [heq] at h1 h2
        refine ⟨h1, ?_, fun x hx => (by cases hx)⟩
        intro h
        obtain ⟨_, _, _, h3⟩ := h2 h
        cases h3
      · rename_i heq
        rw [heq] at h1 h2
        refine ⟨h1, ?_, fun x hx => (by cases hx)⟩
        intro h
        obtain ⟨_, _, _, h3⟩ := h2 h
        cases h3
      · rename_i heq
        rw [heq] at h1
        refine ⟨h1, fun _ => ⟨_, rfl⟩, fun x _ => ?_⟩
        simp only
        split
        · exact ⟨fun e he => by rw [List.mem_singleton.mp he], by simp⟩
        · exact ⟨fun e he => (by cases he), by simp⟩
  · rename_i hen
    exact ⟨fun _ => rfl, fun o ho => (by cases ho), fun h => (by cases h),
      fun x _ => ⟨fun e he => (by cases he), by simp⟩⟩

/-- C15 (as stated) fails: the context is cancelled from the start and the request has one
pre-task tool call; `executeTool` returns the error of the context, the run sends the `tool`
event of that call with the error `context canceled` and returns: there is no `error` event
with the message `cancelled`, and no `error` event at all. -/
theorem run_cancelled_with_tools_counterexample :
    (∀ t, exCancelledEnv.ctxErr t = true) ∧
    (exWriteRunner.Run exJson exCancelledEnv 3 exToolRequest {}).halt = Halt.returned ∧
    kinds (exWriteRunner.Run exJson exCancelledEnv 3 exToolRequest {}).events
      = ["tool".toList] ∧
    (exWriteRunner.Run exJson exCancelledEnv 3 exToolRequest {}).events.map (·.Error)
      = ["context canceled".toList] ∧
    ((exWriteRunner.Run exJson exCancelledEnv 3 exToolRequest {}).events.filter
      (fun e => e.isTerminal)).length = 0 := by
  refine ⟨fun _ => rfl, ?_, ?_, ?_, ?_⟩ <;> decide

/-- C15 (amended): for every request whose execution context is already cancelled when
AgentRunner.Run starts (with an agent present): the run makes no coder call and sends only
`tool`, `plan` and `error` events.  When the context assembly succeeds: with pre-task tool
calls and a tool registry the run sends exactly one event, the `tool` event of the first call
with the error `context canceled`, and returns without any `error` event; without pre-task
tool calls and with planning disabled it sends the single event `error` with the message
`cancelled` and returns; without pre-task tool calls and with a planner call that succeeds it
sends at most one `plan` event followed by `error` with the message `cancelled` as its final
event, and returns. -/
theorem run_cancelled_at_start (r : AgentRunner) (a : Agent) (js : JsonCodec) (env : Env)
    (fuel : Nat) (req : RunTaskRequest) (w : World) (hA : r.Agent = some a)
    (hc : ∀ t, env.ctxErr t = true) :
    (∀ e ∈ (r.Run js env fuel req w).events,
      e.Kind = "tool".toList ∨ e.Kind = "plan".toList ∨ e.Kind = "error".toList) ∧
    (∀ ok done, Obs.coderCall ok done ∉ (r.Run js env fuel req w).trace) ∧
    (Obs.contextBuilt true ∈ (r.Run js env fuel req w).trace →
      ∀ reg tc rest, r.Tools = some reg → req.Tools = tc :: rest →
        (r.Run js env fuel req w).halt = Halt.returned ∧
        (r.Run js env fuel req w).events
          = [{ Kind := "tool".toList, SessionID := req.SessionID,
               CorrelationID := if req.CorrelationID = [] then req.SessionID
                 else req.CorrelationID,
               ToolName := tc.Name, ToolOutput := "context canceled".toList,
               Error := "context canceled".toList }]) ∧
    (Obs.contextBuilt true ∈ (r.Run js env fuel req w).trace →
      (req.Tools = [] ∨ r.Tools = none) → a.cfg.EnablePlan = false →
        (r.Run js env fuel req w).halt = Halt.returned ∧
        (r.Run js env fuel req w).events
          = [errorEvent req.SessionID
              (if req.CorrelationID = [] then req.SessionID else req.CorrelationID)
              "cancelled".toList]) ∧
    (Obs.contextBuilt true ∈ (r.Run js env fuel req w).trace →
      (req.Tools = [] ∨ r.Tools = none) →
      Obs.planCall true ∈ (r.Run js env fuel req w).trace →
        (r.Run js env fuel req w).halt = Halt.returned ∧
        ∃ pre, (r.Run js env fuel req w).events
          = pre ++ [errorEvent req.SessionID
              (if req.CorrelationID = [] then req.SessionID else req.CorrelationID)
              "cancelled".toList] ∧
          (∀ e ∈ pre, e.Kind = "plan".toList) ∧ pre.length ≤ 1) := by
  obtain ⟨k, hk⟩ := MaxSteps_toNat_pos a
  unfold AgentRunner.Run
  simp only
  rw [hA]
  simp only
  generalize buildContextFiles r.Tools env req.Prompt req.ContextPaths a.MaxContextBytes w = cb
  obtain ⟨cres, w1⟩ := cb
  cases cres with
  | error e =>
    simp only
    refine ⟨?_, ?_, ?_, ?_, ?_⟩
    · intro x hx
      rw [List.mem_singleton.mp hx]
      exact Or.inr (Or.inr rfl)
    · intro ok done h
      simp at h
    · intro h
      simp at h
    · intro h
      simp at h
    · intro h
      simp at h
  | ok ctxFiles =>
    simp only
    by_cases hT : ∃ reg tc rest, r.Tools = some reg ∧ req.Tools = tc :: rest
    · obtain ⟨reg, tc, rest, hreg, hreq⟩ := hT
      rw [preTools_cancelled r env req _ w1 reg tc rest hreg hreq hc]
      simp only
      refine ⟨?_, ?_, ?_, ?_, ?_⟩
      · intro x hx
        rw [List.mem_singleton.mp hx]
        exact Or.inl rfl
      · intro ok done h
        simp at h
      · intro _ reg2 tc2 rest2 _ hreq2
        rw [hreq] at hreq2
        cases hreq2
        exact ⟨trivial, rfl⟩
      · intro _ hno
        rcases hno with h | h
        · rw [h] at hreq
          cases hreq
        · rw [h] at hreg
          cases hreg
      · intro _ hno
        rcases hno with h | h
        · rw [h] at hreq
          cases hreq
        · rw [h] at hreg
          cases hreg
    · have hno : req.Tools = [] ∨ r.Tools = none := by
        cases hr : r.Tools with
        | none => exact Or.inr rfl
        | some reg =>
          cases hq : req.Tools with
          | nil => exact Or.inl rfl
          | cons tc rest => exact absurd ⟨reg, tc, rest, hr, hq⟩ hT
      rw [preTools_none r env req _ w1 hno]
      simp only
      obtain ⟨hp1, hp2, hp3, hp4⟩ := planPhase_outcome r a env fuel req
        (if req.CorrelationID = [] then req.SessionID else req.CorrelationID) ctxFiles 0 w1
      have hpk := planPhase_kinds r a env fuel req
        (if req.CorrelationID = [] then req.SessionID else req.CorrelationID) ctxFiles 0 w1
      generalize r.planPhase a env fuel req
        (if req.CorrelationID = [] then req.SessionID else req.CorrelationID) ctxFiles 0 w1
        = pl at hp1 hp2 hp3 hp4 hpk
      obtain ⟨evs2, tr2, w3, flow2⟩ := pl
      simp only at hp1 hp2 hp3 hp4 hpk
      have hnc : ∀ ok done, Obs.coderCall ok done ∉ tr2 := by
        intro ok done h
        rcases hp2 _ h with h | h | h <;> cases h
      cases flow2 with
      | halt h =>
        simp only
        refine ⟨?_, ?_, ?_, ?_, ?_⟩
        · intro x hx
          simp only [List.nil_append] at hx
          exact Or.inr (hpk x hx)
        · intro ok done h
          simp only [List.nil_append, List.mem_cons, reduceCtorEq, false_or] at h
          exact hnc ok done h
        · intro _ reg tc rest hreg hreq
          exact absurd ⟨reg, tc, rest, hreg, hreq⟩ hT
        · intro _ _ hen
          have := hp1 hen
          cases this
        · intro _ _ hpc
          simp only [List.nil_append, List.mem_cons, reduceCtorEq, false_or] at hpc
          obtain ⟨x, hx⟩ := hp3 hpc
          cases hx
      | next eu =>
        simp only
        rw [hk, stepLoop_cancelled r a js env fuel req _ ctxFiles k 1 _ w3 hc]
        simp only [List.nil_append]
        obtain ⟨hq1, hq2⟩ := hp4 eu rfl
        refine ⟨?_, ?_, ?_, ?_, ?_⟩
        · intro x hx
          rcases List.mem_append.mp hx with h | h
          · exact Or.inr (Or.inl (hq1 x h))
          · rw [List.mem_singleton.mp h]
            exact Or.inr (Or.inr rfl)
        · intro ok done h
          simp only [List.mem_cons, List.mem_append, reduceCtorEq, false_or, List.not_mem_nil,
            or_false] at h
          exact hnc ok done h
        · intro _ reg tc rest hreg hreq
          exact absurd ⟨reg, tc, rest, hreg, hreq⟩ hT
        · intro _ _ hen
          have := hp1 hen
          cases this
          exact ⟨trivial, rfl⟩
        · intro _ _ _
          exact ⟨trivial, evs2, rfl, hq1, hq2⟩

/-- Witness for C15 (amended): on the cancelled context the runner of
`TestAgentRunnerRespectsMaxSteps` sends the single event `error` with the message
`cancelled`; with planning enabled it sends the plan first. -/
theorem run_cancelled_at_start_witness :
    (exLoopRunner.Run exJson exCancelledEnv 3 { SessionID := "s1".toList, Prompt := "p".toList }
      {}).events = [errorEvent "s1".toList "s1".toList "cancelled".toList] ∧
    (exLoopRunner.Run exJson exCancelledEnv 3 { SessionID := "s1".toList, Prompt := "p".toList }
      {}).halt = Halt.returned ∧
    kinds (exPlanLoopRunner.Run exJson exCancelledEnv 3
      { SessionID := "s1".toList, Prompt := "p".toList } {}).events
      = ["plan".toList, "error".toList] ∧
    (exPlanLoopRunner.Run exJson exCancelledEnv 3
      { SessionID := "s1".toList, Prompt := "p".toList } {}).events.map (·.Error)
      = [[], "cancelled".toList] := by
  have h := (run_cancelled_at_start exLoopRunner
    ⟨exRegistryOf exLoopProvider, { MaxSteps := 2 }⟩ exJson exCancelledEnv 3
    { SessionID := "s1".toList, Prompt := "p".toList } {} rfl (fun _ => rfl)).2.2.2.1
    (by decide) (Or.inl rfl) rfl
  exact ⟨h.2, h.1, by decide, by decide⟩

/-! ## Token events -/

theorem tokenEventsFrom_kinds (sid corr : Str) (step : Int) :
    ∀ (toks : List Str) (idx : Nat), ∀ e ∈ tokenEventsFrom sid corr step idx toks,
      e.Kind = "token".toList := by
  intro toks
  induction toks with
  | nil =>
    intro idx e he
    cases he
  | cons t ts ih =>
    intro idx e he
    unfold tokenEventsFrom at he
    rcases List.mem_cons.mp he with h | h
    · rw [h]
    · exact ih _ e h

/-- The `token` events of the words from index `idx`: the event of a word at position `i`
carries the word and the key `step * 1000 + (idx + i)`. -/
theorem tokenEventsFrom_mem (sid corr : Str) (step : Int) :
    ∀ (toks : List Str) (idx : Nat), ∀ e ∈ tokenEventsFrom sid corr step idx toks,
      ∃ i, toks[i]? = some e.Token ∧ e.Step = step * 1000 + ((idx + i : Nat) : Int) := by
  intro toks
  induction toks with
  | nil =>
    intro idx e he
    cases he
  | cons t ts ih =>
    intro idx e he
    unfold tokenEventsFrom at he
    rcases List.mem_cons.mp he with h | h
    · rw [h]
      exact ⟨0, by simp, by simp⟩
    · obtain ⟨i, h1, h2⟩ := ih _ e h
      refine ⟨i + 1, ?_, ?_⟩
      · simpa using h1
      · rw [h2]
        congr 2
        omega

theorem tokenEventsFrom_length (sid corr : Str) (step : Int) :
    ∀ (toks : List Str) (idx : Nat), (tokenEventsFrom sid corr step idx toks).length
      = toks.length := by
  intro toks
  induction toks with
  | nil => intro idx; rfl
  | cons t ts ih =>
    intro idx
    unfold tokenEventsFrom
    simp [ih]

/-- The token loop: either every word is sent and the step goes on, or the cancellation
branch is taken after the first `k` words, `error` with the message `cancelled` is sent and
the run ends. -/
theorem emitTokens_form (env : Env) (sid corr : Str) (step : Int) :
    ∀ (toks : List Str) (idx : Nat) (w : World),
      ((emitTokens env sid corr step toks idx w).flow = .next () ∧
        (emitTokens env sid corr step toks idx w).events
          = tokenEventsFrom sid corr step idx toks) ∨
      (∃ k, k < toks.length ∧
        (emitTokens env sid corr step toks idx w).flow = .halt .returned ∧
        (emitTokens env sid corr step toks idx w).events
          = tokenEventsFrom sid corr step idx (toks.take k) ++
              [errorEvent sid corr "cancelled".toList]) := by
  intro toks
  induction toks with
  | nil =>
    intro idx w
    exact Or.inl ⟨rfl, rfl⟩
  | cons t ts ih =>
    intro idx w
    unfold emitTokens
    split
    · exact Or.inr ⟨0, by simp, rfl, rfl⟩
    · simp only
      rcases ih (idx + 1) w.advance with ⟨h1, h2⟩ | ⟨k, hk, h1, h2⟩
      · left
        refine ⟨h1, ?_⟩
        rw [h2]
        rfl
      · right
        refine ⟨k + 1, by simp; omega, h1, ?_⟩
        rw [h2]
        rfl

/-- Without cancellation the token loop sends every word. -/
theorem emitTokens_all (env : Env) (sid corr : Str) (step : Int)
    (hs : ∀ t, env.selectDone t = false) :
    ∀ (toks : List Str) (idx : Nat) (w : World),
      (emitTokens env sid corr step toks idx w).flow = .next () ∧
      (emitTokens env sid corr step toks idx w).events = tokenEventsFrom sid corr step idx toks := by
  intro toks
  induction toks with
  | nil =>
    intro idx w
    exact ⟨rfl, rfl⟩
  | cons t ts ih =>
    intro idx w
    unfold emitTokens
    rw [hs]
    simp only [Bool.false_eq_true, if_false]
    obtain ⟨h1, h2⟩ := ih (idx + 1) w.advance
    refine ⟨h1, ?_⟩
    rw [h2]
    rfl

theorem Out.bind_events {α β : Type} (o : Out α) (f : α → World → Out β) :
    (o.bind f).events = o.events ++
      (match o.flow with
       | .halt _ => []
       | .next a => (f a o.world).events) := by
  unfold Out.bind
  cases o.flow with
  | halt h => simp
  | next a => rfl

theorem NoToken_nil : NoToken [] := by
  intro e he
  cases he

theorem NoToken_append {a b : List RunTaskEvent} (ha : NoToken a) (hb : NoToken b) :
    NoToken (a ++ b) := by
  intro e he
  rcases List.mem_append.mp he with h | h
  · exact ha e h
  · exact hb e h

theorem NoToken_bind {α β : Type} (o : Out α) (f : α → World → Out β)
    (ho : NoToken o.events) (hf : ∀ a w, NoToken (f a w).events) :
    NoToken (o.bind f).events := by
  rw [Out.bind_events]
  apply NoToken_append ho
  cases o.flow with
  | halt h => exact NoToken_nil
  | next a => exact hf a o.world

theorem reflectPhase_kinds (r : AgentRunner) (a : Agent) (js : JsonCodec) (env : Env)
    (fuel : Nat) (req : RunTaskRequest) (corr : Str) (step : Int) (resp : Response)
    (stepTools : List ToolObservation) (testObs : Option TestObservation) (done : Bool)
    (eu : Int) (w : World) :
    ∀ e ∈ (r.reflectPhase a js env fuel req corr step resp stepTools testObs done eu w).events,
      e.Kind = "reflect".toList ∨ e.Kind = "error".toList := by
  unfold AgentRunner.reflectPhase
  split
  · simp only
    split
    · intro e he
      cases he
    · intro e he
      rw [List.mem_singleton.mp he]
      exact Or.inr rfl
    · split
      · intro e he
        rw [List.mem_singleton.mp he]
        exact Or.inl rfl
      · intro e he
        cases he
  · intro e he
    cases he

/-- The parts of a step after the token loop send no `token` event. -/
theorem afterTokens_NoToken (r : AgentRunner) (a : Agent) (js : JsonCodec) (env : Env)
    (fuel : Nat) (req : RunTaskRequest) (corr : Str) (step : Int) (re : Response × Int)
    (st : LoopState) (w : World) :
    NoToken ((match r.Tools with
       | some reg =>
         runTools env reg req.SessionID corr (extractToolCalls js re.1.Message.Content)
           st.initialTools w
       | none => ⟨[], [], w, .next st.initialTools⟩).bind
      fun stepTools w =>
        (r.testPhase a env req.SessionID corr step (isResponseDone re.1) w).bind
      fun testObs w =>
        (r.reflectPhase a js env fuel req corr step re.1 stepTools testObs
          (isResponseDone re.1) re.2 w).bind
      fun ro w =>
        r.finishStep req corr step re.1
          (st.tokenCount + (Fields re.1.Message.Content).length) ro w).events := by
  apply NoToken_bind
  · intro e he
    rw [stepTools_kinds r js env _ _ _ _ _ e he]
    decide
  intro stepTools w5
  apply NoToken_bind
  · intro e he
    rw [testPhase_kinds _ _ _ _ _ _ _ _ e he]
    decide
  intro testObs w6
  apply NoToken_bind
  · intro e he
    rcases reflectPhase_kinds _ _ _ _ _ _ _ _ _ _ _ _ _ _ e he with h | h <;> rw [h] <;> decide
  intro ro w7
  intro e he
  rcases finishStep_kinds _ _ _ _ _ _ _ _ e he with h | h <;> rw [h] <;> decide

/-- The token loop followed by parts that send no `token` event: the `token` events of the
first `k` words, then events without tokens. -/
theorem tokensThen_form {β : Type} (env : Env) (sid corr : Str) (step : Int) (toks : List Str)
    (w : World) (g : Unit → World → Out β) (hg : ∀ u w, NoToken (g u w).events) :
    ∃ (B : List RunTaskEvent) (k : Nat), NoToken B ∧
      ((emitTokens env sid corr step toks 0 w).bind g).events
        = tokenEventsFrom sid corr step 0 (toks.take k) ++ B := by
  rw [Out.bind_events]
  rcases emitTokens_form env sid corr step toks 0 w with ⟨h1, h2⟩ | ⟨k, hk, h1, h2⟩
  · refine ⟨_, toks.length, hg () (emitTokens env sid corr step toks 0 w).world, ?_⟩
    rw [h1, h2, List.take_length]
  · refine ⟨[errorEvent sid corr "cancelled".toList], k, ?_, ?_⟩
    · intro e he
      rw [List.mem_singleton.mp he, errorEvent_kind]
      decide
    · rw [h1, h2]
      simp

/-- The events of a step: either no `token` event at all, or events without tokens, the
`message` event of the step with the assistant content, the `token` events of the first `k`
words of that content from index 0, and events without tokens. -/
theorem runStep_tokens (r : AgentRunner) (a : Agent) (js : JsonCodec) (env : Env) (fuel : Nat)
    (req : RunTaskRequest) (corr : Str) (ctxFiles : List ContextFile) (step : Int)
    (st : LoopState) (w : World) :
    NoToken (r.runStep a js env fuel req corr ctxFiles step st w).events ∨
    ∃ (A B : List RunTaskEvent) (m : RunTaskEvent) (k : Nat),
      NoToken A ∧ NoToken B ∧ m.Kind = "message".toList ∧ m.Step = step ∧
      (r.runStep a js env fuel req corr ctxFiles step st w).events
        = A ++ [m] ++ tokenEventsFrom req.SessionID corr step 0 ((Fields m.Message).take k)
            ++ B := by
  unfold AgentRunner.runStep
  split
  · left
    intro e he
    rw [List.mem_singleton.mp he, errorEvent_kind]
    decide
  · rw [Out.bind_next]
    simp only [List.nil_append]
    have hck := coderPhase_kinds r a env fuel req corr ctxFiles st.expensiveUsed w.advance
    have hcn : NoToken (r.coderPhase a env fuel req corr ctxFiles st.expensiveUsed
        w.advance).events := by
      intro e he
      rw [hck e he]
      decide
    rw [Out.bind_events]
    cases hflow : (r.coderPhase a env fuel req corr ctxFiles st.expensiveUsed w.advance).flow with
    | halt h =>
      left
      simp only
      exact NoToken_append hcn NoToken_nil
    | next re =>
      right
      simp only
      rw [Out.bind_next]
      simp only
      obtain ⟨B, k, hB, hev⟩ := tokensThen_form env req.SessionID corr step
        (Fields re.1.Message.Content)
        (r.coderPhase a env fuel req corr ctxFiles st.expensiveUsed w.advance).world
        _ (fun _ w4 => afterTokens_NoToken r a js env fuel req corr step re st w4)
      rw [hev]
      refine ⟨(r.coderPhase a env fuel req corr ctxFiles st.expensiveUsed w.advance).events, B,
        ({ Kind := "message".toList
           SessionID := req.SessionID
           CorrelationID := corr
           Message := re.1.Message.Content
           Step := step } : RunTaskEvent), k, hcn, hB, rfl, rfl, ?_⟩
      simp only [List.append_assoc]

theorem tokenKeys_append (a b : List RunTaskEvent) :
    tokenKeys (a ++ b) = tokenKeys a ++ tokenKeys b := by
  simp [tokenKeys]

theorem tokenKeys_NoToken (a : List RunTaskEvent) (h : NoToken a) : tokenKeys a = [] := by
  unfold tokenKeys
  rw [List.filter_eq_nil_iff.mpr]
  · rfl
  · intro e he
    simp only [decide_eq_true_eq]
    exact h e he

theorem tokenKeys_tokenEventsFrom (sid corr : Str) (step : Int) :
    ∀ (toks : List Str) (idx : Nat),
      (tokenKeys (tokenEventsFrom sid corr step idx toks)).Pairwise (· < ·) ∧
      ∀ x ∈ tokenKeys (tokenEventsFrom sid corr step idx toks),
        step * 1000 + (idx : Int) ≤ x ∧ x < step * 1000 + (idx : Int) + (toks.length : Int) := by
  intro toks
  induction toks with
  | nil =>
    intro idx
    simp [tokenEventsFrom, tokenKeys]
  | cons t ts ih =>
    intro idx
    obtain ⟨h1, h2⟩ := ih (idx + 1)
    have hk : tokenKeys (tokenEventsFrom sid corr step idx (t :: ts))
        = (step * 1000 + (idx : Int)) :: tokenKeys (tokenEventsFrom sid corr step (idx + 1) ts) := by
      rw [tokenEventsFrom]
      unfold tokenKeys
      rw [List.filter_cons_of_pos (by simp), List.map_cons]
    rw [hk]
    constructor
    · refine List.Pairwise.cons ?_ h1
      intro x hx
      have := (h2 x hx).1
      push_cast at this
      omega
    · intro x hx
      rcases List.mem_cons.mp hx with h | h
      · rw [h]
        simp only [List.length_cons]
        push_cast
        omega
      · have := h2 x h
        simp only [List.length_cons]
        push_cast at this ⊢
        omega

/-- The facts about the `token` events of a list of events whose keys start at `lo`: each
token is a word of a `message` event of the list, with the key made of the step of that
message and the index of the word; and when no message has more than 1000 words, the keys
strictly increase and none is below `lo`. -/
theorem tokenFacts_append (a b : List RunTaskEvent)
    (ha : ∀ e ∈ a, e.Kind = "token".toList → ∃ m ∈ a, m.Kind = "message".toList ∧
      ∃ idx : Nat, (Fields m.Message)[idx]? = some e.Token ∧ e.Step = m.Step * 1000 + idx)
    (hb : ∀ e ∈ b, e.Kind = "token".toList → ∃ m ∈ b, m.Kind = "message".toList ∧
      ∃ idx : Nat, (Fields m.Message)[idx]? = some e.Token ∧ e.Step = m.Step * 1000 + idx) :
    ∀ e ∈ a ++ b, e.Kind = "token".toList → ∃ m ∈ a ++ b, m.Kind = "message".toList ∧
      ∃ idx : Nat, (Fields m.Message)[idx]? = some e.Token ∧ e.Step = m.Step * 1000 + idx := by
  intro e he hk
  rcases List.mem_append.mp he with h | h
  · obtain ⟨m, hm, rest⟩ := ha e h hk
    exact ⟨m, List.mem_append.mpr (Or.inl hm), rest⟩
  · obtain ⟨m, hm, rest⟩ := hb e h hk
    exact ⟨m, List.mem_append.mpr (Or.inr hm), rest⟩

theorem tokenFacts_NoToken (a : List RunTaskEvent) (h : NoToken a) :
    ∀ e ∈ a, e.Kind = "token".toList → ∃ m ∈ a, m.Kind = "message".toList ∧
      ∃ idx : Nat, (Fields m.Message)[idx]? = some e.Token ∧ e.Step = m.Step * 1000 + idx :=
  fun e he hk => absurd hk (h e he)

theorem getElem?_of_take {α : Type} (l : List α) (k i : Nat) (x : α)
    (h : (l.take k)[i]? = some x) : l[i]? = some x := by
  induction l generalizing k i with
  | nil => simp at h
  | cons y ys ih =>
    cases k with
    | zero => simp at h
    | succ k =>
      cases i with
      | zero => simpa using h
      | succ i =>
        simp only [List.take_succ_cons, List.getElem?_cons_succ] at h ⊢
        exact ih k i h

/-- The token facts of one step. -/
theorem runStep_tokenFacts (r : AgentRunner) (a : Agent) (js : JsonCodec) (env : Env)
    (fuel : Nat) (req : RunTaskRequest) (corr : Str) (ctxFiles : List ContextFile) (step : Int)
    (st : LoopState) (w : World) :
    (∀ e ∈ (r.runStep a js env fuel req corr ctxFiles step st w).events,
      e.Kind = "token".toList →
      ∃ m ∈ (r.runStep a js env fuel req corr ctxFiles step st w).events,
        m.Kind = "message".toList ∧
        ∃ idx : Nat, (Fields m.Message)[idx]? = some e.Token ∧ e.Step = m.Step * 1000 + idx) ∧
    ((tokenKeys (r.runStep a js env fuel req corr ctxFiles step st w).events).Pairwise
      (· < ·)) ∧
    ((∀ m ∈ (r.runStep a js env fuel req corr ctxFiles step st w).events,
        m.Kind = "message".toList → (Fields m.Message).length ≤ 1000) →
      ∀ x ∈ tokenKeys (r.runStep a js env fuel req corr ctxFiles step st w).events,
        step * 1000 ≤ x ∧ x < (step + 1) * 1000) := by
  rcases runStep_tokens r a js env fuel req corr ctxFiles step st w with
    h | ⟨A, B, m, k, hA, hB, hmk, hms, hev⟩
  · refine ⟨tokenFacts_NoToken _ h, ?_, ?_⟩
    · rw [tokenKeys_NoToken _ h]
      exact List.Pairwise.nil
    · intro _ x hx
      rw [tokenKeys_NoToken _ h] at hx
      cases hx
  · rw [hev]
    obtain ⟨hp, hbd⟩ := tokenKeys_tokenEventsFrom req.SessionID corr step
      ((Fields m.Message).take k) 0
    have hkeys : tokenKeys (A ++ [m] ++
        tokenEventsFrom req.SessionID corr step 0 ((Fields m.Message).take k) ++ B)
        = tokenKeys (tokenEventsFrom req.SessionID corr step 0 ((Fields m.Message).take k)) := by
      have hm : NoToken [m] := by
        intro e he
        rw [List.mem_singleton.mp he, hmk]
        decide
      rw [tokenKeys_append, tokenKeys_append, tokenKeys_append, tokenKeys_NoToken _ hA,
        tokenKeys_NoToken _ hB, tokenKeys_NoToken _ hm]
      simp
    refine ⟨?_, ?_, ?_⟩
    · intro e he hk
      have hmem : e ∈ tokenEventsFrom req.SessionID corr step 0 ((Fields m.Message).take k) := by
        simp only [List.mem_append, List.mem_singleton] at he
        rcases he with ((h | h) | h) | h
        · exact absurd hk (hA e h)
        · rw [h, hmk] at hk
          exact absurd hk (by decide)
        · exact h
        · exact absurd hk (hB e h)
      obtain ⟨i, h1, h2⟩ := tokenEventsFrom_mem _ _ _ _ _ e hmem
      refine ⟨m, by simp, hmk, i, ?_, ?_⟩
      · exact getElem?_of_take _ _ _ _ h1
      · rw [h2, hms]
        simp
    · rw [hkeys]
      exact hp
    · intro hmsg x hx
      rw [hkeys] at hx
      have hlen := hmsg m (by simp) hmk
      have := hbd x hx
      have hl : ((Fields m.Message).take k).length ≤ 1000 := by
        rw [List.length_take]
        omega
      push_cast at this
      omega

theorem stepLoop_tokenFacts (r : AgentRunner) (a : Agent) (js : JsonCodec) (env : Env)
    (fuel : Nat) (req : RunTaskRequest) (corr : Str) (ctxFiles : List ContextFile) :
    ∀ (n : Nat) (step : Int) (st : LoopState) (w : World),
      (∀ e ∈ (r.stepLoop a js env fuel req corr ctxFiles n step st w).events,
        e.Kind = "token".toList →
        ∃ m ∈ (r.stepLoop a js env fuel req corr ctxFiles n step st w).events,
          m.Kind = "message".toList ∧
          ∃ idx : Nat, (Fields m.Message)[idx]? = some e.Token ∧
            e.Step = m.Step * 1000 + idx) ∧
      ((∀ m ∈ (r.stepLoop a js env fuel req corr ctxFiles n step st w).events,
          m.Kind = "message".toList → (Fields m.Message).length ≤ 1000) →
        (tokenKeys (r.stepLoop a js env fuel req corr ctxFiles n step st w).events).Pairwise
          (· < ·) ∧
        ∀ x ∈ tokenKeys (r.stepLoop a js env fuel req corr ctxFiles n step st w).events,
          step * 1000 ≤ x) := by
  intro n
  induction n with
  | zero =>
    intro step st w
    have hno : NoToken (r.stepLoop a js env fuel req corr ctxFiles 0 step st w).events := by
      intro e he
      simp only [AgentRunner.stepLoop] at he
      rw [List.mem_singleton.mp he]
      show "done".toList ≠ "token".toList
      decide
    refine ⟨tokenFacts_NoToken _ hno, fun _ => ?_⟩
    rw [tokenKeys_NoToken _ hno]
    exact ⟨List.Pairwise.nil, fun x hx => (by cases hx)⟩
  | succ n ih =>
    intro step st w
    obtain ⟨hs1, hs2, hs3⟩ := runStep_tokenFacts r a js env fuel req corr ctxFiles step st w
    unfold AgentRunner.stepLoop
    generalize r.runStep a js env fuel req corr ctxFiles step st w = o at hs1 hs2 hs3
    obtain ⟨evs, tr, w1, flow⟩ := o
    simp only at hs1 hs2 hs3
    cases flow with
    | halt h =>
      simp only
      exact ⟨hs1, fun hm => ⟨hs2, fun x hx => (hs3 hm x hx).1⟩⟩
    | next st1 =>
      simp only
      obtain ⟨hr1, hr2⟩ := ih (step + 1) st1 w1
      refine ⟨tokenFacts_append _ _ hs1 hr1, fun hm => ?_⟩
      have hma : ∀ m ∈ evs, m.Kind = "message".toList → (Fields m.Message).length ≤ 1000 :=
        fun m hmem => hm m (List.mem_append.mpr (Or.inl hmem))
      have hmb : ∀ m ∈ (r.stepLoop a js env fuel req corr ctxFiles n (step + 1) st1 w1).events,
          m.Kind = "message".toList → (Fields m.Message).length ≤ 1000 :=
        fun m hmem => hm m (List.mem_append.mpr (Or.inr hmem))
      obtain ⟨hp, hlo⟩ := hr2 hmb
      have hbd := hs3 hma
      rw [tokenKeys_append]
      constructor
      · rw [List.pairwise_append]
        refine ⟨hs2, hp, ?_⟩
        intro x hx y hy
        have h1 := (hbd x hx).2
        have h2 := hlo y hy
        omega
      · intro x hx
        rcases List.mem_append.mp hx with h | h
        · exact (hbd x h).1
        · have := hlo x h
          omega

/-- The token facts of a run: each `token` event carries a word of a `message` event of the
run and the key made of the step of that message and the index of the word; when no message
has more than 1000 words the keys strictly increase over the run. -/
theorem Run_tokenFacts (r : AgentRunner) (a : Agent) (js : JsonCodec) (env : Env) (fuel : Nat)
    (req : RunTaskRequest) (w : World) (hA : r.Agent = some a) :
    (∀ e ∈ (r.Run js env fuel req w).events, e.Kind = "token".toList →
      ∃ m ∈ (r.Run js env fuel req w).events, m.Kind = "message".toList ∧
        ∃ idx : Nat, (Fields m.Message)[idx]? = some e.Token ∧
          e.Step = m.Step * 1000 + idx) ∧
    ((∀ m ∈ (r.Run js env fuel req w).events,
        m.Kind = "message".toList → (Fields m.Message).length ≤ 1000) →
      (tokenKeys (r.Run js env fuel req w).events).Pairwise (· < ·)) := by
  unfold AgentRunner.Run
  simp only
  rw [hA]
  simp only
  generalize buildContextFiles r.Tools env req.Prompt req.ContextPaths a.MaxContextBytes w = cb
  obtain ⟨cres, w1⟩ := cb
  have herr : ∀ msg, NoToken [errorEvent req.SessionID
      (if req.CorrelationID = [] then req.SessionID else req.CorrelationID) msg] := by
    intro msg e he
    rw [List.mem_singleton.mp he, errorEvent_kind]
    decide
  cases cres with
  | error e =>
    simp only
    refine ⟨tokenFacts_NoToken _ (herr e), fun _ => ?_⟩
    rw [tokenKeys_NoToken _ (herr e)]
    exact List.Pairwise.nil
  | ok ctxFiles =>
    simp only
    have hpre : NoToken (r.preTools env req
        (if req.CorrelationID = [] then req.SessionID else req.CorrelationID) w1).events := by
      intro e he
      rw [(preTools_shape r env req _ w1).1 e he]
      decide
    generalize r.preTools env req
      (if req.CorrelationID = [] then req.SessionID else req.CorrelationID) w1 = pre at hpre
    obtain ⟨evs1, tr1, w2, flow1⟩ := pre
    simp only at hpre
    cases flow1 with
    | halt h =>
      simp only
      refine ⟨tokenFacts_NoToken _ hpre, fun _ => ?_⟩
      rw [tokenKeys_NoToken _ hpre]
      exact List.Pairwise.nil
    | next initialTools =>
      simp only
      have hplan : NoToken (r.planPhase a env fuel req
          (if req.CorrelationID = [] then req.SessionID else req.CorrelationID) ctxFiles 0
          w2).events := by
        intro e he
        rcases planPhase_kinds _ _ _ _ _ _ _ _ _ e he with h | h <;> rw [h] <;> decide
      generalize r.planPhase a env fuel req
        (if req.CorrelationID = [] then req.SessionID else req.CorrelationID) ctxFiles 0 w2
        = pl at hplan
      obtain ⟨evs2, tr2, w3, flow2⟩ := pl
      simp only at hplan
      have h12 : NoToken (evs1 ++ evs2) := NoToken_append hpre hplan
      cases flow2 with
      | halt h =>
        simp only
        refine ⟨tokenFacts_NoToken _ h12, fun _ => ?_⟩
        rw [tokenKeys_NoToken _ h12]
        exact List.Pairwise.nil
      | next eu =>
        simp only
        obtain ⟨hl1, hl2⟩ := stepLoop_tokenFacts r a js env fuel req
          (if req.CorrelationID = [] then req.SessionID else req.CorrelationID) ctxFiles
          a.MaxSteps.toNat 1
          { initialTools := initialTools, expensiveUsed := eu, tokenCount := 0 } w3
        refine ⟨tokenFacts_append _ _ (tokenFacts_NoToken _ h12) hl1, fun hm => ?_⟩
        rw [tokenKeys_append, tokenKeys_NoToken _ h12, List.nil_append]
        exact (hl2 (fun m hmem => hm m (List.mem_append.mpr (Or.inr hmem)))).1

/-! ### A run with more than 1000 words in a step -/

theorem fieldsAux_w (rest : Str) :
    fieldsAux [] ('w' :: ' ' :: rest) = "w".toList :: fieldsAux [] rest := by
  rw [fieldsAux, if_neg (by decide), fieldsAux, if_pos (by decide), if_neg (by decide)]
  rfl

theorem Fields_words (n : Nat) :
    Fields (List.replicate n "w ".toList).flatten = List.replicate n "w".toList := by
  unfold Fields
  induction n with
  | zero => rfl
  | succ n ih =>
    rw [List.replicate_succ, List.flatten_cons, List.replicate_succ]
    show fieldsAux [] ('w' :: ' ' :: (List.replicate n "w ".toList).flatten) = _
    rw [fieldsAux_w, ih]

theorem Index_none_of_not_mem (c : Char) (rest : Str) :
    ∀ s : Str, c ∉ s → Index s (c :: rest) = none := by
  intro s
  induction s with
  | nil =>
    intro _
    simp [Index]
  | cons x xs ih =>
    intro h
    have hx : x ≠ c := fun e => h (by rw [e]; exact List.mem_cons_self _ _)
    have hp : HasPrefix (x :: xs) (c :: rest) = false := by
      have hb : (c == x) = false := by
        simp only [beq_eq_false_iff_ne, ne_eq]
        exact fun e => hx e.symm
      simp [HasPrefix, List.isPrefixOf, hb]
    rw [Index, hp, ih (fun hm => h (List.mem_cons_of_mem _ hm))]
    rfl

theorem exWordy_chars : ∀ x ∈ exWordyContent, x = 'w' ∨ x = ' ' := by
  intro x hx
  unfold exWordyContent at hx
  rw [List.mem_flatten] at hx
  obtain ⟨l, hl, hxl⟩ := hx
  rw [List.mem_replicate] at hl
  rw [hl.2] at hxl
  simp only [String.toList, List.mem_cons, List.not_mem_nil, or_false] at hxl
  exact hxl

theorem exWordy_not_done (route : ModelRoute) (prev : Str) :
    isResponseDone { Message := ⟨Role.assistant, exWordyContent⟩, Route := route,
                     FinishReason := [], PreviousAssistant := prev } = false := by
  have hlow : ∀ c ∈ ToLower exWordyContent, c = 'w' ∨ c = ' ' := by
    intro c hc
    unfold ToLower at hc
    rw [List.mem_map] at hc
    obtain ⟨x, hx, hxc⟩ := hc
    rcases exWordy_chars x hx with h | h <;> subst h <;> subst hxc
    · exact Or.inl (by decide)
    · exact Or.inr (by decide)
  have h1 : Contains (ToLower exWordyContent) "[done]".toList = false := by
    unfold Contains
    rw [show "[done]".toList = '[' :: "done]".toList from rfl,
      Index_none_of_not_mem '[' _ _ (fun hm => by rcases hlow _ hm with h | h <;> cases h)]
    rfl
  have h2 : Contains (ToLower exWordyContent) "<done>".toList = false := by
    unfold Contains
    rw [show "<done>".toList = '<' :: "done>".toList from rfl,
      Index_none_of_not_mem '<' _ _ (fun hm => by rcases hlow _ hm with h | h <;> cases h)]
    rfl
  unfold isResponseDone
  simp only [ne_eq, not_true_eq_false, false_and, if_false, h1, h2]
  rfl

theorem exWordy_Run (ctx : List ContextFile) (w : World) :
    ∃ prev w2, Agent.Run ⟨exRegistryOf exWordyProvider, { MaxSteps := 2 }⟩ {}
        { SessionID := "s1".toList, Model := [], Prompt := "p".toList, Context := ctx } w
      = (.ok { Message := ⟨Role.assistant, exWordyContent⟩,
               Route := { Name := "default".toList, Provider := "mock".toList,
                          Model := "m".toList },
               FinishReason := [], PreviousAssistant := prev }, w2) := by
  have hres : (exRegistryOf exWordyProvider).Resolve []
      = .ok (exWordyProvider, { Name := "default".toList, Provider := "mock".toList,
                                Model := "m".toList }) := rfl
  unfold Agent.Run
  rw [if_neg (show ¬ "p".toList = [] by decide)]
  simp only [hres, Bool.false_eq_true, if_false]
  generalize ensureSession {} "s1".toList w = es
  obtain ⟨sid, w1⟩ := es
  exact ⟨_, _, rfl⟩

theorem testPhase_not_done (r : AgentRunner) (a : Animus.Agent) (env : Env) (sid corr : Str)
    (step : Int) (w : World) :
    r.testPhase a env sid corr step false w = ⟨[], [], w, .next none⟩ := by
  unfold AgentRunner.testPhase
  simp only [Bool.false_and, Bool.false_eq_true, if_false]

theorem reflectPhase_off (r : AgentRunner) (a : Animus.Agent) (js : JsonCodec) (env : Env)
    (fuel : Nat) (req : RunTaskRequest) (corr : Str) (step : Int) (resp : Response)
    (stepTools : List ToolObservation) (testObs : Option TestObservation) (done : Bool)
    (eu : Int) (w : World) (h : a.ReflectionEnabled = false) :
    r.reflectPhase a js env fuel req corr step resp stepTools testObs done eu w
      = ⟨[], [], w, .next ⟨done, [], eu⟩⟩ := by
  unfold AgentRunner.reflectPhase
  rw [h]
  simp only [Bool.false_eq_true, if_false]

/-- A step without tools, tests and reflection whose response is not done, on a context that
is never cancelled: the `message` event, then the `token` events of all words, and the run
goes on. -/
theorem runStep_plain (r : AgentRunner) (a : Animus.Agent) (js : JsonCodec) (env : Env)
    (fuel : Nat) (req : RunTaskRequest) (corr : Str) (ctxFiles : List ContextFile) (step : Int)
    (st : LoopState) (w : World) (resp : Response) (eu : Int) (tr : List Obs) (w2 : World)
    (hc : ∀ t, env.ctxErr t = false) (hs : ∀ t, env.selectDone t = false)
    (ht : r.Tools = none) (hr : a.ReflectionEnabled = false)
    (hcoder : r.coderPhase a env fuel req corr ctxFiles st.expensiveUsed w.advance
      = ⟨[], tr, w2, .next (resp, eu)⟩)
    (hd : isResponseDone resp = false) :
    ∃ (m : RunTaskEvent) (tr2 : List Obs) (w3 : World) (st2 : LoopState),
      m.Kind = "message".toList ∧ m.Message = resp.Message.Content ∧ m.Step = step ∧
      r.runStep a js env fuel req corr ctxFiles step st w
        = ⟨m :: tokenEventsFrom req.SessionID corr step 0 (Fields resp.Message.Content),
            tr2, w3, .next st2⟩ := by
  obtain ⟨hflow, hevs⟩ := emitTokens_all env req.SessionID corr step hs
    (Fields resp.Message.Content) 0 w2
  have hemit : ∃ tr3 w3, emitTokens env req.SessionID corr step (Fields resp.Message.Content) 0 w2
      = ⟨tokenEventsFrom req.SessionID corr step 0 (Fields resp.Message.Content),
          tr3, w3, .next ()⟩ := by
    generalize emitTokens env req.SessionID corr step (Fields resp.Message.Content) 0 w2 = o
      at hflow hevs
    obtain ⟨e, t, w3, f⟩ := o
    simp only at hflow hevs
    subst hflow
    subst hevs
    exact ⟨t, w3, rfl⟩
  obtain ⟨tr3, w3, hemit⟩ := hemit
  unfold AgentRunner.runStep
  rw [if_neg (by rw [hc]; decide), Out.bind_next, hcoder, Out.bind_next]
  simp only
  rw [Out.bind_next, hemit, Out.bind_next]
  simp only [ht]
  rw [Out.bind_next]
  simp only [hd, testPhase_not_done]
  rw [Out.bind_next]
  simp only [reflectPhase_off _ _ _ _ _ _ _ _ _ _ _ _ _ _ hr]
  rw [Out.bind_next]
  simp only [AgentRunner.finishStep, Bool.false_eq_true, if_false, List.append_nil,
    List.nil_append, List.singleton_append]
  exact ⟨_, _, _, _, rfl, rfl, rfl, rfl⟩

theorem exWordy_coder (ctx : List ContextFile) (eu : Int) (w : World) :
    ∃ prev w2, exWordyRunner.coderPhase ⟨exRegistryOf exWordyProvider, { MaxSteps := 2 }⟩ {} 3
      { SessionID := "s1".toList, Prompt := "p".toList } "s1".toList ctx eu w
      = ⟨[], [Obs.coderCall true false], w2,
          .next ({ Message := ⟨Role.assistant, exWordyContent⟩,
                   Route := { Name := "default".toList, Provider := "mock".toList,
                              Model := "m".toList },
                   FinishReason := [], PreviousAssistant := prev }, eu)⟩ := by
  obtain ⟨prev, w2, hrun⟩ := exWordy_Run ctx w
  refine ⟨prev, w2, ?_⟩
  unfold AgentRunner.coderPhase
  have hsel : exWordyRunner.selectModel "coder".toList
      (firstNonEmpty [({ SessionID := "s1".toList, Prompt := "p".toList } :
        RunTaskRequest).Model]) eu w
      = ([], eu, w) := rfl
  rw [hsel]
  simp only
  unfold AgentRunner.callWithFallback
  simp only
  rw [hrun]
  simp only [noteCoder, exWordy_not_done]

theorem stepLoop_zero (r : AgentRunner) (a : Animus.Agent) (js : JsonCodec) (env : Env)
    (fuel : Nat) (req : RunTaskRequest) (corr : Str) (ctxFiles : List ContextFile) (step : Int)
    (st : LoopState) (w : World) :
    r.stepLoop a js env fuel req corr ctxFiles 0 step st w
      = ⟨[{ Kind := "done".toList, SessionID := req.SessionID, CorrelationID := corr,
            Done := true, FinishReason := "max_steps".toList, Step := a.MaxSteps }], [],
          r.recordRun "max_steps".toList st.tokenCount w, .returned⟩ := rfl

theorem stepLoop_succ_next (r : AgentRunner) (a : Animus.Agent) (js : JsonCodec) (env : Env)
    (fuel : Nat) (req : RunTaskRequest) (corr : Str) (ctxFiles : List ContextFile) (n : Nat)
    (step : Int) (st : LoopState) (w : World) (evs : List RunTaskEvent) (tr : List Obs)
    (w2 : World) (st2 : LoopState)
    (h : r.runStep a js env fuel req corr ctxFiles step st w = ⟨evs, tr, w2, .next st2⟩) :
    r.stepLoop a js env fuel req corr ctxFiles (n + 1) step st w
      = ⟨evs ++ (r.stepLoop a js env fuel req corr ctxFiles n (step + 1) st2 w2).events,
         tr ++ (r.stepLoop a js env fuel req corr ctxFiles n (step + 1) st2 w2).trace,
         (r.stepLoop a js env fuel req corr ctxFiles n (step + 1) st2 w2).world,
         (r.stepLoop a js env fuel req corr ctxFiles n (step + 1) st2 w2).halt⟩ := by
  rw [AgentRunner.stepLoop, h]

theorem tokenEventsFrom_append (sid corr : Str) (step : Int) :
    ∀ (a b : List Str) (idx : Nat),
      tokenEventsFrom sid corr step idx (a ++ b)
        = tokenEventsFrom sid corr step idx a
          ++ tokenEventsFrom sid corr step (idx + a.length) b := by
  intro a
  induction a with
  | nil => intro b idx; rfl
  | cons t ts ih =>
    intro b idx
    rw [List.cons_append, tokenEventsFrom, tokenEventsFrom, ih, List.cons_append,
      List.length_cons, Nat.add_assoc, Nat.add_comm 1]

/-- A step of the run of `exWordyRunner`: the `message` event and the `token` events of all
1001 words, and the run goes on. -/
theorem exWordy_runStep (ctx : List ContextFile) (step : Int) (st : LoopState) (w : World) :
    ∃ (m : RunTaskEvent) (tr : List Obs) (w2 : World) (st2 : LoopState),
      m.Kind = "message".toList ∧
      exWordyRunner.runStep ⟨exRegistryOf exWordyProvider, { MaxSteps := 2 }⟩ exJson {} 3
          { SessionID := "s1".toList, Prompt := "p".toList } "s1".toList ctx step st w
        = ⟨m :: tokenEventsFrom "s1".toList "s1".toList step 0
              (List.replicate 1001 "w".toList), tr, w2, .next st2⟩ := by
  obtain ⟨prev, w2, hcoder⟩ := exWordy_coder ctx st.expensiveUsed w.advance
  obtain ⟨m, tr2, w3, st2, hk, -, -, h⟩ :=
    runStep_plain exWordyRunner ⟨exRegistryOf exWordyProvider, { MaxSteps := 2 }⟩ exJson {} 3
      { SessionID := "s1".toList, Prompt := "p".toList } "s1".toList ctx step st w _ _ _ _
      (fun _ => rfl) (fun _ => rfl) rfl rfl hcoder (exWordy_not_done _ _)
  refine ⟨m, tr2, w3, st2, hk, ?_⟩
  rw [h]
  simp only
  rw [show exWordyContent = (List.replicate 1001 "w ".toList).flatten from rfl, Fields_words]

theorem tokenKeys_not_increasing (A B C : List RunTaskEvent) (e1 e2 : RunTaskEvent)
    (h1 : e1.Kind = "token".toList) (h2 : e2.Kind = "token".toList) (hs : e2.Step ≤ e1.Step) :
    ¬ (tokenKeys (A ++ e1 :: B ++ e2 :: C)).Pairwise (· < ·) := by
  intro hp
  have hsub : List.Sublist [e1, e2] (A ++ e1 :: B ++ e2 :: C) := by
    have h : List.Sublist [e1] (A ++ e1 :: B) := List.singleton_sublist.mpr (by simp)
    exact h.append (List.singleton_sublist.mpr (List.mem_cons_self _ _))
  have hk : tokenKeys [e1, e2] = [e1.Step, e2.Step] := by
    unfold tokenKeys
    rw [List.filter_cons_of_pos (by simp [h1]), List.filter_cons_of_pos (by simp [h2])]
    rfl
  have h := hp.sublist ((hsub.filter _).map _)
  have h3 : (tokenKeys [e1, e2]).Pairwise (· < ·) := h
  rw [hk] at h3
  have h4 := List.rel_of_pairwise_cons h3 (List.mem_singleton_self _)
  omega

/-- The events of the run of `exWordyRunner`: two steps of a `message` event and 1001 `token`
events each, then `done`. -/
theorem exWordy_events :
    ∃ (m1 m2 d : RunTaskEvent),
      (exWordyRunner.Run exJson {} 3 { SessionID := "s1".toList, Prompt := "p".toList } {}).events
        = (m1 :: tokenEventsFrom "s1".toList "s1".toList 1 0 (List.replicate 1001 "w".toList))
          ++ ((m2 :: tokenEventsFrom "s1".toList "s1".toList (1 + 1) 0
                (List.replicate 1001 "w".toList)) ++ [d]) ∧
      (exWordyRunner.Run exJson {} 3 { SessionID := "s1".toList, Prompt := "p".toList } {}).halt
        = Halt.returned := by
  have hctx : buildContextFiles exWordyRunner.Tools {} "p".toList [] 0 {} = (.ok [], {}) := rfl
  have hpre : ∀ w, exWordyRunner.preTools {}
      { SessionID := "s1".toList, Prompt := "p".toList } "s1".toList w
      = ⟨[], [], w, .next []⟩ := fun _ => rfl
  have hplan : ∀ w, exWordyRunner.planPhase ⟨exRegistryOf exWordyProvider, { MaxSteps := 2 }⟩ {}
      3 { SessionID := "s1".toList, Prompt := "p".toList } "s1".toList [] 0 w
      = ⟨[], [], w, .next 0⟩ := fun _ => rfl
  have hrun : exWordyRunner.Run exJson {} 3 { SessionID := "s1".toList, Prompt := "p".toList } {}
      = ⟨[] ++ [] ++ (exWordyRunner.stepLoop ⟨exRegistryOf exWordyProvider, { MaxSteps := 2 }⟩
            exJson {} 3 { SessionID := "s1".toList, Prompt := "p".toList } "s1".toList [] 2 1
            { initialTools := [], expensiveUsed := 0, tokenCount := 0 } {}).events,
         Obs.contextBuilt true :: ([] ++ [] ++ (exWordyRunner.stepLoop
            ⟨exRegistryOf exWordyProvider, { MaxSteps := 2 }⟩ exJson {} 3
            { SessionID := "s1".toList, Prompt := "p".toList } "s1".toList [] 2 1
            { initialTools := [], expensiveUsed := 0, tokenCount := 0 } {}).trace),
         (exWordyRunner.stepLoop ⟨exRegistryOf exWordyProvider, { MaxSteps := 2 }⟩ exJson {} 3
            { SessionID := "s1".toList, Prompt := "p".toList } "s1".toList [] 2 1
            { initialTools := [], expensiveUsed := 0, tokenCount := 0 } {}).world,
         (exWordyRunner.stepLoop ⟨exRegistryOf exWordyProvider, { MaxSteps := 2 }⟩ exJson {} 3
            { SessionID := "s1".toList, Prompt := "p".toList } "s1".toList [] 2 1
            { initialTools := [], expensiveUsed := 0, tokenCount := 0 } {}).halt⟩ := by
    unfold AgentRunner.Run
    simp only
    rw [show exWordyRunner.Agent = some ⟨exRegistryOf exWordyProvider, { MaxSteps := 2 }⟩
      from rfl]
    simp only
    rw [show Agent.MaxContextBytes ⟨exRegistryOf exWordyProvider, { MaxSteps := 2 }⟩ = 0
      from rfl, hctx]
    simp only
    rw [if_pos trivial, hpre]
    simp only
    rw [hplan]
    rfl
  obtain ⟨m1, tr1, w1, st1, -, h1⟩ := exWordy_runStep [] 1
    { initialTools := [], expensiveUsed := 0, tokenCount := 0 } {}
  obtain ⟨m2, tr2, w2, st2, -, h2⟩ := exWordy_runStep [] (1 + 1) st1 w1
  refine ⟨m1, m2, ({ Kind := "done".toList, SessionID := "s1".toList, CorrelationID := "s1".toList, Done := true, FinishReason := "max_steps".toList, Step := 2 } : RunTaskEvent), ?_, ?_⟩
  · rw [hrun]
    simp only [List.nil_append]
    rw [stepLoop_succ_next _ _ _ _ _ _ _ _ _ _ _ _ _ _ _ _ h1]
    simp only
    rw [stepLoop_succ_next _ _ _ _ _ _ _ _ _ _ _ _ _ _ _ _ h2]
    simp only
    rw [stepLoop_zero]
    rfl
  · rw [hrun]
    simp only [List.nil_append]
    rw [stepLoop_succ_next _ _ _ _ _ _ _ _ _ _ _ _ _ _ _ _ h1]
    simp only
    rw [stepLoop_succ_next _ _ _ _ _ _ _ _ _ _ _ _ _ _ _ _ h2]
    simp only
    rw [stepLoop_zero]

/-! ## Token events and their step keys -/

/-- C16 (counterexample): the run of `exWordyRunner`, whose provider answers every call with
1001 words, returns after two steps, and two `token` events of its stream, the last one of
step 1 and, later, the first one of step 2, carry the same step key 2000: the step keys of
the run do not strictly increase. -/
theorem run_token_keys_counterexample :
    (exWordyRunner.Run exJson {} 3 { SessionID := "s1".toList, Prompt := "p".toList } {}).halt
      = Halt.returned ∧
    (∃ (A B C : List RunTaskEvent) (e1 e2 : RunTaskEvent),
      (exWordyRunner.Run exJson {} 3 { SessionID := "s1".toList, Prompt := "p".toList } {}).events
        = A ++ e1 :: B ++ e2 :: C ∧
      e1.Kind = "token".toList ∧ e2.Kind = "token".toList ∧ e1.Step = 2000 ∧ e2.Step = 2000) ∧
    ¬ (tokenKeys (exWordyRunner.Run exJson {} 3
        { SessionID := "s1".toList, Prompt := "p".toList } {}).events).Pairwise (· < ·) := by
  obtain ⟨m1, m2, d, hev, hh⟩ := exWordy_events
  have hsplit : (exWordyRunner.Run exJson {} 3
      { SessionID := "s1".toList, Prompt := "p".toList } {}).events
      = (m1 :: tokenEventsFrom "s1".toList "s1".toList 1 0 (List.replicate 1000 "w".toList))
        ++ ({ Kind := "token".toList, SessionID := "s1".toList, CorrelationID := "s1".toList,
              Token := "w".toList, Step := 2000 } : RunTaskEvent) :: [m2]
        ++ ({ Kind := "token".toList, SessionID := "s1".toList, CorrelationID := "s1".toList,
              Token := "w".toList, Step := 2000 } : RunTaskEvent)
          :: (tokenEventsFrom "s1".toList "s1".toList (1 + 1) 1
                (List.replicate 1000 "w".toList) ++ [d]) := by
    rw [hev]
    have h1 : tokenEventsFrom "s1".toList "s1".toList 1 0 (List.replicate 1001 "w".toList)
        = tokenEventsFrom "s1".toList "s1".toList 1 0 (List.replicate 1000 "w".toList)
          ++ [({ Kind := "token".toList, SessionID := "s1".toList,
                 CorrelationID := "s1".toList, Token := "w".toList,
                 Step := 2000 } : RunTaskEvent)] := by
      rw [show (1001 : Nat) = 1000 + 1 from rfl, List.replicate_succ', tokenEventsFrom_append,
        List.length_replicate]
      rfl
    have h2 : tokenEventsFrom "s1".toList "s1".toList (1 + 1) 0
          (List.replicate 1001 "w".toList)
        = ({ Kind := "token".toList, SessionID := "s1".toList, CorrelationID := "s1".toList,
             Token := "w".toList, Step := 2000 } : RunTaskEvent)
          :: tokenEventsFrom "s1".toList "s1".toList (1 + 1) 1
              (List.replicate 1000 "w".toList) := by
      rw [show (1001 : Nat) = 1000 + 1 from rfl, List.replicate_succ, tokenEventsFrom]
      rfl
    rw [h1, h2]
    simp only [List.cons_append, List.append_assoc, List.nil_append]
  refine ⟨hh, ⟨_, _, _, _, _, hsplit, rfl, rfl, rfl, rfl⟩, ?_⟩
  rw [hsplit]
  exact tokenKeys_not_increasing _ _ _ _ _ rfl rfl (le_refl _)

/-- C16 (amended): the `token` events of a run.  In every step the events are either free of
`token` events or made of events without tokens, the `message` event of the step, the `token`
events of the first `k` words of its content in content order, the one of index `idx` (from
0) carrying the step key `step * 1000 + idx`, and again events without tokens; the step keys
of a step strictly increase; the token loop either sends one `token` event for every word, or
observes a cancellation after the first `k` words and sends `error` with the message
`cancelled` after their tokens, and it sends every word when it never observes a cancellation.  Over the whole run every `token` event is a word of a
`message` event of the run with the key built from that message's step and the index of the
word, and the step keys strictly increase in emission order provided no assistant content of
the run has more than 1000 words. -/
theorem run_token_keys (r : AgentRunner) (js : JsonCodec) (env : Env) (fuel : Nat)
    (req : RunTaskRequest) (w : World) :
    (∀ (a : Agent) (corr : Str) (ctxFiles : List ContextFile) (step : Int) (st : LoopState)
        (w1 : World),
      (NoToken (r.runStep a js env fuel req corr ctxFiles step st w1).events ∨
        ∃ (A B : List RunTaskEvent) (m : RunTaskEvent) (k : Nat),
          NoToken A ∧ NoToken B ∧ m.Kind = "message".toList ∧ m.Step = step ∧
          (r.runStep a js env fuel req corr ctxFiles step st w1).events
            = A ++ [m]
              ++ tokenEventsFrom req.SessionID corr step 0 ((Fields m.Message).take k)
              ++ B) ∧
      (tokenKeys (r.runStep a js env fuel req corr ctxFiles step st w1).events).Pairwise
        (· < ·)) ∧
    (∀ (sid corr : Str) (step : Int) (toks : List Str) (w1 : World),
      (((emitTokens env sid corr step toks 0 w1).flow = .next () ∧
          (emitTokens env sid corr step toks 0 w1).events
            = tokenEventsFrom sid corr step 0 toks) ∨
        (∃ k, k < toks.length ∧
          (emitTokens env sid corr step toks 0 w1).flow = .halt .returned ∧
          (emitTokens env sid corr step toks 0 w1).events
            = tokenEventsFrom sid corr step 0 (toks.take k) ++
                [errorEvent sid corr "cancelled".toList])) ∧
      ((∀ t, env.selectDone t = false) →
        (emitTokens env sid corr step toks 0 w1).events
          = tokenEventsFrom sid corr step 0 toks)) ∧
    (∀ e ∈ (r.Run js env fuel req w).events, e.Kind = "token".toList →
      ∃ m ∈ (r.Run js env fuel req w).events, m.Kind = "message".toList ∧
        ∃ idx : Nat, (Fields m.Message)[idx]? = some e.Token ∧
          e.Step = m.Step * 1000 + idx) ∧
    ((∀ m ∈ (r.Run js env fuel req w).events,
        m.Kind = "message".toList → (Fields m.Message).length ≤ 1000) →
      (tokenKeys (r.Run js env fuel req w).events).Pairwise (· < ·)) := by
  refine ⟨fun a corr ctxFiles step st w1 =>
      ⟨runStep_tokens r a js env fuel req corr ctxFiles step st w1,
       (runStep_tokenFacts r a js env fuel req corr ctxFiles step st w1).2.1⟩,
    fun sid corr step toks w1 =>
      ⟨emitTokens_form env sid corr step toks 0 w1,
       fun hs => (emitTokens_all env sid corr step hs toks 0 w1).2⟩, ?_⟩
  cases hA : r.Agent with
  | some a => exact Run_tokenFacts r a js env fuel req w hA
  | none =>
    have hno : NoToken (r.Run js env fuel req w).events := by
      unfold AgentRunner.Run
      simp only [hA]
      intro e he
      rw [List.mem_singleton.mp he, errorEvent_kind]
      decide
    refine ⟨tokenFacts_NoToken _ hno, fun _ => ?_⟩
    rw [tokenKeys_NoToken _ hno]
    exact List.Pairwise.nil

/-- Witness for C16 (amended): in the run of `TestAgentRunnerRespectsMaxSteps` (two steps, the
provider always answers the single word `loop`) no content has more than 1000 words, and the
step keys of the `token` events are 1000 and 2000. -/
theorem run_token_keys_witness :
    tokenKeys (exLoopRunner.Run exJson {} 3 { SessionID := "s2".toList, Prompt := "p".toList }
      {}).events = [1000, 2000] ∧
    (tokenKeys (exLoopRunner.Run exJson {} 3 { SessionID := "s2".toList, Prompt := "p".toList }
      {}).events).Pairwise (· < ·) :=
  ⟨by decide,
   (run_token_keys exLoopRunner exJson {} 3 { SessionID := "s2".toList, Prompt := "p".toList }
      {}).2.2.2 (by decide)⟩

/-! ## Terminal allow and deny lists -/

theorem validateCommand_denied (t : Terminal) (cmd : Str)
    (h : ∃ d ∈ t.Denied, ToLower cmd = ToLower d) :
    t.validateCommand cmd = some ("command ".toList ++ quote cmd ++ " is denied".toList) := by
  unfold Terminal.validateCommand
  have hany : t.Denied.any (fun deny => decide (ToLower cmd = ToLower deny)) = true := by
    rw [List.any_eq_true]
    obtain ⟨d, hd, he⟩ := h
    exact ⟨d, hd, decide_eq_true he⟩
  simp only [hany, if_true]

theorem validateCommand_not_denied (t : Terminal) (cmd : Str)
    (h : ∀ d ∈ t.Denied, ToLower cmd ≠ ToLower d) :
    t.validateCommand cmd
      = if t.Allowed ≠ [] then
          if t.Allowed.any (fun allow => decide (ToLower cmd = ToLower allow)) then none
          else some ("command ".toList ++ quote cmd ++ " is not in allowlist".toList)
        else none := by
  unfold Terminal.validateCommand
  have hany : t.Denied.any (fun deny => decide (ToLower cmd = ToLower deny)) = false := by
    rw [List.any_eq_false]
    intro d hd
    simp only [decide_eq_true_eq]
    exact h d hd
  simp only [hany, Bool.false_eq_true, if_false]

/-- C17: `validateCommand` rejects a command exactly when it equals a denied entry ignoring
case (the lower-cased strings are equal), or the allow list is non-empty and the command
equals no allowed entry ignoring case.  A command equal to a denied entry is rejected as
denied whatever the allow list holds; with an empty allow list every command equal to no
denied entry is accepted.  `Exec` runs no process and leaves the world as it is, returning an
empty result and an error, when execution is disabled or the validation fails; when execution
is enabled and a non-empty command passes the validation, exactly one process is run. -/
theorem validateCommand_rejects_iff (t : Terminal) (cmd : Str) :
    ((t.validateCommand cmd).isSome = true ↔
      (∃ d ∈ t.Denied, ToLower cmd = ToLower d) ∨
      (t.Allowed ≠ [] ∧ ∀ a ∈ t.Allowed, ToLower cmd ≠ ToLower a)) ∧
    ((∃ d ∈ t.Denied, ToLower cmd = ToLower d) →
      t.validateCommand cmd
        = some ("command ".toList ++ quote cmd ++ " is denied".toList)) ∧
    (t.Allowed = [] → (∀ d ∈ t.Denied, ToLower cmd ≠ ToLower d) →
      t.validateCommand cmd = none) ∧
    (∀ (env : Env) (args : List Str) (w : World),
      (t.AllowExecution = false ∨ (t.validateCommand cmd).isSome = true) →
      (t.Exec env cmd args w).2 = w ∧ (t.Exec env cmd args w).1.1 = {} ∧
      (t.Exec env cmd args w).1.2.isSome = true) ∧
    (∀ (env : Env) (args : List Str) (w : World),
      t.AllowExecution = true → cmd ≠ [] → t.validateCommand cmd = none →
      (t.Exec env cmd args w).2.execLog = w.execLog ++ [(cmd, args)]) := by
  refine ⟨?_, validateCommand_denied t cmd, ?_, ?_, ?_⟩
  · by_cases hd : ∃ d ∈ t.Denied, ToLower cmd = ToLower d
    · rw [validateCommand_denied t cmd hd]
      exact ⟨fun _ => Or.inl hd, fun _ => rfl⟩
    · have hd2 : ∀ d ∈ t.Denied, ToLower cmd ≠ ToLower d :=
        fun d hm he => hd ⟨d, hm, he⟩
      rw [validateCommand_not_denied t cmd hd2]
      by_cases ha : t.Allowed = []
      · rw [if_neg (not_not.mpr ha)]
        constructor
        · intro h
          cases h
        · rintro (h | ⟨h, -⟩)
          · exact absurd h hd
          · exact absurd ha h
      · rw [if_pos ha]
        by_cases hany : t.Allowed.any (fun allow => decide (ToLower cmd = ToLower allow)) = true
        · rw [if_pos hany]
          constructor
          · intro h
            cases h
          · rintro (h | ⟨-, h⟩)
            · exact absurd h hd
            · rw [List.any_eq_true] at hany
              obtain ⟨a, hm, he⟩ := hany
              exact absurd (of_decide_eq_true he) (h a hm)
        · rw [if_neg hany]
          refine ⟨fun _ => Or.inr ⟨ha, ?_⟩, fun _ => rfl⟩
          intro a hm he
          apply hany
          rw [List.any_eq_true]
          exact ⟨a, hm, decide_eq_true he⟩
  · intro ha hd
    rw [validateCommand_not_denied t cmd hd, if_neg (not_not.mpr ha)]
  · intro env args w h
    unfold Terminal.Exec
    by_cases he : t.AllowExecution = true
    · have hv : (t.validateCommand cmd).isSome = true := by
        rcases h with h | h
        · rw [he] at h
          cases h
        · exact h
      rw [he]
      simp only [Bool.not_true, Bool.false_eq_true, if_false]
      by_cases hc : cmd = []
      · rw [if_pos hc]
        exact ⟨rfl, rfl, rfl⟩
      · rw [if_neg hc]
        cases hval : t.validateCommand cmd with
        | none =>
          rw [hval] at hv
          cases hv
        | some e => exact ⟨rfl, rfl, rfl⟩
    · have he2 : t.AllowExecution = false := by
        cases hx : t.AllowExecution
        · rfl
        · exact absurd hx he
      rw [he2]
      exact ⟨rfl, rfl, rfl⟩
  · intro env args w he hc hv
    unfold Terminal.Exec
    rw [he, hv]
    simp only [Bool.not_true, Bool.false_eq_true, if_false, if_neg hc]

/-! ## Validation of tool calls -/

theorem Schemas_names_known (reg : ToolRegistry) :
    ∀ s ∈ reg.Schemas, s.Name ∈ knownTools := by
  unfold ToolRegistry.Schemas
  cases reg.Semantic
  · decide
  · decide

theorem Schemas_kinds (reg : ToolRegistry) :
    ∀ s ∈ reg.Schemas, ∀ f ∈ s.Parameters,
      f.Kind ∈ ["string".toList, "boolean".toList, "array".toList, "integer".toList] := by
  unfold ToolRegistry.Schemas
  cases reg.Semantic
  · decide
  · decide

theorem Schema_mem (reg : ToolRegistry) (name : Str) (schema : Schema)
    (h : reg.Schema name = some schema) : schema ∈ reg.Schemas ∧ schema.Name = name := by
  unfold ToolRegistry.Schema at h
  have h2 := List.find?_some h
  exact ⟨List.mem_of_find?_eq_some h, of_decide_eq_true h2⟩

theorem Schema_unknown (reg : ToolRegistry) (name : Str) (h : name ∉ knownTools) :
    reg.Schema name = none := by
  cases hs : reg.Schema name with
  | none => rfl
  | some schema =>
    obtain ⟨hm, hn⟩ := Schema_mem reg name schema hs
    exact absurd (hn ▸ Schemas_names_known reg schema hm) h

/-- A field that passes the check of `validateAgainstSchema`, of one of the four declared
types: it is present when required and has the declared type when present. -/
theorem validateField_none (field : SchemaField) (args : List (Str × JVal))
    (hk : field.Kind ∈ ["string".toList, "boolean".toList, "array".toList, "integer".toList])
    (h : validateField field args = none) :
    (field.Required = true → (args.lookup field.Name).isSome = true) ∧
    (∀ v, args.lookup field.Name = some v → v.hasType field.Kind = true) := by
  unfold validateField at h
  cases hl : args.lookup field.Name with
  | none =>
    rw [hl] at h
    simp only at h
    refine ⟨fun hr => ?_, fun v hv => by cases hv⟩
    rw [hr] at h
    cases h
  | some val =>
    rw [hl] at h
    simp only at h
    refine ⟨fun _ => rfl, fun v hv => ?_⟩
    cases hv
    simp only [List.mem_cons, List.mem_singleton, List.not_mem_nil, or_false] at hk
    rcases hk with hk | hk | hk | hk
    · rw [hk] at h ⊢
      rw [if_pos rfl] at h
      cases val <;> first | rfl | (simp only at h; cases h)
    · rw [hk] at h ⊢
      rw [if_neg (by decide), if_pos rfl] at h
      cases val <;> first | rfl | (simp only at h; cases h)
    · rw [hk] at h ⊢
      rw [if_neg (by decide), if_neg (by decide), if_pos rfl] at h
      cases val <;> first | rfl | (simp only at h; cases h)
    · rw [hk] at h ⊢
      rw [if_neg (by decide), if_neg (by decide), if_neg (by decide), if_pos rfl] at h
      cases val <;> first | rfl | (simp only at h; cases h)

theorem ValidateCall_unknown (reg : ToolRegistry) (name : Str) (args : List (Str × JVal))
    (h : name ∉ knownTools) :
    ValidateCall reg name args = .err ("unknown tool ".toList ++ quote name) := by
  have h1 : name ≠ "fs.read_file".toList := fun e => h (by rw [e]; decide)
  have h2 : name ≠ "fs.write_file".toList := fun e => h (by rw [e]; decide)
  have h3 : name ≠ "fs.search".toList := fun e => h (by rw [e]; decide)
  have h4 : name ≠ "terminal.exec".toList := fun e => h (by rw [e]; decide)
  have h5 : name ≠ "git.apply_patch".toList := fun e => h (by rw [e]; decide)
  have h6 : name ≠ "git.status".toList := fun e => h (by rw [e]; decide)
  have h7 : name ≠ "git.restore_backup".toList := fun e => h (by rw [e]; decide)
  have h8 : name ≠ "git.list_backups".toList := fun e => h (by rw [e]; decide)
  have h9 : name ≠ "git.preview_backup".toList := fun e => h (by rw [e]; decide)
  have h10 : name ≠ "semantic.search".toList := fun e => h (by rw [e]; decide)
  unfold ValidateCall
  rw [Schema_unknown reg name h]
  simp only [h1, h2, h3, h4, h5, h6, h7, h8, h9, h10, or_self, if_false]

theorem ValidateCall_pass_schema (reg : ToolRegistry) (name : Str) (args : List (Str × JVal))
    (schema : Schema) (h : ValidateCall reg name args = .pass)
    (hs : reg.Schema name = some schema) : validateAgainstSchema schema args = none := by
  cases hv : validateAgainstSchema schema args with
  | none => rfl
  | some e =>
    unfold ValidateCall at h
    rw [hs] at h
    simp only [hv] at h
    cases h

/-- C18: `ValidateCall` returns nil only if the tool name belongs to the closed tool set and,
for every parameter of the schema of that tool, the parameter is present when it is required
and has its declared type (string, boolean, array, or a number for integer) when it is
present.  A name outside the closed set is rejected with the unknown-tool error, and on a nil
registry pointer every call is rejected. -/
theorem ValidateCall_nil_only_if (reg : ToolRegistry) (name : Str) (args : List (Str × JVal)) :
    (ValidateCall reg name args = .pass →
      name ∈ knownTools ∧
      ∀ schema, reg.Schema name = some schema → ∀ field ∈ schema.Parameters,
        (field.Required = true → (args.lookup field.Name).isSome = true) ∧
        (∀ v, args.lookup field.Name = some v → v.hasType field.Kind = true)) ∧
    (name ∉ knownTools →
      ValidateCall reg name args = .err ("unknown tool ".toList ++ quote name)) ∧
    (ValidateCallOn (some reg) name args = ValidateCall reg name args) ∧
    (ValidateCallOn none name args = .err "tool registry unavailable".toList) := by
  refine ⟨fun h => ⟨?_, ?_⟩, ValidateCall_unknown reg name args, rfl, rfl⟩
  · by_contra hn
    rw [ValidateCall_unknown reg name args hn] at h
    cases h
  · intro schema hs field hf
    have hv := ValidateCall_pass_schema reg name args schema h hs
    unfold validateAgainstSchema at hv
    rw [List.findSome?_eq_none_iff] at hv
    exact validateField_none field args
      (Schemas_kinds reg schema (Schema_mem reg name schema hs).1 field hf) (hv field hf)

/-- Witness for C18: the accepted call of `TestValidateCallSchema`, `fs.read_file` with the
string `file.txt` as `path`, on a registry without tools. -/
theorem ValidateCall_nil_only_if_witness :
    ValidateCall {} "fs.read_file".toList [("path".toList, JVal.str "file.txt".toList)]
      = Check.pass ∧
    "fs.read_file".toList ∈ knownTools ∧
    (JVal.str "file.txt".toList).hasType "string".toList = true :=
  ⟨rfl,
   ((ValidateCall_nil_only_if {} "fs.read_file".toList
      [("path".toList, JVal.str "file.txt".toList)]).1 rfl).1,
   (((ValidateCall_nil_only_if {} "fs.read_file".toList
      [("path".toList, JVal.str "file.txt".toList)]).1 rfl).2
      ⟨"fs.read_file".toList, [⟨"path".toList, "string".toList, true, []⟩]⟩ rfl
      ⟨"path".toList, "string".toList, true, []⟩ (List.mem_singleton.mpr rfl)).2 _ rfl⟩

/-! ## Patch backups -/

theorem chainFrom_append (e : PatchEntry) :
    ∀ (es : List PatchEntry) (prev : Str),
      chainFrom prev (es ++ [e])
        = (chainFrom prev es &&
            decide (e.ParentID = (match es.getLast? with
                                  | some latest => latest.ID
                                  | none => prev))) := by
  intro es
  induction es with
  | nil =>
    intro prev
    simp [chainFrom]
  | cons x xs ih =>
    intro prev
    rw [List.cons_append, chainFrom, chainFrom, ih x.ID, Bool.and_assoc]
    congr 2
    cases xs with
    | nil => rfl
    | cons y ys =>
      rw [List.getLast?_cons_cons]
      cases h : (y :: ys).getLast? with
      | none => exact absurd (List.getLast?_eq_none_iff.mp h) (List.cons_ne_nil y ys)
      | some l => rfl

theorem currentStack_of_stack (g : GitTool) (st : GitState) (s : patchStack)
    (h : st.stack = some s) : g.currentStack st = .ok s := by
  unfold GitTool.currentStack
  rw [h]

theorem StackKept_refl (g : GitTool) (st : GitState) : StackKept g st st := ⟨rfl, rfl⟩

theorem StackKept_advance (g : GitTool) (st : GitState) : StackKept g st st.advance :=
  ⟨rfl, rfl⟩

theorem StackKept_trans (g : GitTool) (a b c : GitState) (h1 : StackKept g a b)
    (h2 : StackKept g b c) : StackKept g a c :=
  ⟨h2.1.trans h1.1, h2.2.trans h1.2⟩

theorem runWithInput_state (g : GitTool) (env : GitEnv) (args : List Str) (input : Str)
    (st : GitState) : (g.runWithInput env args input st).2 = st.advance := rfl

/-- The outcome of `createBackup`: either it fails and the stack and the files are as before,
or the stack has one more entry, whose parent is the entry that was the latest; and when it
succeeds the latter holds and the file holds the new stack. -/
theorem createBackup_outcome (g : GitTool) (env : GitEnv) (patch : Str) (st : GitState) :
    (((g.createBackup env patch st).1 ≠ none ∧ StackKept g st (g.createBackup env patch st).2) ∨
      StackPushed g st (g.createBackup env patch st).2) ∧
    ((g.createBackup env patch st).1 = none →
      StackPushed g st (g.createBackup env patch st).2 ∧
      ∃ s, (g.createBackup env patch st).2.stack = some s ∧
        (g.createBackup env patch st).2.disk g.stackPath = StackFile.holds s) := by
  unfold GitTool.createBackup
  simp only
  cases hmk : env.osMkdirAll st.tick (JoinPath [g.WorkingDir,
      if g.BackupDir = [] then ".mycodex/patch-backups".toList else g.BackupDir]) with
  | some e =>
    simp only
    exact ⟨Or.inl ⟨by simp, StackKept_advance g st⟩, fun h => by cases h⟩
  | none =>
    simp only
    have hcur : (match st.advance.stack with
        | some s => (Except.ok s : Except Str patchStack)
        | none => loadPatchStack st.advance.disk (JoinPath [g.WorkingDir,
            if g.BackupDir = [] then ".mycodex/patch-backups".toList else g.BackupDir,
            "stack.json".toList])) = g.currentStack st := rfl
    rw [hcur]
    cases hload : g.currentStack st with
    | error e =>
      simp only
      exact ⟨Or.inl ⟨by simp, StackKept_advance g st⟩, fun h => by cases h⟩
    | ok s =>
      simp only
      cases hwr : env.osWriteFile (st.advance.tick + 1) (JoinPath [g.WorkingDir,
          if g.BackupDir = [] then ".mycodex/patch-backups".toList else g.BackupDir,
          "backup-".toList ++ fmtInt (env.unixNano st.advance.tick) ++ ".patch".toList])
          patch with
      | some e =>
        simp only
        refine ⟨Or.inl ⟨by simp, ?_, rfl⟩, fun h => by cases h⟩
        rw [hload]
        exact currentStack_of_stack g _ s rfl
      | none =>
        simp only
        unfold patchStack.save
        cases hsave : env.saveFailure st.advance.advance.advance.advance.tick
            (JoinPath [g.WorkingDir,
              if g.BackupDir = [] then ".mycodex/patch-backups".toList else g.BackupDir,
              "stack.json".toList]) with
        | some fl =>
          obtain ⟨e, left⟩ := fl
          simp only [hsave]
          exact ⟨Or.inr ⟨s, _, hload, rfl, rfl⟩, fun h => by cases h⟩
        | none =>
          simp only [hsave]
          refine ⟨Or.inr ⟨s, _, hload, rfl, rfl⟩, fun _ => ⟨⟨s, _, hload, rfl, rfl⟩, _, rfl, ?_⟩⟩
          simp only [GitTool.stackPath, if_true]

/-- The outcome of a non-dry-run `ApplyPatch`: the stack is kept or has one more entry; when
the call succeeds it has one more entry and the file holds the new stack. -/
theorem ApplyPatch_outcome (g : GitTool) (env : GitEnv) (patch : Str) (st : GitState) :
    (StackKept g st (g.ApplyPatch env patch false st).2 ∨
      StackPushed g st (g.ApplyPatch env patch false st).2) ∧
    ((g.ApplyPatch env patch false st).1.2 = none →
      StackPushed g st (g.ApplyPatch env patch false st).2 ∧
      ∃ s, (g.ApplyPatch env patch false st).2.stack = some s ∧
        (g.ApplyPatch env patch false st).2.disk g.stackPath = StackFile.holds s) := by
  unfold GitTool.ApplyPatch
  by_cases ha : g.AllowExec = true
  · by_cases hd : g.DryRunOnly = true
    · rw [ha, hd]
      exact ⟨Or.inl (StackKept_refl g st), fun h => by cases h⟩
    · have hd2 : g.DryRunOnly = false := by
        cases hx : g.DryRunOnly
        · rfl
        · exact absurd hx hd
      rw [ha, hd2]
      simp only [Bool.not_true, Bool.false_eq_true, if_false, Bool.false_and, Bool.not_false,
        if_true]
      have h := createBackup_outcome g env patch st
      generalize g.createBackup env patch st = cb at h ⊢
      obtain ⟨r, st1⟩ := cb
      cases r with
      | some e =>
        simp only at h ⊢
        refine ⟨?_, fun hn => by cases hn⟩
        rcases h.1 with ⟨-, hk⟩ | hp
        · exact Or.inl hk
        · exact Or.inr hp
      | none =>
        simp only at h ⊢
        obtain ⟨hp, s, hs, hdisk⟩ := h.2 trivial
        exact ⟨Or.inr hp, fun _ => ⟨hp, s, hs, hdisk⟩⟩
  · have ha2 : g.AllowExec = false := by
      cases hx : g.AllowExec
      · rfl
      · exact absurd hx ha
    rw [ha2]
    exact ⟨Or.inl (StackKept_refl g st), fun h => by cases h⟩

/-- A dry-run `ApplyPatch` changes neither the stack of the tool nor the files. -/
theorem ApplyPatch_dry_run (g : GitTool) (env : GitEnv) (patch : Str) (st : GitState) :
    (g.ApplyPatch env patch true st).2.stack = st.stack ∧
    (g.ApplyPatch env patch true st).2.disk = st.disk := by
  unfold GitTool.ApplyPatch
  cases g.AllowExec <;> cases g.DryRunOnly <;> exact ⟨rfl, rfl⟩

theorem loadOrInitStack_kept (g : GitTool) (st : GitState) :
    StackKept g st (g.loadOrInitStack
      (if g.BackupDir = [] then ".mycodex/patch-backups".toList else g.BackupDir) st).2 := by
  unfold GitTool.loadOrInitStack
  cases hs : st.stack with
  | some s => exact StackKept_refl g st
  | none =>
    simp only
    have hcur : loadPatchStack st.disk (JoinPath [g.WorkingDir,
        if g.BackupDir = [] then ".mycodex/patch-backups".toList else g.BackupDir,
        "stack.json".toList]) = g.currentStack st := by
      unfold GitTool.currentStack
      rw [hs]
      rfl
    rw [hcur]
    cases hload : g.currentStack st with
    | error e => exact StackKept_refl g st
    | ok s =>
      refine ⟨?_, rfl⟩
      rw [hload]
      exact currentStack_of_stack g _ s rfl

theorem StackKept_ite (g : GitTool) (st st1 : GitState) (c : Prop) [Decidable c]
    (a b : Except Str Str) (h : StackKept g st st1) :
    StackKept g st (if c then (a, st1) else (b, st1.advance)).2 := by
  split
  · exact h
  · exact StackKept_trans g st st1 _ h (StackKept_advance g st1)

theorem readBackup_kept (g : GitTool) (env : GitEnv) (name : Str) (st : GitState) :
    StackKept g st (g.readBackup env g.BackupDir name st).2 ∧
    StackKept g st (g.readBackup env
      (if g.BackupDir = [] then ".mycodex/patch-backups".toList else g.BackupDir) name st).2 := by
  have hdir : (if (if g.BackupDir = [] then ".mycodex/patch-backups".toList else g.BackupDir)
      = [] then ".mycodex/patch-backups".toList
      else (if g.BackupDir = [] then ".mycodex/patch-backups".toList else g.BackupDir))
      = (if g.BackupDir = [] then ".mycodex/patch-backups".toList else g.BackupDir) := by
    by_cases hb : g.BackupDir = []
    · rw [if_pos hb]
      rfl
    · rw [if_neg hb, if_neg hb]
  have key : ∀ dir, (if dir = [] then ".mycodex/patch-backups".toList else dir)
      = (if g.BackupDir = [] then ".mycodex/patch-backups".toList else g.BackupDir) →
      StackKept g st (g.readBackup env dir name st).2 := by
    intro dir hd
    unfold GitTool.readBackup
    simp only
    rw [hd]
    have h := loadOrInitStack_kept g st
    generalize g.loadOrInitStack
      (if g.BackupDir = [] then ".mycodex/patch-backups".toList else g.BackupDir) st = lo
      at h ⊢
    obtain ⟨r, st1⟩ := lo
    cases r with
    | error e => exact h
    | ok stack =>
      simp only at h ⊢
      by_cases he : stack.Entries = []
      · rw [if_pos he]
        exact h
      · rw [if_neg he]
        exact StackKept_ite g st st1 _ _ _ h
  exact ⟨key _ rfl, key _ hdir⟩

/-- Every operation of the git tool keeps the stack or appends one entry to it whose parent is
the entry that was the latest. -/
theorem after_outcome (g : GitTool) (env : GitEnv) (op : GitOp) (st : GitState) :
    StackKept g st (g.after env op st) ∨ StackPushed g st (g.after env op st) := by
  cases op with
  | status =>
    left
    unfold GitTool.after GitTool.Status
    cases g.AllowExec
    · exact StackKept_refl g st
    · exact StackKept_advance g st
  | applyPatch patch dryRun =>
    cases dryRun with
    | false => exact (ApplyPatch_outcome g env patch st).1
    | true =>
      left
      obtain ⟨h1, h2⟩ := ApplyPatch_dry_run g env patch st
      refine ⟨?_, h2⟩
      unfold GitTool.currentStack
      unfold GitTool.after
      simp only
      rw [h1, h2]
  | restoreBackup name =>
    left
    unfold GitTool.after GitTool.RestoreBackup
    simp only
    split
    · exact StackKept_refl g st
    · split
      · exact StackKept_refl g st
      · have h := (readBackup_kept g env name st).2
        generalize g.readBackup env
          (if g.BackupDir = [] then ".mycodex/patch-backups".toList else g.BackupDir) name st
          = rb at h ⊢
        obtain ⟨r, st1⟩ := rb
        cases r with
        | error e => exact h
        | ok data => exact StackKept_trans g st st1 _ h (StackKept_advance g st1)
  | listBackups =>
    left
    unfold GitTool.after GitTool.ListBackups
    simp only
    have h := loadOrInitStack_kept g st
    generalize g.loadOrInitStack
      (if g.BackupDir = [] then ".mycodex/patch-backups".toList else g.BackupDir) st = lo
      at h ⊢
    obtain ⟨r, st1⟩ := lo
    cases r <;> exact h
  | previewBackup name =>
    left
    exact (readBackup_kept g env name st).1

/-- C19: on every state of the patch stack, a successful non-dry-run `ApplyPatch` turns the
stack into the stack before with exactly one entry appended at the end, whose parent id is
the id of the entry that was the latest (empty when the stack was empty), and `stack.json`
holds the new stack; a dry-run `ApplyPatch` leaves the stack of the tool and the files
unchanged; and every operation of the tool preserves the chain invariant: when the parent id
of each entry is the id of the entry before it, and empty for the first, before the
operation, the same holds after it. -/
theorem applyPatch_stack_chain (g : GitTool) (env : GitEnv) (patch : Str) (st : GitState) :
    (∀ (out : Str) (st2 : GitState), g.ApplyPatch env patch false st = ((out, none), st2) →
      ∃ (s : patchStack) (e : PatchEntry),
        g.currentStack st = .ok s ∧
        st2.stack = some { Entries := s.Entries ++ [e] } ∧
        e.ParentID = (match s.latest with
                      | some latest => latest.ID
                      | none => []) ∧
        st2.disk g.stackPath = StackFile.holds { Entries := s.Entries ++ [e] }) ∧
    ((g.ApplyPatch env patch true st).2.stack = st.stack ∧
      (g.ApplyPatch env patch true st).2.disk = st.disk) ∧
    (∀ (op : GitOp),
      (∀ s, g.currentStack st = .ok s → s.chained = true) →
      ∀ s, g.currentStack (g.after env op st) = .ok s → s.chained = true) := by
  refine ⟨?_, ApplyPatch_dry_run g env patch st, ?_⟩
  · intro out st2 h
    have ho := (ApplyPatch_outcome g env patch st).2
    rw [h] at ho
    obtain ⟨⟨s, e, hcur, hst, hpar⟩, s2, hs2, hdisk⟩ := ho rfl
    refine ⟨s, e, hcur, hst, hpar, ?_⟩
    simp only at hst hs2 hdisk
    rw [hst] at hs2
    cases hs2
    exact hdisk
  · intro op hinv s hs
    rcases after_outcome g env op st with ⟨hk, -⟩ | ⟨s0, e, hcur, hst, hpar⟩
    · rw [hk] at hs
      exact hinv s hs
    · rw [currentStack_of_stack g _ _ hst] at hs
      cases hs
      have h0 := hinv s0 hcur
      unfold patchStack.chained at h0 ⊢
      simp only
      rw [chainFrom_append, h0, Bool.true_and]
      exact decide_eq_true hpar

/-- Witness for C19: `exGitTool` applies a second patch after a first one, on a system where
nothing fails: the stack of the one backup `backup-1` becomes the stack of `backup-1` and
`backup-7`, the parent of `backup-7` being `backup-1`. -/
theorem applyPatch_stack_chain_witness :
    exGitTool.currentStack exGitState
      = .ok { Entries := [{ ID := "backup-1".toList, ParentID := [],
                            FileName := "backup-1.patch".toList, CreatedAt := 3 }] } ∧
    (exGitTool.ApplyPatch {} "q".toList false exGitState).2.stack
      = some { Entries := [{ ID := "backup-1".toList, ParentID := [],
                             FileName := "backup-1.patch".toList, CreatedAt := 3 },
                           { ID := "backup-7".toList, ParentID := "backup-1".toList,
                             FileName := "backup-7.patch".toList, CreatedAt := 9 }] } ∧
    ∃ (s : patchStack) (e : PatchEntry),
      exGitTool.currentStack exGitState = .ok s ∧
      (exGitTool.ApplyPatch {} "q".toList false exGitState).2.stack
        = some { Entries := s.Entries ++ [e] } ∧
      e.ParentID = (match s.latest with
                    | some latest => latest.ID
                    | none => []) ∧
      (exGitTool.ApplyPatch {} "q".toList false exGitState).2.disk exGitTool.stackPath
        = StackFile.holds { Entries := s.Entries ++ [e] } :=
  ⟨rfl, by decide,
   (applyPatch_stack_chain exGitTool {} "q".toList exGitState).1
     (exGitTool.ApplyPatch {} "q".toList false exGitState).1.1
     (exGitTool.ApplyPatch {} "q".toList false exGitState).2 rfl⟩

/-! ## Recorded reflections -/

theorem Reflect_blank_last (a : Agent) (env : Env) (req : Request) (last : Response)
    (ctxInfo : ReflectionContext) (w : World) (hen : a.cfg.EnableReflect = true)
    (hb : TrimSpace last.Message.Content = []) :
    a.Reflect env req last ctxInfo w
      = (.error "last message is required for reflection".toList, w) := by
  unfold Agent.Reflect
  rw [hen, if_neg (by decide), if_pos hb]

theorem Reflect_unresolved (a : Agent) (env : Env) (req : Request) (last : Response)
    (ctxInfo : ReflectionContext) (w : World) (hen : a.cfg.EnableReflect = true)
    (hb : TrimSpace last.Message.Content ≠ []) (e : Str)
    (hr : a.registry.Resolve req.Model = .error e) :
    (a.Reflect env req last ctxInfo w).1 = .error e := by
  unfold Agent.Reflect
  rw [hen, if_neg (by decide), if_neg hb]
  generalize ensureSession env req.SessionID w = es
  obtain ⟨sid, w2⟩ := es
  simp only [hr]

theorem Reflect_provider_failure (a : Agent) (env : Env) (req : Request) (last : Response)
    (ctxInfo : ReflectionContext) (w : World) (hen : a.cfg.EnableReflect = true)
    (hb : TrimSpace last.Message.Content ≠ []) (provider : Provider) (route : ModelRoute)
    (e : Str) (hr : a.registry.Resolve req.Model = .ok (provider, route))
    (hf : ∀ tick creq, provider.chat tick creq = .error e) :
    (a.Reflect env req last ctxInfo w).1 = .error e := by
  unfold Agent.Reflect
  rw [hen, if_neg (by decide), if_neg hb]
  generalize ensureSession env req.SessionID w = es
  obtain ⟨sid, w2⟩ := es
  simp only [hr, callChat, hf]

/-- C20: with reflection enabled and a non-empty session id.  When `Agent.Reflect` succeeds
returning `t`, then `t` is the trimmed content of the answer of the provider the model
resolves to, the last entry of the history of the session is the assistant message
`Reflection: ` followed by `t` (the history before with this one entry appended), and the
last reflection of the session is `t`.  When `Agent.Reflect` returns an error, no history and
no last reflection changes; and it returns an error when the last message is blank, when the
model cannot be resolved and when the provider fails. -/
theorem reflect_recorded (a : Agent) (env : Env) (req : Request) (last : Response)
    (ctxInfo : ReflectionContext) (w : World) (hen : a.cfg.EnableReflect = true)
    (hsid : req.SessionID ≠ []) :
    (∀ t, (a.Reflect env req last ctxInfo w).1 = .ok t →
      (∃ (provider : Provider) (route : ModelRoute) (creq : ChatRequest)
          (cresp : ChatResponse) (tick : Nat),
        a.registry.Resolve req.Model = .ok (provider, route) ∧
        provider.chat tick creq = .ok cresp ∧ t = TrimSpace cresp.Message.Content) ∧
      ((a.Reflect env req last ctxInfo w).2.session req.SessionID).History.getLast?
        = some ⟨Role.assistant, "Reflection: ".toList ++ t⟩ ∧
      ((a.Reflect env req last ctxInfo w).2.session req.SessionID).History
        = (w.session req.SessionID).History ++ [⟨Role.assistant, "Reflection: ".toList ++ t⟩] ∧
      ((a.Reflect env req last ctxInfo w).2.session req.SessionID).LastReflection = t) ∧
    (∀ e, (a.Reflect env req last ctxInfo w).1 = .error e →
      ∀ y, ((a.Reflect env req last ctxInfo w).2.session y).History = (w.session y).History ∧
        ((a.Reflect env req last ctxInfo w).2.session y).LastReflection
          = (w.session y).LastReflection) ∧
    (TrimSpace last.Message.Content = [] →
      (a.Reflect env req last ctxInfo w).1
        = .error "last message is required for reflection".toList) ∧
    (TrimSpace last.Message.Content ≠ [] →
      (∀ e, a.registry.Resolve req.Model = .error e →
        (a.Reflect env req last ctxInfo w).1 = .error e) ∧
      (∀ provider route e, a.registry.Resolve req.Model = .ok (provider, route) →
        (∀ tick creq, provider.chat tick creq = .error e) →
        (a.Reflect env req last ctxInfo w).1 = .error e)) := by
  obtain ⟨herr, hok⟩ := Reflect_effect a env req last ctxInfo w
  refine ⟨fun t ht => ?_, herr, fun hb => ?_, fun hb => ⟨fun e hr => ?_, fun p r e hr hf => ?_⟩⟩
  · obtain ⟨sid, provider, route, creq, cresp, tick, hs, hres, hchat, htrim, hhist, hlast, -⟩ :=
      hok t ht hen
    have hs2 := hs hsid
    subst hs2
    refine ⟨⟨provider, route, creq, cresp, tick, hres, hchat, htrim⟩, ?_, hhist, hlast⟩
    rw [hhist]
    exact getLast?_snoc _ _
  · rw [Reflect_blank_last a env req last ctxInfo w hen hb]
  · exact Reflect_unresolved a env req last ctxInfo w hen hb e hr
  · exact Reflect_provider_failure a env req last ctxInfo w hen hb p r e hr hf

/-- Witness for C20: the reflection of `TestAgentReflectionFeedsNextRun` on session `s1`,
after a first run: the provider answers `reflect: add tests`, which becomes the last
reflection of the session and, prefixed, the last entry of its history. -/
theorem reflect_recorded_witness :
    ((exReflectAgent.Reflect {} { SessionID := "s1".toList, Prompt := "do".toList }
        { Message := ⟨Role.assistant, "made change".toList⟩ } {}
        (exReflectAgent.Run {} { SessionID := "s1".toList, Prompt := "do".toList } {}).2).2.session
      "s1".toList).History.getLast?
      = some ⟨Role.assistant, "Reflection: reflect: add tests".toList⟩ ∧
    ((exReflectAgent.Reflect {} { SessionID := "s1".toList, Prompt := "do".toList }
        { Message := ⟨Role.assistant, "made change".toList⟩ } {}
        (exReflectAgent.Run {} { SessionID := "s1".toList, Prompt := "do".toList } {}).2).2.session
      "s1".toList).LastReflection = "reflect: add tests".toList := by
  have h := (reflect_recorded exReflectAgent {}
    { SessionID := "s1".toList, Prompt := "do".toList }
    { Message := ⟨Role.assistant, "made change".toList⟩ } {}
    (exReflectAgent.Run {} { SessionID := "s1".toList, Prompt := "do".toList } {}).2
    rfl (by decide)).1 "reflect: add tests".toList rfl
  exact ⟨h.2.1, h.2.2.2⟩

/-! ## Termination of the fallback selection -/

theorem pickFallbackLoop_result (r : AgentRunner) (s : StrategyEngine) (role current : Str) :
    ∀ (n : Nat) (fb : Str) (tried : List Str) (eu : Int) (w : World) (name : Str) (eu2 : Int)
      (w2 : World),
      pickFallbackLoop r s role current n fb tried eu w = some (name, eu2, w2) →
      name = [] ∨ name ≠ current := by
  intro n
  induction n with
  | zero =>
    intro fb tried eu w name eu2 w2 h
    unfold pickFallbackLoop at h
    split at h
    · cases h
      exact Or.inl rfl
    · cases h
  | succ n ih =>
    intro fb tried eu w name eu2 w2 h
    unfold pickFallbackLoop at h
    split at h
    · cases h
      exact Or.inl rfl
    · split at h
      · exact ih _ _ _ _ _ _ _ h
      · split at h
        · exact ih _ _ _ _ _ _ _ h
        · split at h
          · exact ih _ _ _ _ _ _ _ h
          · rename_i hne
            cases h
            exact Or.inr (fun hc => hne (Or.inr hc))

/-- C24 fails: with the two fallbacks `x` and `y`, neither of them registered, every selection
resolves to the registry default; when that is the current model the loop of
`pickFallbackModel` skips it, and `NextFallback` alternates between `x` and `y` for ever: for
every number of iterations allowed the selection has not returned.  What does hold: without a
strategy engine the selection returns the empty string, and whenever the selection returns,
the model is the empty string or differs from the current one. -/
theorem pickFallbackModel_never_returns (r : AgentRunner) (fuel : Nat) (role current : Str)
    (eu : Int) (w : World) :
    exHangRunner.pickFallbackModel fuel "coder".toList "default".toList 0 w = none ∧
    (r.Strategy = none → r.pickFallbackModel fuel role current eu w = some ([], eu, w)) ∧
    (∀ name eu2 w2, r.pickFallbackModel fuel role current eu w = some (name, eu2, w2) →
      name = [] ∨ name ≠ current) := by
  refine ⟨?_, pickFallbackModel_no_strategy r fuel role current eu w, ?_⟩
  · unfold AgentRunner.pickFallbackModel
    show pickFallbackLoop exHangRunner exHangStrategy "coder".toList "default".toList fuel
      (exHangStrategy.NextFallback "default".toList) _ 0 w = none
    exact exHang_loop _ _ _ _ _ (Or.inl (by decide))
  · intro name eu2 w2 h
    unfold AgentRunner.pickFallbackModel at h
    cases hS : r.Strategy with
    | none =>
      rw [hS] at h
      cases h
      exact Or.inl rfl
    | some s =>
      rw [hS] at h
      exact pickFallbackLoop_result r s role current _ _ _ _ _ _ _ _ h

/-! ## Tool calls on absent tool instances -/

theorem ValidateCall_not_panic (reg : ToolRegistry) (name : Str) (args : List (Str × JVal))
    (f : Filesystem) (hf : reg.FS = some f) : ValidateCall reg name args ≠ Check.panic := by
  unfold ValidateCall
  rw [hf]
  intro h
  repeat' (first | contradiction | (split at h))

theorem ValidateCall_terminal (reg : ToolRegistry) (args : List (Str × JVal))
    (h : ValidateCall reg "terminal.exec".toList args = Check.pass) :
    ∃ t, reg.Terminal = some t := by
  cases ht : reg.Terminal with
  | some t => exact ⟨t, rfl⟩
  | none =>
    exfalso
    unfold ValidateCall at h
    rw [ht] at h
    split at h
    · cases h
    · rw [if_neg (by decide), if_pos rfl] at h
      simp only [if_true] at h
      cases h

theorem gitCall_not_panic (env : Env) (op : Str) (args : List Str) (w : World) :
    (gitCall env op args w).1 ≠ ToolResult.panic := by
  unfold gitCall
  intro h
  repeat' (first | contradiction | (split at h))

theorem toolReadFile_not_panic (env : Env) (reg : ToolRegistry) (tc : ToolCall) (w : World)
    (f : Filesystem) (hf : reg.FS = some f) :
    (toolReadFile env reg tc w).1 ≠ ToolResult.panic := by
  unfold toolReadFile
  rw [hf]
  simp only
  intro h
  split at h <;> cases h

theorem toolWriteFile_not_panic (env : Env) (reg : ToolRegistry) (tc : ToolCall) (w : World)
    (f : Filesystem) (hf : reg.FS = some f) :
    (toolWriteFile env reg tc w).1 ≠ ToolResult.panic := by
  unfold toolWriteFile
  rw [hf]
  simp only
  intro h
  split at h <;> cases h

theorem toolSearch_not_panic (env : Env) (reg : ToolRegistry) (tc : ToolCall) (w : World)
    (f : Filesystem) (hf : reg.FS = some f) :
    (toolSearch env reg tc w).1 ≠ ToolResult.panic := by
  unfold toolSearch
  rw [hf]
  simp only
  intro h
  split at h <;> cases h

theorem toolTerminalExec_not_panic (env : Env) (reg : ToolRegistry) (tc : ToolCall) (w : World)
    (t : Terminal) (ht : reg.Terminal = some t) :
    (toolTerminalExec env reg tc w).1 ≠ ToolResult.panic := by
  unfold toolTerminalExec
  rw [ht]
  simp only
  intro h
  split at h <;> cases h

theorem toolGitApplyPatch_not_panic (env : Env) (reg : ToolRegistry) (tc : ToolCall)
    (w : World) : (toolGitApplyPatch env reg tc w).1 ≠ ToolResult.panic := by
  unfold toolGitApplyPatch
  intro h
  repeat' (first | contradiction | exact absurd h (gitCall_not_panic _ _ _ _) | (split at h) |
    (simp only at h))

theorem toolGitStatus_not_panic (env : Env) (reg : ToolRegistry) (w : World) :
    (toolGitStatus env reg w).1 ≠ ToolResult.panic := by
  unfold toolGitStatus
  intro h
  repeat' (first | contradiction | exact absurd h (gitCall_not_panic _ _ _ _) | (split at h))

theorem toolGitRestoreBackup_not_panic (env : Env) (reg : ToolRegistry) (tc : ToolCall)
    (w : World) : (toolGitRestoreBackup env reg tc w).1 ≠ ToolResult.panic := by
  unfold toolGitRestoreBackup
  intro h
  repeat' (first | contradiction | exact absurd h (gitCall_not_panic _ _ _ _) | (split at h))

theorem toolGitListBackups_not_panic (env : Env) (reg : ToolRegistry) (w : World) :
    (toolGitListBackups env reg w).1 ≠ ToolResult.panic := by
  unfold toolGitListBackups
  intro h
  split at h
  · cases h
  · split at h
    · cases h
    · exact absurd h (gitCall_not_panic _ _ _ _)

theorem toolGitPreviewBackup_not_panic (env : Env) (reg : ToolRegistry) (tc : ToolCall)
    (w : World) : (toolGitPreviewBackup env reg tc w).1 ≠ ToolResult.panic := by
  unfold toolGitPreviewBackup
  intro h
  split at h
  · cases h
  · split at h
    · cases h
    · exact absurd h (gitCall_not_panic _ _ _ _)

theorem toolSemanticSearch_not_panic (env : Env) (reg : ToolRegistry) (tc : ToolCall)
    (w : World) : (toolSemanticSearch env reg tc w).1 ≠ ToolResult.panic := by
  unfold toolSemanticSearch
  intro h
  repeat' (first | contradiction | (split at h) | (simp only at h))

/-- With a file system present no tool call dereferences a nil tool instance: `ValidateCall`
rejects `terminal.exec` when the terminal is absent, and the git and semantic cases check
their instance. -/
theorem executeTool_not_panic (env : Env) (reg : ToolRegistry) (tc : ToolCall) (w : World)
    (f : Filesystem) (hf : reg.FS = some f) :
    (executeTool env (some reg) tc w).1 ≠ ToolResult.panic := by
  unfold executeTool
  simp only
  split
  · intro h
    cases h
  · cases hv : ValidateCall reg tc.Name tc.Args with
    | panic => exact absurd hv (ValidateCall_not_panic reg tc.Name tc.Args f hf)
    | err e =>
      intro h
      cases h
    | pass =>
      simp only
      unfold dispatchTool
      split
      · exact toolReadFile_not_panic env reg tc _ f hf
      · split
        · exact toolWriteFile_not_panic env reg tc _ f hf
        · split
          · exact toolSearch_not_panic env reg tc _ f hf
          · split
            · rename_i hn
              rw [hn] at hv
              obtain ⟨t, ht⟩ := ValidateCall_terminal reg tc.Args hv
              exact toolTerminalExec_not_panic env reg tc _ t ht
            · split
              · exact toolGitApplyPatch_not_panic env reg tc _
              · split
                · exact toolGitStatus_not_panic env reg _
                · split
                  · exact toolGitRestoreBackup_not_panic env reg tc _
                  · split
                    · exact toolGitListBackups_not_panic env reg _
                    · split
                      · exact toolGitPreviewBackup_not_panic env reg tc _
                      · split
                        · exact toolSemanticSearch_not_panic env reg tc _
                        · intro h
                          cases h

theorem ValidateCall_absent_terminal (reg : ToolRegistry) (args : List (Str × JVal))
    (h : reg.Terminal = none) : ∃ e, ValidateCall reg "terminal.exec".toList args = .err e := by
  cases hv : ValidateCall reg "terminal.exec".toList args with
  | err e => exact ⟨e, rfl⟩
  | panic =>
    exfalso
    unfold ValidateCall at hv
    split at hv
    · cases hv
    · rw [if_neg (by decide), if_pos rfl, h] at hv
      simp only [if_true] at hv
      cases hv
  | pass =>
    obtain ⟨t, ht⟩ := ValidateCall_terminal reg args hv
    rw [h] at ht
    cases ht

theorem ValidateCall_absent_git (reg : ToolRegistry) (name : Str) (args : List (Str × JVal))
    (h : reg.Git = none)
    (hn : name = "git.apply_patch".toList ∨ name = "git.status".toList ∨
      name = "git.restore_backup".toList ∨ name = "git.list_backups".toList ∨
      name = "git.preview_backup".toList) :
    ∃ e, ValidateCall reg name args = .err e := by
  unfold ValidateCall
  split
  · exact ⟨_, rfl⟩
  · rw [h]
    rcases hn with hn | hn | hn | hn | hn <;> subst hn
    · rw [if_neg (by decide), if_neg (by decide), if_pos (by decide)]
      exact ⟨_, rfl⟩
    · rw [if_neg (by decide), if_neg (by decide), if_pos (by decide)]
      exact ⟨_, rfl⟩
    · rw [if_neg (by decide), if_neg (by decide), if_neg (by decide), if_pos (by decide)]
      exact ⟨_, rfl⟩
    · rw [if_neg (by decide), if_neg (by decide), if_neg (by decide), if_pos (by decide)]
      exact ⟨_, rfl⟩
    · rw [if_neg (by decide), if_neg (by decide), if_neg (by decide), if_pos (by decide)]
      exact ⟨_, rfl⟩

theorem ValidateCall_absent_semantic (reg : ToolRegistry) (args : List (Str × JVal))
    (h : reg.Semantic = false) :
    ∃ e, ValidateCall reg "semantic.search".toList args = .err e := by
  unfold ValidateCall
  split
  · exact ⟨_, rfl⟩
  · rw [h, if_neg (by decide), if_neg (by decide), if_neg (by decide), if_neg (by decide),
      if_pos rfl]
    exact ⟨_, rfl⟩

theorem executeTool_of_err (env : Env) (reg : ToolRegistry) (tc : ToolCall) (w : World)
    (h : ∃ e, ValidateCall reg tc.Name tc.Args = .err e) :
    ∃ out e, (executeTool env (some reg) tc w).1 = ToolResult.fail out e := by
  obtain ⟨e, he⟩ := h
  unfold executeTool
  simp only
  split
  · exact ⟨_, _, rfl⟩
  · rw [he]
    exact ⟨_, _, rfl⟩

/-- C25 fails: `executeTool` on a registry without a file system, such as the one of
`TestAgentRunnerRunsTestsOnDone` (a terminal only), and a `fs.read_file` call with a string
path: `ValidateCall` accepts the call and `reg.FS.ReadFile` dereferences the nil file system,
so the call ends in a runtime failure instead of an error result; the same holds for every
registry without a file system and every path, on a context that is not cancelled.  What does
hold: with a file system present no tool call ends in a runtime failure, and a call of an
absent terminal, git or semantic tool is answered with an error. -/
theorem executeTool_nil_filesystem_panics (env : Env) (w : World) :
    ((executeTool {} (some { Terminal := some { AllowExecution := true,
                                                  Allowed := ["echo".toList] } })
        { Name := "fs.read_file".toList, Args := [("path".toList, JVal.str "a.txt".toList)] }
        {}).1 = ToolResult.panic) ∧
    (∀ (reg : ToolRegistry) (path : Str), reg.FS = none → env.ctxErr w.tick = false →
      (executeTool env (some reg)
        { Name := "fs.read_file".toList, Args := [("path".toList, JVal.str path)] } w).1
        = ToolResult.panic) ∧
    (∀ (reg : ToolRegistry) (f : Filesystem) (tc : ToolCall), reg.FS = some f →
      (executeTool env (some reg) tc w).1 ≠ ToolResult.panic) ∧
    (∀ (reg : ToolRegistry) (tc : ToolCall),
      (tc.Name = "terminal.exec".toList ∧ reg.Terminal = none) ∨
      ((tc.Name = "git.apply_patch".toList ∨ tc.Name = "git.status".toList ∨
        tc.Name = "git.restore_backup".toList ∨ tc.Name = "git.list_backups".toList ∨
        tc.Name = "git.preview_backup".toList) ∧ reg.Git = none) ∨
      (tc.Name = "semantic.search".toList ∧ reg.Semantic = false) →
      ∃ out e, (executeTool env (some reg) tc w).1 = ToolResult.fail out e) := by
  refine ⟨rfl, ?_, fun reg f tc hf => executeTool_not_panic env reg tc w f hf, ?_⟩
  · intro reg path hfs hc
    have hv : ValidateCall reg "fs.read_file".toList [("path".toList, JVal.str path)]
        = Check.pass := by
      have hs : reg.Schema "fs.read_file".toList
          = some ⟨"fs.read_file".toList, [⟨"path".toList, "string".toList, true, []⟩]⟩ := by
        unfold ToolRegistry.Schema ToolRegistry.Schemas
        rfl
      unfold ValidateCall
      rw [hs]
      rfl
    unfold executeTool
    simp only [hc, hv, Bool.false_eq_true, if_false]
    unfold dispatchTool
    rw [if_pos rfl]
    unfold toolReadFile
    rw [hfs]
  · intro reg tc h
    apply executeTool_of_err
    rcases h with ⟨hn, ht⟩ | ⟨hn, hg⟩ | ⟨hn, hs⟩
    · rw [hn]
      exact ValidateCall_absent_terminal reg tc.Args ht
    · exact ValidateCall_absent_git reg tc.Name tc.Args hg hn
    · rw [hn]
      exact ValidateCall_absent_semantic reg tc.Args hs

/-! ## Failing tests in a test output -/

theorem mem_unique (x : Str) : ∀ l : List Str, x ∈ unique l ↔ x ∈ l := by
  intro l
  induction l with
  | nil => simp [unique]
  | cons v vs ih =>
    unfold unique
    rw [List.mem_cons, List.mem_cons, List.mem_filter, ih]
    constructor
    · rintro (h | ⟨h, -⟩)
      · exact Or.inl h
      · exact Or.inr h
    · intro h
      by_cases hx : x = v
      · exact Or.inl hx
      · rcases h with h | h
        · exact Or.inl h
        · exact Or.inr ⟨h, by simpa using hx⟩

theorem nodup_unique : ∀ l : List Str, (unique l).Nodup := by
  intro l
  induction l with
  | nil => exact List.nodup_nil
  | cons v vs ih =>
    unfold unique
    rw [List.nodup_cons]
    refine ⟨?_, ih.filter _⟩
    intro h
    have := (List.mem_filter.mp h).2
    simp at this

/-- The values kept by `unique` are in the order of their first occurrences. -/
theorem unique_first_occurrence :
    ∀ l : List Str, (unique l).Pairwise (fun x y => l.indexOf x < l.indexOf y) := by
  intro l
  induction l with
  | nil => exact List.Pairwise.nil
  | cons v vs ih =>
    unfold unique
    rw [List.pairwise_cons]
    constructor
    · intro y hy
      have hne : y ≠ v := by simpa using (List.mem_filter.mp hy).2
      have h1 : (v == y) = false := beq_false_of_ne (Ne.symm hne)
      rw [List.indexOf_cons, List.indexOf_cons, beq_self_eq_true, h1]
      exact Nat.succ_pos _
    · refine List.Pairwise.imp_of_mem ?_ (ih.filter _)
      intro a b ha hb hab
      have hane : a ≠ v := by simpa using (List.mem_filter.mp ha).2
      have hbne : b ≠ v := by simpa using (List.mem_filter.mp hb).2
      have h1 : (v == a) = false := beq_false_of_ne (Ne.symm hane)
      have h2 : (v == b) = false := beq_false_of_ne (Ne.symm hbne)
      rw [List.indexOf_cons, List.indexOf_cons, h1, h2]
      exact Nat.succ_lt_succ hab

/-- The loop of `unique` computes the first occurrences: started with the values `seen` and
the kept values `out`, it appends to `out` the first occurrences of the values not in
`seen`. -/
theorem uniqueLoop_eq : ∀ (l seen out : List Str),
    uniqueLoop l seen out = out ++ (unique l).filter (fun x => decide (x ∉ seen)) := by
  intro l
  induction l with
  | nil =>
    intro seen out
    simp [uniqueLoop, unique]
  | cons v vs ih =>
    intro seen out
    unfold uniqueLoop unique
    by_cases hv : v ∈ seen
    · rw [if_pos hv, ih, List.filter_cons_of_neg (by simpa using hv), List.filter_filter]
      congr 1
      apply List.filter_congr
      intro x _
      by_cases hx : x ∈ seen
      · simp [hx]
      · have hxv : x ≠ v := fun h => hx (h ▸ hv)
        simp [hx, hxv]
    · rw [if_neg hv, ih, List.filter_cons_of_pos (by simpa using hv), List.filter_filter,
        List.append_assoc, List.singleton_append]
      congr 2
      apply List.filter_congr
      intro x _
      by_cases hxv : x = v
      · simp [hxv]
      · simp [hxv]

theorem uniqueLoop_unique (l : List Str) : uniqueLoop l [] [] = unique l := by
  rw [uniqueLoop_eq]
  simp

theorem unique_eq_nil (l : List Str) : unique l = [] ↔ l = [] := by
  cases l with
  | nil => simp [unique]
  | cons v vs => simp [unique]

/-- C22: for every test output, the failing list of `parseTestOutput` is what the loop of
`unique` keeps of the captured names: it has no duplicates, it contains exactly the captured
names, and its names are in the order of their first occurrences among the captured names.
The summary is empty exactly when the failing list is empty, and otherwise it is
`Failing tests: ` followed by the failing names joined by a comma and a blank.  For an output
with the line `--- FAIL: TestExample (0.00s)` the failing list contains `TestExample`. -/
theorem parseTestOutput_failing (output : Str) :
    (parseTestOutput output).2 = uniqueLoop (capturedNames output) [] [] ∧
    (parseTestOutput output).2.Nodup ∧
    (∀ x, x ∈ (parseTestOutput output).2 ↔ x ∈ capturedNames output) ∧
    (parseTestOutput output).2.Pairwise
      (fun x y => (capturedNames output).indexOf x < (capturedNames output).indexOf y) ∧
    ((parseTestOutput output).1 = [] ↔ (parseTestOutput output).2 = []) ∧
    ((parseTestOutput output).2 ≠ [] →
      (parseTestOutput output).1
        = "Failing tests: ".toList ++ Join (parseTestOutput output).2 ", ".toList) ∧
    ("--- FAIL: TestExample (0.00s)".toList ∈ splitOn '\n' output →
      "TestExample".toList ∈ (parseTestOutput output).2) := by
  have h2 : (parseTestOutput output).2 = unique (capturedNames output) := rfl
  have h1 : (parseTestOutput output).1
      = if capturedNames output ≠ [] then
          "Failing tests: ".toList ++ Join (unique (capturedNames output)) ", ".toList
        else [] := rfl
  rw [h2, h1]
  refine ⟨(uniqueLoop_unique _).symm, nodup_unique _, fun x => mem_unique x _,
    unique_first_occurrence _, ?_, ?_, ?_⟩
  · rw [unique_eq_nil]
    by_cases hn : capturedNames output = []
    · rw [if_neg (not_not.mpr hn)]
      exact ⟨fun _ => hn, fun _ => rfl⟩
    · rw [if_pos hn]
      constructor
      · intro h
        cases h
      · intro h
        exact absurd h hn
  · intro hne
    rw [if_pos (fun h => hne ((unique_eq_nil _).mpr h))]
  · intro hline
    rw [mem_unique]
    unfold capturedNames
    rw [List.mem_filterMap]
    exact ⟨_, hline, by decide⟩

/-! ## Truncation of context files -/

theorem appendWithBudget_unbounded (out : List ContextFile) (cf : ContextFile)
    (total perFileCap : Int) :
    (appendWithBudget out cf total 0 perFileCap).2.2 = false := by
  unfold appendWithBudget
  rw [if_neg (by omega)]
  simp

/-- The loop of `buildContextFiles` without a budget: when it succeeds it has stored one file
for each candidate that is neither in `seen` nor a repetition of an earlier candidate. -/
theorem contextLoop_unbounded (f : Filesystem) (env : Env) (perFileCap : Int) :
    ∀ (ps seen : List Str) (total : Int) (out files : List ContextFile) (w w2 : World),
      contextLoop f env 0 perFileCap ps seen total out w = (.ok files, w2) →
      files.length = out.length + ((unique ps).filter (fun x => decide (x ∉ seen))).length := by
  intro ps
  induction ps with
  | nil =>
    intro seen total out files w w2 h
    unfold contextLoop at h
    cases h
    simp [unique]
  | cons p rest ih =>
    intro seen total out files w w2 h
    have hskip : ((unique (p :: rest)).filter (fun x => decide (x ∉ seen))).length
        = if p ∈ seen then ((unique rest).filter (fun x => decide (x ∉ seen))).length
          else 1 + ((unique rest).filter (fun x => decide (x ∉ p :: seen))).length := by
      have hu : unique (p :: rest) = p :: (unique rest).filter (fun x => x ≠ p) := rfl
      rw [hu]
      by_cases hp : p ∈ seen
      · rw [if_pos hp, List.filter_cons_of_neg (by simpa using hp), List.filter_filter]
        congr 1
        apply List.filter_congr
        intro x _
        by_cases hx : x ∈ seen
        · simp [hx]
        · have hxp : x ≠ p := fun e => hx (e ▸ hp)
          simp [hx, hxp]
      · rw [if_neg hp, List.filter_cons_of_pos (by simpa using hp), List.filter_filter,
          List.length_cons, Nat.add_comm]
        congr 2
        apply List.filter_congr
        intro x _
        by_cases hxp : x = p
        · simp [hxp]
        · simp [hxp]
    rw [hskip]
    unfold contextLoop at h
    by_cases hp : p ∈ seen
    · rw [if_pos hp] at h ⊢
      exact ih _ _ _ _ _ _ h
    · rw [if_neg hp, if_neg (by omega)] at h
      rw [if_neg hp]
      have hstep : ∀ (cf : ContextFile) (wa : World),
          (match appendWithBudget out cf total 0 perFileCap with
            | (out, total, exhausted) =>
              if exhausted then ((.ok out : Except Str (List ContextFile)), wa)
              else contextLoop f env 0 perFileCap rest (p :: seen) total out wa)
            = (.ok files, w2) →
          files.length
            = out.length + (1 + ((unique rest).filter
                (fun x => decide (x ∉ p :: seen))).length) := by
        intro cf wa hm
        have hex := appendWithBudget_unbounded out cf total perFileCap
        have hout : (appendWithBudget out cf total 0 perFileCap).1.length = out.length + 1 := by
          unfold appendWithBudget
          rw [if_neg (by omega)]
          simp
        generalize appendWithBudget out cf total 0 perFileCap = r at hm hex hout
        obtain ⟨o2, t2, e2⟩ := r
        simp only at hm hex hout
        rw [hex] at hm
        simp only [Bool.false_eq_true, if_false] at hm
        rw [ih _ _ _ _ _ _ hm, hout]
        omega
      split at h
      · cases h
      · split at h
        · cases h
        · exact hstep _ _ h
      · split at h
        · cases h
        · exact hstep _ _ h

/-- C23: `appendWithBudget` as called by `buildContextFiles`, that is with the per-file cap of
`buildContextFiles` and in a budget state that passed the check at the head of its loop
(without a budget, or with fewer bytes accumulated than the budget), for every context file,
whatever its bytes: the file is appended with its content unchanged when the content has at
most as many bytes as the effective cap, and otherwise with the first cap bytes of the
content followed by the bytes of the mark `[truncated]` on a new line, and the bytes stored
are added to the total; the effective cap is 32 KiB without a budget and otherwise the smaller
of 32 KiB and the budget minus the bytes accumulated.  Without a budget the budget is never
reported exhausted, and `buildContextFiles` on explicit paths, when it succeeds, returns one
file for each distinct path.  In the remaining budget state, nothing left of a positive
budget, `appendWithBudget` stores nothing and reports the budget exhausted. -/
theorem appendWithBudget_truncates (out : List ContextFile) (cf : ContextFile)
    (total maxBytes : Int) :
    (maxBytes = 0 ∨ (0 < maxBytes ∧ 0 ≤ total ∧ total < maxBytes) →
      (appendWithBudget out cf total maxBytes
          (if maxBytes > 0 ∧ maxBytes < 32 * 1024 then maxBytes else 32 * 1024)).1
        = out ++ [if (cf.Content.length : Int) ≤ effectiveCap maxBytes total then cf
                  else { cf with
                    Content := cf.Content.take (effectiveCap maxBytes total).toNat ++
                      utf8 "\n[truncated]".toList }] ∧
      (appendWithBudget out cf total maxBytes
          (if maxBytes > 0 ∧ maxBytes < 32 * 1024 then maxBytes else 32 * 1024)).2.1
        = total + (if (cf.Content.length : Int) ≤ effectiveCap maxBytes total
                    then (cf.Content.length : Int)
                    else effectiveCap maxBytes total + 12)) ∧
    (∀ perFileCap, (appendWithBudget out cf total 0 perFileCap).2.2 = false) ∧
    (∀ perFileCap, 0 < maxBytes → maxBytes ≤ total →
      appendWithBudget out cf total maxBytes perFileCap = (out, total, true)) ∧
    (∀ (reg : ToolRegistry) (f : Filesystem) (env : Env) (prompt : Str) (paths : List Str)
        (w w2 : World) (files : List ContextFile),
      reg.FS = some f → paths ≠ [] →
      buildContextFiles (some reg) env prompt paths 0 w = (.ok files, w2) →
      files.length = (unique paths).length) := by
  refine ⟨?_, fun c => appendWithBudget_unbounded out cf total c, ?_, ?_⟩
  · intro hstate
    have hguard : ¬ (maxBytes > 0 ∧ maxBytes - total ≤ 0) := by omega
    have hlimit : (if maxBytes > 0 ∧ maxBytes - total
          < (if maxBytes > 0 ∧ maxBytes < 32 * 1024 then maxBytes else 32 * 1024)
        then maxBytes - total
        else (if maxBytes > 0 ∧ maxBytes < 32 * 1024 then maxBytes else 32 * 1024))
        = effectiveCap maxBytes total := by
      unfold effectiveCap
      split_ifs <;> omega
    have hcappos : 0 < effectiveCap maxBytes total := by
      unfold effectiveCap
      split_ifs <;> omega
    unfold appendWithBudget
    rw [if_neg hguard]
    simp only
    rw [hlimit]
    have hm : truncatedMark.length = 12 := by decide
    by_cases hlen : (cf.Content.length : Int) ≤ effectiveCap maxBytes total
    · rw [if_pos hlen, if_pos hlen, if_neg (by omega)]
      exact ⟨rfl, rfl⟩
    · rw [if_neg hlen, if_neg hlen, if_pos ⟨hcappos, by omega⟩]
      refine ⟨rfl, ?_⟩
      simp only [List.length_append, List.length_take, hm]
      push_cast
      omega
  · intro c hpos hle
    unfold appendWithBudget
    rw [if_pos (by omega)]
  · intro reg f env prompt paths w w2 files hf hp h
    unfold buildContextFiles at h
    simp only [hf, if_pos hp] at h
    have := contextLoop_unbounded f env _ _ _ _ _ _ _ _ h
    simpa using this

/-- Witness for C23: under a budget of 20 bytes with nothing accumulated, a file whose content
is eleven times the letter `é`, 22 bytes, is stored as its first 20 bytes, the bytes of ten
letters, followed by the mark, and the total becomes 32.  A content of seven euro signs, 21
bytes, is cut inside the seventh sign: the first 20 bytes are the bytes of six signs and the
first two of the three bytes of the seventh. -/
theorem appendWithBudget_truncates_witness :
    (utf8 (List.replicate 11 'é')).length = 22 ∧
    (appendWithBudget [] { Path := "e.txt".toList, Content := utf8 (List.replicate 11 'é') }
        0 20 20).1
      = [{ Path := "e.txt".toList,
           Content := utf8 (List.replicate 10 'é') ++ utf8 "\n[truncated]".toList }] ∧
    (appendWithBudget [] { Path := "e.txt".toList, Content := utf8 (List.replicate 11 'é') }
        0 20 20).2.1 = 32 ∧
    (appendWithBudget [] { Path := "euro.txt".toList, Content := utf8 (List.replicate 7 '€') }
        0 20 20).1
      = [{ Path := "euro.txt".toList,
           Content := utf8 (List.replicate 6 '€') ++ [0xE2, 0x82] ++
             utf8 "\n[truncated]".toList }] := by
  have h := (appendWithBudget_truncates []
    { Path := "e.txt".toList, Content := utf8 (List.replicate 11 'é') } 0 20).1
    (Or.inr ⟨by decide, by decide, by decide⟩)
  exact ⟨by decide, h.1.trans (by decide), h.2.trans (by decide), by decide⟩

/-! ## Failed patches and the patch stack -/

/-- C28 (as stated) fails: `exGitTool` applies a patch on a system where git fails.  The
backup is recorded before git runs, so `ApplyPatch` returns the error of git while the stack,
empty before the call, holds the entry `backup-1` after it, in the tool and in `stack.json`:
the latest backup denotes a patch that was never applied. -/
theorem applyPatch_failed_apply_counterexample :
    (exGitTool.ApplyPatch exGitFailEnv "p".toList false {}).1
      = ("error: patch failed".toList, some "exit status 1".toList) ∧
    exGitTool.currentStack {} = .ok { Entries := [] } ∧
    exGitTool.currentStack (exGitTool.ApplyPatch exGitFailEnv "p".toList false {}).2
      = .ok { Entries := [{ ID := "backup-1".toList, ParentID := [],
                            FileName := "backup-1.patch".toList, CreatedAt := 3 }] } ∧
    (exGitTool.ApplyPatch exGitFailEnv "p".toList false {}).2.disk exGitTool.stackPath
      = StackFile.holds { Entries := [{ ID := "backup-1".toList, ParentID := [],
                                        FileName := "backup-1.patch".toList,
                                        CreatedAt := 3 }] } :=
  ⟨rfl, rfl, rfl, rfl⟩

/-- C28 (amended): a non-dry-run `ApplyPatch` that is refused because git is disabled or the
tool is in dry-run-only mode returns an error and leaves the state as it is; one whose backup
fails returns the error of the backup prefixed by `create backup: `; and once the backup has
succeeded the stack has one more entry than before, whose parent is the entry that was the
latest, whatever git answers: the result of `ApplyPatch` is then the result of git, error
included.  In every case the stack after the call is the stack before it or the stack before
it with that one entry appended. -/
theorem applyPatch_error_stack (g : GitTool) (env : GitEnv) (patch : Str) (st : GitState) :
    (g.AllowExec = false →
      g.ApplyPatch env patch false st = (([], some "git operations disabled".toList), st)) ∧
    (g.AllowExec = true → g.DryRunOnly = true →
      g.ApplyPatch env patch false st
        = (([], some "apply_patch is restricted to dry-run mode".toList), st)) ∧
    (g.AllowExec = true → g.DryRunOnly = false →
      ∀ e, (g.createBackup env patch st).1 = some e →
        (g.ApplyPatch env patch false st).1 = ([], some ("create backup: ".toList ++ e))) ∧
    (g.AllowExec = true → g.DryRunOnly = false → (g.createBackup env patch st).1 = none →
      (g.ApplyPatch env patch false st).1
        = env.runGit (g.createBackup env patch st).2.tick g.WorkingDir
            ["apply".toList, "-".toList] patch ∧
      StackPushed g st (g.ApplyPatch env patch false st).2) ∧
    (StackKept g st (g.ApplyPatch env patch false st).2 ∨
      StackPushed g st (g.ApplyPatch env patch false st).2) := by
  refine ⟨?_, ?_, ?_, ?_, (ApplyPatch_outcome g env patch st).1⟩
  · intro ha
    unfold GitTool.ApplyPatch
    rw [ha]
    rfl
  · intro ha hd
    unfold GitTool.ApplyPatch
    rw [ha, hd]
    rfl
  · intro ha hd e he
    unfold GitTool.ApplyPatch
    rw [ha, hd]
    simp only [Bool.not_true, Bool.false_eq_true, if_false, Bool.false_and, Bool.not_false,
      if_true]
    generalize g.createBackup env patch st = cb at he ⊢
    obtain ⟨r, st1⟩ := cb
    simp only at he
    subst he
    rfl
  · intro ha hd hc
    have hout := (createBackup_outcome g env patch st).2 hc
    unfold GitTool.ApplyPatch
    rw [ha, hd]
    simp only [Bool.not_true, Bool.false_eq_true, if_false, Bool.false_and, Bool.not_false,
      if_true]
    generalize g.createBackup env patch st = cb at hc hout ⊢
    obtain ⟨r, st1⟩ := cb
    simp only at hc hout
    subst hc
    exact ⟨rfl, hout.1⟩

/-- Witness for C28 (amended): `exGitTool` on a system where git fails: the backup succeeds,
`ApplyPatch` returns the error of git and the stack has the one entry `backup-1`. -/
theorem applyPatch_error_stack_witness :
    (exGitTool.ApplyPatch exGitFailEnv "p".toList false {}).1.2
      = some "exit status 1".toList ∧
    StackPushed exGitTool {} (exGitTool.ApplyPatch exGitFailEnv "p".toList false {}).2 :=
  ⟨rfl, ((applyPatch_error_stack exGitTool exGitFailEnv "p".toList {}).2.2.2.1 rfl rfl rfl).2⟩

/-! ## The messages of a run -/

/-- `Agent.Run` without planning on a non-empty session id, a non-empty prompt and a model
that resolves: exactly one chat request is sent, with the messages built from the session as
it was before the call; on success the session differs from the one before only by the two
entries appended to its history. -/
theorem Run_noplan (a : Agent) (env : Env) (req : Request) (w : World)
    (hen : a.cfg.EnablePlan = false) (hsid : req.SessionID ≠ []) (hp : req.Prompt ≠ [])
    (provider : Provider) (route : ModelRoute)
    (hres : a.registry.Resolve req.Model = .ok (provider, route)) :
    (a.Run env req w).2.chatLog
      = w.chatLog ++ [(provider.Name,
          { Model := route.Model,
            Messages := expectedMessages a.cfg (w.session req.SessionID).Plan
              (w.session req.SessionID).LastReflection (w.session req.SessionID).History
              req.Prompt req.Context,
            MaxTokens := pickMaxTokens a.cfg.MaxTokens route.MaxTokens,
            Temperature := pickTemperature a.cfg.Temperature route.Temperature,
            Stream := false })] ∧
    (∀ resp, (a.Run env req w).1 = .ok resp →
      (a.Run env req w).2.session req.SessionID
        = { w.session req.SessionID with
            History := (w.session req.SessionID).History ++
              [⟨Role.user, buildUserPrompt req.Prompt req.Context⟩, resp.Message] }) := by
  obtain ⟨h1, h2, h3, s0, h4⟩ := ensureSession_spec env req.SessionID w hsid
  unfold Agent.Run
  rw [if_neg hp, hres]
  simp only [hen, Bool.false_eq_true, if_false]
  generalize ensureSession env req.SessionID w = es at h1 h2 h3 h4
  obtain ⟨sid, w2⟩ := es
  simp only at h1 h2 h3 h4 ⊢
  subst h1
  rw [h3]
  unfold callChat
  generalize provider.chat w2.tick _ = cr
  cases cr with
  | error e =>
    refine ⟨?_, fun resp h => by cases h⟩
    rw [h2]
    rfl
  | ok cresp =>
    refine ⟨?_, fun resp h => ?_⟩
    · rw [h2]
      rfl
    · cases h
      have hs : w2.session req.SessionID = s0 := by
        unfold World.session
        rw [h4]
        rfl
      rw [← h3, hs]
      exact session_update_same _ req.SessionID _ s0 h4

/-- The chat request of a successful `Agent.Run`, with or without planning: the last request
sent carries the messages built from the plan the session has after the run (the plan cached
before it or the one the embedded `Plan` call has just stored), and from the last reflection
and the history the session had before the run. -/
theorem Run_messages (a : Agent) (env : Env) (req : Request) (w : World) :
    ∀ resp, (a.Run env req w).1 = .ok resp →
      ∃ (sid : Str) (provider : Provider) (route : ModelRoute) (creq : ChatRequest)
        (log : List (Str × ChatRequest)),
        (req.SessionID ≠ [] → sid = req.SessionID) ∧
        a.registry.Resolve req.Model = .ok (provider, route) ∧
        (a.Run env req w).2.chatLog = log ++ [(provider.Name, creq)] ∧
        creq.Messages = expectedMessages a.cfg ((a.Run env req w).2.session sid).Plan
          (w.session sid).LastReflection (w.session sid).History req.Prompt req.Context := by
  have hplan : ∀ y, (((if a.cfg.EnablePlan then a.Plan env req w else (.ok [], w)) :
        Except Str Str × World).2.session y).History = (w.session y).History ∧
      (((if a.cfg.EnablePlan then a.Plan env req w else (.ok [], w)) :
        Except Str Str × World).2.session y).LastReflection
        = (w.session y).LastReflection := by
    intro y
    split
    · exact Plan_keeps_history a env req w y
    · exact ⟨rfl, rfl⟩
  unfold Agent.Run
  split
  · intro resp h
    cases h
  · split
    · intro resp h
      cases h
    · rename_i provider route hres
      generalize ((if a.cfg.EnablePlan then a.Plan env req w else (.ok [], w)) :
        Except Str Str × World) = pr at hplan
      obtain ⟨pres, w1⟩ := pr
      simp only at hplan
      cases pres with
      | error e =>
        intro resp h
        cases h
      | ok plan =>
        simp only
        obtain ⟨hpresent, hsid, _, hkeep⟩ := ensureSession_keeps env req.SessionID w1
        generalize ensureSession env req.SessionID w1 = es at hpresent hsid hkeep
        obtain ⟨sid, w2⟩ := es
        simp only at hpresent hsid hkeep ⊢
        obtain ⟨s0, hs0⟩ := hpresent
        split
        · intro resp h
          cases h
        · rename_i cresp w3 hc
          obtain ⟨hsess, hchat, hlog⟩ := callChat_sessions hc
          intro resp h
          have hs2 : w2.session sid = s0 := by
            unfold World.session
            rw [hs0]
            rfl
          have hs3 : w3.sessions.lookup sid = some s0 := by rw [hsess]; exact hs0
          refine ⟨sid, provider, route, _, w2.chatLog, hsid, hres, hlog, ?_⟩
          simp only
          rw [session_update_same w3 sid _ s0 hs3]
          simp only
          unfold expectedMessages
          rw [← (hplan sid).1, ← (hplan sid).2, ← (hkeep sid).1, ← (hkeep sid).2, hs2]

/-- C30: the message list `Agent.Run` sends to the provider.  The chat request of a successful
run carries, in order, the system message, the assistant message `Planned steps:` with the
plan exactly when the plan of the session is not empty, the assistant message
`Previous reflection:` with the text exactly when the last reflection of the session is not
empty, the whole history of the session, and the user message built from the prompt and the
context files; the plan is the one the session holds after the embedded `Plan` call, and
without planning the one it held before the run.  Without planning, on a non-empty session
id, the run sends exactly this one request whether or not the provider then fails.  So a
session without plan, reflection and history receives two messages, and the next run on it
receives four: the system message, the first user message, the first answer and the new user
message. -/
theorem run_message_list (a : Agent) (env : Env) (req : Request) (w : World) :
    (∀ resp, (a.Run env req w).1 = .ok resp →
      ∃ (sid : Str) (provider : Provider) (route : ModelRoute) (creq : ChatRequest)
        (log : List (Str × ChatRequest)),
        (req.SessionID ≠ [] → sid = req.SessionID) ∧
        a.registry.Resolve req.Model = .ok (provider, route) ∧
        (a.Run env req w).2.chatLog = log ++ [(provider.Name, creq)] ∧
        creq.Messages = expectedMessages a.cfg ((a.Run env req w).2.session sid).Plan
          (w.session sid).LastReflection (w.session sid).History req.Prompt req.Context) ∧
    (a.cfg.EnablePlan = false → req.SessionID ≠ [] → req.Prompt ≠ [] →
      ∀ provider route, a.registry.Resolve req.Model = .ok (provider, route) →
        ∃ creq : ChatRequest,
          (a.Run env req w).2.chatLog = w.chatLog ++ [(provider.Name, creq)] ∧
          creq.Messages = expectedMessages a.cfg (w.session req.SessionID).Plan
            (w.session req.SessionID).LastReflection (w.session req.SessionID).History
            req.Prompt req.Context) ∧
    (a.cfg.EnablePlan = false → req.SessionID ≠ [] → req.Prompt ≠ [] →
      (w.session req.SessionID).Plan = [] → (w.session req.SessionID).LastReflection = [] →
      (w.session req.SessionID).History = [] →
      ∀ provider route, a.registry.Resolve req.Model = .ok (provider, route) →
        (∃ creq : ChatRequest,
          (a.Run env req w).2.chatLog = w.chatLog ++ [(provider.Name, creq)] ∧
          creq.Messages = [⟨Role.system, buildSystemPrompt a.cfg⟩,
                           ⟨Role.user, buildUserPrompt req.Prompt req.Context⟩]) ∧
        ∀ resp, (a.Run env req w).1 = .ok resp →
          ∀ (req2 : Request) (p2 : Provider) (r2 : ModelRoute),
            req2.SessionID = req.SessionID → req2.Prompt ≠ [] →
            a.registry.Resolve req2.Model = .ok (p2, r2) →
            ∃ creq2 : ChatRequest,
              (a.Run env req2 (a.Run env req w).2).2.chatLog
                = (a.Run env req w).2.chatLog ++ [(p2.Name, creq2)] ∧
              creq2.Messages = [⟨Role.system, buildSystemPrompt a.cfg⟩,
                                ⟨Role.user, buildUserPrompt req.Prompt req.Context⟩,
                                resp.Message,
                                ⟨Role.user, buildUserPrompt req2.Prompt req2.Context⟩]) := by
  refine ⟨Run_messages a env req w, ?_, ?_⟩
  · intro hen hsid hp provider route hres
    exact ⟨_, (Run_noplan a env req w hen hsid hp provider route hres).1, rfl⟩
  · intro hen hsid hp hplan hrefl hhist provider route hres
    obtain ⟨hlog, hsess⟩ := Run_noplan a env req w hen hsid hp provider route hres
    constructor
    · refine ⟨_, hlog, ?_⟩
      simp only
      unfold expectedMessages
      rw [hplan, hrefl, hhist]
      rfl
    · intro resp hr req2 p2 r2 hs2 hp2 hres2
      have hsid2 : req2.SessionID ≠ [] := by rw [hs2]; exact hsid
      obtain ⟨hlog2, -⟩ := Run_noplan a env req2 (a.Run env req w).2 hen hsid2 hp2 p2 r2 hres2
      refine ⟨_, hlog2, ?_⟩
      simp only
      rw [hs2, hsess resp hr]
      unfold expectedMessages
      simp only
      rw [hplan, hrefl, hhist]
      rfl

/-- Witness for C30: the two runs of `TestAgentUsesRegistryAndHistory` on the fresh session
`s1`: the first request carries 2 messages and the second 4. -/
theorem run_message_list_witness :
    ((exHistoryAgent.Run {} { SessionID := "s1".toList, Prompt := "hello".toList } {}).2.chatLog.map
      (fun c => c.2.Messages.length)) = [2] ∧
    ((exHistoryAgent.Run {} { SessionID := "s1".toList, Prompt := "next".toList }
      (exHistoryAgent.Run {} { SessionID := "s1".toList, Prompt := "hello".toList }
        {}).2).2.chatLog.map (fun c => c.2.Messages.length)) = [2, 4] := by
  have h := (run_message_list exHistoryAgent {}
    { SessionID := "s1".toList, Prompt := "hello".toList } {}).2.2
    rfl (by decide) (by decide) rfl rfl rfl exHistoryProvider
    { Name := "default".toList, Provider := "mock".toList, Model := "m".toList } rfl
  obtain ⟨⟨creq, hlog, hm⟩, hnext⟩ := h
  obtain ⟨creq2, hlog2, hm2⟩ := hnext
    { Message := ⟨Role.assistant, "first".toList⟩,
      Route := { Name := "default".toList, Provider := "mock".toList, Model := "m".toList } }
    rfl { SessionID := "s1".toList, Prompt := "next".toList } exHistoryProvider
    { Name := "default".toList, Provider := "mock".toList, Model := "m".toList }
    rfl (by decide) rfl
  constructor
  · rw [hlog]
    simp only [List.map_append, List.map_cons, List.map_nil, hm]
    rfl
  · rw [hlog2, hlog]
    simp only [List.map_append, List.map_cons, List.map_nil, hm, hm2]
    rfl

/-! ## The overlap score -/

theorem overlapScore_val (query doc : List Str) (hq : query ≠ []) (hd : doc ≠ []) :
    (overlapScore query doc).val
      = ((query.countP (fun q => decide (q ∈ doc)) : Nat) : ℚ) / (query.length : ℚ) := by
  unfold overlapScore
  rw [dif_neg (by rintro (h | h) <;> contradiction)]
  rfl

theorem overlapScore_empty (query doc : List Str) (h : query = [] ∨ doc = []) :
    overlapScore query doc = Score.zero := by
  unfold overlapScore
  rw [dif_pos h]

theorem overlapScore_doc_congr (query doc doc2 : List Str) (h : ∀ t, t ∈ doc ↔ t ∈ doc2) :
    overlapScore query doc = overlapScore query doc2 := by
  have hnil : doc = [] ↔ doc2 = [] := by
    constructor
    · intro e
      subst e
      exact List.eq_nil_iff_forall_not_mem.mpr (fun t ht => by simpa using (h t).mpr ht)
    · intro e
      subst e
      exact List.eq_nil_iff_forall_not_mem.mpr (fun t ht => by simpa using (h t).mp ht)
  have hc : query.countP (fun q => decide (q ∈ doc))
      = query.countP (fun q => decide (q ∈ doc2)) := by
    apply List.countP_congr
    intro x _
    simp [h x]
  unfold overlapScore
  by_cases hq : query = [] ∨ doc = []
  · rw [dif_pos hq, dif_pos (by rcases hq with hq | hq; exact Or.inl hq; exact Or.inr (hnil.mp hq))]
  · rw [dif_neg hq, dif_neg (by
      rintro (hq2 | hq2)
      · exact hq (Or.inl hq2)
      · exact hq (Or.inr (hnil.mpr hq2)))]
    simp only [hc]

theorem overlapScore_query_perm (query query2 doc : List Str) (h : query.Perm query2) :
    overlapScore query doc = overlapScore query2 doc := by
  have hnil : query = [] ↔ query2 = [] := by
    constructor
    · intro e
      subst e
      exact h.symm.eq_nil
    · intro e
      subst e
      exact h.eq_nil
  unfold overlapScore
  by_cases hq : query = [] ∨ doc = []
  · rw [dif_pos hq, dif_pos (by rcases hq with hq | hq; exact Or.inl (hnil.mp hq); exact Or.inr hq)]
  · rw [dif_neg hq, dif_neg (by
      rintro (hq2 | hq2)
      · exact hq (Or.inl (hnil.mpr hq2))
      · exact hq (Or.inr hq2))]
    simp only [h.countP_eq, h.length_eq]

theorem Score.zero_val : Score.zero.val = 0 := by
  simp [Score.val, Score.zero]

theorem overlapScore_range (query doc : List Str) :
    0 ≤ (overlapScore query doc).val ∧ (overlapScore query doc).val ≤ 1 := by
  by_cases h : query = [] ∨ doc = []
  · rw [overlapScore_empty query doc h, Score.zero_val]
    exact ⟨le_refl _, zero_le_one⟩
  · have hq : query ≠ [] := fun e => h (Or.inl e)
    have hd : doc ≠ [] := fun e => h (Or.inr e)
    rw [overlapScore_val query doc hq hd]
    have hlen : (0 : ℚ) < (query.length : ℚ) := by
      exact_mod_cast List.length_pos.mpr hq
    constructor
    · exact div_nonneg (Nat.cast_nonneg _) (le_of_lt hlen)
    · rw [div_le_one hlen]
      exact_mod_cast List.countP_le_length _

/-- C29 (as stated) fails: for the query `a a b` and the document `a` the score is 2/3, since
both occurrences of `a` in the query are counted and the divisor is the number of query
tokens, 3; the quotient of the specification, distinct query tokens found over distinct query
tokens, is 1/2, which is also the score of the query `a b`: the score depends on the
repetitions in the query. -/
theorem overlapScore_repeated_query_counterexample :
    tokenize "a a b".toList = ["a".toList, "a".toList, "b".toList] ∧
    (overlapScore (tokenize "a a b".toList) (tokenize "a".toList)).num = 2 ∧
    (overlapScore (tokenize "a a b".toList) (tokenize "a".toList)).den = 3 ∧
    (overlapScore (tokenize "a a b".toList) (tokenize "a".toList)).val = 2 / 3 ∧
    setOverlap (tokenize "a a b".toList) (tokenize "a".toList) = 1 / 2 ∧
    (overlapScore (tokenize "a b".toList) (tokenize "a".toList)).val = 1 / 2 := by
  have hq : tokenize "a a b".toList = ["a".toList, "a".toList, "b".toList] := by decide
  have hq2 : tokenize "a b".toList = ["a".toList, "b".toList] := by decide
  have hd : tokenize "a".toList = ["a".toList] := by decide
  have hdd : (["a".toList, "a".toList, "b".toList] : List Str).dedup
      = ["a".toList, "b".toList] := by decide
  have h1 : (overlapScore ["a".toList, "a".toList, "b".toList] ["a".toList]).num = 2 := by
    decide
  have h2 : (overlapScore ["a".toList, "a".toList, "b".toList] ["a".toList]).den = 3 := by
    decide
  have h3 : (overlapScore ["a".toList, "b".toList] ["a".toList]).num = 1 := by decide
  have h4 : (overlapScore ["a".toList, "b".toList] ["a".toList]).den = 2 := by decide
  have h5 : (["a".toList, "b".toList] : List Str).filter (fun q => decide (q ∈ ["a".toList]))
      = ["a".toList] := by decide
  rw [hq, hq2, hd]
  refine ⟨rfl, h1, h2, ?_, ?_, ?_⟩
  · unfold Score.val
    rw [h1, h2]
    norm_num
  · unfold setOverlap
    rw [if_neg (by decide), hdd, h5]
    norm_num
  · unfold Score.val
    rw [h3, h4]
    norm_num

/-- C29 (amended): `overlapScore` is the number of entries of the query that occur among the
document tokens, each occurrence of a repeated query token counted, divided by the number of
entries of the query; it is 0 when either list is empty and lies between 0 and 1.  It does
not depend on the order of the document tokens nor on their repetitions, and not on the order
of the query tokens; when the query has no repeated token it is the number of distinct query
tokens that occur in the document divided by the number of distinct query tokens. -/
theorem overlapScore_counts (query doc : List Str) :
    (query ≠ [] → doc ≠ [] →
      (overlapScore query doc).val
        = ((query.countP (fun q => decide (q ∈ doc)) : Nat) : ℚ) / (query.length : ℚ)) ∧
    (query = [] ∨ doc = [] → (overlapScore query doc).val = 0) ∧
    (0 ≤ (overlapScore query doc).val ∧ (overlapScore query doc).val ≤ 1) ∧
    (∀ doc2 : List Str, (∀ t, t ∈ doc ↔ t ∈ doc2) →
      overlapScore query doc = overlapScore query doc2) ∧
    (∀ query2 : List Str, query.Perm query2 →
      overlapScore query doc = overlapScore query2 doc) ∧
    (query.Nodup → (overlapScore query doc).val = setOverlap query doc) := by
  refine ⟨overlapScore_val query doc, ?_, overlapScore_range query doc,
    fun doc2 h => overlapScore_doc_congr query doc doc2 h,
    fun query2 h => overlapScore_query_perm query query2 doc h, ?_⟩
  · intro h
    rw [overlapScore_empty query doc h, Score.zero_val]
  · intro hn
    unfold setOverlap
    by_cases h : query = [] ∨ doc = []
    · rw [if_pos h, overlapScore_empty query doc h, Score.zero_val]
    · rw [if_neg h, overlapScore_val query doc (fun e => h (Or.inl e)) (fun e => h (Or.inr e)),
        hn.dedup, List.countP_eq_length_filter]

/-- Witness for C29 (amended): the query and the first file of `TestEngineSearchRanksMatches`:
both query tokens occur in the document and the query has no repeated token, so the score is
1 and agrees with the quotient of the specification. -/
theorem overlapScore_counts_witness :
    (overlapScore (tokenize "beta gamma".toList) (tokenize "alpha beta gamma".toList)).val
      = setOverlap (tokenize "beta gamma".toList) (tokenize "alpha beta gamma".toList) ∧
    (overlapScore (tokenize "beta gamma".toList) (tokenize "alpha beta gamma".toList)).num
      = 2 ∧
    (overlapScore (tokenize "beta gamma".toList) (tokenize "alpha beta gamma".toList)).den
      = 2 :=
  ⟨(overlapScore_counts (tokenize "beta gamma".toList)
      (tokenize "alpha beta gamma".toList)).2.2.2.2.2 (by decide),
   by decide, by decide⟩

/-! ## Ranking of the semantic search -/

theorem searchVisit_mem (fw : FileWalker) (maxFileBytes : Int) (qTokens : List Str) :
    ∀ (entries : List (Str × Bool)) (reads : Nat) (acc : List Result),
      ∀ r ∈ searchVisit fw maxFileBytes qTokens entries reads acc,
        r ∈ acc ∨ (0 < r.Score.num ∧ (r.Path, false) ∈ entries) := by
  intro entries
  induction entries with
  | nil =>
    intro reads acc r hr
    exact Or.inl hr
  | cons e rest ih =>
    intro reads acc r hr
    obtain ⟨rel, symlink⟩ := e
    have hrest : ∀ reads2, r ∈ searchVisit fw maxFileBytes qTokens rest reads2 acc →
        r ∈ acc ∨ (0 < r.Score.num ∧ (r.Path, false) ∈ (rel, symlink) :: rest) := by
      intro reads2 h
      rcases ih reads2 acc r h with h1 | ⟨h1, h2⟩
      · exact Or.inl h1
      · exact Or.inr ⟨h1, List.mem_cons_of_mem _ h2⟩
    have hsym2 : symlink ≠ true → (r.Path, false) ∈ (r.Path, symlink) :: rest := by
      intro hsym
      have hs : symlink = false := by
        cases symlink
        · rfl
        · exact absurd rfl hsym
      rw [hs]
      exact List.mem_cons_self _ _
    have hstep : symlink ≠ true → ∀ c : Str,
        r ∈ (if (overlapScore qTokens (tokenize c)).num = 0 then
              searchVisit fw maxFileBytes qTokens rest (reads + 1) acc
            else
              searchVisit fw maxFileBytes qTokens rest (reads + 1)
                (acc ++ [{ Path := rel, Score := overlapScore qTokens (tokenize c),
                           Snippet := summarize c }])) →
        r ∈ acc ∨ (0 < r.Score.num ∧ (r.Path, false) ∈ (rel, symlink) :: rest) := by
      intro hsym c hc
      split at hc
      · exact hrest _ hc
      · rename_i hpos
        rcases ih _ _ r hc with h1 | ⟨h1, h2⟩
        · rcases List.mem_append.mp h1 with h3 | h3
          · exact Or.inl h3
          · right
            have hr2 := List.mem_singleton.mp h3
            subst hr2
            exact ⟨Nat.pos_of_ne_zero hpos, hsym2 hsym⟩
        · exact Or.inr ⟨h1, List.mem_cons_of_mem _ h2⟩
    unfold searchVisit at hr
    split at hr
    · exact hrest _ hr
    · rename_i hsym
      split at hr
      · exact hrest _ hr
      · exact hstep hsym _ hr

theorem not_resultLess (a b : Result) (h : ¬ resultLess b a) :
    b.Score.lt a.Score ∨ (a.Score.same b.Score ∧ a.Path ≤ b.Path) := by
  unfold resultLess at h
  by_cases hs : b.Score.same a.Score
  · rw [if_pos hs] at h
    exact Or.inr ⟨hs.symm, not_lt.mp h⟩
  · rw [if_neg hs] at h
    left
    unfold Score.lt at h ⊢
    unfold Score.same at hs
    exact Nat.lt_of_le_of_ne (Nat.le_of_not_lt h) hs

/-- What a successful `Search` returns: the first entries of the sorted list of the results
collected during the walk, as many as the effective limit allows. -/
theorem Search_ok (sorter : SliceSorter) (e : Engine) (fw : FileWalker) (query : Str)
    (limit : Int) (results : List Result) (hfs : e.fs = some fw)
    (h : Engine.Search (some e) sorter query limit = .ok results) :
    TrimSpace query ≠ [] ∧ tokenize query ≠ [] ∧
    results = (sorter.sort (searchVisit fw e.maxFileBytes (tokenize query)
      (fw.walk ['.'] e.maxFiles) 0 [])).take (if limit ≤ 0 then 5 else limit).toNat := by
  unfold Engine.Search at h
  simp only [hfs] at h
  split at h
  · cases h
  · rename_i hq
    split at h
    · cases h
    · rename_i ht
      split at h
      · cases h
      · refine ⟨hq, ht, ?_⟩
        simp only [Except.ok.injEq] at h
        rw [← h]
        have hl : (0 : Int) < (if limit ≤ 0 then 5 else limit) := by
          split <;> omega
        generalize (if limit ≤ 0 then 5 else limit) = lim at hl ⊢
        by_cases hlen : ((sorter.sort (searchVisit fw e.maxFileBytes (tokenize query)
            (fw.walk ['.'] e.maxFiles) 0 [])).length : Int) > lim
        · rw [if_pos hlen]
        · rw [if_neg hlen, List.take_of_length_le]
          omega

/-- C21: for every sorter that meets the promise of `sort.Slice`, every file walker, query and
limit.  A blank query is rejected.  The list a successful `Search` returns is sorted by score
descending with ties broken by path ascending; every result has a positive score and is a
walked entry that is not a symlink; the list has at most `limit` entries, at most 5 when the
limit is not positive; and it is the top of the ranking: together with the results left out it
is a rearrangement of the positively scoring entries collected during the walk, no result
left out is put before a returned one by the comparison, and results are left out only when
the list is full. -/
theorem search_ranked (sorter : SliceSorter) (fw : FileWalker) (maxFiles maxFileBytes : Int)
    (query : Str) (limit : Int) :
    (TrimSpace query = [] →
      Engine.Search (some (NewEngine (some fw) maxFiles maxFileBytes)) sorter query limit
        = .error "query is required".toList) ∧
    (∀ results,
      Engine.Search (some (NewEngine (some fw) maxFiles maxFileBytes)) sorter query limit
        = .ok results →
      results.Pairwise
        (fun a b => b.Score.lt a.Score ∨ (a.Score.same b.Score ∧ a.Path ≤ b.Path)) ∧
      (∀ r ∈ results, 0 < r.Score.val ∧
        (r.Path, false) ∈ fw.walk ['.'] (NewEngine (some fw) maxFiles maxFileBytes).maxFiles) ∧
      (results.length : Int) ≤ (if limit ≤ 0 then 5 else limit) ∧
      ∃ dropped : List Result,
        (results ++ dropped).Perm
          (searchVisit fw (NewEngine (some fw) maxFiles maxFileBytes).maxFileBytes
            (tokenize query)
            (fw.walk ['.'] (NewEngine (some fw) maxFiles maxFileBytes).maxFiles) 0 []) ∧
        (∀ x ∈ dropped, ∀ y ∈ results, ¬ resultLess x y) ∧
        (dropped ≠ [] → (results.length : Int) = (if limit ≤ 0 then 5 else limit))) := by
  constructor
  · intro hq
    unfold Engine.Search NewEngine
    simp only [hq, if_true]
  · intro results h
    obtain ⟨-, -, hres⟩ := Search_ok sorter _ fw query limit results rfl h
    have hl : (0 : Int) < (if limit ≤ 0 then 5 else limit) := by
      split <;> omega
    generalize (if limit ≤ 0 then 5 else limit) = lim at hres hl ⊢
    generalize hc : searchVisit fw (NewEngine (some fw) maxFiles maxFileBytes).maxFileBytes
      (tokenize query) (fw.walk ['.'] (NewEngine (some fw) maxFiles maxFileBytes).maxFiles)
      0 [] = collected at hres ⊢
    have hsorted := sorter.sorted collected
    have hperm := sorter.perm collected
    have hsplit := List.take_append_drop lim.toNat (sorter.sort collected)
    rw [← hsplit] at hsorted
    obtain ⟨h1, -, h3⟩ := List.pairwise_append.mp hsorted
    refine ⟨?_, ?_, ?_, (sorter.sort collected).drop lim.toNat, ?_, ?_, ?_⟩
    · rw [hres]
      exact h1.imp (fun {a b} hab => not_resultLess a b hab)
    · intro r hr
      rw [hres] at hr
      have hmem : r ∈ collected := hperm.mem_iff.mp (List.mem_of_mem_take hr)
      rw [← hc] at hmem
      rcases searchVisit_mem fw _ _ _ _ _ r hmem with h0 | ⟨hpos, hw⟩
      · cases h0
      · refine ⟨?_, hw⟩
        unfold Score.val
        have hd : (0 : ℚ) < (r.Score.den : ℚ) := by exact_mod_cast r.Score.pos
        have hn : (0 : ℚ) < (r.Score.num : ℚ) := by exact_mod_cast hpos
        exact div_pos hn hd
    · rw [hres, List.length_take]
      omega
    · rw [hres, hsplit]
      exact hperm
    · intro x hx y hy
      rw [hres] at hy
      exact h3 y hy x hx
    · intro hne
      rw [hres, List.length_take]
      have hlen : lim.toNat < (sorter.sort collected).length := by
        by_contra hcon
        exact hne (List.drop_eq_nil_of_le (Nat.le_of_not_lt hcon))
      omega

/-- Witness for C21: the search of `TestEngineSearchRanksMatches` with the sorter `exSorter`,
on a walk that meets `b.txt` before `a.txt`: the result is `a.txt` with score 2/2 followed by
`b.txt` with score 1/2. -/
theorem search_ranked_witness :
    ((Engine.Search (some (NewEngine (some exWalker) 10 1024)) exSorter "beta gamma".toList
        2).toOption.map
      (fun l => l.map (fun r => (r.Path, r.Score.num, r.Score.den))))
      = some [("a.txt".toList, 2, 2), ("b.txt".toList, 1, 2)] ∧
    ∀ results,
      Engine.Search (some (NewEngine (some exWalker) 10 1024)) exSorter "beta gamma".toList 2
        = .ok results →
      results.Pairwise
        (fun a b => b.Score.lt a.Score ∨ (a.Score.same b.Score ∧ a.Path ≤ b.Path)) :=
  ⟨by decide,
   fun results h =>
    ((search_ranked exSorter exWalker 10 1024 "beta gamma".toList 2).2 results h).1⟩

/-! ## The count of expensive uses -/

theorem PickWithBudget_isExp (reg : Registry) (cfg : StrategyConfig) (role override : Str)
    (eu : Int) (pk : Pick)
    (h : StrategyEngine.PickWithBudget ⟨some reg, cfg⟩ role override eu = .ok pk)
    (hname : pk.route.Name ≠ []) : pk.isExp = reg.IsExpensive pk.route.Name := by
  unfold StrategyEngine.PickWithBudget at h
  split at h
  · cases h
  · cases h
    exact absurd rfl hname
  · simp only [Except.ok.injEq] at h
    rw [← h]
    repeat' split
    all_goals rfl

theorem PickWithBudget_within_budget (reg : Registry) (cfg : StrategyConfig)
    (role override : Str) (eu : Int) (p : Provider) (r : ModelRoute)
    (hmax : cfg.MaxExpensive > 0) (hused : eu ≥ cfg.MaxExpensive)
    (hfb : firstResolving reg cfg.Fallbacks = some (p, r))
    (hcheap : reg.IsExpensive r.Name = false) (pk : Pick)
    (h : StrategyEngine.PickWithBudget ⟨some reg, cfg⟩ role override eu = .ok pk) :
    pk.isExp = false := by
  obtain ⟨p0, route0, h0⟩ := ResolveModel_ok_of_fallback reg cfg role override (p, r) hfb
  unfold StrategyEngine.PickWithBudget at h
  rw [h0] at h
  simp only [hfb, Except.ok.injEq] at h
  rw [← h]
  by_cases hexp : reg.IsExpensive route0.Name = true
  · simp [hmax, hused, hexp, hcheap]
  · have hexp2 : reg.IsExpensive route0.Name = false := by simpa using hexp
    simp [hexp2]

theorem pickFallbackLoop_counter (r : AgentRunner) (s : StrategyEngine) (role current : Str) :
    ∀ (n : Nat) (fb : Str) (tried : List Str) (eu : Int) (w : World) (name : Str) (eu1 : Int)
      (w1 : World),
      pickFallbackLoop r s role current n fb tried eu w = some (name, eu1, w1) →
      (name = [] ∧ eu1 = eu) ∨
      (name ≠ [] ∧ ∃ fb2 pk, s.PickWithBudget role fb2 eu = .ok pk ∧ pk.route.Name = name ∧
        eu1 = (if pk.isExp then eu + 1 else eu)) := by
  intro n
  induction n with
  | zero =>
    intro fb tried eu w name eu1 w1 h
    unfold pickFallbackLoop at h
    split at h
    · cases h
      exact Or.inl ⟨rfl, rfl⟩
    · cases h
  | succ n ih =>
    intro fb tried eu w name eu1 w1 h
    unfold pickFallbackLoop at h
    split at h
    · cases h
      exact Or.inl ⟨rfl, rfl⟩
    · split at h
      · exact ih _ _ _ _ _ _ _ h
      · split at h
        · exact ih _ _ _ _ _ _ _ h
        · rename_i pk hpk
          split at h
          · exact ih _ _ _ _ _ _ _ h
          · rename_i hne
            cases h
            exact Or.inr ⟨fun hc => hne (Or.inl hc), fb, pk, hpk, rfl, rfl⟩

theorem pickFallbackModel_counter (r : AgentRunner) (fuel : Nat) (role current : Str) (eu : Int)
    (w : World) (name : Str) (eu1 : Int) (w1 : World)
    (h : r.pickFallbackModel fuel role current eu w = some (name, eu1, w1)) :
    (name = [] ∧ eu1 = eu) ∨
    (name ≠ [] ∧ ∃ s fb2 pk, r.Strategy = some s ∧ s.PickWithBudget role fb2 eu = .ok pk ∧
      pk.route.Name = name ∧ eu1 = (if pk.isExp then eu + 1 else eu)) := by
  unfold AgentRunner.pickFallbackModel at h
  split at h
  · cases h
    exact Or.inl ⟨rfl, rfl⟩
  · rename_i s hs
    rcases pickFallbackLoop_counter r s role current _ _ _ _ _ _ _ _ h with h1 | ⟨h1, fb2, pk, h2⟩
    · exact Or.inl h1
    · exact Or.inr ⟨h1, s, fb2, pk, hs, h2⟩

theorem selectModel_counter (r : AgentRunner) (role override : Str) (eu : Int) (w : World) :
    ((r.selectModel role override eu w).2.1 = eu ∧
      ¬ ∃ s pk, r.Strategy = some s ∧
        s.PickWithBudget role (firstNonEmpty [override]) eu = .ok pk ∧
        pk.route.Name ≠ [] ∧ pk.isExp = true) ∨
    ((r.selectModel role override eu w).2.1 = eu + 1 ∧
      ∃ s pk, r.Strategy = some s ∧
        s.PickWithBudget role (firstNonEmpty [override]) eu = .ok pk ∧
        pk.route.Name ≠ [] ∧ pk.isExp = true ∧
        (r.selectModel role override eu w).1 = pk.route.Name) := by
  unfold AgentRunner.selectModel
  cases hs : r.Strategy with
  | none =>
    left
    refine ⟨rfl, ?_⟩
    rintro ⟨s, pk, h, -⟩
    cases h
  | some s =>
    simp only
    cases hp : s.PickWithBudget role (firstNonEmpty [override]) eu with
    | error e =>
      left
      refine ⟨rfl, ?_⟩
      rintro ⟨s2, pk, h, h2, -⟩
      cases h
      rw [hp] at h2
      cases h2
    | ok pk =>
      simp only
      by_cases hn : pk.route.Name = []
      · left
        rw [if_pos hn]
        refine ⟨rfl, ?_⟩
        rintro ⟨s2, pk2, h, h2, h3, -⟩
        cases h
        rw [hp] at h2
        cases h2
        exact h3 hn
      · rw [if_neg hn]
        by_cases he : pk.isExp = true
        · right
          refine ⟨by simp [he], s, pk, rfl, hp, hn, he, rfl⟩
        · left
          refine ⟨by simp [he], ?_⟩
          rintro ⟨s2, pk2, h, h2, -, h4⟩
          cases h
          rw [hp] at h2
          cases h2
          exact he h4

theorem selectModel_bound (r : AgentRunner) (s : StrategyEngine) (hs : r.Strategy = some s)
    (hb : ∀ role o eu pk, eu ≥ s.cfg.MaxExpensive → s.PickWithBudget role o eu = .ok pk →
      pk.isExp = false)
    (role override : Str) (eu : Int) (w : World) (hle : eu ≤ s.cfg.MaxExpensive) :
    (r.selectModel role override eu w).2.1 ≤ s.cfg.MaxExpensive := by
  rcases selectModel_counter r role override eu w with ⟨h, -⟩ | ⟨h, s2, pk, h1, h2, -, h4, -⟩
  · rw [h]
    exact hle
  · rw [h]
    rw [hs] at h1
    cases h1
    by_contra hcon
    have hge : eu ≥ s.cfg.MaxExpensive := by omega
    have := hb _ _ _ _ hge h2
    rw [h4] at this
    cases this

theorem pickFallbackModel_bound (r : AgentRunner) (s : StrategyEngine)
    (hs : r.Strategy = some s)
    (hb : ∀ role o eu pk, eu ≥ s.cfg.MaxExpensive → s.PickWithBudget role o eu = .ok pk →
      pk.isExp = false)
    (fuel : Nat) (role current : Str) (eu : Int) (w : World) (name : Str) (eu1 : Int)
    (w1 : World) (h : r.pickFallbackModel fuel role current eu w = some (name, eu1, w1))
    (hle : eu ≤ s.cfg.MaxExpensive) : eu1 ≤ s.cfg.MaxExpensive := by
  rcases pickFallbackModel_counter r fuel role current eu w name eu1 w1 h with
    ⟨-, h1⟩ | ⟨-, s2, fb2, pk, h1, h2, -, h4⟩
  · rw [h1]
    exact hle
  · rw [hs] at h1
    cases h1
    rw [h4]
    by_cases he : pk.isExp = true
    · rw [if_pos he]
      by_contra hcon
      have hge : eu ≥ s.cfg.MaxExpensive := by omega
      have := hb _ _ _ _ hge h2
      rw [he] at this
      cases this
    · rw [if_neg he]
      exact hle

theorem callWithFallback_counter {α : Type} (r : AgentRunner) (fuel : Nat) (role model : Str)
    (eu : Int) (call : Str → World → Except Str α × World) (note : Except Str α → Obs)
    (w : World) (tr : List Obs) (res : Except Str α) (eu1 : Int) (w1 : World)
    (h : r.callWithFallback fuel role model eu call note w = (tr, some (res, eu1, w1))) :
    eu1 = eu ∨ ∃ fb w0 w2, r.pickFallbackModel fuel role model eu w0 = some (fb, eu1, w2) := by
  unfold AgentRunner.callWithFallback at h
  split at h
  · cases h
    exact Or.inl rfl
  · split at h
    · cases h
    · rename_i hpick
      right
      split at h
      · split at h
        · cases h
          exact ⟨_, _, _, hpick⟩
        · cases h
          exact ⟨_, _, _, hpick⟩
      · cases h
        exact ⟨_, _, _, hpick⟩

theorem callWithFallback_bound {α : Type} (r : AgentRunner) (s : StrategyEngine)
    (hs : r.Strategy = some s)
    (hb : ∀ role o eu pk, eu ≥ s.cfg.MaxExpensive → s.PickWithBudget role o eu = .ok pk →
      pk.isExp = false)
    (fuel : Nat) (role model : Str)
    (eu : Int) (call : Str → World → Except Str α × World) (note : Except Str α → Obs)
    (w : World) (tr : List Obs) (res : Except Str α) (eu1 : Int) (w1 : World)
    (h : r.callWithFallback fuel role model eu call note w = (tr, some (res, eu1, w1)))
    (hle : eu ≤ s.cfg.MaxExpensive) : eu1 ≤ s.cfg.MaxExpensive := by
  rcases callWithFallback_counter r fuel role model eu call note w tr res eu1 w1 h with
    h1 | ⟨fb, w0, w2, h1⟩
  · rw [h1]
    exact hle
  · exact pickFallbackModel_bound r s hs hb fuel role model eu w0 fb eu1 w2 h1 hle

theorem planPhase_bound (r : AgentRunner) (s : StrategyEngine) (hs : r.Strategy = some s)
    (hb : ∀ role o eu pk, eu ≥ s.cfg.MaxExpensive → s.PickWithBudget role o eu = .ok pk →
      pk.isExp = false)
    (a : Animus.Agent) (env : Env) (fuel : Nat) (req : RunTaskRequest) (corr : Str)
    (ctxFiles : List ContextFile) (eu : Int) (w : World) (eu1 : Int)
    (h : (r.planPhase a env fuel req corr ctxFiles eu w).flow = .next eu1)
    (hle : eu ≤ s.cfg.MaxExpensive) : eu1 ≤ s.cfg.MaxExpensive := by
  unfold AgentRunner.planPhase at h
  split at h
  · have hsel := selectModel_bound r s hs hb "planner".toList
      (firstNonEmpty [req.PlannerModel, req.Model]) eu w hle
    generalize r.selectModel "planner".toList (firstNonEmpty [req.PlannerModel, req.Model])
      eu w = sm at h hsel
    obtain ⟨m, eu0, w0⟩ := sm
    simp only at h hsel
    split at h
    · cases h
    · cases h
    · rename_i hcall
      cases h
      exact callWithFallback_bound r s hs hb _ _ _ _ _ _ _ _ _ _ _ hcall hsel
  · cases h
    exact hle

theorem coderPhase_bound (r : AgentRunner) (s : StrategyEngine) (hs : r.Strategy = some s)
    (hb : ∀ role o eu pk, eu ≥ s.cfg.MaxExpensive → s.PickWithBudget role o eu = .ok pk →
      pk.isExp = false)
    (a : Animus.Agent) (env : Env) (fuel : Nat) (req : RunTaskRequest) (corr : Str)
    (ctxFiles : List ContextFile) (eu : Int) (w : World) (re : Response × Int)
    (h : (r.coderPhase a env fuel req corr ctxFiles eu w).flow = .next re)
    (hle : eu ≤ s.cfg.MaxExpensive) : re.2 ≤ s.cfg.MaxExpensive := by
  unfold AgentRunner.coderPhase at h
  have hsel := selectModel_bound r s hs hb "coder".toList (firstNonEmpty [req.Model]) eu w hle
  generalize r.selectModel "coder".toList (firstNonEmpty [req.Model]) eu w = sm at h hsel
  obtain ⟨m, eu0, w0⟩ := sm
  simp only at h hsel
  split at h
  · cases h
  · cases h
  · rename_i hcall
    cases h
    exact callWithFallback_bound r s hs hb _ _ _ _ _ _ _ _ _ _ _ hcall hsel

theorem reflectPhase_bound (r : AgentRunner) (s : StrategyEngine) (hs : r.Strategy = some s)
    (hb : ∀ role o eu pk, eu ≥ s.cfg.MaxExpensive → s.PickWithBudget role o eu = .ok pk →
      pk.isExp = false)
    (a : Animus.Agent) (js : JsonCodec) (env : Env) (fuel : Nat) (req : RunTaskRequest)
    (corr : Str) (step : Int) (resp : Response) (stepTools : List ToolObservation)
    (testObs : Option TestObservation) (done : Bool) (eu : Int) (w : World) (ro : ReflectOut)
    (h : (r.reflectPhase a js env fuel req corr step resp stepTools testObs done eu w).flow
      = .next ro)
    (hle : eu ≤ s.cfg.MaxExpensive) : ro.expensiveUsed ≤ s.cfg.MaxExpensive := by
  unfold AgentRunner.reflectPhase at h
  split at h
  · have hsel := selectModel_bound r s hs hb "critic".toList
      (firstNonEmpty [req.CriticModel, req.Model]) eu w hle
    simp only at h
    generalize r.selectModel "critic".toList (firstNonEmpty [req.CriticModel, req.Model])
      eu w = sm at h hsel
    obtain ⟨m, eu0, w0⟩ := sm
    simp only at h hsel
    split at h
    · cases h
    · cases h
    · rename_i hcall
      have hbd := callWithFallback_bound r s hs hb _ _ _ _ _ _ _ _ _ _ _ hcall hsel
      split at h
      · cases h
        exact hbd
      · cases h
        exact hbd
  · cases h
    exact hle

theorem Out.bind_flow_next {α β : Type} (o : Out α) (f : α → World → Out β) (b : β)
    (h : (o.bind f).flow = .next b) :
    ∃ a, o.flow = .next a ∧ (f a o.world).flow = .next b := by
  unfold Out.bind at h
  split at h
  · cases h
  · rename_i a ha
    exact ⟨a, ha, h⟩

theorem runStep_bound (r : AgentRunner) (s : StrategyEngine) (hs : r.Strategy = some s)
    (hb : ∀ role o eu pk, eu ≥ s.cfg.MaxExpensive → s.PickWithBudget role o eu = .ok pk →
      pk.isExp = false)
    (a : Animus.Agent) (js : JsonCodec) (env : Env) (fuel : Nat) (req : RunTaskRequest)
    (corr : Str) (ctxFiles : List ContextFile) (step : Int) (st : LoopState) (w : World)
    (st1 : LoopState)
    (h : (r.runStep a js env fuel req corr ctxFiles step st w).flow = .next st1)
    (hle : st.expensiveUsed ≤ s.cfg.MaxExpensive) :
    st1.expensiveUsed ≤ s.cfg.MaxExpensive := by
  unfold AgentRunner.runStep at h
  split at h
  · cases h
  · obtain ⟨_, -, h⟩ := Out.bind_flow_next _ _ _ h
    obtain ⟨re, hre, h⟩ := Out.bind_flow_next _ _ _ h
    obtain ⟨_, -, h⟩ := Out.bind_flow_next _ _ _ h
    obtain ⟨_, -, h⟩ := Out.bind_flow_next _ _ _ h
    obtain ⟨stepTools, -, h⟩ := Out.bind_flow_next _ _ _ h
    obtain ⟨testObs, -, h⟩ := Out.bind_flow_next _ _ _ h
    obtain ⟨ro, hro, h⟩ := Out.bind_flow_next _ _ _ h
    have h1 := coderPhase_bound r s hs hb _ _ _ _ _ _ _ _ _ hre hle
    have h2 := reflectPhase_bound r s hs hb _ _ _ _ _ _ _ _ _ _ _ _ _ _ hro h1
    unfold AgentRunner.finishStep at h
    split at h
    · cases h
    · cases h
      exact h2

/-- C26: for a runner whose strategy engine has a registry and `max_expensive > 0`.  A model
selection changes the count of expensive uses by nothing or by one: `selectModel` adds one
exactly when the pick of the strategy engine has a named route that the registry marks
expensive, which is then the model returned, and `pickFallbackModel`, whenever it returns,
adds one exactly when it returns a model that the registry marks expensive.  When moreover the
first fallback that resolves is not marked expensive, a count that is at most `max_expensive`
stays so through `selectModel` and `pickFallbackModel`, through the planning part of `Run`,
which starts from the count 0, and through every iteration of the step loop, the only places
of `Run` where the count is passed on. -/
theorem expensive_counter (r : AgentRunner) (s : StrategyEngine) (reg : Registry)
    (hs : r.Strategy = some s) (hreg : s.registry = some reg) (hmax : s.cfg.MaxExpensive > 0) :
    (∀ role override eu w,
      ((r.selectModel role override eu w).2.1 = eu ∨
        (r.selectModel role override eu w).2.1 = eu + 1) ∧
      ((r.selectModel role override eu w).2.1 = eu + 1 ↔
        ∃ pk, s.PickWithBudget role (firstNonEmpty [override]) eu = .ok pk ∧
          pk.route.Name ≠ [] ∧ (r.selectModel role override eu w).1 = pk.route.Name ∧
          reg.IsExpensive pk.route.Name = true)) ∧
    (∀ fuel role current eu w name eu1 w1,
      r.pickFallbackModel fuel role current eu w = some (name, eu1, w1) →
      (eu1 = eu ∨ eu1 = eu + 1) ∧
      (eu1 = eu + 1 ↔ name ≠ [] ∧ reg.IsExpensive name = true)) ∧
    (∀ p route, firstResolving reg s.cfg.Fallbacks = some (p, route) →
      reg.IsExpensive route.Name = false →
      (∀ role override eu w, eu ≤ s.cfg.MaxExpensive →
        (r.selectModel role override eu w).2.1 ≤ s.cfg.MaxExpensive) ∧
      (∀ fuel role current eu w name eu1 w1,
        r.pickFallbackModel fuel role current eu w = some (name, eu1, w1) →
        eu ≤ s.cfg.MaxExpensive → eu1 ≤ s.cfg.MaxExpensive) ∧
      (∀ a env fuel req corr ctxFiles w eu1,
        (r.planPhase a env fuel req corr ctxFiles 0 w).flow = .next eu1 →
        eu1 ≤ s.cfg.MaxExpensive) ∧
      (∀ a js env fuel req corr ctxFiles step st w st1,
        st.expensiveUsed ≤ s.cfg.MaxExpensive →
        (r.runStep a js env fuel req corr ctxFiles step st w).flow = .next st1 →
        st1.expensiveUsed ≤ s.cfg.MaxExpensive)) := by
  obtain ⟨sreg, cfg⟩ := s
  simp only at hreg hmax
  subst hreg
  refine ⟨?_, ?_, ?_⟩
  · intro role override eu w
    rcases selectModel_counter r role override eu w with
      ⟨h, hno⟩ | ⟨h, s2, pk, h1, h2, h3, h4, h5⟩
    · refine ⟨Or.inl h, ?_⟩
      constructor
      · intro h2
        omega
      · rintro ⟨pk, h1, h2, -, h4⟩
        exfalso
        refine hno ⟨_, pk, hs, h1, h2, ?_⟩
        rw [PickWithBudget_isExp reg cfg role _ eu pk h1 h2]
        exact h4
    · rw [hs] at h1
      cases h1
      refine ⟨Or.inr h, ?_⟩
      constructor
      · intro _
        refine ⟨pk, h2, h3, h5, ?_⟩
        rw [← PickWithBudget_isExp reg cfg role _ eu pk h2 h3]
        exact h4
      · intro _
        exact h
  · intro fuel role current eu w name eu1 w1 h
    rcases pickFallbackModel_counter r fuel role current eu w name eu1 w1 h with
      ⟨h0, h1⟩ | ⟨h0, s2, fb2, pk, h1, h2, h3, h4⟩
    · refine ⟨Or.inl h1, ?_⟩
      constructor
      · intro h2
        omega
      · rintro ⟨h2, -⟩
        exact absurd h0 h2
    · rw [hs] at h1
      cases h1
      have hexp := PickWithBudget_isExp reg cfg role fb2 eu pk h2 (by rw [h3]; exact h0)
      rw [h3] at hexp
      by_cases he : pk.isExp = true
      · rw [if_pos he] at h4
        refine ⟨Or.inr h4, ?_⟩
        constructor
        · intro _
          exact ⟨h0, by rw [← hexp]; exact he⟩
        · intro _
          exact h4
      · rw [if_neg he] at h4
        refine ⟨Or.inl h4, ?_⟩
        constructor
        · intro h5
          omega
        · rintro ⟨-, h5⟩
          rw [← hexp] at h5
          exact absurd h5 he
  · intro p route hfb hcheap
    have hb : ∀ role o eu pk, eu ≥ cfg.MaxExpensive →
        StrategyEngine.PickWithBudget ⟨some reg, cfg⟩ role o eu = .ok pk → pk.isExp = false :=
      fun role o eu pk hge hpk =>
        PickWithBudget_within_budget reg cfg role o eu p route hmax hge hfb hcheap pk hpk
    refine ⟨?_, ?_, ?_, ?_⟩
    · intro role override eu w hle
      exact selectModel_bound r _ hs hb role override eu w hle
    · intro fuel role current eu w name eu1 w1 h hle
      exact pickFallbackModel_bound r _ hs hb fuel role current eu w name eu1 w1 h hle
    · intro a env fuel req corr ctxFiles w eu1 h
      exact planPhase_bound r _ hs hb a env fuel req corr ctxFiles 0 w eu1 h (le_of_lt hmax)
    · intro a js env fuel req corr ctxFiles step st w st1 hle h
      exact runStep_bound r _ hs hb a js env fuel req corr ctxFiles step st w st1 h hle

/-- Witness for C26: the strategy of `TestStrategyFallsBackWhenBudgetExceeded`.  With no
expensive use so far the coder selection returns `expensive-model` and the count becomes 1;
with the count at 1 it returns `cheap-model` and the count stays 1, within the budget of 1. -/
theorem expensive_counter_witness :
    (exBudgetRunner.selectModel "coder".toList [] 0 {}).1 = "expensive-model".toList ∧
    (exBudgetRunner.selectModel "coder".toList [] 0 {}).2.1 = 1 ∧
    (exBudgetRunner.selectModel "coder".toList [] 1 {}).1 = "cheap-model".toList ∧
    (exBudgetRunner.selectModel "coder".toList [] 1 {}).2.1 = 1 ∧
    (exBudgetRunner.selectModel "coder".toList [] 1 {}).2.1 ≤ exBudgetConfig.MaxExpensive :=
  ⟨by decide, by decide, by decide, by decide,
    ((expensive_counter exBudgetRunner ⟨some exBudgetRegistry, exBudgetConfig⟩ exBudgetRegistry
      rfl rfl (by decide)).2.2 exProvider
      { Name := "cheap-model".toList, Provider := "p".toList, Model := "m2".toList }
      rfl (by decide)).1 "coder".toList [] 1 {} (by decide)⟩

/-! ## Failure metrics of the coder call -/

theorem ensureSession_failures (env : Env) (id : Str) (w : World) :
    (ensureSession env id w).2.failures = w.failures := by
  unfold ensureSession
  by_cases h : id = []
  · simp only [h, if_true]
    split <;> rfl
  · simp only [h, if_false]
    split <;> rfl

theorem Plan_failures (a : Animus.Agent) (env : Env) (req : Request) (w : World) :
    (a.Plan env req w).2.failures = w.failures := by
  unfold Agent.Plan
  split
  · rfl
  · split
    · rfl
    · have hf := ensureSession_failures env req.SessionID w
      generalize ensureSession env req.SessionID w = es at hf
      obtain ⟨sid, w1⟩ := es
      simp only at hf ⊢
      split
      · exact hf
      · split
        · exact hf
        · generalize hcc : callChat _ _ w1 = cc
          have hc : cc.2.failures = w1.failures := by
            rw [← hcc]
            rfl
          obtain ⟨res, w2⟩ := cc
          cases res with
          | error e => exact hc.trans hf
          | ok resp => exact hc.trans hf

theorem Run_failures (a : Animus.Agent) (env : Env) (req : Request) (w : World) :
    (a.Run env req w).2.failures = w.failures := by
  unfold Agent.Run
  split
  · rfl
  · split
    · rfl
    · have hp : (if a.cfg.EnablePlan = true then a.Plan env req w
          else (Except.ok [], w)).2.failures = w.failures := by
        split
        · exact Plan_failures a env req w
        · rfl
      generalize (if a.cfg.EnablePlan = true then a.Plan env req w
          else (Except.ok [], w)) = pl at hp
      obtain ⟨pres, w1⟩ := pl
      cases pres with
      | error e => exact hp
      | ok plan =>
        simp only at hp ⊢
        have hf := ensureSession_failures env req.SessionID w1
        generalize ensureSession env req.SessionID w1 = es at hf
        obtain ⟨sid, w2⟩ := es
        simp only at hf ⊢
        generalize hcc : callChat _ _ w2 = cc
        have hc : cc.2.failures = w2.failures := by
          rw [← hcc]
          rfl
        obtain ⟨res, w3⟩ := cc
        cases res with
        | error e => exact hc.trans (hf.trans hp)
        | ok resp => exact hc.trans (hf.trans hp)

theorem NextFallback_mem (s : StrategyEngine) (current : Str) :
    s.NextFallback current = [] ∨ s.NextFallback current ∈ s.cfg.Fallbacks := by
  unfold StrategyEngine.NextFallback
  split
  · rename_i fb h
    exact Or.inr (List.mem_of_find?_eq_some h)
  · exact Or.inl rfl

theorem recordFailure_failures (r : AgentRunner) (hm : r.Metrics = true) (role model : Str)
    (w : World) : (r.recordFailure role model w).failures = w.failures ++ [(role, model)] := by
  unfold AgentRunner.recordFailure
  rw [if_pos hm]

theorem recordUsage_failures (r : AgentRunner) (role model : Str) (w : World) :
    (r.recordUsage role model w).failures = w.failures := by
  unfold AgentRunner.recordUsage
  split <;> rfl

theorem pickFallbackLoop_failures (r : AgentRunner) (s : StrategyEngine) (role current : Str)
    (hm : r.Metrics = true) :
    ∀ (n : Nat) (fb : Str) (tried : List Str) (eu : Int) (w : World) (name : Str) (eu1 : Int)
      (w1 : World),
      pickFallbackLoop r s role current n fb tried eu w = some (name, eu1, w1) →
      (fb = [] ∨ fb ∈ s.cfg.Fallbacks) →
      ∃ sel : List Str, w1.failures = w.failures ++ sel.map (fun m => (role, m)) ∧
        ∀ x ∈ sel, x ∈ s.cfg.Fallbacks ∧ ∃ err, s.PickWithBudget role x eu = .error err := by
  intro n
  induction n with
  | zero =>
    intro fb tried eu w name eu1 w1 h _
    unfold pickFallbackLoop at h
    split at h
    · cases h
      exact ⟨[], by simp, by simp⟩
    · cases h
  | succ n ih =>
    intro fb tried eu w name eu1 w1 h hfb
    unfold pickFallbackLoop at h
    split at h
    · cases h
      exact ⟨[], by simp, by simp⟩
    · rename_i hne
      have hmem : fb ∈ s.cfg.Fallbacks := hfb.resolve_left hne
      split at h
      · exact ih _ _ _ _ _ _ _ h (NextFallback_mem s fb)
      · split at h
        · rename_i err herr
          obtain ⟨sel, h1, h2⟩ := ih _ _ _ _ _ _ _ h (NextFallback_mem s fb)
          refine ⟨fb :: sel, ?_, ?_⟩
          · rw [h1, recordFailure_failures r hm]
            simp
          · intro x hx
            rcases List.mem_cons.mp hx with hx | hx
            · subst hx
              exact ⟨hmem, err, herr⟩
            · exact h2 x hx
        · split at h
          · exact ih _ _ _ _ _ _ _ h (NextFallback_mem s fb)
          · cases h
            exact ⟨[], by simp [recordUsage_failures], by simp⟩

theorem pickFallbackModel_failures (r : AgentRunner) (hm : r.Metrics = true) (fuel : Nat)
    (role current : Str) (eu : Int) (w : World) (name : Str) (eu1 : Int) (w1 : World)
    (h : r.pickFallbackModel fuel role current eu w = some (name, eu1, w1)) :
    ∃ sel : List Str, w1.failures = w.failures ++ sel.map (fun m => (role, m)) ∧
      (r.Strategy = none → sel = []) ∧
      ∀ s, r.Strategy = some s →
        ∀ x ∈ sel, x ∈ s.cfg.Fallbacks ∧ ∃ err, s.PickWithBudget role x eu = .error err := by
  unfold AgentRunner.pickFallbackModel at h
  split at h
  · cases h
    exact ⟨[], by simp, fun _ => rfl, by simp⟩
  · rename_i s hs
    obtain ⟨sel, h1, h2⟩ := pickFallbackLoop_failures r s role current hm _ _ _ _ _ _ _ _ h
      (NextFallback_mem s current)
    refine ⟨sel, h1, ?_, ?_⟩
    · intro hnone
      rw [hnone] at hs
      cases hs
    · intro s2 hs2
      rw [hs] at hs2
      cases hs2
      exact h2

theorem coderCallsOf_append (a b : List Obs) :
    coderCallsOf (a ++ b) = coderCallsOf a ++ coderCallsOf b := by
  simp [coderCallsOf, List.filter_append]

theorem coderCallsOf_bind {α β : Type} (o : Out α) (f : α → World → Out β)
    (hf : ∀ a w, coderCallsOf (f a w).trace = []) :
    coderCallsOf (o.bind f).trace = coderCallsOf o.trace := by
  unfold Out.bind
  cases o.flow with
  | halt h => rfl
  | next a => simp [coderCallsOf_append, hf]

theorem coderCallsOf_bind_le {α β : Type} (o : Out α) (f : α → World → Out β)
    (ho : coderCallsOf o.trace = [])
    (hf : ∀ a w, (coderCallsOf (f a w).trace).length ≤ 2) :
    (coderCallsOf (o.bind f).trace).length ≤ 2 := by
  unfold Out.bind
  cases o.flow with
  | halt h => simp [ho]
  | next a => simpa [coderCallsOf_append, ho] using hf a o.world

theorem runTools_coderCalls (env : Env) (reg : ToolRegistry) (sid corr : Str) :
    ∀ (tcs : List ToolCall) (obs : List ToolObservation) (w : World),
      coderCallsOf (runTools env reg sid corr tcs obs w).trace = [] := by
  intro tcs
  induction tcs with
  | nil => intro obs w; rfl
  | cons tc tcs ih =>
    intro obs w
    unfold runTools
    cases hexec : executeTool env (some reg) tc w with
    | mk res w1 =>
      cases res with
      | panic => rfl
      | fail out e => rfl
      | ok output =>
        simp only
        have := ih (obs ++ [{ Name := tc.Name, Output := output }]) w1
        simpa [coderCallsOf] using this

theorem emitTokens_coderCalls (env : Env) (sid corr : Str) (step : Int) :
    ∀ (tokens : List Str) (idx : Nat) (w : World),
      coderCallsOf (emitTokens env sid corr step tokens idx w).trace = [] := by
  intro tokens
  induction tokens with
  | nil => intro idx w; rfl
  | cons token rest ih =>
    intro idx w
    unfold emitTokens
    split
    · rfl
    · have := ih (idx + 1) w.advance
      simpa [coderCallsOf] using this

theorem callWithFallback_length {α : Type} (r : AgentRunner) (fuel : Nat) (role model : Str)
    (eu : Int) (call : Str → World → Except Str α × World) (note : Except Str α → Obs)
    (w : World) : (r.callWithFallback fuel role model eu call note w).1.length ≤ 2 := by
  unfold AgentRunner.callWithFallback
  split
  · simp
  · split
    · simp
    · split
      · split <;> simp
      · simp

theorem callWithFallback_coderCalls {α : Type} (r : AgentRunner) (fuel : Nat)
    (role model : Str) (eu : Int) (call : Str → World → Except Str α × World)
    (note : Except Str α → Obs) (w : World) (hnote : ∀ res, coderCallsOf [note res] = []) :
    coderCallsOf (r.callWithFallback fuel role model eu call note w).1 = [] := by
  have h2 : ∀ a b, coderCallsOf [note a, note b] = [] := by
    intro a b
    show coderCallsOf ([note a] ++ [note b]) = []
    rw [coderCallsOf_append, hnote, hnote]
    rfl
  have h3 : ∀ a, coderCallsOf [note a, Obs.fallbackHung] = [] := by
    intro a
    show coderCallsOf ([note a] ++ [Obs.fallbackHung]) = []
    rw [coderCallsOf_append, hnote]
    rfl
  unfold AgentRunner.callWithFallback
  split
  · exact hnote _
  · split
    · exact h3 _
    · split
      · split
        · exact h2 _ _
        · exact h2 _ _
      · exact hnote _

theorem noteCritic_coderCalls (res : Except Str Str) : coderCallsOf [noteCritic res] = [] := by
  cases res <;> rfl

theorem coderPhase_coderCalls (r : AgentRunner) (a : Agent) (env : Env) (fuel : Nat)
    (req : RunTaskRequest) (corr : Str) (ctxFiles : List ContextFile) (eu : Int) (w : World) :
    (coderCallsOf (r.coderPhase a env fuel req corr ctxFiles eu w).trace).length ≤ 2 := by
  have hle : ∀ l : List Obs, l.length ≤ 2 → (coderCallsOf l).length ≤ 2 := fun l hl =>
    le_trans (List.length_filter_le _ l) hl
  unfold AgentRunner.coderPhase
  generalize r.selectModel "coder".toList (firstNonEmpty [req.Model]) eu w = sel
  obtain ⟨model, eu1, w1⟩ := sel
  simp only
  have htr := callWithFallback_length r fuel "coder".toList model eu1
    (fun m w => a.Run env
      { SessionID := req.SessionID, Model := m, Prompt := req.Prompt, Context := ctxFiles } w)
    noteCoder w1
  generalize r.callWithFallback fuel "coder".toList model eu1
    (fun m w => a.Run env
      { SessionID := req.SessionID, Model := m, Prompt := req.Prompt, Context := ctxFiles } w)
    noteCoder w1 = res at htr
  obtain ⟨tr, opt⟩ := res
  cases opt with
  | none => exact hle _ htr
  | some x =>
    obtain ⟨result, eu2, w2⟩ := x
    cases result with
    | error e => exact hle _ htr
    | ok resp => exact hle _ htr

theorem testPhase_coderCalls (r : AgentRunner) (a : Agent) (env : Env) (sid corr : Str)
    (step : Int) (done : Bool) (w : World) :
    coderCallsOf (r.testPhase a env sid corr step done w).trace = [] := by
  unfold AgentRunner.testPhase
  split <;> rfl

theorem reflectPhase_coderCalls (r : AgentRunner) (a : Agent) (js : JsonCodec) (env : Env)
    (fuel : Nat) (req : RunTaskRequest) (corr : Str) (step : Int) (resp : Response)
    (stepTools : List ToolObservation) (testObs : Option TestObservation) (done : Bool)
    (eu : Int) (w : World) :
    coderCallsOf (r.reflectPhase a js env fuel req corr step resp stepTools testObs done eu
      w).trace = [] := by
  unfold AgentRunner.reflectPhase
  split
  · generalize r.selectModel "critic".toList (firstNonEmpty [req.CriticModel, req.Model]) eu w
      = sel
    obtain ⟨model, eu1, w1⟩ := sel
    simp only
    generalize hcall : (fun m w => a.Reflect env
        { SessionID := req.SessionID, Model := m, Prompt := req.Prompt } resp
        { Tools := stepTools, Test := testObs,
          SelfDiff := if a.EnableSelfDiff = true then
            computeSelfDiff resp.PreviousAssistant resp.Message.Content else [] } w) = call
    have htr := callWithFallback_coderCalls r fuel "critic".toList model eu1 call noteCritic w1
      noteCritic_coderCalls
    generalize r.callWithFallback fuel "critic".toList model eu1 call noteCritic w1 = res at htr
    obtain ⟨tr, opt⟩ := res
    cases opt with
    | none => exact htr
    | some x =>
      obtain ⟨result, eu2, w2⟩ := x
      cases result with
      | error e => exact htr
      | ok reflection =>
        simp only
        split
        · simp only [coderCallsOf_append, htr]
          rfl
        · exact htr
  · rfl

theorem finishStep_coderCalls (r : AgentRunner) (req : RunTaskRequest) (corr : Str)
    (step : Int) (resp : Response) (tokenCount : Int) (ro : ReflectOut) (w : World) :
    coderCallsOf (r.finishStep req corr step resp tokenCount ro w).trace = [] := by
  unfold AgentRunner.finishStep
  split <;> rfl

theorem runStep_coderCalls (r : AgentRunner) (a : Agent) (js : JsonCodec) (env : Env)
    (fuel : Nat) (req : RunTaskRequest) (corr : Str) (ctxFiles : List ContextFile) (step : Int)
    (st : LoopState) (w : World) :
    (coderCallsOf (r.runStep a js env fuel req corr ctxFiles step st w).trace).length ≤ 2 := by
  unfold AgentRunner.runStep
  split
  · exact Nat.zero_le 2
  · apply coderCallsOf_bind_le
    · rfl
    intro _ w1
    rw [coderCallsOf_bind]
    · exact coderPhase_coderCalls _ _ _ _ _ _ _ _ _
    intro re w2
    rw [coderCallsOf_bind]
    · rfl
    intro _ w3
    rw [coderCallsOf_bind]
    · exact emitTokens_coderCalls _ _ _ _ _ _ _
    intro _ w4
    rw [coderCallsOf_bind]
    · cases r.Tools with
      | none => rfl
      | some reg => exact runTools_coderCalls _ _ _ _ _ _ _
    intro stepTools w5
    rw [coderCallsOf_bind]
    · exact testPhase_coderCalls _ _ _ _ _ _ _ _
    intro testObs w6
    rw [coderCallsOf_bind]
    · exact reflectPhase_coderCalls _ _ _ _ _ _ _ _ _ _ _ _ _ _
    intro ro w7
    exact finishStep_coderCalls _ _ _ _ _ _ _ _

/-- C27 fails: a failed coder call without a fallback is recorded twice.  The runner
`exFailRunner` has a metrics sink and no strategy engine, and its provider fails: the run
makes one coder call, which fails after one provider call, no fallback model is picked, and
two failure metrics are recorded under the coder role and the model of the call (the empty
name, which the registry resolves to its default).  It is so for every runner with a metrics
sink: when the first call fails and no fallback model is picked, no second call is made and
the failure of the first call is recorded a second time.  What does hold, for every runner
with a metrics sink: a first call that succeeds records nothing; a first call that fails
records one failure metric under the coder role and its model, and the fallback selection one
for each fallback candidate whose selection fails (none without a strategy engine); a second
call, made with the fallback model, records nothing when it succeeds and one failure metric
under the fallback model when it fails.  In the run of `TestAgentRunnerFallsBackOnCoderError`
the only failure metric is the one under the coder role and `primary`.  A step makes at most
two coder calls. -/
theorem coder_failure_recorded_twice (r : AgentRunner) (a : Animus.Agent) (js : JsonCodec)
    (env : Env) (fuel : Nat) (req : RunTaskRequest) (corr : Str) (ctxFiles : List ContextFile)
    (model : Str) (eu : Int) (w : World) :
    ((exFailRunner.Run exJson {} 0 { SessionID := "s1".toList, Prompt := "p".toList }
        {}).halt = Halt.returned ∧
      coderCallsOf (exFailRunner.Run exJson {} 0
        { SessionID := "s1".toList, Prompt := "p".toList } {}).trace
        = [Obs.coderCall false false] ∧
      (exFailRunner.Run exJson {} 0 { SessionID := "s1".toList, Prompt := "p".toList }
        {}).world.chatLog.length = 1 ∧
      (exFailRunner.pickFallbackModel 0 "coder".toList [] 0 {}).map (·.1) = some [] ∧
      (exFailRunner.Run exJson {} 0 { SessionID := "s1".toList, Prompt := "p".toList }
        {}).world.failures = [("coder".toList, []), ("coder".toList, [])]) ∧
    (r.Metrics = true →
      (∀ resp w1,
        a.Run env { SessionID := req.SessionID, Model := model, Prompt := req.Prompt,
                    Context := ctxFiles } w = (.ok resp, w1) →
        r.callWithFallback fuel "coder".toList model eu
            (fun m w => a.Run env
              { SessionID := req.SessionID, Model := m, Prompt := req.Prompt,
                Context := ctxFiles } w) noteCoder w
          = ([Obs.coderCall true (isResponseDone resp)], some (.ok resp, eu, w1)) ∧
        w1.failures = w.failures) ∧
      (∀ e w1 fb eu2 w2,
        a.Run env { SessionID := req.SessionID, Model := model, Prompt := req.Prompt,
                    Context := ctxFiles } w = (.error e, w1) →
        r.pickFallbackModel fuel "coder".toList model eu
            (r.recordFailure "coder".toList model w1) = some (fb, eu2, w2) →
        (∃ sel : List Str,
          w2.failures = w.failures ++
            ("coder".toList, model) :: sel.map (fun m => ("coder".toList, m)) ∧
          (r.Strategy = none → sel = []) ∧
          ∀ s, r.Strategy = some s → ∀ x ∈ sel, x ∈ s.cfg.Fallbacks ∧
            ∃ err, s.PickWithBudget "coder".toList x eu = .error err) ∧
        (fb = [] →
          ∃ w3, r.callWithFallback fuel "coder".toList model eu
              (fun m w => a.Run env
                { SessionID := req.SessionID, Model := m, Prompt := req.Prompt,
                  Context := ctxFiles } w) noteCoder w
            = ([Obs.coderCall false false], some (.error e, eu2, w3)) ∧
            w3.failures = w2.failures ++ [("coder".toList, model)]) ∧
        (fb ≠ [] → ∀ resp w3,
          a.Run env { SessionID := req.SessionID, Model := fb, Prompt := req.Prompt,
                      Context := ctxFiles } w2 = (.ok resp, w3) →
          r.callWithFallback fuel "coder".toList model eu
              (fun m w => a.Run env
                { SessionID := req.SessionID, Model := m, Prompt := req.Prompt,
                  Context := ctxFiles } w) noteCoder w
            = ([Obs.coderCall false false, Obs.coderCall true (isResponseDone resp)],
                some (.ok resp, eu2, w3)) ∧
          w3.failures = w2.failures) ∧
        (fb ≠ [] → ∀ e2 w3,
          a.Run env { SessionID := req.SessionID, Model := fb, Prompt := req.Prompt,
                      Context := ctxFiles } w2 = (.error e2, w3) →
          ∃ w4, r.callWithFallback fuel "coder".toList model eu
              (fun m w => a.Run env
                { SessionID := req.SessionID, Model := m, Prompt := req.Prompt,
                  Context := ctxFiles } w) noteCoder w
            = ([Obs.coderCall false false, Obs.coderCall false false],
                some (.error e2, eu2, w4)) ∧
            w4.failures = w2.failures ++ [("coder".toList, fb)]))) ∧
    (coderCallsOf (exFallbackRunner.Run exJson {} 1
          { SessionID := "fallback".toList, Prompt := "do work".toList } {}).trace
        = [Obs.coderCall false false, Obs.coderCall true true] ∧
      (exFallbackRunner.Run exJson {} 1
          { SessionID := "fallback".toList, Prompt := "do work".toList } {}).world.failures
        = [("coder".toList, "primary".toList)] ∧
      (exFallbackRunner.Run exJson {} 1
          { SessionID := "fallback".toList, Prompt := "do work".toList } {}).world.usage
        = [("coder".toList, "primary".toList), ("coder".toList, "backup".toList)]) ∧
    (∀ step st w0,
      (coderCallsOf (r.runStep a js env fuel req corr ctxFiles step st w0).trace).length
        ≤ 2) := by
  refine ⟨⟨by decide, by decide, by decide, by decide, by decide⟩, ?_,
    ⟨by decide, by decide, by decide⟩, ?_⟩
  · intro hm
    refine ⟨?_, ?_⟩
    · intro resp w1 h1
      have hf := Run_failures a env
        { SessionID := req.SessionID, Model := model, Prompt := req.Prompt, Context := ctxFiles } w
      rw [h1] at hf
      refine ⟨?_, hf⟩
      unfold AgentRunner.callWithFallback
      simp only [h1]
      rfl
    · intro e w1 fb eu2 w2 h1 h2
      have hf := Run_failures a env
        { SessionID := req.SessionID, Model := model, Prompt := req.Prompt, Context := ctxFiles } w
      rw [h1] at hf
      simp only at hf
      refine ⟨?_, ?_, ?_, ?_⟩
      · obtain ⟨sel, hs1, hs2, hs3⟩ :=
          pickFallbackModel_failures r hm fuel "coder".toList model eu _ fb eu2 w2 h2
        refine ⟨sel, ?_, hs2, hs3⟩
        rw [hs1, recordFailure_failures r hm, hf]
        simp
      · intro hfb
        refine ⟨r.recordFailure "coder".toList model w2, ?_, recordFailure_failures r hm _ _ _⟩
        unfold AgentRunner.callWithFallback
        simp only [h1, h2, hfb, ne_eq, not_true_eq_false, if_false]
        rfl
      · intro hfb resp w3 h3
        have hf3 := Run_failures a env
          { SessionID := req.SessionID, Model := fb, Prompt := req.Prompt, Context := ctxFiles } w2
        rw [h3] at hf3
        refine ⟨?_, hf3⟩
        unfold AgentRunner.callWithFallback
        simp only [h1, h2, hfb, ne_eq, not_false_eq_true, if_true, h3]
        rfl
      · intro hfb e2 w3 h3
        have hf3 := Run_failures a env
          { SessionID := req.SessionID, Model := fb, Prompt := req.Prompt, Context := ctxFiles } w2
        rw [h3] at hf3
        simp only at hf3
        refine ⟨r.recordFailure "coder".toList fb w3, ?_, ?_⟩
        · unfold AgentRunner.callWithFallback
          simp only [h1, h2, hfb, ne_eq, not_false_eq_true, if_true, h3]
          rfl
        · rw [recordFailure_failures r hm, hf3]
  · intro step st w0
    exact runStep_coderCalls r a js env fuel req corr ctxFiles step st w0

end Animus
